import Mathlib

/-!
# MoZuku: sentence segmenter and grammar diagnostic engine

A shallow embedding of `text_processor.cpp`, `utf16.cpp`, `pos_analyzer.cpp`
and `grammar_checker.cpp` of the MoZuku language server.

* A `std::string` is a list of bytes (`List Nat`, every entry below 256);
  `s[i]` is `s.getD i 0`, which agrees with C++ for `i ≤ s.size()`.
* `size_t` and `int` values are natural numbers or integers; no text handled
  here approaches `2^31` bytes, so no wrap-around is modelled.
* Loops are structural recursions; a loop whose trip count is bounded by a
  quantity of its state carries that bound as an explicit counter.
* Writes to `std::cerr` under `MOZUKU_DEBUG` are not part of the state.
-/

namespace MoZuku

/-! ## Byte strings -/

/-- A `std::string`: its bytes in order. -/
abbrev Bytes := List Nat

/-- UTF-8 encoding of one code point, as the compiler stores a character of a
string literal of the (UTF-8) source files. -/
def encodeChar (c : Char) : Bytes :=
  let n := c.toNat
  if n < 0x80 then [n]
  else if n < 0x800 then [0xC0 + n / 64, 0x80 + n % 64]
  else if n < 0x10000 then [0xE0 + n / 4096, 0x80 + n / 64 % 64, 0x80 + n % 64]
  else [0xF0 + n / 262144, 0x80 + n / 4096 % 64, 0x80 + n / 64 % 64, 0x80 + n % 64]

/-- The bytes of a string literal of the source. -/
def utf8 (s : String) : Bytes :=
  s.data.flatMap encodeChar

/-- `s.substr(pos, len)` for `pos ≤ s.size()`. -/
def substr (s : Bytes) (pos len : Nat) : Bytes :=
  (s.drop pos).take len

/-- `s.substr(pos)` for `pos ≤ s.size()`. -/
def substrFrom (s : Bytes) (pos : Nat) : Bytes :=
  s.drop pos

/-- `s.find(c, pos)` for a single byte `c`: the first index `≥ pos` holding
`c`, or `none` for `npos`. The counter is the number of bytes left to look at. -/
def findByteAux (s : Bytes) (c : Nat) : Nat → Nat → Option Nat
  | 0, _ => none
  | fuel + 1, pos =>
    if pos < s.length then
      if s.getD pos 0 = c then some pos else findByteAux s c fuel (pos + 1)
    else none

/-- `s.find(c, pos)` for a single byte `c`. -/
def findByte (s : Bytes) (c : Nat) (pos : Nat) : Option Nat :=
  findByteAux s c (s.length - pos) pos

/-! ## text_processor.cpp -/

/-- Sentence boundary information (`analyzer.hpp`); `end_` is the field `end`. -/
structure SentenceBoundary where
  start : Nat
  end_ : Nat
  sentenceId : Nat
  text : Bytes
deriving DecidableEq, Repr

/-- `TextProcessor::isJapanesePunctuation`: one of 。 ？ ！ starts at `pos`. -/
def isJapanesePunctuation (text : Bytes) (pos : Nat) : Bool :=
  if pos + 2 ≥ text.length then false
  else if text.getD pos 0 = 0xE3 ∧ text.getD (pos + 1) 0 = 0x80
      ∧ text.getD (pos + 2) 0 = 0x82 then true
  else if text.getD pos 0 = 0xEF ∧ text.getD (pos + 1) 0 = 0xBC
      ∧ text.getD (pos + 2) 0 = 0x9F then true
  else if text.getD pos 0 = 0xEF ∧ text.getD (pos + 1) 0 = 0xBC
      ∧ text.getD (pos + 2) 0 = 0x81 then true
  else false

/-- The loop of `TextProcessor::skipWhitespace`; the counter is
`100 - skipCount`. -/
def skipWhitespaceAux (text : Bytes) : Nat → Nat → Nat
  | 0, pos => pos
  | left + 1, pos =>
    if pos < text.length ∧
        (text.getD pos 0 = 32 ∨ text.getD pos 0 = 9 ∨ text.getD pos 0 = 13) then
      skipWhitespaceAux text left (pos + 1)
    else pos

/-- `TextProcessor::skipWhitespace`: skips at most 100 bytes of space, tab
and carriage return. -/
def skipWhitespace (text : Bytes) (pos : Nat) : Nat :=
  skipWhitespaceAux text 100 pos

/-- The inner scan `while (end < maxSearch)` of `splitIntoSentences` (lines
99-124); the counter bounds the bytes left before `maxSearch`. -/
def scanBoundary (text : Bytes) (maxSearch : Nat) : Nat → Nat → Nat
  | 0, end_ => end_
  | left + 1, end_ =>
    if end_ < maxSearch then
      if text.getD end_ 0 = 10 then end_ + 1
      else if text.getD end_ 0 = 9 then end_ + 1
      else if isJapanesePunctuation text end_ then end_ + 3
      else scanBoundary text maxSearch left (end_ + 1)
    else end_

/-- The end of the raw sentence span that starts at `start` (lines 93-130 of
`splitIntoSentences`): the scan up to `maxSearch`, then the safety check. -/
def findSentenceEnd (text : Bytes) (start : Nat) : Nat :=
  let maxSearch := min text.length (start + 10000)
  let end_ := scanBoundary text maxSearch (maxSearch - start) start
  if end_ ≥ maxSearch ∧ end_ < text.length then text.length else end_

/-- The loop that trims leading space, tab and carriage return (lines
141-147); the counter bounds the bytes left. -/
def trimStartAux (s : Bytes) : Nat → Nat → Nat
  | 0, textStart => textStart
  | left + 1, textStart =>
    if textStart < s.length ∧
        (s.getD textStart 0 = 32 ∨ s.getD textStart 0 = 9 ∨ s.getD textStart 0 = 13) then
      trimStartAux s left (textStart + 1)
    else textStart

/-- The loop that trims trailing space, tab, carriage return and newline
(lines 149-155); the counter bounds the bytes left. -/
def trimEndAux (s : Bytes) (textStart : Nat) : Nat → Nat → Nat
  | 0, textEnd => textEnd
  | left + 1, textEnd =>
    if textEnd > textStart ∧
        (s.getD (textEnd - 1) 0 = 32 ∨ s.getD (textEnd - 1) 0 = 9
          ∨ s.getD (textEnd - 1) 0 = 13 ∨ s.getD (textEnd - 1) 0 = 10) then
      trimEndAux s textStart left (textEnd - 1)
    else textEnd

/-- The block `if (end > start) { ... }` of `splitIntoSentences` (lines
133-168) on the raw span `[start, end)`: the new value of the id counter and
of the result vector. -/
def createSentence (text : Bytes) (start end_ sentenceId : Nat)
    (sentences : List SentenceBoundary) : Nat × List SentenceBoundary :=
  let raw := substr text start (end_ - start)
  let textStart := trimStartAux raw raw.length 0
  let textEnd := trimEndAux raw textStart raw.length raw.length
  if textEnd > textStart then
    (sentenceId + 1,
      sentences ++ [⟨start, end_, sentenceId, substr raw textStart (textEnd - textStart)⟩])
  else (sentenceId + 1, sentences)

/-- The outer loop `while (start < text.size())` of `splitIntoSentences`
(lines 92-179). Every round moves `start` forward, so the counter, which
starts at `text.size()`, is never used up (`splitLoop_counter`). -/
def splitLoop (text : Bytes) : Nat → Nat → Nat → List SentenceBoundary →
    List SentenceBoundary
  | 0, _, _, sentences => sentences
  | left + 1, start, sentenceId, sentences =>
    if start < text.length then
      let end_ := findSentenceEnd text start
      let r := if end_ > start then createSentence text start end_ sentenceId sentences
        else (sentenceId, sentences)
      let start1 := skipWhitespace text end_
      if start1 ≥ text.length then r.2
      else splitLoop text left start1 r.1 r.2
    else sentences

/-- `TextProcessor::splitIntoSentences`. -/
def splitIntoSentences (text : Bytes) : List SentenceBoundary :=
  if text = [] then [] else splitLoop text text.length 0 0 []


/-! ## Specification-side definitions for the segmenter -/

/-- Space, tab or carriage return: what is trimmed at the front. -/
def isLeadingBlank (b : Nat) : Bool := b == 32 || b == 9 || b == 13

/-- Space, tab, carriage return or newline: what is trimmed at the back. -/
def isTrailingBlank (b : Nat) : Bool := b == 32 || b == 9 || b == 13 || b == 10

/-- The trimming as the specification words it: the leading blanks removed,
then the trailing blanks and newlines removed. -/
def trimSpec (raw : Bytes) : Bytes :=
  (raw.dropWhile isLeadingBlank).rdropWhile isTrailingBlank

/-- The raw spans `[start, end)` that the loop of `splitIntoSentences` goes
through, in order: the loop `splitLoop` with the sentence creation left out. -/
def rawSpansLoop (text : Bytes) : Nat → Nat → List (Nat × Nat)
  | 0, _ => []
  | left + 1, start =>
    if start < text.length then
      let end_ := findSentenceEnd text start
      let here := if end_ > start then [(start, end_)] else []
      let start1 := skipWhitespace text end_
      if start1 ≥ text.length then here
      else here ++ rawSpansLoop text left start1
    else []

/-- The raw spans of a text, emitted or discarded. -/
def rawSpans (text : Bytes) : List (Nat × Nat) :=
  if text = [] then [] else rawSpansLoop text text.length 0

/-- What the sentence-creating block pushes for a list of raw spans when the
id counter starts at `sentenceId`: every span takes one id, and only a span
whose trimmed text is not empty gives a sentence. -/
def emitSpans (text : Bytes) : Nat → List (Nat × Nat) → List SentenceBoundary
  | _, [] => []
  | sentenceId, span :: rest =>
    (if trimSpec (substr text span.1 (span.2 - span.1)) = [] then []
      else [⟨span.1, span.2, sentenceId, trimSpec (substr text span.1 (span.2 - span.1))⟩])
    ++ emitSpans text (sentenceId + 1) rest


/-! ## utf16.cpp -/

/-- `Position` of `lsp.hpp`: a line and a UTF-16 column. -/
structure Position where
  line : Nat
  character : Nat
deriving DecidableEq, Repr

/-- `Range` of `lsp.hpp`; `end_` is the field `end`. -/
structure Range where
  start : Position
  end_ : Position
deriving DecidableEq, Repr

/-- The loop of `computeLineStarts` from byte index `i` on: the index after
every newline. -/
def computeLineStartsFrom : Bytes → Nat → List Nat
  | [], _ => []
  | c :: rest, i =>
    if c = 10 then (i + 1) :: computeLineStartsFrom rest (i + 1)
    else computeLineStartsFrom rest (i + 1)

/-- `computeLineStarts`: 0, then the index after every newline. -/
def computeLineStarts (text : Bytes) : List Nat :=
  0 :: computeLineStartsFrom text 0

/-- `decodeCodePoint(s, i)`: the code point and the new value of `i`. -/
def decodeCodePoint (s : Bytes) (i : Nat) : Nat × Nat :=
  let c := s.getD i 0
  if c < 0x80 then (c, i + 1)
  else if c >>> 5 = 0x6 then
    (((c &&& 0x1F) <<< 6) ||| (s.getD (i + 1) 0 &&& 0x3F), i + 2)
  else if c >>> 4 = 0xE then
    (((c &&& 0x0F) <<< 12) ||| ((s.getD (i + 1) 0 &&& 0x3F) <<< 6)
      ||| (s.getD (i + 2) 0 &&& 0x3F), i + 3)
  else
    (((c &&& 0x07) <<< 18) ||| ((s.getD (i + 1) 0 &&& 0x3F) <<< 12)
      ||| ((s.getD (i + 2) 0 &&& 0x3F) <<< 6) ||| (s.getD (i + 3) 0 &&& 0x3F), i + 4)

/-- The binary search of `byteOffsetToPosition` (lines 59-66) for the last
line start that is `≤ offset`; the counter bounds the halvings left. -/
def searchLine (lineStarts : List Nat) (offset : Nat) : Nat → Nat → Nat → Nat
  | 0, lo, _ => lo
  | left + 1, lo, hi =>
    if lo + 1 < hi then
      let mid := (lo + hi) / 2
      if lineStarts.getD mid 0 ≤ offset then searchLine lineStarts offset left mid hi
      else searchLine lineStarts offset left lo mid
    else lo

/-- The loop of `byteOffsetToPosition` that counts UTF-16 code units from the
line start up to `offset` (lines 74-101); the counter bounds the bytes left. -/
def countUtf16 (text : Bytes) (offset : Nat) : Nat → Nat → Nat → Nat
  | 0, _, col16 => col16
  | left + 1, i, col16 =>
    if i < offset ∧ i < text.length ∧ text.getD i 0 ≠ 10 then
      if text.getD i 0 < 0x80 then countUtf16 text offset left (i + 1) (col16 + 1)
      else
        let d := decodeCodePoint text i
        let col1 := if d.1 ≤ 0xFFFF then col16 + 1 else col16 + 2
        if d.2 = i then countUtf16 text offset left (d.2 + 1) (col1 + 1)
        else countUtf16 text offset left d.2 col1
    else col16

/-- `byteOffsetToPosition(text, lineStarts, offset)`. -/
def byteOffsetToPosition (text : Bytes) (lineStarts : List Nat) (offset : Nat) : Position :=
  let offset1 := if offset > text.length then text.length else offset
  let lo := searchLine lineStarts offset1 lineStarts.length 0 lineStarts.length
  let lineStart := lineStarts.getD lo 0
  ⟨lo, countUtf16 text offset1 text.length lineStart 0⟩

/-! ## pos_analyzer.cpp -/

/-- `DetailedPOS` of `analyzer.hpp`. -/
structure DetailedPOS where
  mainPOS : Bytes := []
  subPOS1 : Bytes := []
  subPOS2 : Bytes := []
  subPOS3 : Bytes := []
  inflection : Bytes := []
  conjugation : Bytes := []
  baseForm : Bytes := []
  reading : Bytes := []
  pronunciation : Bytes := []
deriving DecidableEq, Repr

/-- The loop of `POSAnalyzer::splitFeature`; the counter bounds the bytes
left. -/
def splitFeatureLoop (feature : Bytes) : Nat → Nat → List Bytes → List Bytes
  | 0, _, fields => fields
  | left + 1, pos, fields =>
    if pos < feature.length then
      match findByte feature 44 pos with
      | none => fields ++ [substrFrom feature pos]
      | some nextComma =>
        splitFeatureLoop feature left (nextComma + 1)
          (fields ++ [substr feature pos (nextComma - pos)])
    else fields

/-- `POSAnalyzer::splitFeature`: the comma-separated fields. -/
def splitFeature (feature : Bytes) : List Bytes :=
  splitFeatureLoop feature feature.length 0 []

/-- The string a `const char *` argument denotes: the bytes before the first
NUL byte. -/
def cstr (s : Bytes) : Bytes :=
  s.takeWhile (fun b => b != 0)

/-- `POSAnalyzer::parseDetailedPOS(feature, "UTF-8")`, the only way the
grammar checker calls it: no character-set conversion takes place. -/
def parseDetailedPOS (feature : Bytes) : DetailedPOS :=
  let fields := splitFeature feature
  let star := utf8 "*"
  { mainPOS := if fields.length > 0 then fields.getD 0 [] else []
    subPOS1 := if fields.length > 1 then fields.getD 1 [] else []
    subPOS2 := if fields.length > 2 then fields.getD 2 [] else []
    subPOS3 := if fields.length > 3 then fields.getD 3 [] else []
    inflection := if fields.length > 4 then fields.getD 4 [] else []
    conjugation := if fields.length > 5 then fields.getD 5 [] else []
    baseForm := if fields.length > 6 ∧ fields.getD 6 [] ≠ star then fields.getD 6 [] else []
    reading := if fields.length > 7 ∧ fields.getD 7 [] ≠ star then fields.getD 7 [] else []
    pronunciation :=
      if fields.length > 8 ∧ fields.getD 8 [] ≠ star then fields.getD 8 [] else [] }

/-- The loop of `utf8ToUtf16Length` (lines 110-137); the counter bounds the
bytes left. -/
def utf8ToUtf16LengthLoop (utf8Str : Bytes) : Nat → Nat → Nat → Nat
  | 0, _, utf16Length => utf16Length
  | left + 1, i, utf16Length =>
    if i < utf8Str.length then
      if utf8Str.getD i 0 < 0x80 then utf8ToUtf16LengthLoop utf8Str left (i + 1) (utf16Length + 1)
      else
        let d := decodeCodePoint utf8Str i
        let len1 := if d.1 ≤ 0xFFFF then utf16Length + 1 else utf16Length + 2
        if d.2 = i then utf8ToUtf16LengthLoop utf8Str left (d.2 + 1) (len1 + 1)
        else utf8ToUtf16LengthLoop utf8Str left d.2 len1
    else utf16Length

/-- `utf8ToUtf16Length`. -/
def utf8ToUtf16Length (utf8Str : Bytes) : Nat :=
  utf8ToUtf16LengthLoop utf8Str utf8Str.length 0 0

/-- Modelled from the spec: the walk of `computeByteOffset`, which is declared
in `analyzer.hpp` and defined in a file that is not among the sources. From
the start of the line it "walks forward converting UTF-16 columns to byte
offsets using the same decoding rule" as `byteOffsetToPosition`, and stops at
the requested column, at the next newline or at the end of the text. The
counter bounds the bytes left. -/
def walkColumns (text : Bytes) (character : Int) : Nat → Nat → Int → Nat
  | 0, i, _ => i
  | left + 1, i, col16 =>
    if i < text.length ∧ text.getD i 0 ≠ 10 ∧ col16 < character then
      if text.getD i 0 < 0x80 then walkColumns text character left (i + 1) (col16 + 1)
      else
        let d := decodeCodePoint text i
        walkColumns text character left d.2 (if d.1 ≤ 0xFFFF then col16 + 1 else col16 + 2)
    else i

/-- Modelled from the spec: `computeByteOffset(text, line, character)`,
declared in `analyzer.hpp`; its definition is not among the sources. It
"locates the target line's start, then walks forward converting UTF-16 columns
to byte offsets using the same decoding rule; a requested character past the
line's end clamps to the line's end (next newline or EOF)". A line past the
last one gives the end of the text. -/
def computeByteOffset (text : Bytes) (line : Nat) (character : Int) : Nat :=
  walkColumns text character text.length
    ((computeLineStarts text).getD line text.length) 0

/-! ## grammar_checker.cpp -/

/-- `TokenData` of `lsp.hpp`. The `line` of a token is never negative. -/
structure TokenData where
  line : Nat := 0
  startChar : Int := 0
  endChar : Int := 0
  tokenType : Bytes := []
  tokenModifiers : Nat := 0
  surface : Bytes := []
  feature : Bytes := []
  baseForm : Bytes := []
  reading : Bytes := []
  pronunciation : Bytes := []
deriving DecidableEq, Repr

/-- The message of a diagnostic: which of the six message templates of
`grammar_checker.cpp` it is, with the values spliced into the template. -/
inductive Message where
  /-- "一文に使用できる読点「、」は最大" limit "個までです (現在" count "個) ". -/
  | commaLimit (limit : Int) (commaCount : Nat)
  /-- "逆接の接続助詞「が」が同一文で" maxCount+1 "回以上使われています (" count "回) ". -/
  | adversativeGa (maxCount : Int) (count : Nat)
  /-- "同じ助詞「" surface "」が連続しています". -/
  | duplicateParticle (surface : Bytes)
  /-- "助詞が連続して使われています". -/
  | adjacentParticles
  /-- "同じ接続詞「" surface "」が連続しています". -/
  | duplicateConjunction (surface : Bytes)
  /-- "ら抜き言葉を使用しています". -/
  | raDropping
deriving DecidableEq, Repr

/-- `Diagnostic` of `lsp.hpp`. -/
structure Diagnostic where
  range : Range
  severity : Int
  message : Message
deriving DecidableEq, Repr

/-- `RuleContext`. -/
structure RuleContext where
  text : Bytes
  tokens : List TokenData
  sentences : List SentenceBoundary
  lineStarts : List Nat
  tokenBytePositions : List Nat
  severity : Int := 2

/-- The loop of `isAdversativeGa` (lines 29-47) on the state `fieldIndex`,
`start` and the three strings `(pos, sub1, base)`; the counter bounds the
commas left. -/
def isAdversativeGaLoop (feature : Bytes) :
    Nat → Nat → Nat → Bytes × Bytes × Bytes → Bytes × Bytes × Bytes
  | 0, _, _, r => r
  | left + 1, fieldIndex, start, (pos, sub1, base) =>
    let end_ := findByte feature 44 start
    let part := match end_ with
      | none => substrFrom feature start
      | some e => substr feature start (e - start)
    let r : Bytes × Bytes × Bytes :=
      if fieldIndex = 0 then (part, sub1, base)
      else if fieldIndex = 1 then (pos, part, base)
      else if fieldIndex = 6 then (pos, sub1, part)
      else (pos, sub1, base)
    match end_ with
    | none => r
    | some e =>
      if fieldIndex + 1 > 6 ∧ r.2.2 ≠ [] then r
      else isAdversativeGaLoop feature left (fieldIndex + 1) (e + 1) r

/-- `isAdversativeGa`: the feature is 助詞,接続助詞,...,が (fields 0, 1 and 6). -/
def isAdversativeGa (feature : Bytes) : Bool :=
  let r := isAdversativeGaLoop feature (feature.length + 1) 0 0 ([], [], [])
  r.1 = utf8 "助詞" ∧ r.2.1 = utf8 "接続助詞" ∧ r.2.2 = utf8 "が"

/-- `isConjunction`: the first field of the feature is 接続詞. -/
def isConjunction (feature : Bytes) : Bool :=
  let pos := match findByte feature 44 0 with
    | none => feature
    | some comma => substr feature 0 comma
  pos = utf8 "接続詞"

/-- `isParticle`: the first field of the feature is 助詞. -/
def isParticle (feature : Bytes) : Bool :=
  let pos := match findByte feature 44 0 with
    | none => feature
    | some comma => substr feature 0 comma
  pos = utf8 "助詞"

/-- `particleKey`: the first two fields of the feature, with their comma. -/
def particleKey (feature : Bytes) : Bytes :=
  match findByte feature 44 0 with
  | none => feature
  | some firstComma =>
    match findByte feature 44 (firstComma + 1) with
    | none => substr feature 0 firstComma
    | some secondComma => substr feature 0 secondComma

/-- `parsePos`: `parseDetailedPOS(feature.c_str(), "UTF-8")`. -/
def parsePos (feature : Bytes) : DetailedPOS :=
  parseDetailedPOS (cstr feature)

/-- `isTargetVerb`. -/
def isTargetVerb (pos : DetailedPOS) : Bool :=
  pos.mainPOS = utf8 "動詞" ∧ pos.subPOS1 = utf8 "自立"
    ∧ pos.inflection = utf8 "一段" ∧ pos.conjugation = utf8 "未然形"

/-- `isRaWord`. -/
def isRaWord (pos : DetailedPOS) : Bool :=
  pos.mainPOS = utf8 "動詞" ∧ pos.subPOS1 = utf8 "接尾" ∧ pos.baseForm = utf8 "れる"

/-- `isSpecialRaCase`. -/
def isSpecialRaCase (pos : DetailedPOS) : Bool :=
  pos.mainPOS = utf8 "動詞" ∧ (pos.baseForm = utf8 "来れる" ∨ pos.baseForm = utf8 "見れる")

/-- The loop of `toByteOffset` (lines 109-115); the counter bounds the bytes
left. -/
def toByteOffsetLoop (text : Bytes) (startChar : Int) : Nat → Nat → Int → Nat
  | 0, bytePos, _ => bytePos
  | left + 1, bytePos, utf16Pos =>
    if bytePos < text.length ∧ utf16Pos < startChar ∧ text.getD bytePos 0 ≠ 10 then
      let c := text.getD bytePos 0
      let seqLen := if c ≥ 0xF0 then 4 else if c ≥ 0xE0 then 3 else if c ≥ 0xC0 then 2 else 1
      toByteOffsetLoop text startChar left (bytePos + seqLen)
        (utf16Pos + (if seqLen = 4 then 2 else 1))
    else bytePos

/-- `toByteOffset`: the byte offset of a token from its line and UTF-16
column. -/
def toByteOffset (token : TokenData) (text : Bytes) (lineStarts : List Nat) : Nat :=
  if token.line ≥ lineStarts.length then text.length
  else toByteOffsetLoop text token.startChar text.length (lineStarts.getD token.line 0) 0

/-- `computeTokenBytePositions`. -/
def computeTokenBytePositions (tokens : List TokenData) (text : Bytes)
    (lineStarts : List Nat) : List Nat :=
  tokens.map (fun token => toByteOffset token text lineStarts)

/-- `makeRange`. -/
def makeRange (ctx : RuleContext) (startByte endByte : Nat) : Range :=
  ⟨byteOffsetToPosition ctx.text ctx.lineStarts startByte,
    byteOffsetToPosition ctx.text ctx.lineStarts endByte⟩

/-- `inSentence`. -/
def inSentence (bytePos : Nat) (sentence : SentenceBoundary) : Bool :=
  bytePos ≥ sentence.start ∧ bytePos < sentence.end_

/-- `s.find(pat, pos)` for a string `pat`: the first index `≥ pos` at which
`pat` occurs in `s`, or `none` for `npos`; the counter bounds the indices
left. -/
def findSubAux (s pat : Bytes) : Nat → Nat → Option Nat
  | 0, _ => none
  | left + 1, pos =>
    if pos + pat.length ≤ s.length then
      if substr s pos pat.length = pat then some pos else findSubAux s pat left (pos + 1)
    else none

/-- `s.find(pat, pos)` for a string `pat`. -/
def findSub (s pat : Bytes) (pos : Nat) : Option Nat :=
  findSubAux s pat (s.length + 1 - pos) pos

/-- The loop of `countCommas`; the counter bounds the bytes left. -/
def countCommasLoop (text : Bytes) : Nat → Nat → Nat → Nat
  | 0, _, count => count
  | left + 1, pos, count =>
    if pos < text.length then
      match findSub text (utf8 "、") pos with
      | none => count
      | some found => countCommasLoop text left (found + (utf8 "、").length) (count + 1)
    else count

/-- `countCommas`: the number of 、 found by successive searches. -/
def countCommas (text : Bytes) : Nat :=
  countCommasLoop text text.length 0 0

/-- The loop of `checkCommaLimit` over the sentences. -/
def checkCommaLimitLoop (ctx : RuleContext) (limit : Int) :
    List SentenceBoundary → List Diagnostic → List Diagnostic
  | [], diags => diags
  | sentence :: rest, diags =>
    let commaCount := countCommas sentence.text
    if commaCount ≤ limit.toNat then checkCommaLimitLoop ctx limit rest diags
    else
      checkCommaLimitLoop ctx limit rest
        (diags ++ [⟨makeRange ctx sentence.start sentence.end_, ctx.severity,
          Message.commaLimit limit commaCount⟩])

/-- `checkCommaLimit`. -/
def checkCommaLimit (ctx : RuleContext) (diags : List Diagnostic) (limit : Int) :
    List Diagnostic :=
  if limit ≤ 0 then diags else checkCommaLimitLoop ctx limit ctx.sentences diags

/-- The inner loop of `checkAdversativeGa` over the tokens from index `i` on:
the adversative が whose byte position lies in the sentence. -/
def countAdversativeGa (ctx : RuleContext) (sentence : SentenceBoundary) :
    List TokenData → Nat → Nat → Nat
  | [], _, count => count
  | token :: rest, i, count =>
    if !isAdversativeGa token.feature then countAdversativeGa ctx sentence rest (i + 1) count
    else if inSentence (ctx.tokenBytePositions.getD i 0) sentence then
      countAdversativeGa ctx sentence rest (i + 1) (count + 1)
    else countAdversativeGa ctx sentence rest (i + 1) count

/-- The loop of `checkAdversativeGa` over the sentences. -/
def checkAdversativeGaLoop (ctx : RuleContext) (maxCount : Int) :
    List SentenceBoundary → List Diagnostic → List Diagnostic
  | [], diags => diags
  | sentence :: rest, diags =>
    let count := countAdversativeGa ctx sentence ctx.tokens 0 0
    if count ≤ maxCount.toNat then checkAdversativeGaLoop ctx maxCount rest diags
    else
      checkAdversativeGaLoop ctx maxCount rest
        (diags ++ [⟨makeRange ctx sentence.start sentence.end_, ctx.severity,
          Message.adversativeGa maxCount count⟩])

/-- `checkAdversativeGa`. -/
def checkAdversativeGa (ctx : RuleContext) (diags : List Diagnostic) (maxCount : Int) :
    List Diagnostic :=
  if maxCount ≤ 0 then diags else checkAdversativeGaLoop ctx maxCount ctx.sentences diags

/-- The local state of one sentence round of `checkDuplicateParticleSurface`. -/
structure DupState where
  lastSurface : Bytes := []
  lastKey : Bytes := []
  lastStartByte : Nat := 0
  streak : Int := 1
  hasLast : Bool := false
deriving DecidableEq, Repr

/-- The inner loop of `checkDuplicateParticleSurface` (lines 248-285) over
the tokens from index `i` on. -/
def duplicateParticleLoop (ctx : RuleContext) (sentence : SentenceBoundary)
    (maxRepeat : Int) : List TokenData → Nat → DupState → List Diagnostic → List Diagnostic
  | [], _, _, diags => diags
  | token :: rest, i, st, diags =>
    let bytePos := ctx.tokenBytePositions.getD i 0
    if !inSentence bytePos sentence then
      duplicateParticleLoop ctx sentence maxRepeat rest (i + 1) st diags
    else if !isParticle token.feature then
      duplicateParticleLoop ctx sentence maxRepeat rest (i + 1) st diags
    else
      let currentKey := particleKey token.feature
      if st.hasLast = true ∧ token.surface = st.lastSurface ∧ currentKey = st.lastKey then
        let streak := st.streak + 1
        let diags1 :=
          if streak > maxRepeat then
            diags ++ [⟨makeRange ctx st.lastStartByte (bytePos + token.surface.length),
              ctx.severity, Message.duplicateParticle token.surface⟩]
          else diags
        duplicateParticleLoop ctx sentence maxRepeat rest (i + 1)
          { lastSurface := token.surface, lastKey := currentKey,
            lastStartByte := st.lastStartByte, streak := streak, hasLast := true } diags1
      else
        duplicateParticleLoop ctx sentence maxRepeat rest (i + 1)
          { lastSurface := token.surface, lastKey := currentKey,
            lastStartByte := bytePos, streak := 1, hasLast := true } diags

/-- The loop of `checkDuplicateParticleSurface` over the sentences. -/
def checkDuplicateParticleSurfaceLoop (ctx : RuleContext) (maxRepeat : Int) :
    List SentenceBoundary → List Diagnostic → List Diagnostic
  | [], diags => diags
  | sentence :: rest, diags =>
    checkDuplicateParticleSurfaceLoop ctx maxRepeat rest
      (duplicateParticleLoop ctx sentence maxRepeat ctx.tokens 0 {} diags)

/-- `checkDuplicateParticleSurface`. -/
def checkDuplicateParticleSurface (ctx : RuleContext) (diags : List Diagnostic)
    (maxRepeat : Int) : List Diagnostic :=
  if maxRepeat ≤ 0 then diags
  else checkDuplicateParticleSurfaceLoop ctx maxRepeat ctx.sentences diags

/-- The local state of one sentence round of `checkAdjacentParticles`. -/
structure AdjState where
  prevIsParticle : Bool := false
  prevKey : Bytes := []
  prevToken : TokenData := {}
  prevStartByte : Nat := 0
  streak : Int := 1
deriving DecidableEq, Repr

/-- The inner loop of `checkAdjacentParticles` (lines 301-341) over the
tokens from index `i` on. -/
def adjacentParticlesLoop (ctx : RuleContext) (sentence : SentenceBoundary)
    (maxRepeat : Int) : List TokenData → Nat → AdjState → List Diagnostic → List Diagnostic
  | [], _, _, diags => diags
  | token :: rest, i, st, diags =>
    let bytePos := ctx.tokenBytePositions.getD i 0
    if !inSentence bytePos sentence then
      adjacentParticlesLoop ctx sentence maxRepeat rest (i + 1) st diags
    else
      let currentIsParticle := isParticle token.feature
      let currentKey := particleKey token.feature
      -- the `if`/`else` of lines 310-333: new streak, new prevStartByte, diagnostics
      let r : Int × Nat × List Diagnostic :=
        if currentIsParticle = true ∧ st.prevIsParticle = true ∧ currentKey = st.prevKey
            ∧ bytePos = st.prevStartByte + st.prevToken.surface.length then
          let streak := st.streak + 1
          if streak > maxRepeat then
            (streak, st.prevStartByte,
              diags ++ [⟨makeRange ctx st.prevStartByte (bytePos + token.surface.length),
                ctx.severity, Message.adjacentParticles⟩])
          else (streak, st.prevStartByte, diags)
        else (1, if currentIsParticle then bytePos else st.prevStartByte, diags)
      -- lines 335-340
      let st1 : AdjState :=
        if currentIsParticle then
          { prevIsParticle := currentIsParticle, prevKey := currentKey, prevToken := token,
            prevStartByte := bytePos, streak := r.1 }
        else
          { prevIsParticle := currentIsParticle, prevKey := st.prevKey,
            prevToken := st.prevToken, prevStartByte := r.2.1, streak := r.1 }
      adjacentParticlesLoop ctx sentence maxRepeat rest (i + 1) st1 r.2.2

/-- The loop of `checkAdjacentParticles` over the sentences. -/
def checkAdjacentParticlesLoop (ctx : RuleContext) (maxRepeat : Int) :
    List SentenceBoundary → List Diagnostic → List Diagnostic
  | [], diags => diags
  | sentence :: rest, diags =>
    checkAdjacentParticlesLoop ctx maxRepeat rest
      (adjacentParticlesLoop ctx sentence maxRepeat ctx.tokens 0 {} diags)

/-- `checkAdjacentParticles`. -/
def checkAdjacentParticles (ctx : RuleContext) (diags : List Diagnostic)
    (maxRepeat : Int) : List Diagnostic :=
  if maxRepeat ≤ 0 then diags
  else checkAdjacentParticlesLoop ctx maxRepeat ctx.sentences diags

/-- The local state of `checkConjunctionRepeats`. -/
structure ConjState where
  lastSurface : Bytes := []
  lastStartByte : Nat := 0
  lastEndByte : Nat := 0
  streak : Int := 1
  hasLast : Bool := false
deriving DecidableEq, Repr

/-- The loop of `checkConjunctionRepeats` (lines 356-393) over the tokens
from index `i` on. -/
def conjunctionRepeatsLoop (ctx : RuleContext) (maxRepeat : Int) :
    List TokenData → Nat → ConjState → List Diagnostic → List Diagnostic
  | [], _, _, diags => diags
  | token :: rest, i, st, diags =>
    if !isConjunction token.feature then
      conjunctionRepeatsLoop ctx maxRepeat rest (i + 1) st diags
    else
      let currentStart := ctx.tokenBytePositions.getD i 0
      let currentEnd := currentStart + token.surface.length
      let separatedByNewline : Bool :=
        st.hasLast &&
          (match findByte ctx.text 10 st.lastEndByte with
            | none => false
            | some nl => decide (nl < currentStart))
      if st.hasLast = true ∧ token.surface = st.lastSurface ∧ separatedByNewline = false then
        let streak := st.streak + 1
        let diags1 :=
          if streak > maxRepeat then
            diags ++ [⟨makeRange ctx st.lastStartByte currentEnd, ctx.severity,
              Message.duplicateConjunction token.surface⟩]
          else diags
        conjunctionRepeatsLoop ctx maxRepeat rest (i + 1)
          { lastSurface := token.surface, lastStartByte := currentStart,
            lastEndByte := currentEnd, streak := streak, hasLast := true } diags1
      else
        conjunctionRepeatsLoop ctx maxRepeat rest (i + 1)
          { lastSurface := token.surface, lastStartByte := currentStart,
            lastEndByte := currentEnd, streak := 1, hasLast := true } diags

/-- `checkConjunctionRepeats`. -/
def checkConjunctionRepeats (ctx : RuleContext) (diags : List Diagnostic)
    (maxRepeat : Int) : List Diagnostic :=
  if maxRepeat ≤ 0 then diags
  else conjunctionRepeatsLoop ctx maxRepeat ctx.tokens 0 {} diags

/-- The first loop of `checkRaDropping` (lines 400-419): a token whose base
form is 来れる or 見れる. -/
def raSpecialLoop (ctx : RuleContext) : List TokenData → Nat → List Diagnostic →
    List Diagnostic
  | [], _, diags => diags
  | token :: rest, i, diags =>
    if !isSpecialRaCase (parsePos token.feature) then raSpecialLoop ctx rest (i + 1) diags
    else
      let startByte := ctx.tokenBytePositions.getD i 0
      let endByte := startByte + token.surface.length
      raSpecialLoop ctx rest (i + 1)
        (diags ++ [⟨makeRange ctx startByte endByte, ctx.severity, Message.raDropping⟩])

/-- The second loop of `checkRaDropping` (lines 426-448): an ichidan verb in
its imperfective form followed by the suffix れる. The state is `prevPos`,
`prevToken` and `hasPrev`. -/
def raPairLoop (ctx : RuleContext) : List TokenData → Nat →
    DetailedPOS × TokenData × Bool → List Diagnostic → List Diagnostic
  | [], _, _, diags => diags
  | token :: rest, i, (prevPos, _, hasPrev), diags =>
    let pos := parsePos token.feature
    let diags1 :=
      if hasPrev = true ∧ isTargetVerb prevPos = true ∧ isRaWord pos = true then
        let startByte := ctx.tokenBytePositions.getD (i - 1) 0
        let endByte := ctx.tokenBytePositions.getD i 0 + token.surface.length
        diags ++ [⟨makeRange ctx startByte endByte, ctx.severity, Message.raDropping⟩]
      else diags
    raPairLoop ctx rest (i + 1) (pos, token, true) diags1

/-- `checkRaDropping`. -/
def checkRaDropping (ctx : RuleContext) (diags : List Diagnostic) : List Diagnostic :=
  raPairLoop ctx ctx.tokens 0 ({}, {}, false) (raSpecialLoop ctx ctx.tokens 0 diags)

/-- `AnalysisConfig::RuleToggles` of `analyzer.hpp`, with its defaults. -/
structure RuleToggles where
  commaLimit : Bool := true
  adversativeGa : Bool := true
  duplicateParticleSurface : Bool := true
  adjacentParticles : Bool := true
  conjunctionRepeat : Bool := true
  raDropping : Bool := true
  commaLimitMax : Int := 3
  adversativeGaMax : Int := 1
  duplicateParticleSurfaceMaxRepeat : Int := 1
  adjacentParticlesMaxRepeat : Int := 1
  conjunctionRepeatMax : Int := 1
deriving DecidableEq, Repr

/-- `AnalysisConfig` of `analyzer.hpp`: the fields the grammar checker reads. -/
structure AnalysisConfig where
  grammarCheck : Bool := true
  rules : RuleToggles := {}
  warningMinSeverity : Int := 2
deriving DecidableEq, Repr

/-- `MoZukuConfig` of `analyzer.hpp`: the part the grammar checker reads. -/
structure MoZukuConfig where
  analysis : AnalysisConfig := {}
deriving DecidableEq, Repr

/-- `GrammarChecker::checkGrammar`; `config` is `none` for a null pointer, and
the result is the new content of `diags`. -/
def checkGrammar (text : Bytes) (tokens : List TokenData)
    (sentences : List SentenceBoundary) (diags : List Diagnostic)
    (config : Option MoZukuConfig) : List Diagnostic :=
  match config with
  | none => diags
  | some config =>
    if !config.analysis.grammarCheck then diags
    else
      let lineStarts := computeLineStarts text
      let tokenBytePositions := computeTokenBytePositions tokens text lineStarts
      let severity : Int := 2
      let minSeverity := config.analysis.warningMinSeverity
      if severity < minSeverity then diags
      else
        let ctx : RuleContext :=
          ⟨text, tokens, sentences, lineStarts, tokenBytePositions, severity⟩
        let d1 := if config.analysis.rules.commaLimit then
          checkCommaLimit ctx diags config.analysis.rules.commaLimitMax else diags
        let d2 := if config.analysis.rules.adversativeGa then
          checkAdversativeGa ctx d1 config.analysis.rules.adversativeGaMax else d1
        let d3 := if config.analysis.rules.duplicateParticleSurface then
          checkDuplicateParticleSurface ctx d2
            config.analysis.rules.duplicateParticleSurfaceMaxRepeat else d2
        let d4 := if config.analysis.rules.adjacentParticles then
          checkAdjacentParticles ctx d3 config.analysis.rules.adjacentParticlesMaxRepeat
          else d3
        let d5 := if config.analysis.rules.conjunctionRepeat then
          checkConjunctionRepeats ctx d4 config.analysis.rules.conjunctionRepeatMax else d4
        if config.analysis.rules.raDropping then checkRaDropping ctx d5 else d5

/-! ## comment_extractor.cpp -/

/-- `CommentSegment` of `comment_extractor.hpp`. -/
structure CommentSegment where
  startByte : Nat := 0
  endByte : Nat := 0
  sanitized : Bytes := []
deriving DecidableEq, Repr

/-- The keys of `languageMap()`. -/
def languageMapKeys : List Bytes :=
  [utf8 "c", utf8 "cpp", utf8 "html", utf8 "c++", utf8 "javascript",
   utf8 "javascriptreact", utf8 "typescript", utf8 "typescriptreact", utf8 "tsx",
   utf8 "python", utf8 "rust", utf8 "latex"]

/-- `toLower`: `std::tolower` on every byte, in the "C" locale. -/
def toLower (input : Bytes) : Bytes :=
  input.map (fun c => if 65 ≤ c ∧ c ≤ 90 then c + 32 else c)

/-- `isLanguageSupported`. -/
def isLanguageSupported (languageId : Bytes) : Bool :=
  decide (toLower languageId ∈ languageMapKeys)

/-- `isNewline`. -/
def isNewline (c : Nat) : Bool := c = 10 ∨ c = 13

/-- `setSpace(c)`: the new value of the byte. -/
def setSpace (c : Nat) : Nat := if isNewline c then c else 32

/-- `setSpace(segment[i])`: the new value of the string. -/
def setSpaceAt (segment : Bytes) (i : Nat) : Bytes :=
  segment.set i (setSpace (segment.getD i 0))

/-- The loop `while (i < limit && p(segment[i])) { setSpace(segment[i]); ++i; }`
of the sanitizers: the new string and the new `i`; the counter bounds the
bytes left. -/
def spaceWhile (p : Nat → Bool) (limit : Nat) : Nat → Bytes → Nat → Bytes × Nat
  | 0, segment, i => (segment, i)
  | left + 1, segment, i =>
    if i < limit ∧ p (segment.getD i 0) = true then
      spaceWhile p limit left (setSpaceAt segment i) (i + 1)
    else (segment, i)

/-- The backward loop of `sanitizeBlockComment` (lines 145-151 and 157-163):
`while (idx < len && p(segment[idx])) { setSpace(segment[idx]); if (idx == 0)
break; --idx; }`. -/
def spaceBackWhile (p : Nat → Bool) : Nat → Bytes → Nat → Bytes
  | 0, segment, _ => segment
  | left + 1, segment, idx =>
    if idx < segment.length ∧ p (segment.getD idx 0) = true then
      if idx = 0 then setSpaceAt segment idx
      else spaceBackWhile p left (setSpaceAt segment idx) (idx - 1)
    else segment

/-- `sanitizeLineComment`: the new value of the string. -/
def sanitizeLineComment (segment : Bytes) : Bytes :=
  let len := segment.length
  if len = 0 then segment
  else
    let r : Bytes × Nat :=
      if len ≥ 2 ∧ segment.getD 0 0 = 47 ∧ segment.getD 1 0 = 47 then
        spaceWhile (fun c => c = 47 ∨ c = 33) len len
          (setSpaceAt (setSpaceAt segment 0) 1) 2
      else if segment.getD 0 0 = 35 then
        let r1 := spaceWhile (fun c => c = 35) len len segment 0
        if r1.2 < len ∧ r1.1.getD r1.2 0 = 33 then (setSpaceAt r1.1 r1.2, r1.2 + 1)
        else r1
      else if segment.getD 0 0 = 37 then
        spaceWhile (fun c => c = 32 ∨ c = 9) len len (setSpaceAt segment 0) 1
      else if len ≥ 2 ∧ segment.getD 0 0 = 45 ∧ segment.getD 1 0 = 45 then
        (setSpaceAt (setSpaceAt segment 0) 1, 2)
      else (segment, 0)
    (spaceWhile (fun c => c = 32 ∨ c = 9) len len r.1 r.2).1

/-- The first part of `sanitizeBlockComment` (lines 109-136): the opening
delimiter. -/
def sanitizeBlockOpening (segment : Bytes) : Bytes :=
  let len := segment.length
  if len ≥ 4 ∧ segment.getD 0 0 = 60 ∧ segment.getD 1 0 = 33 ∧ segment.getD 2 0 = 45
      ∧ segment.getD 3 0 = 45 then
    let s4 := setSpaceAt (setSpaceAt (setSpaceAt (setSpaceAt segment 0) 1) 2) 3
    let r1 := spaceWhile (fun c => c = 45) len len s4 4
    (spaceWhile (fun c => c = 32 ∨ c = 9) len len r1.1 r1.2).1
  else if len ≥ 2 ∧ segment.getD 0 0 = 47 ∧ segment.getD 1 0 = 42 then
    let s2 := setSpaceAt (setSpaceAt segment 0) 1
    let r1 := spaceWhile (fun c => c = 42) len len s2 2
    (spaceWhile (fun c => c = 32 ∨ c = 9) len len r1.1 r1.2).1
  else segment

/-- The second part of `sanitizeBlockComment` (lines 138-164): the closing
delimiter. -/
def sanitizeBlockClosing (segment : Bytes) : Bytes :=
  let len := segment.length
  if len ≥ 3 ∧ segment.getD (len - 3) 0 = 45 ∧ segment.getD (len - 2) 0 = 45
      ∧ segment.getD (len - 1) 0 = 62 then
    let s3 := setSpaceAt (setSpaceAt (setSpaceAt segment (len - 3)) (len - 2)) (len - 1)
    if len ≥ 4 then spaceBackWhile (fun c => c = 45 ∨ c = 32 ∨ c = 9) len s3 (len - 4)
    else s3
  else if len ≥ 2 ∧ segment.getD (len - 2) 0 = 42 ∧ segment.getD (len - 1) 0 = 47 then
    let s2 := setSpaceAt (setSpaceAt segment (len - 2)) (len - 1)
    if len ≥ 3 then spaceBackWhile (fun c => c = 42 ∨ c = 32 ∨ c = 9) len s2 (len - 3)
    else s2
  else segment

/-- The last part of `sanitizeBlockComment` (lines 166-190): the leading
blanks and the `*` or `-` of every line; the counter bounds the bytes left. -/
def sanitizeBlockLines : Nat → Bytes → Nat → Bytes
  | 0, segment, _ => segment
  | left + 1, segment, pos =>
    let len := segment.length
    if pos < len then
      let lineEnd := match findByte segment 10 pos with
        | none => len
        | some e => e
      let r := spaceWhile (fun c => c = 32 ∨ c = 9 ∨ c = 13) lineEnd len segment pos
      let s1 :=
        if r.2 < lineEnd ∧ (r.1.getD r.2 0 = 42 ∨ r.1.getD r.2 0 = 45) then
          let s2 := setSpaceAt r.1 r.2
          if r.2 + 1 < lineEnd ∧ s2.getD (r.2 + 1) 0 = 32 then setSpaceAt s2 (r.2 + 1)
          else s2
        else r.1
      sanitizeBlockLines left s1 (if lineEnd < len then lineEnd + 1 else len)
    else segment

/-- `sanitizeBlockComment`: the new value of the string. -/
def sanitizeBlockComment (segment : Bytes) : Bytes :=
  if segment.length = 0 then segment
  else
    sanitizeBlockLines segment.length
      (sanitizeBlockClosing (sanitizeBlockOpening segment)) 0

/-- `sanitizeComment(segment, nodeType)`: the new value of the string;
`nodeType` is `none` for a null pointer. -/
def sanitizeComment (segment : Bytes) (nodeType : Option Bytes) : Bytes :=
  let type := nodeType.getD []
  let isBlock : Bool :=
    (findSub type (utf8 "block") 0).isSome
      || decide (segment.length ≥ 2 ∧ segment.getD 0 0 = 47 ∧ segment.getD 1 0 = 42)
      || decide (segment.length ≥ 4 ∧ segment.getD 0 0 = 60 ∧ segment.getD 1 0 = 33
          ∧ segment.getD 2 0 = 45 ∧ segment.getD 3 0 = 45)
  let isLine : Bool :=
    (findSub type (utf8 "line") 0).isSome
      || decide (segment ≠ [] ∧ segment.getD 0 0 = 35)
      || decide (segment.length ≥ 2 ∧ segment.getD 0 0 = 47 ∧ segment.getD 1 0 = 47)
  if isBlock ∧ ¬ isLine then sanitizeBlockComment segment
  else sanitizeLineComment segment

/-! ## lsp.cpp: the analyzable-span masker -/

/-- `LocalByteRange` and `ByteRange` of `lsp.cpp` and `lsp.hpp`. -/
structure ByteRange where
  startByte : Nat := 0
  endByte : Nat := 0
deriving DecidableEq, Repr

/-- The loop of `isEscaped`: the backslashes right before `pos`; the counter
bounds the bytes left. -/
def countBackslashes (text : Bytes) (pos : Nat) : Nat → Nat → Nat
  | 0, count => count
  | left + 1, count =>
    if pos > count ∧ text.getD (pos - count - 1) 0 = 92 then
      countBackslashes text pos left (count + 1)
    else count

/-- `isEscaped`: an odd number of backslashes stands right before `pos`. -/
def isEscaped (text : Bytes) (pos : Nat) : Bool :=
  countBackslashes text pos pos 0 % 2 = 1

/-- The loop of `findClosingDollar`. -/
def findClosingDollarAux (text : Bytes) : Nat → Nat → Option Nat
  | 0, _ => none
  | left + 1, i =>
    if i < text.length then
      if text.getD i 0 = 36 ∧ isEscaped text i = false then some i
      else findClosingDollarAux text left (i + 1)
    else none

/-- `findClosingDollar`; `none` is `npos`. -/
def findClosingDollar (text : Bytes) (pos : Nat) : Option Nat :=
  findClosingDollarAux text (text.length - pos) pos

/-- The loop of `findClosingDoubleDollar`. -/
def findClosingDoubleDollarAux (text : Bytes) : Nat → Nat → Option Nat
  | 0, _ => none
  | left + 1, i =>
    if i + 1 < text.length then
      if text.getD i 0 = 36 ∧ text.getD (i + 1) 0 = 36 ∧ isEscaped text i = false then some i
      else findClosingDoubleDollarAux text left (i + 1)
    else none

/-- `findClosingDoubleDollar`; `none` is `npos`. -/
def findClosingDoubleDollar (text : Bytes) (pos : Nat) : Option Nat :=
  findClosingDoubleDollarAux text (text.length - pos) pos

/-- The loop `while (idx < size && p(sanitized[idx])) { sanitized[idx] = ' ';
++idx; }` of `sanitizeLatexCommentText`. -/
def blankWhile (p : Nat → Bool) : Nat → Bytes → Nat → Bytes × Nat
  | 0, sanitized, idx => (sanitized, idx)
  | left + 1, sanitized, idx =>
    if idx < sanitized.length ∧ p (sanitized.getD idx 0) = true then
      blankWhile p left (sanitized.set idx 32) (idx + 1)
    else (sanitized, idx)

/-- `sanitizeLatexCommentText`. -/
def sanitizeLatexCommentText (raw : Bytes) : Bytes :=
  if raw = [] then raw
  else
    let r1 := blankWhile (fun c => c = 37) raw.length (raw.set 0 32) 1
    (blankWhile (fun c => c = 32 ∨ c = 9) raw.length r1.1 r1.2).1

/-- The inner loop of `collectLatexComments` (lines 105-111): the first
unescaped `%` before `lineEnd`. -/
def findUnescapedPercent (text : Bytes) (lineEnd : Nat) : Nat → Nat → Option Nat
  | 0, _ => none
  | left + 1, current =>
    if current < lineEnd then
      if text.getD current 0 = 37 ∧ isEscaped text current = false then some current
      else findUnescapedPercent text lineEnd left (current + 1)
    else none

/-- The outer loop of `collectLatexComments`, one round per line; the counter
bounds the bytes left. -/
def collectLatexCommentsLoop (text : Bytes) : Nat → Nat → List CommentSegment →
    List CommentSegment
  | 0, _, segments => segments
  | left + 1, pos, segments =>
    if pos < text.length then
      let lineEnd := match findByte text 10 pos with
        | none => text.length
        | some e => e
      let segments1 := match findUnescapedPercent text lineEnd (lineEnd - pos) pos with
        | some current =>
          segments ++ [⟨current, lineEnd,
            sanitizeLatexCommentText (substr text current (lineEnd - current))⟩]
        | none => segments
      if lineEnd ≥ text.length then segments1
      else collectLatexCommentsLoop text left (lineEnd + 1) segments1
    else segments

/-- `collectLatexComments`. -/
def collectLatexComments (text : Bytes) : List CommentSegment :=
  collectLatexCommentsLoop text text.length 0 []

/-- `std::isspace` in the "C" locale. -/
def isspaceC (c : Nat) : Bool := c = 32 ∨ (9 ≤ c ∧ c ≤ 13)

/-- `std::isalpha` in the "C" locale. -/
def isalphaC (c : Nat) : Bool := (65 ≤ c ∧ c ≤ 90) ∨ (97 ≤ c ∧ c ≤ 122)

/-- `std::ispunct` in the "C" locale. -/
def ispunctC (c : Nat) : Bool :=
  (33 ≤ c ∧ c ≤ 47) ∨ (58 ≤ c ∧ c ≤ 64) ∨ (91 ≤ c ∧ c ≤ 96) ∨ (123 ≤ c ∧ c ≤ 126)

/-- `utf8CharLen`. -/
def utf8CharLen (c : Nat) : Nat :=
  if c < 0x80 then 1
  else if c >>> 5 = 0x6 then 2
  else if c >>> 4 = 0xE then 3
  else if c >>> 3 = 0x1E then 4
  else 1

/-- The loop of `collectLatexContentRanges` that skips the name of a control
sequence (lines 250-255). -/
def skipCommandName (text : Bytes) : Nat → Nat → Nat
  | 0, i => i
  | left + 1, i =>
    if i < text.length then
      if ¬ (isalphaC (text.getD i 0) = true) ∧ text.getD i 0 ≠ 64 then i
      else skipCommandName text left (i + 1)
    else i

/-- The loop of `collectLatexContentRanges` that scans one content run (lines
271-284): the new `i` and `advanced`. -/
def scanContent (text : Bytes) : Nat → Nat → Bool → Nat × Bool
  | 0, i, advanced => (i, advanced)
  | left + 1, i, advanced =>
    if i < text.length then
      let d := text.getD i 0
      if d = 92 ∨ d = 36 ∨ d = 123 ∨ d = 125 ∨ (d = 37 ∧ isEscaped text i = false) then
        (i, advanced)
      else if d < 0x80 ∧ (isspaceC d = true ∨ ispunctC d = true) then (i, advanced)
      else scanContent text left (i + utf8CharLen d) true
    else (i, advanced)

/-- The outer loop of `collectLatexContentRanges`; every round moves `i`
forward or stops, and the counter bounds the bytes left. -/
def collectLatexContentLoop (text : Bytes) : Nat → Nat → List ByteRange → List ByteRange
  | 0, _, ranges => ranges
  | left + 1, i, ranges =>
    if i < text.length then
      let c := text.getD i 0
      if c = 37 ∧ isEscaped text i = false then
        match findByte text 10 i with
        | none => ranges
        | some lineEnd => collectLatexContentLoop text left (lineEnd + 1) ranges
      else if c = 36 ∧ isEscaped text i = false then
        if i + 1 < text.length ∧ text.getD (i + 1) 0 = 36 then
          match findClosingDoubleDollar text (i + 2) with
          | none => ranges
          | some closing => collectLatexContentLoop text left (closing + 2) ranges
        else
          match findClosingDollar text (i + 1) with
          | none => ranges
          | some closing => collectLatexContentLoop text left (closing + 1) ranges
      else if c = 92 then
        let i1 := skipCommandName text text.length (i + 1)
        let i2 := if i1 < text.length ∧ text.getD i1 0 = 42 then i1 + 1 else i1
        collectLatexContentLoop text left i2 ranges
      else if c = 123 ∨ c = 125 then collectLatexContentLoop text left (i + 1) ranges
      else if isspaceC c = true then collectLatexContentLoop text left (i + 1) ranges
      else
        let r := scanContent text text.length i false
        if r.2 = true then collectLatexContentLoop text left r.1 (ranges ++ [⟨i, r.1⟩])
        else collectLatexContentLoop text left (r.1 + 1) ranges
    else ranges

/-- `collectLatexContentRanges`. -/
def collectLatexContentRanges (text : Bytes) : List ByteRange :=
  collectLatexContentLoop text text.length 0 []

/-- What the two functions built on the tree-sitter parser return for a
language id and a text: the parser is not part of this repository. -/
structure Extractors where
  /-- `MoZuku::comments::extractComments(languageId, text)`. -/
  extractComments : Bytes → Bytes → List CommentSegment
  /-- `collectHtmlContentRanges(text)`. -/
  collectHtmlContentRanges : Bytes → List ByteRange

/-- The three per-document maps of `LSPServer` that `prepareAnalysisText`
reads or writes; `none` is a key that is not in the map. -/
structure DocMaps where
  docLanguages : Bytes → Option Bytes
  docCommentSegments : Bytes → Option (List CommentSegment)
  docContentHighlightRanges : Bytes → Option (List ByteRange)

/-- `m[uri] = value` and `m.erase(uri)` on a map. -/
def mapSet {α : Type} (m : Bytes → Option α) (uri : Bytes) (value : Option α) :
    Bytes → Option α :=
  fun k => if k = uri then value else m k

/-- The subtraction of two `size_t` values, which wraps around at `2^64`. -/
def subSizeT (a b : Nat) : Nat :=
  if b ≤ a then a - b else a + 2 ^ 64 - b

/-- The first loop on `masked`: every byte but newline and carriage return
becomes a space. -/
def maskAll (text : Bytes) : Bytes :=
  text.map (fun ch => if ch ≠ 10 ∧ ch ≠ 13 then 32 else ch)

/-- The loop `for (i = 0; i < len; ++i) masked[dstOff + i] = src[srcOff + i]`
from `i` on; the counter is `len - i`. -/
def copyBytes (src : Bytes) (srcOff dstOff : Nat) : Nat → Nat → Bytes → Bytes
  | 0, _, masked => masked
  | left + 1, i, masked =>
    copyBytes src srcOff dstOff left (i + 1)
      (masked.set (dstOff + i) (src.getD (srcOff + i) 0))

/-- The loop over the content ranges: the bytes of the text are put back. -/
def restoreRanges (text : Bytes) : List ByteRange → Bytes → Bytes
  | [], masked => masked
  | range :: rest, masked =>
    if range.startByte ≥ masked.length then restoreRanges text rest masked
    else
      let len := min (subSizeT range.endByte range.startByte)
        (masked.length - range.startByte)
      restoreRanges text rest
        (copyBytes text range.startByte range.startByte len 0 masked)

/-- The loop over the comment segments: the sanitized comment is written at
the start of the segment. -/
def writeSegments : List CommentSegment → Bytes → Bytes
  | [], masked => masked
  | segment :: rest, masked =>
    if segment.startByte ≥ masked.length then writeSegments rest masked
    else
      let len := min segment.sanitized.length (masked.length - segment.startByte)
      writeSegments rest (copyBytes segment.sanitized 0 segment.startByte len 0 masked)

/-- The content highlight ranges recorded for HTML and LaTeX: the content
ranges, then the spans of the comment segments. -/
def highlightRanges (contentRanges : List ByteRange) (segments : List CommentSegment) :
    List ByteRange :=
  contentRanges ++ segments.map (fun s => ⟨s.startByte, s.endByte⟩)

/-- `LSPServer::prepareAnalysisText(uri, text)`: the masked text and the new
maps. -/
def prepareAnalysisText (ext : Extractors) (maps : DocMaps) (uri text : Bytes) :
    Bytes × DocMaps :=
  let erased : DocMaps :=
    { maps with
      docCommentSegments := mapSet maps.docCommentSegments uri none
      docContentHighlightRanges := mapSet maps.docContentHighlightRanges uri none }
  match maps.docLanguages uri with
  | none => (text, erased)
  | some languageId =>
    if languageId = utf8 "japanese" then (text, erased)
    else if languageId = utf8 "html" then
      let commentSegments := ext.extractComments languageId text
      let contentRanges := ext.collectHtmlContentRanges text
      (writeSegments commentSegments (restoreRanges text contentRanges (maskAll text)),
        { maps with
          docCommentSegments := mapSet maps.docCommentSegments uri (some commentSegments)
          docContentHighlightRanges := mapSet maps.docContentHighlightRanges uri
            (some (highlightRanges contentRanges commentSegments)) })
    else if languageId = utf8 "latex" then
      let commentSegments := collectLatexComments text
      let contentRanges := collectLatexContentRanges text
      (writeSegments commentSegments (restoreRanges text contentRanges (maskAll text)),
        { maps with
          docCommentSegments := mapSet maps.docCommentSegments uri (some commentSegments)
          docContentHighlightRanges := mapSet maps.docContentHighlightRanges uri
            (some (highlightRanges contentRanges commentSegments)) })
    else if !isLanguageSupported languageId then (text, erased)
    else
      let segments := ext.extractComments languageId text
      (writeSegments segments (maskAll text),
        { maps with
          docCommentSegments := mapSet maps.docCommentSegments uri (some segments)
          docContentHighlightRanges := mapSet maps.docContentHighlightRanges uri none })

/-! ## Specification-side definitions for the grammar rules -/

/-- The number of byte positions of a text at which the ideographic comma 、
(bytes E3 80 81) starts: its occurrences. -/
def commaOccurrences : Bytes → Nat
  | [] => 0
  | b :: rest => (if (b :: rest).take 3 = utf8 "、" then 1 else 0) + commaOccurrences rest

/-- The tokens from index `i` on, each with the byte position the context
records for it. -/
def pairFrom (positions : List Nat) : List TokenData → Nat → List (TokenData × Nat)
  | [], _ => []
  | token :: rest, i => (token, positions.getD i 0) :: pairFrom positions rest (i + 1)

/-- The tokens of a context, each with its start byte. -/
def tokensWithPos (ctx : RuleContext) : List (TokenData × Nat) :=
  pairFrom ctx.tokenBytePositions ctx.tokens 0

/-- The number of tokens that are an adversative が and whose start byte lies
in `[sentence.start, sentence.end)`. -/
def adversativeGaIn (ctx : RuleContext) (sentence : SentenceBoundary) : Nat :=
  (tokensWithPos ctx).countP
    (fun p => isAdversativeGa p.1.feature
      && decide (sentence.start ≤ p.2 ∧ p.2 < sentence.end_))

/-- The diagnostic that spans a whole sentence. -/
def sentenceDiagnostic (ctx : RuleContext) (sentence : SentenceBoundary)
    (message : Message) : Diagnostic :=
  ⟨⟨byteOffsetToPosition ctx.text ctx.lineStarts sentence.start,
      byteOffsetToPosition ctx.text ctx.lineStarts sentence.end_⟩, ctx.severity, message⟩

/-- The particle tokens whose start byte lies in `[sentence.start,
sentence.end)`, in token order, each with its start byte: non-particle tokens
and tokens of other sentences are left out. -/
def sentenceParticles (ctx : RuleContext) (sentence : SentenceBoundary) :
    List (TokenData × Nat) :=
  (tokensWithPos ctx).filter
    (fun p => decide (sentence.start ≤ p.2 ∧ p.2 < sentence.end_) && isParticle p.1.feature)

/-- A particle continues the run of the particle before it: identical surface
and identical (main category, first subcategory) key. -/
def sameParticle (previous current : TokenData × Nat) : Bool :=
  decide (current.1.surface = previous.1.surface
    ∧ particleKey current.1.feature = particleKey previous.1.feature)

/-- The diagnostics the rule owes a maximal run of particles: one at each
token of the run beyond the `maxRepeat`-th, from the start byte of the first
token of the run to the end byte of the token at which it is raised. -/
def runDiagnostics (ctx : RuleContext) (maxRepeat : Int) :
    List (TokenData × Nat) → List Diagnostic
  | [] => []
  | first :: rest =>
    ((first :: rest).drop maxRepeat.toNat).map
      (fun p => ⟨makeRange ctx first.2 (p.2 + p.1.surface.length), ctx.severity,
        Message.duplicateParticle p.1.surface⟩)

/-- The inner loop of `checkDuplicateParticleSurface` once the tokens it
skips are left out: the same steps on the particles of the sentence. -/
def duplicateParticleScan (ctx : RuleContext) (maxRepeat : Int) :
    List (TokenData × Nat) → DupState → List Diagnostic → List Diagnostic
  | [], _, diags => diags
  | p :: rest, st, diags =>
    if st.hasLast = true ∧ p.1.surface = st.lastSurface
        ∧ particleKey p.1.feature = st.lastKey then
      duplicateParticleScan ctx maxRepeat rest
        { lastSurface := p.1.surface, lastKey := particleKey p.1.feature,
          lastStartByte := st.lastStartByte, streak := st.streak + 1, hasLast := true }
        (if st.streak + 1 > maxRepeat then
          diags ++ [⟨makeRange ctx st.lastStartByte (p.2 + p.1.surface.length),
            ctx.severity, Message.duplicateParticle p.1.surface⟩]
        else diags)
    else
      duplicateParticleScan ctx maxRepeat rest
        { lastSurface := p.1.surface, lastKey := particleKey p.1.feature,
          lastStartByte := p.2, streak := 1, hasLast := true } diags

/-! ## Specification-side definitions for the masker -/

/-- A masked text keeps the text: it has the same length, and every byte is
the byte of the text at the same index, or is a space where the text has
neither a newline nor a carriage return. -/
def Keeps (text masked : Bytes) : Prop :=
  masked.length = text.length
  ∧ ∀ j, masked.getD j 0 = text.getD j 0
      ∨ (masked.getD j 0 = 32 ∧ text.getD j 0 ≠ 10 ∧ text.getD j 0 ≠ 13)

/-- The comment segments are what `extractComments` makes of the text: each
sanitized string is `sanitizeComment` applied to `text[startByte, endByte)`. -/
def SegmentsSanitized (text : Bytes) (segments : List CommentSegment) : Prop :=
  ∀ seg ∈ segments, ∃ nodeType,
    seg.sanitized
      = sanitizeComment (substr text seg.startByte (seg.endByte - seg.startByte)) nodeType

/-! ## Specification-side definitions for the position codec -/

/-- The UTF-16 code units of a code point: one up to U+FFFF, two above. -/
def utf16Units (c : Char) : Nat :=
  if c.toNat ≤ 0xFFFF then 1 else 2

/-- The well-formed UTF-8 text that encodes a list of code points. -/
def encodeChars (cs : List Char) : Bytes :=
  cs.flatMap encodeChar

/-- The UTF-16 length of a list of code points. -/
def utf16Length (cs : List Char) : Nat :=
  (cs.map utf16Units).sum

/-! ## Concrete inputs -/

/-- A token on line 0 from UTF-16 column `startChar` to `endChar`. -/
def tokenAt (startChar endChar : Int) (surface feature : String) : TokenData :=
  { line := 0, startChar := startChar, endChar := endChar,
    surface := utf8 surface, feature := utf8 feature }

/-- The context `checkGrammar` builds for a text and its tokens (lines
459-472), with the sentences of `splitIntoSentences`. -/
def contextOf (text : Bytes) (tokens : List TokenData) : RuleContext :=
  ⟨text, tokens, splitIntoSentences text, computeLineStarts text,
    computeTokenBytePositions tokens text (computeLineStarts text), 2⟩

/-- The text あ、い、う、え、お。か、き、く、け。: a sentence with four commas and one
with three. -/
def commaText : Bytes := utf8 "あ、い、う、え、お。か、き、く、け。"

/-- The tokens of 猫が好きだが犬も好きだ。 with both が as conjunctive particles. -/
def nekoTokens : List TokenData :=
  [tokenAt 0 1 "猫" "名詞,一般,*,*,*,*,猫,ネコ,ネコ",
   tokenAt 1 2 "が" "助詞,接続助詞,*,*,*,*,が,ガ,ガ",
   tokenAt 2 4 "好き" "名詞,形容動詞語幹,*,*,*,*,好き,スキ,スキ",
   tokenAt 4 5 "だ" "助動詞,*,*,*,特殊・ダ,基本形,だ,ダ,ダ",
   tokenAt 5 6 "が" "助詞,接続助詞,*,*,*,*,が,ガ,ガ",
   tokenAt 6 7 "犬" "名詞,一般,*,*,*,*,犬,イヌ,イヌ",
   tokenAt 7 8 "も" "助詞,係助詞,*,*,*,*,も,モ,モ",
   tokenAt 8 10 "好き" "名詞,形容動詞語幹,*,*,*,*,好き,スキ,スキ",
   tokenAt 10 11 "だ" "助動詞,*,*,*,特殊・ダ,基本形,だ,ダ,ダ",
   tokenAt 11 12 "。" "記号,句点,*,*,*,*,。,。,。"]

/-- The context of 猫が好きだが犬も好きだ。. -/
def nekoContext : RuleContext :=
  contextOf (utf8 "猫が好きだが犬も好きだ。") nekoTokens

/-- The tokens 食べ + れる of 食べれる. -/
def tabeTokens : List TokenData :=
  [tokenAt 0 2 "食べ" "動詞,自立,*,*,一段,未然形,食べる,タベ,タベ",
   tokenAt 2 4 "れる" "動詞,接尾,*,*,一段,基本形,れる,レル,レル"]

/-- The tokens 見れ + れる: the verb is the imperfective form of 見れる. -/
def mireTokens : List TokenData :=
  [tokenAt 0 2 "見れ" "動詞,自立,*,*,一段,未然形,見れる,ミレ,ミレ",
   tokenAt 2 4 "れる" "動詞,接尾,*,*,一段,基本形,れる,レル,レル"]

/-- The tokens of 私もももも: the particle も three times after a pronoun. -/
def momoTokens : List TokenData :=
  [tokenAt 0 1 "私" "名詞,代名詞,一般,*,*,*,私,ワタシ,ワタシ",
   tokenAt 1 2 "も" "助詞,係助詞,*,*,*,*,も,モ,モ",
   tokenAt 2 3 "も" "助詞,係助詞,*,*,*,*,も,モ,モ",
   tokenAt 3 4 "も" "助詞,係助詞,*,*,*,*,も,モ,モ",
   tokenAt 4 5 "も" "助詞,係助詞,*,*,*,*,も,モ,モ"]

/-- The tokens of にでを: three case particles in a row. -/
def nideoTokens : List TokenData :=
  [tokenAt 0 1 "に" "助詞,格助詞,一般,*,*,*,に,ニ,ニ",
   tokenAt 1 2 "で" "助詞,格助詞,一般,*,*,*,で,デ,デ",
   tokenAt 2 3 "を" "助詞,格助詞,一般,*,*,*,を,ヲ,ヲ"]

/-- The tokens of しかししかししかし: the conjunction しかし three times. -/
def shikashiTokens : List TokenData :=
  [tokenAt 0 3 "しかし" "接続詞,*,*,*,*,*,しかし,シカシ,シカシ",
   tokenAt 3 6 "しかし" "接続詞,*,*,*,*,*,しかし,シカシ,シカシ",
   tokenAt 6 9 "しかし" "接続詞,*,*,*,*,*,しかし,シカシ,シカシ"]

/-- The tokens of 雨だが寒いが行く。晴れだが行く。: two sentences, the first with two
conjunctive が and the second with one. -/
def ameTokens : List TokenData :=
  [tokenAt 0 1 "雨" "名詞,一般,*,*,*,*,雨,アメ,アメ",
   tokenAt 1 2 "だ" "助動詞,*,*,*,特殊・ダ,基本形,だ,ダ,ダ",
   tokenAt 2 3 "が" "助詞,接続助詞,*,*,*,*,が,ガ,ガ",
   tokenAt 3 5 "寒い" "形容詞,自立,*,*,形容詞・アウオ段,基本形,寒い,サムイ,サムイ",
   tokenAt 5 6 "が" "助詞,接続助詞,*,*,*,*,が,ガ,ガ",
   tokenAt 6 8 "行く" "動詞,自立,*,*,五段・カ行促音便,基本形,行く,イク,イク",
   tokenAt 8 9 "。" "記号,句点,*,*,*,*,。,。,。",
   tokenAt 9 11 "晴れ" "名詞,一般,*,*,*,*,晴れ,ハレ,ハレ",
   tokenAt 11 12 "だ" "助動詞,*,*,*,特殊・ダ,基本形,だ,ダ,ダ",
   tokenAt 12 13 "が" "助詞,接続助詞,*,*,*,*,が,ガ,ガ",
   tokenAt 13 15 "行く" "動詞,自立,*,*,五段・カ行促音便,基本形,行く,イク,イク",
   tokenAt 15 16 "。" "記号,句点,*,*,*,*,。,。,。"]

/-- The context of 雨だが寒いが行く。晴れだが行く。. -/
def ameContext : RuleContext :=
  contextOf (utf8 "雨だが寒いが行く。晴れだが行く。") ameTokens

/-- The tokens of 私もも。も行く。: two sentences, the first ending in the particle
も twice and the second starting with も. -/
def momoTwoTokens : List TokenData :=
  [tokenAt 0 1 "私" "名詞,代名詞,一般,*,*,*,私,ワタシ,ワタシ",
   tokenAt 1 2 "も" "助詞,係助詞,*,*,*,*,も,モ,モ",
   tokenAt 2 3 "も" "助詞,係助詞,*,*,*,*,も,モ,モ",
   tokenAt 3 4 "。" "記号,句点,*,*,*,*,。,。,。",
   tokenAt 4 5 "も" "助詞,係助詞,*,*,*,*,も,モ,モ",
   tokenAt 5 7 "行く" "動詞,自立,*,*,五段・カ行促音便,基本形,行く,イク,イク",
   tokenAt 7 8 "。" "記号,句点,*,*,*,*,。,。,。"]

/-- The context of 私もも。も行く。. -/
def momoTwoContext : RuleContext :=
  contextOf (utf8 "私もも。も行く。") momoTwoTokens

/-- An extractor pair for a document whose parse has one text node, bytes
[5,20), and one comment node, bytes [21,32) of the text. -/
def oneCommentExtractors : Extractors :=
  { extractComments := fun _ text =>
      [⟨21, 32, sanitizeComment (substr text 21 (32 - 21)) (some (utf8 "comment"))⟩]
    collectHtmlContentRanges := fun _ => [⟨5, 20⟩] }

/-- The maps of a server that has one open document, of the given language,
under every uri. -/
def mapsOfLanguage (languageId : Bytes) : DocMaps :=
  ⟨fun _ => some languageId, fun _ => some [], fun _ => some []⟩

/-- An HTML text with a line break between its text node and its comment. -/
def htmlText : Bytes := utf8 "<div>こんにちは\n<!-- hi -->\r\n</div>"

/-! ## Specification-side definitions for the rule engine -/

/-- The configuration in which rule number `k` (0 comma limit, 1 adversative
が, 2 duplicate particle surface, 3 adjacent particles, 4 conjunction
repetition, 5 ra-dropping) keeps its toggle and every other rule is switched
off; thresholds and the rest of the configuration are unchanged. -/
def onlyRule (config : MoZukuConfig) (k : Nat) : MoZukuConfig :=
  { config with
    analysis := { config.analysis with
      rules := { config.analysis.rules with
        commaLimit := config.analysis.rules.commaLimit && k == 0
        adversativeGa := config.analysis.rules.adversativeGa && k == 1
        duplicateParticleSurface := config.analysis.rules.duplicateParticleSurface && k == 2
        adjacentParticles := config.analysis.rules.adjacentParticles && k == 3
        conjunctionRepeat := config.analysis.rules.conjunctionRepeat && k == 4
        raDropping := config.analysis.rules.raDropping && k == 5 } } }

/-- The rule context that `checkGrammar` builds. -/
def grammarContext (text : Bytes) (tokens : List TokenData)
    (sentences : List SentenceBoundary) : RuleContext :=
  ⟨text, tokens, sentences, computeLineStarts text,
    computeTokenBytePositions tokens text (computeLineStarts text), 2⟩

/-! ## lsp.cpp: the semantic token stream -/

/-- The legend `tokenTypes_` that the constructor of `LSPServer` sets. -/
def tokenTypes : List Bytes :=
  [utf8 "noun", utf8 "verb", utf8 "adjective", utf8 "adverb",
   utf8 "particle", utf8 "aux", utf8 "conjunction", utf8 "symbol",
   utf8 "interj", utf8 "prefix", utf8 "suffix", utf8 "unknown"]

/-- `std::find(first, last, tokenType)` on the names from index `i` on: the
index of the first name equal to `tokenType`, or `none` for `last`. -/
def findTokenType (tokenType : Bytes) : List Bytes → Nat → Option Nat
  | [], _ => none
  | name :: rest, i =>
    if name = tokenType then some i else findTokenType tokenType rest (i + 1)

/-- The `typeIndex` of `buildSemanticTokensFromTokens`: the distance from the
start of the legend to the name found, or 0 when none is found. -/
def typeIndex (tokenType : Bytes) : Int :=
  match findTokenType tokenType tokenTypes 0 with
  | some i => i
  | none => 0

/-- The value of type `int` that the result of a subtraction of two `int`
values is: the difference reduced modulo 2^32 into [−2^31, 2^31), as the
two's-complement arithmetic of the compiled code does. A difference that lies
in that range is not changed. -/
def wrapInt (x : Int) : Int :=
  (x + 2147483648) % 4294967296 - 2147483648

/-- The loop of `LSPServer::buildSemanticTokensFromTokens` on the state
`prevLine`, `prevChar` and `data`; the three subtractions are those of
`int`. -/
def buildSemanticTokensLoop : List TokenData → Int → Int → List Int → List Int
  | [], _, _, data => data
  | token :: rest, prevLine, prevChar, data =>
    let deltaLine : Int := wrapInt (token.line - prevLine)
    let deltaChar : Int :=
      if deltaLine = 0 then wrapInt (token.startChar - prevChar) else token.startChar
    buildSemanticTokensLoop rest token.line token.startChar
      (data ++ [deltaLine, deltaChar, wrapInt (token.endChar - token.startChar),
        typeIndex token.tokenType, token.tokenModifiers])

/-- `LSPServer::buildSemanticTokensFromTokens`: the JSON array of integers. -/
def buildSemanticTokensFromTokens (tokens : List TokenData) : List Int :=
  buildSemanticTokensLoop tokens 0 0 []

/-! ## Specification-side definitions for the semantic token stream -/

/-- The decoder of a semantic token stream from the position `(line, column)`
reached so far: `line += deltaLine`, and the column is the previous column
plus `deltaStart` when `deltaLine = 0`, else `deltaStart`. -/
def decodeSemanticTokens : List Int → Int → Int → List (Int × Int)
  | deltaLine :: deltaStart :: _ :: _ :: _ :: rest, line, column =>
    let line1 := line + deltaLine
    let column1 := if deltaLine = 0 then column + deltaStart else deltaStart
    (line1, column1) :: decodeSemanticTokens rest line1 column1
  | _, _, _ => []

/-- A value of type `int`. -/
def InIntRange (x : Int) : Prop := -2147483648 ≤ x ∧ x < 2147483648

/-! ## lsp.cpp: the diagnostic cache -/

/-- The `std::unordered_map<int, std::vector<Diagnostic>>` of one document:
its entries, at most one of a line, in the order in which the map is
iterated. The standard leaves that order open; here a new key goes to the
end. -/
abbrev LineCache := List (Nat × List Diagnostic)

/-- The member `docDiagnostics_`: `none` is a uri that is not in the map. -/
abbrev DiagnosticCache := Bytes → Option LineCache

/-- The statement `lineCache[line].push_back(diag)`: the diagnostic is added to
the vector of the line, which is created empty when the line is not a key. -/
def pushDiagnostic (diag : Diagnostic) (line : Nat) : LineCache → LineCache
  | [] => [(line, [diag])]
  | entry :: rest =>
    if entry.1 = line then (entry.1, entry.2 ++ [diag]) :: rest
    else entry :: pushDiagnostic diag line rest

/-- The loop of `cacheDiagnostics` over the diagnostics. -/
def cacheLoop : List Diagnostic → LineCache → LineCache
  | [], lineCache => lineCache
  | diag :: rest, lineCache =>
    cacheLoop rest (pushDiagnostic diag diag.range.start.line lineCache)

/-- `LSPServer::cacheDiagnostics`: the map of the uri is cleared (and created
when the uri is new), then filled. -/
def cacheDiagnostics (cache : DiagnosticCache) (uri : Bytes) (diags : List Diagnostic) :
    DiagnosticCache :=
  mapSet cache uri (some (cacheLoop diags []))

/-- The loop of `removeDiagnosticsForLines` over the lines of the set:
`uriDiags.erase(line)`. -/
def eraseLines : List Nat → LineCache → LineCache
  | [], lineCache => lineCache
  | line :: rest, lineCache => eraseLines rest (lineCache.filter (fun entry => entry.1 ≠ line))

/-- `LSPServer::removeDiagnosticsForLines`; `lines` holds the elements of the
`std::set<int>`. -/
def removeDiagnosticsForLines (cache : DiagnosticCache) (uri : Bytes) (lines : List Nat) :
    DiagnosticCache :=
  match cache uri with
  | none => cache
  | some uriDiags => mapSet cache uri (some (eraseLines lines uriDiags))

/-- `LSPServer::getAllDiagnostics`: the vectors of all lines of the uri, one
after the other. -/
def getAllDiagnostics (cache : DiagnosticCache) (uri : Bytes) : List Diagnostic :=
  match cache uri with
  | none => []
  | some uriDiags => uriDiags.flatMap (fun entry => entry.2)

/-! ## Specification-side definitions for the diagnostic cache -/

/-- A diagnostic on the given line with the given message. -/
def diagnosticOnLine (line : Nat) (message : Message) : Diagnostic :=
  ⟨⟨⟨line, 0⟩, ⟨line, 1⟩⟩, 2, message⟩

/-- Every diagnostic of a line cache is filed under its own line. -/
def LineCacheSorted (lineCache : LineCache) : Prop :=
  ∀ entry ∈ lineCache, ∀ d ∈ entry.2, d.range.start.line = entry.1

/-! ## lsp.cpp: the changed lines -/

/-- One call `std::getline(stream, line)` on a stream that still holds bytes:
the bytes before the first newline form the line, the newline is taken off
the stream and dropped; at the end of the stream the line ends too. The
result is the line and the rest of the stream. -/
def getline : Bytes → Bytes → Bytes × Bytes
  | [], line => (line, [])
  | c :: rest, line => if c = 10 then (line, rest) else getline rest (line ++ [c])

/-- The loop `while (std::getline(stream, line)) lines.push_back(line)`: a call
on a stream with no byte left fails and ends the loop. Every round takes at
least one byte off the stream, and the counter bounds the bytes left. -/
def getlineLoop : Nat → Bytes → List Bytes → List Bytes
  | 0, _, lines => lines
  | left + 1, stream, lines =>
    if stream = [] then lines
    else getlineLoop left (getline stream []).2 (lines ++ [(getline stream []).1])

/-- The lines that the first loops of `findChangedLines` read from a text. -/
def readLines (text : Bytes) : List Bytes :=
  getlineLoop text.length text []

/-- The last loop of `findChangedLines` from index `i` on; the counter is
`maxLines - i`, and the set is held as the list of its elements in
increasing order. -/
def changedLinesLoop (oldLines newLines : List Bytes) : Nat → Nat → List Nat → List Nat
  | 0, _, changedLines => changedLines
  | left + 1, i, changedLines =>
    let oldExists : Bool := i < oldLines.length
    let newExists : Bool := i < newLines.length
    if (!oldExists) ∨ (!newExists) ∨ oldLines.getD i [] ≠ newLines.getD i [] then
      changedLinesLoop oldLines newLines left (i + 1) (changedLines ++ [i])
    else changedLinesLoop oldLines newLines left (i + 1) changedLines

/-- `LSPServer::findChangedLines`. -/
def findChangedLines (oldText newText : Bytes) : List Nat :=
  let oldLines := readLines oldText
  let newLines := readLines newText
  let maxLines := max oldLines.length newLines.length
  changedLinesLoop oldLines newLines maxLines 0 []

/-! ## lsp.cpp: the document store -/

/-- One element of the array `contentChanges`: its `range`, when it has one,
and its `text`. -/
structure ContentChange where
  range : Option Range := none
  text : Bytes := []
deriving DecidableEq, Repr

/-- `s.replace(pos, len, str)` of `std::string`: `len` is cut to the bytes
left after `pos`, and `none` stands for the exception `std::out_of_range`,
thrown when `pos > s.size()`. -/
def stringReplace (s : Bytes) (pos len : Nat) (str : Bytes) : Option Bytes :=
  if pos > s.length then none
  else some (s.take pos ++ str ++ s.drop (pos + min len (s.length - pos)))

/-- The body of the loop of `onDidChange` (lines 574-591): one change
applied to the text as it stands. -/
def applyChange (text : Bytes) (change : ContentChange) : Option Bytes :=
  match change.range with
  | some range =>
    let startOffset := computeByteOffset text range.start.line range.start.character
    let endOffset := computeByteOffset text range.end_.line range.end_.character
    stringReplace text startOffset (subSizeT endOffset startOffset) change.text
  | none => some change.text

/-- The loop of `onDidChange` over the changes in the order in which the
iterator yields them. -/
def applyChangesLoop : List ContentChange → Bytes → Option Bytes
  | [], text => some text
  | change :: rest, text =>
    match applyChange text change with
    | none => none
    | some text1 => applyChangesLoop rest text1

/-- `LSPServer::onDidChange` up to the call of `analyzeChangedLines`: the new
content of `docs_`, with `changes` the array `contentChanges`, which the loop
goes through from `rbegin()` to `rend()`. `docs_[uri]` is the empty string
when the uri is new. -/
def onDidChange (docs : Bytes → Option Bytes) (uri : Bytes) (changes : List ContentChange) :
    Option (Bytes → Option Bytes) :=
  match applyChangesLoop changes.reverse ((docs uri).getD []) with
  | none => none
  | some text => some (mapSet docs uri (some text))

/-! ## lsp.cpp: the semantic-token requests -/

/-- The members of `LSPServer` that the semantic-token requests read or
write: `docs_`, the three maps of `DocMaps`, and `docTokens_`. -/
structure ServerState where
  docs : Bytes → Option Bytes
  maps : DocMaps
  docTokens : Bytes → Option (List TokenData)

/-- `LSPServer::buildSemanticTokens(uri)`: the array and the new state.
`analyzeText` is `Analyzer::analyzeText` of the initialized analyzer, which
runs MeCab and is not among the sources: it is a parameter. -/
def buildSemanticTokens (ext : Extractors) (analyzeText : Bytes → List TokenData)
    (s : ServerState) (uri : Bytes) : List Int × ServerState :=
  match s.docs uri with
  | none => ([], s)
  | some text =>
    match s.docTokens uri with
    | some tokens => (buildSemanticTokensFromTokens tokens, s)
    | none =>
      let prepared := prepareAnalysisText ext s.maps uri text
      let tokens := analyzeText prepared.1
      (buildSemanticTokensFromTokens tokens,
        { s with maps := prepared.2, docTokens := mapSet s.docTokens uri (some tokens) })

/-- The member `result` of the response to a semantic-token request: `null`,
or an object whose member `data` is an array of integers. The other members
of the response are "jsonrpc" and the `id` of the request. -/
inductive TokensResult where
  | null
  | data (tokens : List Int)
deriving DecidableEq, Repr

/-- `LSPServer::onSemanticTokensFull`: the `result` of the response and the new
state; `uri` is `params["textDocument"]["uri"]`. -/
def onSemanticTokensFull (ext : Extractors) (analyzeText : Bytes → List TokenData)
    (s : ServerState) (uri : Bytes) : TokensResult × ServerState :=
  match s.docs uri with
  | none => (TokensResult.null, s)
  | some _ =>
    match s.maps.docLanguages uri with
    | none => (TokensResult.null, s)
    | some languageId =>
      if languageId ≠ utf8 "japanese" then (TokensResult.null, s)
      else
        let tokens := buildSemanticTokens ext analyzeText s uri
        (TokensResult.data tokens.1, tokens.2)

/-- `LSPServer::onSemanticTokensRange`: the same statements as
`onSemanticTokensFull`; `range` is `params["range"]`, which the function does
not read. -/
def onSemanticTokensRange (ext : Extractors) (analyzeText : Bytes → List TokenData)
    (s : ServerState) (uri : Bytes) (_range : Range) : TokensResult × ServerState :=
  match s.docs uri with
  | none => (TokensResult.null, s)
  | some _ =>
    match s.maps.docLanguages uri with
    | none => (TokensResult.null, s)
    | some languageId =>
      if languageId ≠ utf8 "japanese" then (TokensResult.null, s)
      else
        let tokens := buildSemanticTokens ext analyzeText s uri
        (TokensResult.data tokens.1, tokens.2)

/-! ## The two extractors on the nodes that the parser reports -/

/-- The loop of `collectHtmlContentRanges` that moves `trimmedStart` forward
over white space (lines 187-190); the counter bounds the bytes left. -/
def htmlTrimStart (text : Bytes) (end_ : Nat) : Nat → Nat → Nat
  | 0, trimmedStart => trimmedStart
  | left + 1, trimmedStart =>
    if trimmedStart < end_ ∧ isspaceC (text.getD trimmedStart 0) = true then
      htmlTrimStart text end_ left (trimmedStart + 1)
    else trimmedStart

/-- The loop of `collectHtmlContentRanges` that moves `trimmedEnd` backward
over white space (lines 192-195). -/
def htmlTrimEnd (text : Bytes) (trimmedStart : Nat) : Nat → Nat → Nat
  | 0, trimmedEnd => trimmedEnd
  | left + 1, trimmedEnd =>
    if trimmedEnd > trimmedStart ∧ isspaceC (text.getD (trimmedEnd - 1) 0) = true then
      htmlTrimEnd text trimmedStart left (trimmedEnd - 1)
    else trimmedEnd

/-- What `collectHtmlContentRanges` does with one node of type "text" that
spans the bytes `[start, end_)` (lines 182-199): the trimmed range it pushes,
if any. -/
def trimTextNode (text : Bytes) (start end_ : Nat) : Option ByteRange :=
  if start ≥ end_ ∨ end_ > text.length then none
  else
    let trimmedStart := htmlTrimStart text end_ (end_ - start) start
    let trimmedEnd := htmlTrimEnd text trimmedStart (end_ - trimmedStart) end_
    if trimmedEnd > trimmedStart then some ⟨trimmedStart, trimmedEnd⟩ else none

/-- `collectHtmlContentRanges(text)` when the walk over the parse tree meets
the text nodes `textNodes`, each given by its start and end byte, in this
order. -/
def htmlContentRangesOf (text : Bytes) (textNodes : List (Nat × Nat)) : List ByteRange :=
  textNodes.filterMap (fun node => trimTextNode text node.1 node.2)

/-- What `extractComments` does with one node whose type contains "comment"
and that spans the bytes `[start, end_)` (lines 274-286): the segment it
pushes, if any. -/
def commentSegmentOf (text : Bytes) (start end_ : Nat) (nodeType : Bytes) :
    Option CommentSegment :=
  if start < end_ ∧ end_ ≤ text.length then
    some ⟨start, end_, sanitizeComment (substr text start (end_ - start)) (some nodeType)⟩
  else none

/-- `extractComments(languageId, text)` when the walk over the parse tree
meets the comment nodes `commentNodes`, each given by its start byte, end
byte and type, in this order. -/
def commentSegmentsOf (text : Bytes) (commentNodes : List (Nat × Nat × Bytes)) :
    List CommentSegment :=
  commentNodes.filterMap (fun node => commentSegmentOf text node.1 node.2.1 node.2.2)

/-- The two extractors for a parser that reports the given text nodes and
comment nodes. -/
def extractorsOfParse (textNodes : List (Nat × Nat))
    (commentNodes : List (Nat × Nat × Bytes)) : Extractors :=
  { extractComments := fun _ text => commentSegmentsOf text commentNodes
    collectHtmlContentRanges := fun text => htmlContentRangesOf text textNodes }

/-- The HTML text of the scenario: 37 bytes. -/
def divText : Bytes := utf8 "<div>こんにちは<!-- hi --></div>"

/-- The maps of a server in which `languageId` is recorded for every uri and
nothing else is. -/
def mapsWithLanguage (languageId : Bytes) : DocMaps :=
  ⟨fun _ => some languageId, fun _ => none, fun _ => none⟩

/-! ## Specification-side definitions for the LaTeX content ranges -/

/-- A byte of the name of a control sequence: a letter or `@`. -/
def isNameByte (c : Nat) : Bool := isalphaC c || decide (c = 64)

/-- Byte `k` of the text belongs to a control sequence: it is a backslash, or
one of the letters or `@` that follow a backslash without a gap, or the `*`
right after these. -/
def InControlSequence (text : Bytes) (k : Nat) : Prop :=
  ∃ b, b ≤ k ∧ text.getD b 0 = 92
    ∧ (∀ m, b < m → m < k → isNameByte (text.getD m 0) = true)
    ∧ (k = b ∨ isNameByte (text.getD k 0) = true ∨ text.getD k 0 = 42)

/-- Byte `k` is a name byte that follows a backslash without a gap. -/
def InCommandName (text : Bytes) (k : Nat) : Prop :=
  isNameByte (text.getD k 0) = true
    ∧ ∃ b, b < k ∧ text.getD b 0 = 92 ∧ ∀ m, b < m → m < k → isNameByte (text.getD m 0) = true

/-- A byte that a content run may hold: a byte of a multi-byte character, or
an ASCII byte that is neither white space nor punctuation. -/
def isContentByte (c : Nat) : Bool :=
  decide (c ≥ 0x80) || (!isspaceC c && !ispunctC c)

/-- Every byte that `utf8CharLen` takes for the lead byte of a character of 2
to 4 bytes is followed in the text by the bytes it announces, none of them
ASCII. Well-formed UTF-8 has this property. -/
def LeadsComplete (text : Bytes) : Prop :=
  ∀ i, i < text.length → ∀ j, 0 < j → j < utf8CharLen (text.getD i 0) →
    i + j < text.length ∧ text.getD (i + j) 0 ≥ 0x80

/-- One round of the outer loop of `collectLatexContentRanges` at `i`: `none`
for a `break`, else the new `i` and the range pushed, if any. -/
def latexStep (text : Bytes) (i : Nat) : Option (Nat × Option ByteRange) :=
  let c := text.getD i 0
  if c = 37 ∧ isEscaped text i = false then
    match findByte text 10 i with
    | none => none
    | some lineEnd => some (lineEnd + 1, none)
  else if c = 36 ∧ isEscaped text i = false then
    if i + 1 < text.length ∧ text.getD (i + 1) 0 = 36 then
      match findClosingDoubleDollar text (i + 2) with
      | none => none
      | some closing => some (closing + 2, none)
    else
      match findClosingDollar text (i + 1) with
      | none => none
      | some closing => some (closing + 1, none)
  else if c = 92 then
    let i1 := skipCommandName text text.length (i + 1)
    some (if i1 < text.length ∧ text.getD i1 0 = 42 then i1 + 1 else i1, none)
  else if c = 123 ∨ c = 125 then some (i + 1, none)
  else if isspaceC c = true then some (i + 1, none)
  else
    let r := scanContent text text.length i false
    if r.2 = true then some (r.1, some ⟨i, r.1⟩) else some (r.1 + 1, none)

/-! ## text_processor.cpp: `sanitizeUTF8` -/

/-- The loop of `TextProcessor::isValidUtf8Sequence` over the continuation
bytes, from index `j` on; the counter bounds the bytes left. -/
def validContinuations (input : Bytes) (pos seqLen : Nat) : Nat → Nat → Bool
  | 0, _ => true
  | left + 1, j =>
    if j < seqLen then
      if input.getD (pos + j) 0 &&& 0xC0 ≠ 0x80 then false
      else validContinuations input pos seqLen left (j + 1)
    else true

/-- `TextProcessor::isValidUtf8Sequence`. -/
def isValidUtf8Sequence (input : Bytes) (pos seqLen : Nat) : Bool :=
  if pos + seqLen > input.length then false
  else validContinuations input pos seqLen seqLen 1

/-- The loop of `TextProcessor::sanitizeUTF8` (lines 26-68) on the state `i`
and `result`; the counter bounds the bytes left. -/
def sanitizeLoop (input : Bytes) : Nat → Nat → Bytes → Bytes
  | 0, _, result => result
  | left + 1, i, result =>
    if i < input.length then
      let c := input.getD i 0
      if c < 0x80 then
        if c ≥ 0x20 ∨ c = 0x09 ∨ c = 0x0A ∨ c = 0x0D then
          sanitizeLoop input left (i + 1) (result ++ [c])
        else sanitizeLoop input left (i + 1) result
      else
        let seqLen : Nat :=
          if c &&& 0xE0 = 0xC0 then 2
          else if c &&& 0xF0 = 0xE0 then 3
          else if c &&& 0xF8 = 0xF0 then 4
          else 0
        if seqLen = 0 then sanitizeLoop input left (i + 1) result
        else if i + seqLen > input.length then result
        else if isValidUtf8Sequence input i seqLen = true then
          sanitizeLoop input left (i + seqLen) (result ++ substr input i seqLen)
        else sanitizeLoop input left (i + 1) result
    else result

/-- `TextProcessor::sanitizeUTF8`. -/
def sanitizeUTF8 (input : Bytes) : Bytes :=
  if input = [] then input else sanitizeLoop input input.length 0 []

/-! ## pos_analyzer.cpp: display category and modifiers -/

/-- `POSAnalyzer::mapPosToType(feature)`; `none` is a null pointer, and the
string of a `const char *` ends at its first NUL byte. -/
def mapPosToType (feature : Option Bytes) : Bytes :=
  match feature with
  | none => utf8 "unknown"
  | some feature =>
    let f := sanitizeUTF8 (cstr feature)
    let pos := match findByte f 44 0 with
      | none => f
      | some p => substr f 0 p
    if (findSub pos (utf8 "名詞") 0).isSome then utf8 "noun"
    else if (findSub pos (utf8 "動詞") 0).isSome then utf8 "verb"
    else if (findSub pos (utf8 "形容詞") 0).isSome then utf8 "adjective"
    else if (findSub pos (utf8 "副詞") 0).isSome then utf8 "adverb"
    else if (findSub pos (utf8 "助詞") 0).isSome then utf8 "particle"
    else if (findSub pos (utf8 "助動詞") 0).isSome then utf8 "aux"
    else if (findSub pos (utf8 "接続詞") 0).isSome then utf8 "conjunction"
    else if (findSub pos (utf8 "記号") 0).isSome then utf8 "symbol"
    else if (findSub pos (utf8 "感動詞") 0).isSome then utf8 "interj"
    else if (findSub pos (utf8 "接頭詞") 0).isSome then utf8 "prefix"
    else if (findSub pos (utf8 "接尾") 0).isSome then utf8 "suffix"
    else utf8 "unknown"

/-- The three flags of `analyzeCharacterTypes`. -/
structure CharacterTypes where
  hasKana : Bool := false
  hasKanji : Bool := false
  hasNumber : Bool := false
deriving DecidableEq, Repr

/-- The loop of `POSAnalyzer::analyzeCharacterTypes` from index `i` on; the
counter bounds the bytes left. -/
def analyzeCharacterTypesLoop (text : Bytes) (end_ : Nat) :
    Nat → Nat → CharacterTypes → CharacterTypes
  | 0, _, flags => flags
  | left + 1, i, flags =>
    if i < end_ then
      let c := text.getD i 0
      if c ≥ 48 ∧ c ≤ 57 then
        analyzeCharacterTypesLoop text end_ left (i + 1) { flags with hasNumber := true }
      else if c < 0x80 then analyzeCharacterTypesLoop text end_ left (i + 1) flags
      else if i + 2 < end_ then
        let c1 := text.getD i 0
        let c2 := text.getD (i + 1) 0
        if c1 = 0xE3 ∧ (c2 = 0x81 ∨ c2 = 0x82) then
          analyzeCharacterTypesLoop text end_ left (i + 3) { flags with hasKana := true }
        else if c1 = 0xE3 ∧ (c2 = 0x82 ∨ c2 = 0x83) then
          analyzeCharacterTypesLoop text end_ left (i + 3) { flags with hasKana := true }
        else if c1 ≥ 0xE4 ∧ c1 ≤ 0xE9 then
          analyzeCharacterTypesLoop text end_ left (i + 3) { flags with hasKanji := true }
        else analyzeCharacterTypesLoop text end_ left (i + 1) flags
      else analyzeCharacterTypesLoop text end_ left (i + 1) flags
    else flags

/-- `POSAnalyzer::analyzeCharacterTypes`: the three flags. -/
def analyzeCharacterTypes (text : Bytes) (start length : Nat) : CharacterTypes :=
  let end_ := min (start + length) text.length
  analyzeCharacterTypesLoop text end_ (end_ - start) start {}

/-- `POSAnalyzer::computeModifiers(text, start, length, feature)`; `none` is a
null pointer. -/
def computeModifiers (text : Bytes) (start length : Nat) (feature : Option Bytes) : Nat :=
  let flags := analyzeCharacterTypes text start length
  let m1 := if flags.hasKana then 0 ||| 0x01 else 0
  let m2 := if flags.hasKanji then m1 ||| 0x02 else m1
  let m3 := if flags.hasNumber then m2 ||| 0x04 else m2
  match feature with
  | none => m3
  | some feature =>
    let f := cstr feature
    let m4 := if (findSub f (utf8 "固有名詞") 0).isSome then m3 ||| 0x08 else m3
    if (findSub f (utf8 "動詞") 0).isSome ∧ (findSub f (utf8 "自立") 0).isSome then
      m4 ||| 0x10
    else m4

/-- The constants of the namespace `MoZukuModifiers` of `analyzer.hpp`:
`Proper`, `Numeric`, `Kana` and `Kanji`. -/
def modifierProper : Nat := 1 <<< 0

/-- `MoZukuModifiers::Numeric`. -/
def modifierNumeric : Nat := 1 <<< 1

/-- `MoZukuModifiers::Kana`. -/
def modifierKana : Nat := 1 <<< 2

/-- `MoZukuModifiers::Kanji`. -/
def modifierKanji : Nat := 1 <<< 3

/-- The legend `tokenModifiers_` that the constructor of `LSPServer` sets: the
name at index `k` stands for bit `k`. -/
def tokenModifiers : List Bytes :=
  [utf8 "proper", utf8 "numeric", utf8 "kana", utf8 "kanji"]

/-! ## Specification-side definitions for the last claims -/

/-- The text with a final newline added when it is not empty and does not end
in one: the form in which `std::getline` cannot tell two texts apart. -/
def terminate : Bytes → Bytes
  | [] => []
  | c :: rest =>
    if rest = [] then (if c = 10 then [c] else [c, 10]) else c :: terminate rest

/-- A sentence boundary starts at byte `k`: a newline, a tab, or one of the
marks 。 ？ ！ lying wholly in the text. -/
def isBoundary (text : Bytes) (k : Nat) : Bool :=
  text.getD k 0 = 10 ∨ text.getD k 0 = 9 ∨ isJapanesePunctuation text k

/-- The bytes of the boundary that starts at `k`: one for a newline or a tab,
three for a punctuation mark. -/
def boundaryWidth (text : Bytes) (k : Nat) : Nat :=
  if text.getD k 0 = 10 ∨ text.getD k 0 = 9 then 1 else 3

/-- The lexicographic order on positions: by line, then by character. -/
def positionLe (p q : Position) : Prop :=
  p.line < q.line ∨ (p.line = q.line ∧ p.character ≤ q.character)

instance (p q : Position) : Decidable (positionLe p q) := by
  unfold positionLe
  infer_instance

/-- The span `[start, end_)` ends right after the earliest boundary at or
after `start`, or at the end of the text when no boundary follows `start`. -/
def EndsAtFirstBoundary (text : Bytes) (start end_ : Nat) : Prop :=
  (∃ k, start ≤ k ∧ k < text.length ∧ isBoundary text k = true
      ∧ (∀ j, start ≤ j → j < k → isBoundary text j = false)
      ∧ end_ = k + boundaryWidth text k)
  ∨ ((∀ j, start ≤ j → j < text.length → isBoundary text j = false)
      ∧ end_ = text.length)

/-- The raw span is discarded: nothing is left of its text after trimming. -/
def isDiscarded (text : Bytes) (span : Nat × Nat) : Bool :=
  decide (trimSpec (substr text span.1 (span.2 - span.1)) = [])

/-- The text split into lines at '\n': every newline ends a line and opens the
next one, so a text with n newlines has n + 1 lines, the last one empty when
the text is empty or ends in a newline. -/
def splitLines : Bytes → List Bytes
  | [] => [[]]
  | c :: rest =>
    if c = 10 then [] :: splitLines rest
    else (c :: (splitLines rest).headD []) :: (splitLines rest).tail

/-! ## Progress of the segmenter loops -/

theorem skipWhitespaceAux_ge (text : Bytes) (left pos : Nat) :
    pos ≤ skipWhitespaceAux text left pos := by
  induction left generalizing pos with
  | zero => simp [skipWhitespaceAux]
  | succ n ih =>
    unfold skipWhitespaceAux
    split
    · exact Nat.le_trans (Nat.le_succ pos) (ih (pos + 1))
    · exact Nat.le_refl pos

theorem skipWhitespace_ge (text : Bytes) (pos : Nat) : pos ≤ skipWhitespace text pos :=
  skipWhitespaceAux_ge text 100 pos

theorem scanBoundary_ge (text : Bytes) (maxSearch left end_ : Nat) :
    end_ ≤ scanBoundary text maxSearch left end_ := by
  induction left generalizing end_ with
  | zero => simp [scanBoundary]
  | succ n ih =>
    unfold scanBoundary
    split_ifs <;> first | omega | exact Nat.le_trans (Nat.le_succ end_) (ih (end_ + 1))

theorem scanBoundary_gt (text : Bytes) (maxSearch left end_ : Nat)
    (h : end_ < maxSearch) : end_ < scanBoundary text maxSearch (left + 1) end_ := by
  unfold scanBoundary
  split_ifs <;> first | omega | exact Nat.lt_of_lt_of_le (Nat.lt_succ_self end_) (scanBoundary_ge text maxSearch left (end_ + 1))

theorem findSentenceEnd_gt (text : Bytes) (start : Nat) (h : start < text.length) :
    start < findSentenceEnd text start := by
  have hm : start < min text.length (start + 10000) := by
    simp only [lt_min_iff]; omega
  obtain ⟨n, hn⟩ : ∃ n, min text.length (start + 10000) - start = n + 1 :=
    ⟨min text.length (start + 10000) - start - 1, by omega⟩
  have := scanBoundary_gt text (min text.length (start + 10000)) n start hm
  rw [← hn] at this
  simp only [findSentenceEnd]
  split_ifs <;> omega

/-- The counter of `splitLoop` is never used up: any counter that is at
least the number of bytes left gives the same list. -/
theorem splitLoop_counter (text : Bytes) (left1 left2 start sentenceId : Nat)
    (sentences : List SentenceBoundary)
    (h1 : text.length - start ≤ left1) (h2 : text.length - start ≤ left2) :
    splitLoop text left1 start sentenceId sentences
      = splitLoop text left2 start sentenceId sentences := by
  induction left1 generalizing left2 start sentenceId sentences with
  | zero =>
    have hs : ¬ start < text.length := by omega
    cases left2 with
    | zero => rfl
    | succ m => simp [splitLoop, hs]
  | succ n ih =>
    cases left2 with
    | zero =>
      have hs : ¬ start < text.length := by omega
      simp [splitLoop, hs]
    | succ m =>
      unfold splitLoop
      by_cases hs : start < text.length
      · simp only [hs, if_true]
        have hgt := findSentenceEnd_gt text start hs
        have hge := skipWhitespace_ge text (findSentenceEnd text start)
        split_ifs
        · rfl
        · exact ih m _ _ _ (by omega) (by omega)
      · simp [hs]

/-! ## Trimming: the index loops against the list operations -/

theorem isLeadingBlank_iff (b : Nat) :
    isLeadingBlank b = true ↔ (b = 32 ∨ b = 9 ∨ b = 13) := by
  simp [isLeadingBlank, or_assoc]

theorem isTrailingBlank_iff (b : Nat) :
    isTrailingBlank b = true ↔ (b = 32 ∨ b = 9 ∨ b = 13 ∨ b = 10) := by
  simp [isTrailingBlank, or_assoc]

theorem drop_length_takeWhile (p : Nat → Bool) (l : Bytes) :
    l.drop (l.takeWhile p).length = l.dropWhile p := by
  induction l with
  | nil => rfl
  | cons a t ih =>
    by_cases h : p a = true
    · simp [List.takeWhile_cons_of_pos h, List.dropWhile_cons_of_pos h, ih]
    · simp [List.takeWhile_cons_of_neg h, List.dropWhile_cons_of_neg h]

theorem drop_eq_getD_cons (s : Bytes) (i : Nat) (h : i < s.length) :
    s.drop i = s.getD i 0 :: s.drop (i + 1) := by
  rw [List.drop_eq_getElem_cons h]
  simp [List.getD_eq_getElem?_getD, List.getElem?_eq_getElem h]

theorem trimStartAux_eq (s : Bytes) (left textStart : Nat)
    (hl : s.length - textStart ≤ left) :
    trimStartAux s left textStart
      = textStart + ((s.drop textStart).takeWhile isLeadingBlank).length := by
  induction left generalizing textStart with
  | zero =>
    have : s.drop textStart = [] := List.drop_eq_nil_of_le (by omega)
    simp [trimStartAux, this]
  | succ n ih =>
    unfold trimStartAux
    by_cases hlt : textStart < s.length
    · rw [drop_eq_getD_cons s textStart hlt]
      by_cases hb : isLeadingBlank (s.getD textStart 0) = true
      · have hb2 := (isLeadingBlank_iff _).mp hb
        rw [if_pos ⟨hlt, hb2⟩, ih (textStart + 1) (by omega), List.takeWhile_cons_of_pos hb]
        simp; omega
      · have hb2 := fun h => hb ((isLeadingBlank_iff _).mpr h)
        rw [if_neg (fun h => hb2 h.2), List.takeWhile_cons_of_neg hb]
        simp
    · have : s.drop textStart = [] := List.drop_eq_nil_of_le (by omega)
      rw [if_neg (fun h => hlt h.1), this]
      simp

theorem take_succ_eq_getD (l : Bytes) (n : Nat) (h : n < l.length) :
    l.take (n + 1) = l.take n ++ [l.getD n 0] := by
  rw [List.take_succ]
  simp [List.getD_eq_getElem?_getD, List.getElem?_eq_getElem h]

theorem trimEndAux_spec (s : Bytes) (textStart left textEnd : Nat)
    (hl : textEnd - textStart ≤ left) (hs : textStart ≤ textEnd) (he : textEnd ≤ s.length) :
    textStart ≤ trimEndAux s textStart left textEnd
    ∧ trimEndAux s textStart left textEnd ≤ textEnd
    ∧ (s.drop textStart).take (trimEndAux s textStart left textEnd - textStart)
        = ((s.drop textStart).take (textEnd - textStart)).rdropWhile isTrailingBlank := by
  induction left generalizing textEnd with
  | zero =>
    have : textEnd - textStart = 0 := by omega
    simp [trimEndAux, this, hs]
  | succ n ih =>
    unfold trimEndAux
    by_cases hgt : textEnd > textStart
    · obtain ⟨m, hm⟩ : ∃ m, textEnd - textStart = m + 1 := ⟨textEnd - textStart - 1, by omega⟩
      have hm1 : textEnd - 1 - textStart = m := by omega
      have hlen : m < (s.drop textStart).length := by simp; omega
      have hget : (s.drop textStart).getD m 0 = s.getD (textEnd - 1) 0 := by
        simp [List.getD_eq_getElem?_getD, List.getElem?_drop]
        congr 2; omega
      by_cases hb : isTrailingBlank (s.getD (textEnd - 1) 0) = true
      · have hb2 := (isTrailingBlank_iff _).mp hb
        rw [if_pos ⟨hgt, hb2⟩]
        obtain ⟨i1, i2, i3⟩ := ih (textEnd - 1) (by omega) (by omega) (by omega)
        refine ⟨i1, by omega, ?_⟩
        rw [i3, hm, hm1, take_succ_eq_getD _ _ hlen, hget, List.rdropWhile_concat_pos _ _ _ hb]
      · have hb2 := fun h => hb ((isTrailingBlank_iff _).mpr h)
        rw [if_neg (fun h => hb2 h.2)]
        refine ⟨hs, Nat.le_refl _, ?_⟩
        rw [hm, take_succ_eq_getD _ _ hlen, hget, List.rdropWhile_concat_neg _ _ _ hb]
    · rw [if_neg (fun h => hgt h.1)]
      have : textEnd - textStart = 0 := by omega
      simp [this, hs]

/-- The block that creates a sentence, in terms of `trimSpec`: the counter
always moves on, and the sentence is pushed exactly when the trimmed raw span
is not empty. -/
theorem createSentence_eq (text : Bytes) (start end_ sentenceId : Nat)
    (sentences : List SentenceBoundary) :
    createSentence text start end_ sentenceId sentences
      = (sentenceId + 1,
          if trimSpec (substr text start (end_ - start)) = [] then sentences
          else sentences ++ [⟨start, end_, sentenceId,
                  trimSpec (substr text start (end_ - start))⟩]) := by
  unfold createSentence
  generalize substr text start (end_ - start) = raw
  have h1 := trimStartAux_eq raw raw.length 0 (by omega)
  simp only [List.drop_zero, Nat.zero_add] at h1
  have hts : (raw.takeWhile isLeadingBlank).length ≤ raw.length :=
    (List.takeWhile_sublist _).length_le
  obtain ⟨i1, i2, i3⟩ := trimEndAux_spec raw (raw.takeWhile isLeadingBlank).length raw.length
    raw.length (by omega) hts (Nat.le_refl _)
  have hdrop := drop_length_takeWhile isLeadingBlank raw
  have htake : (raw.dropWhile isLeadingBlank).take (raw.length - (raw.takeWhile isLeadingBlank).length)
      = raw.dropWhile isLeadingBlank := by
    apply List.take_of_length_le
    rw [← hdrop]; simp
  rw [hdrop, htake] at i3
  simp only [h1]
  have hsub : substr raw (raw.takeWhile isLeadingBlank).length
      (trimEndAux raw (raw.takeWhile isLeadingBlank).length raw.length raw.length
        - (raw.takeWhile isLeadingBlank).length) = trimSpec raw := by
    simp only [substr, trimSpec, hdrop]
    exact i3
  have hlen : (trimSpec raw).length
      = trimEndAux raw (raw.takeWhile isLeadingBlank).length raw.length raw.length
        - (raw.takeWhile isLeadingBlank).length := by
    rw [← hsub]
    simp only [substr, List.length_take, List.length_drop]
    omega
  rw [hsub]
  by_cases hnil : trimSpec raw = []
  · have : ¬ (trimEndAux raw (raw.takeWhile isLeadingBlank).length raw.length raw.length
        > (raw.takeWhile isLeadingBlank).length) := by
      rw [hnil] at hlen; simp at hlen; omega
    simp [hnil, this]
  · have : trimEndAux raw (raw.takeWhile isLeadingBlank).length raw.length raw.length
        > (raw.takeWhile isLeadingBlank).length := by
      have : 0 < (trimSpec raw).length := List.length_pos.mpr hnil
      omega
    simp [hnil, this]

/-! ## The raw spans of the segmenter and what is emitted for them -/

theorem splitLoop_eq_emitSpans (text : Bytes) (left start sentenceId : Nat)
    (sentences : List SentenceBoundary) :
    splitLoop text left start sentenceId sentences
      = sentences ++ emitSpans text sentenceId (rawSpansLoop text left start) := by
  induction left generalizing start sentenceId sentences with
  | zero => simp [splitLoop, rawSpansLoop, emitSpans]
  | succ n ih =>
    unfold splitLoop rawSpansLoop
    by_cases hs : start < text.length
    · have hgt := findSentenceEnd_gt text start hs
      simp only [hs, if_true, hgt, gt_iff_lt, createSentence_eq]
      by_cases hstop : skipWhitespace text (findSentenceEnd text start) ≥ text.length
      · simp only [hstop, if_true, emitSpans]
        split_ifs <;> simp
      · simp only [hstop, if_false, ih, List.singleton_append, emitSpans]
        split_ifs <;> simp
    · simp [hs, emitSpans]

theorem splitIntoSentences_eq_emitSpans (text : Bytes) :
    splitIntoSentences text = emitSpans text 0 (rawSpans text) := by
  unfold splitIntoSentences rawSpans
  split_ifs
  · rfl
  · simp [splitLoop_eq_emitSpans]

theorem mem_emitSpans (text : Bytes) (spans : List (Nat × Nat)) (n : Nat)
    (s : SentenceBoundary) (h : s ∈ emitSpans text n spans) :
    ∃ i, spans[i]? = some (s.start, s.end_) ∧ s.sentenceId = n + i
      ∧ s.text = trimSpec (substr text s.start (s.end_ - s.start)) ∧ s.text ≠ [] := by
  induction spans generalizing n with
  | nil => simp [emitSpans] at h
  | cons span rest ih =>
    simp only [emitSpans, List.mem_append] at h
    rcases h with h | h
    · split_ifs at h with hnil
      · simp at h
      · simp only [List.mem_singleton] at h
        subst h
        exact ⟨0, by simp, by simp, rfl, hnil⟩
    · obtain ⟨i, h1, h2, h3⟩ := ih (n + 1) h
      exact ⟨i + 1, by simpa using h1, by omega, h3⟩

theorem emitSpans_of_mem (text : Bytes) (spans : List (Nat × Nat)) (n : Nat)
    (span : Nat × Nat) (hm : span ∈ spans)
    (hne : trimSpec (substr text span.1 (span.2 - span.1)) ≠ []) :
    ∃ s ∈ emitSpans text n spans, (s.start, s.end_) = span := by
  induction spans generalizing n with
  | nil => simp at hm
  | cons a rest ih =>
    simp only [emitSpans, List.mem_append]
    rcases List.mem_cons.mp hm with h | h
    · subst h
      exact ⟨_, Or.inl (by rw [if_neg hne]; exact List.mem_singleton_self _), rfl⟩
    · obtain ⟨s, hs, he⟩ := ih (n + 1) h
      exact ⟨s, Or.inr hs, he⟩

theorem emitSpans_id_ge (text : Bytes) (spans : List (Nat × Nat)) (n : Nat) :
    ∀ s ∈ emitSpans text n spans, n ≤ s.sentenceId := by
  intro s hs
  obtain ⟨i, _, h, _⟩ := mem_emitSpans text spans n s hs
  omega

theorem emitSpans_pairwise (text : Bytes) (spans : List (Nat × Nat)) (n : Nat) :
    (emitSpans text n spans).Pairwise (fun a b => a.sentenceId < b.sentenceId) := by
  induction spans generalizing n with
  | nil => simp [emitSpans]
  | cons span rest ih =>
    simp only [emitSpans]
    rw [List.pairwise_append]
    refine ⟨?_, ih (n + 1), ?_⟩
    · split_ifs <;> simp
    · intro a ha b hb
      have := emitSpans_id_ge text rest (n + 1) b hb
      split_ifs at ha
      · simp at ha
      · simp only [List.mem_singleton] at ha
        subst ha
        simpa using this

theorem emitSpans_index_le (text : Bytes) (spans : List (Nat × Nat)) (n k : Nat)
    (h : k < (emitSpans text n spans).length) :
    n + k ≤ ((emitSpans text n spans)[k]).sentenceId := by
  induction spans generalizing n k with
  | nil => simp [emitSpans] at h
  | cons span rest ih =>
    simp only [emitSpans] at h ⊢
    by_cases hnil : trimSpec (substr text span.1 (span.2 - span.1)) = []
    · simp only [hnil, if_true, List.nil_append] at h ⊢
      have := ih (n + 1) k h
      omega
    · simp only [hnil, if_false, List.singleton_append] at h ⊢
      cases k with
      | zero => simp
      | succ j =>
        simp only [List.getElem_cons_succ]
        have := ih (n + 1) j (by simpa using h)
        omega

theorem emitSpans_dense (text : Bytes) (spans : List (Nat × Nat)) (n k : Nat)
    (hall : ∀ span ∈ spans, trimSpec (substr text span.1 (span.2 - span.1)) ≠ [])
    (h : k < (emitSpans text n spans).length) :
    ((emitSpans text n spans)[k]).sentenceId = n + k := by
  induction spans generalizing n k with
  | nil => simp [emitSpans] at h
  | cons span rest ih =>
    have hnil := hall span (List.mem_cons_self _ _)
    simp only [emitSpans] at h ⊢
    simp only [hnil, if_false, List.singleton_append] at h ⊢
    cases k with
    | zero => simp
    | succ j =>
      simp only [List.getElem_cons_succ]
      have := ih (n + 1) j (fun sp hsp => hall sp (List.mem_cons_of_mem _ hsp)) (by simpa using h)
      omega

/-! ## The 10,000-byte cap -/

theorem isJapanesePunctuation_lt (text : Bytes) (pos : Nat)
    (h : isJapanesePunctuation text pos = true) : pos + 3 ≤ text.length := by
  unfold isJapanesePunctuation at h
  split_ifs at h with h0
  all_goals omega

theorem scanBoundary_le_length (text : Bytes) (maxSearch left end_ : Nat)
    (hm : maxSearch ≤ text.length) (he : end_ ≤ text.length) :
    scanBoundary text maxSearch left end_ ≤ text.length := by
  induction left generalizing end_ with
  | zero => simpa [scanBoundary] using he
  | succ n ih =>
    unfold scanBoundary
    split_ifs with h1 h2 h3 h4
    · omega
    · omega
    · exact isJapanesePunctuation_lt text end_ h4
    · exact ih (end_ + 1) (by omega)
    · exact he

theorem findSentenceEnd_le_length (text : Bytes) (start : Nat) (h : start ≤ text.length) :
    findSentenceEnd text start ≤ text.length := by
  simp only [findSentenceEnd]
  split_ifs
  · exact Nat.le_refl _
  · exact scanBoundary_le_length text _ _ start (min_le_left _ _) h

/-- A scan that meets no newline, no tab and no punctuation mark lying wholly
before `maxSearch` ends at or after `maxSearch`. -/
theorem scanBoundary_reaches_cap (text : Bytes) (maxSearch left end_ : Nat)
    (hl : maxSearch - end_ ≤ left) (he : end_ ≤ maxSearch)
    (hb : ∀ i, i < maxSearch → text.getD i 0 ≠ 10 ∧ text.getD i 0 ≠ 9)
    (hp : ∀ i, i + 3 ≤ maxSearch → isJapanesePunctuation text i = false) :
    maxSearch ≤ scanBoundary text maxSearch left end_ := by
  induction left generalizing end_ with
  | zero => simp only [scanBoundary]; omega
  | succ n ih =>
    unfold scanBoundary
    split_ifs with h1 h2 h3 h4
    · exact absurd h2 (hb end_ h1).1
    · exact absurd h3 (hb end_ h1).2
    · by_contra hlt
      have := hp end_ (by omega)
      rw [this] at h4
      exact Bool.false_ne_true h4
    · exact ih (end_ + 1) (by omega) (by omega)
    · omega

theorem findSentenceEnd_of_cap (text : Bytes) (hlen : 10000 < text.length)
    (hb : ∀ i, i < 10000 → text.getD i 0 ≠ 10 ∧ text.getD i 0 ≠ 9)
    (hp : ∀ i, i + 3 ≤ 10000 → isJapanesePunctuation text i = false) :
    findSentenceEnd text 0 = text.length := by
  have hmin : min text.length (0 + 10000) = 10000 := by
    simp only [Nat.zero_add]; exact min_eq_right (by omega)
  have h1 := scanBoundary_reaches_cap text 10000 (10000 - 0) 0 (by omega) (by omega) hb hp
  have h2 := scanBoundary_le_length text 10000 (10000 - 0) 0 (by omega) (by omega)
  simp only [findSentenceEnd, hmin]
  split_ifs <;> omega

theorem rawSpans_of_cap (text : Bytes) (hlen : 10000 < text.length)
    (hb : ∀ i, i < 10000 → text.getD i 0 ≠ 10 ∧ text.getD i 0 ≠ 9)
    (hp : ∀ i, i + 3 ≤ 10000 → isJapanesePunctuation text i = false) :
    rawSpans text = [(0, text.length)] := by
  have hne : text ≠ [] := by intro h; simp [h] at hlen
  obtain ⟨n, hn⟩ : ∃ n, text.length = n + 1 := ⟨text.length - 1, by omega⟩
  have hend := findSentenceEnd_of_cap text hlen hb hp
  have hskip := skipWhitespace_ge text text.length
  unfold rawSpans
  rw [if_neg hne, hn]
  unfold rawSpansLoop
  rw [← hn, hend]
  simp only [show 0 < text.length by omega, if_true, gt_iff_lt, ge_iff_le, hskip]

theorem getD_replicate_append (n a i : Nat) (rest : Bytes) (h : i < n) :
    (List.replicate n a ++ rest).getD i 0 = a := by
  rw [List.getD_eq_getElem?_getD, List.getElem?_append_left (by simpa using h)]
  simp [List.getElem?_replicate, h]

theorem isJapanesePunctuation_replicate_append (n i : Nat) (rest : Bytes)
    (h : i + 3 ≤ n) : isJapanesePunctuation (List.replicate n 97 ++ rest) i = false := by
  unfold isJapanesePunctuation
  rw [getD_replicate_append n 97 i rest (by omega)]
  simp

/-! ## Order of the raw spans and of the sentences -/

theorem rawSpansLoop_bounds (text : Bytes) (left start : Nat) :
    ∀ span ∈ rawSpansLoop text left start,
      start ≤ span.1 ∧ span.1 < span.2 ∧ span.2 ≤ text.length := by
  induction left generalizing start with
  | zero => simp [rawSpansLoop]
  | succ n ih =>
    intro span hmem
    unfold rawSpansLoop at hmem
    by_cases hs : start < text.length
    · have hgt := findSentenceEnd_gt text start hs
      have hle := findSentenceEnd_le_length text start (Nat.le_of_lt hs)
      have hge := skipWhitespace_ge text (findSentenceEnd text start)
      simp only [hs, if_true, hgt, gt_iff_lt] at hmem
      split_ifs at hmem
      · simp only [List.mem_singleton] at hmem
        subst hmem
        exact ⟨Nat.le_refl _, hgt, hle⟩
      · simp only [List.singleton_append, List.mem_cons] at hmem
        rcases hmem with h | h
        · subst h
          exact ⟨Nat.le_refl _, hgt, hle⟩
        · obtain ⟨a, b, c⟩ := ih _ span h
          exact ⟨by omega, b, c⟩
    · simp [hs] at hmem

theorem rawSpansLoop_pairwise (text : Bytes) (left start : Nat) :
    (rawSpansLoop text left start).Pairwise (fun p q => p.2 ≤ q.1) := by
  induction left generalizing start with
  | zero => simp [rawSpansLoop]
  | succ n ih =>
    unfold rawSpansLoop
    by_cases hs : start < text.length
    · have hgt := findSentenceEnd_gt text start hs
      have hge := skipWhitespace_ge text (findSentenceEnd text start)
      simp only [hs, if_true, hgt, gt_iff_lt]
      split_ifs
      · simp
      · simp only [List.singleton_append, List.pairwise_cons]
        refine ⟨fun q hq => ?_, ih _⟩
        have := (rawSpansLoop_bounds text n _ q hq).1
        omega
    · simp [hs]

theorem rawSpans_bounds (text : Bytes) :
    ∀ span ∈ rawSpans text, span.1 < span.2 ∧ span.2 ≤ text.length := by
  intro span h
  unfold rawSpans at h
  split_ifs at h
  · simp at h
  · exact (rawSpansLoop_bounds text _ 0 span h).2

theorem rawSpans_pairwise (text : Bytes) :
    (rawSpans text).Pairwise (fun p q => p.2 ≤ q.1) := by
  unfold rawSpans
  split_ifs
  · simp
  · exact rawSpansLoop_pairwise text _ 0

theorem emitSpans_span_mem (text : Bytes) (spans : List (Nat × Nat)) (n : Nat)
    (s : SentenceBoundary) (h : s ∈ emitSpans text n spans) :
    (s.start, s.end_) ∈ spans := by
  obtain ⟨i, hi, _⟩ := mem_emitSpans text spans n s h
  exact List.getElem?_mem hi

theorem emitSpans_ordered (text : Bytes) (spans : List (Nat × Nat)) (n : Nat)
    (hp : spans.Pairwise (fun p q => p.2 ≤ q.1)) :
    (emitSpans text n spans).Pairwise (fun a b => a.end_ ≤ b.start) := by
  induction spans generalizing n with
  | nil => simp [emitSpans]
  | cons span rest ih =>
    rw [List.pairwise_cons] at hp
    simp only [emitSpans]
    rw [List.pairwise_append]
    refine ⟨by split_ifs <;> simp, ih (n + 1) hp.2, fun a ha b hb => ?_⟩
    have hb2 := hp.1 _ (emitSpans_span_mem text rest (n + 1) b hb)
    split_ifs at ha
    · simp at ha
    · simp only [List.mem_singleton] at ha
      subst ha
      exact hb2

/-! ## The line-start table -/

theorem computeLineStartsFrom_spec (text : Bytes) (rest : Bytes) (i : Nat)
    (h : text.drop i = rest) :
    (∀ e ∈ computeLineStartsFrom rest i, i < e ∧ e ≤ text.length ∧ text.getD (e - 1) 0 = 10)
    ∧ (computeLineStartsFrom rest i).Pairwise (· < ·)
    ∧ (computeLineStartsFrom rest i).length = rest.count 10 := by
  induction rest generalizing i with
  | nil => simp [computeLineStartsFrom]
  | cons c t ih =>
    have hi : i < text.length := by
      by_contra hc
      rw [List.drop_eq_nil_of_le (by omega)] at h
      cases h
    have hd := drop_eq_getD_cons text i hi
    rw [h] at hd
    have hc : text.getD i 0 = c := (List.cons.inj hd).1.symm
    have ht : text.drop (i + 1) = t := (List.cons.inj hd).2.symm
    obtain ⟨a, b, d⟩ := ih (i + 1) ht
    unfold computeLineStartsFrom
    by_cases h10 : c = 10
    · simp only [h10, if_true, List.mem_cons, List.pairwise_cons, List.length_cons,
        List.count_cons_self]
      refine ⟨?_, ⟨fun e he => (a e he).1, b⟩, by rw [d]⟩
      intro e he
      rcases he with he | he
      · subst he
        exact ⟨by omega, by omega, by rw [Nat.add_sub_cancel, hc, h10]⟩
      · obtain ⟨x, y, z⟩ := a e he
        exact ⟨by omega, y, z⟩
    · simp only [h10, if_false]
      refine ⟨fun e he => ?_, b, ?_⟩
      · obtain ⟨x, y, z⟩ := a e he
        exact ⟨by omega, y, z⟩
      · rw [d, List.count_cons_of_ne (fun hh => h10 hh.symm)]

/-! ## Decoding a byte that is no lead byte -/

theorem decodeCodePoint_continuation (s : Bytes) (i : Nat)
    (h1 : 0x80 ≤ s.getD i 0) (h2 : s.getD i 0 < 0xC0) :
    (decodeCodePoint s i).2 = i + 4 := by
  unfold decodeCodePoint
  have h5 : s.getD i 0 >>> 5 ≠ 0x6 := by
    rw [Nat.shiftRight_eq_div_pow]; omega
  have h4 : s.getD i 0 >>> 4 ≠ 0xE := by
    rw [Nat.shiftRight_eq_div_pow]; omega
  simp only [if_neg (show ¬ s.getD i 0 < 0x80 by omega), if_neg h5, if_neg h4]

theorem decodeCodePoint_advances (s : Bytes) (i : Nat) : i < (decodeCodePoint s i).2 := by
  unfold decodeCodePoint
  simp only
  split_ifs <;> simp

/-! ## Decoding well-formed UTF-8 -/

theorem char_toNat_lt (c : Char) : c.toNat < 0x110000 := by
  have h := c.valid
  simp only [UInt32.isValidChar, Nat.isValidChar] at h
  simp only [Char.toNat]
  omega

theorem or_eq_add (a b i : Nat) (hb : b < 2 ^ i) : (a * 2 ^ i) ||| b = a * 2 ^ i + b := by
  rw [Nat.mul_comm]
  exact (Nat.mul_add_lt_is_or hb a).symm

theorem and_3F (x : Nat) : x &&& 0x3F = x % 64 :=
  Nat.and_pow_two_sub_one_eq_mod x 6

theorem and_1F (x : Nat) : x &&& 0x1F = x % 32 :=
  Nat.and_pow_two_sub_one_eq_mod x 5

theorem and_0F (x : Nat) : x &&& 0x0F = x % 16 :=
  Nat.and_pow_two_sub_one_eq_mod x 4

theorem and_07 (x : Nat) : x &&& 0x07 = x % 8 :=
  Nat.and_pow_two_sub_one_eq_mod x 3

theorem encodeChar_length_pos (c : Char) : 0 < (encodeChar c).length := by
  unfold encodeChar
  simp only
  split_ifs <;> simp

theorem encodeChar_head_ne_newline (c : Char) (h : c.toNat ≠ 10) :
    (encodeChar c).getD 0 0 ≠ 10 := by
  unfold encodeChar
  simp only
  split_ifs <;> simp <;> omega

/-- `decodeCodePoint` on the encoding of a code point above U+007F gives the
code point back and moves past its bytes. -/
theorem decodeCodePoint_encodeChar (text : Bytes) (i : Nat) (c : Char)
    (hc : 0x80 ≤ c.toNat)
    (ht : ∀ k, k < (encodeChar c).length → text.getD (i + k) 0 = (encodeChar c).getD k 0) :
    decodeCodePoint text i = (c.toNat, i + (encodeChar c).length) := by
  have hlt := char_toNat_lt c
  by_cases h2 : c.toNat < 0x800
  · have henc : encodeChar c = [0xC0 + c.toNat / 64, 0x80 + c.toNat % 64] := by
      unfold encodeChar
      simp only
      rw [if_neg (by omega), if_pos h2]
    rw [henc] at ht ⊢
    have t0 := ht 0 (by simp)
    have t1 := ht 1 (by simp)
    simp only [Nat.add_zero, List.getD_cons_zero, List.getD_cons_succ] at t0 t1
    have hA : ¬ (0xC0 + c.toNat / 64 < 0x80) := by omega
    have hs5 : (0xC0 + c.toNat / 64) >>> 5 = 0x6 := by
      rw [Nat.shiftRight_eq_div_pow]; omega
    unfold decodeCodePoint
    simp only [t0, t1, hA, hs5, if_false, if_true, and_1F, and_3F, Nat.shiftLeft_eq]
    rw [or_eq_add _ _ 6 (by omega)]
    simp only [List.length_cons, List.length_nil, Prod.mk.injEq, and_true]
    omega
  · by_cases h3 : c.toNat < 0x10000
    · have henc : encodeChar c
          = [0xE0 + c.toNat / 4096, 0x80 + c.toNat / 64 % 64, 0x80 + c.toNat % 64] := by
        unfold encodeChar
        simp only
        rw [if_neg (by omega), if_neg h2, if_pos h3]
      rw [henc] at ht ⊢
      have t0 := ht 0 (by simp)
      have t1 := ht 1 (by simp)
      have t2 := ht 2 (by simp)
      simp only [Nat.add_zero, List.getD_cons_zero, List.getD_cons_succ] at t0 t1 t2
      have hA : ¬ (0xE0 + c.toNat / 4096 < 0x80) := by omega
      have hs5 : ¬ ((0xE0 + c.toNat / 4096) >>> 5 = 0x6) := by
        rw [Nat.shiftRight_eq_div_pow]; omega
      have hs4 : (0xE0 + c.toNat / 4096) >>> 4 = 0xE := by
        rw [Nat.shiftRight_eq_div_pow]; omega
      unfold decodeCodePoint
      simp only [t0, t1, t2, hA, hs5, hs4, if_false, if_true, and_0F, and_3F,
        Nat.shiftLeft_eq]
      have e1 : (0xE0 + c.toNat / 4096) % 16 * 2 ^ 12 ||| (0x80 + c.toNat / 64 % 64) % 64 * 2 ^ 6
          = ((0xE0 + c.toNat / 4096) % 16 * 64 + (0x80 + c.toNat / 64 % 64) % 64) * 2 ^ 6 := by
        rw [or_eq_add _ _ 12 (by omega)]; omega
      rw [e1, or_eq_add _ _ 6 (by omega)]
      simp only [List.length_cons, List.length_nil, Prod.mk.injEq, and_true]
      omega
    · have henc : encodeChar c
          = [0xF0 + c.toNat / 262144, 0x80 + c.toNat / 4096 % 64, 0x80 + c.toNat / 64 % 64,
              0x80 + c.toNat % 64] := by
        unfold encodeChar
        simp only
        rw [if_neg (by omega), if_neg h2, if_neg h3]
      rw [henc] at ht ⊢
      have t0 := ht 0 (by simp)
      have t1 := ht 1 (by simp)
      have t2 := ht 2 (by simp)
      have t3 := ht 3 (by simp)
      simp only [Nat.add_zero, List.getD_cons_zero, List.getD_cons_succ] at t0 t1 t2 t3
      have hA : ¬ (0xF0 + c.toNat / 262144 < 0x80) := by omega
      have hs5 : ¬ ((0xF0 + c.toNat / 262144) >>> 5 = 0x6) := by
        rw [Nat.shiftRight_eq_div_pow]; omega
      have hs4 : ¬ ((0xF0 + c.toNat / 262144) >>> 4 = 0xE) := by
        rw [Nat.shiftRight_eq_div_pow]; omega
      unfold decodeCodePoint
      simp only [t0, t1, t2, t3, hA, hs5, hs4, if_false, and_07, and_3F, Nat.shiftLeft_eq]
      have e1 : (0xF0 + c.toNat / 262144) % 8 * 2 ^ 18
            ||| (0x80 + c.toNat / 4096 % 64) % 64 * 2 ^ 12
          = ((0xF0 + c.toNat / 262144) % 8 * 64 + (0x80 + c.toNat / 4096 % 64) % 64)
              * 2 ^ 12 := by
        rw [or_eq_add _ _ 18 (by omega)]; omega
      have e2 : ((0xF0 + c.toNat / 262144) % 8 * 64 + (0x80 + c.toNat / 4096 % 64) % 64)
              * 2 ^ 12 ||| (0x80 + c.toNat / 64 % 64) % 64 * 2 ^ 6
          = (((0xF0 + c.toNat / 262144) % 8 * 64 + (0x80 + c.toNat / 4096 % 64) % 64) * 64
              + (0x80 + c.toNat / 64 % 64) % 64) * 2 ^ 6 := by
        rw [or_eq_add _ _ 12 (by omega)]; omega
      rw [e1, e2, or_eq_add _ _ 6 (by omega)]
      simp only [List.length_cons, List.length_nil, Prod.mk.injEq, and_true]
      omega

/-! ## The two counting loops on well-formed UTF-8 -/

theorem getD_append_mid (pre mid post : Bytes) (k : Nat) (h : k < mid.length) :
    (pre ++ mid ++ post).getD (pre.length + k) 0 = mid.getD k 0 := by
  simp only [List.getD_eq_getElem?_getD, List.append_assoc]
  rw [List.getElem?_append_right (by omega), Nat.add_sub_cancel_left,
    List.getElem?_append_left h]

theorem encodeChars_cons (c : Char) (cs : List Char) :
    encodeChars (c :: cs) = encodeChar c ++ encodeChars cs := by
  simp [encodeChars]

theorem encodeChar_ascii (c : Char) (h : c.toNat < 0x80) : encodeChar c = [c.toNat] := by
  unfold encodeChar
  simp only
  rw [if_pos h]

theorem encodeChar_head_ge (c : Char) (h : 0x80 ≤ c.toNat) :
    0x80 ≤ (encodeChar c).getD 0 0 := by
  unfold encodeChar
  simp only
  rw [if_neg (by omega)]
  split_ifs <;> simp only [List.getD_cons_zero] <;> omega

theorem utf16Units_ascii (c : Char) (h : c.toNat < 0x80) : utf16Units c = 1 := by
  unfold utf16Units
  rw [if_pos (by omega)]

theorem utf16Length_cons (c : Char) (cs : List Char) :
    utf16Length (c :: cs) = utf16Units c + utf16Length cs := by
  simp [utf16Length]

theorem utf8ToUtf16LengthLoop_chars (cs : List Char) (pre : Bytes) (left acc : Nat)
    (hl : (encodeChars cs).length ≤ left) :
    utf8ToUtf16LengthLoop (pre ++ encodeChars cs) left pre.length acc
      = acc + utf16Length cs := by
  induction cs generalizing pre left acc with
  | nil =>
    cases left with
    | zero => simp [utf8ToUtf16LengthLoop, utf16Length]
    | succ m => simp [utf8ToUtf16LengthLoop, utf16Length, encodeChars]
  | cons c rest ih =>
    rw [encodeChars_cons] at hl ⊢
    have hpos := encodeChar_length_pos c
    rw [List.length_append] at hl
    obtain ⟨m, hm⟩ : ∃ m, left = m + 1 := ⟨left - 1, by omega⟩
    subst hm
    have hget : ∀ k, k < (encodeChar c).length →
        (pre ++ (encodeChar c ++ encodeChars rest)).getD (pre.length + k) 0
          = (encodeChar c).getD k 0 := by
      intro k hk
      rw [← List.append_assoc]
      exact getD_append_mid pre (encodeChar c) (encodeChars rest) k hk
    have hi : pre.length < (pre ++ (encodeChar c ++ encodeChars rest)).length := by
      simp only [List.length_append]; omega
    rw [utf8ToUtf16LengthLoop, if_pos hi]
    have h0 := hget 0 hpos
    rw [Nat.add_zero] at h0
    by_cases hc : c.toNat < 0x80
    · have henc := encodeChar_ascii c hc
      rw [h0, henc, List.getD_cons_zero, if_pos hc]
      have := ih (pre ++ [c.toNat]) m (acc + 1) (by rw [henc] at hl; simp at hl; omega)
      simp only [List.length_append, List.length_cons, List.length_nil, Nat.zero_add,
        List.append_assoc, List.singleton_append] at this
      rw [List.singleton_append, this, utf16Length_cons, utf16Units_ascii c hc]
      omega
    · have hge := encodeChar_head_ge c (by omega)
      rw [if_neg (by rw [h0]; omega),
        decodeCodePoint_encodeChar _ pre.length c (by omega) hget]
      simp only
      rw [if_neg (by omega)]
      have := ih (pre ++ encodeChar c) m
        (if c.toNat ≤ 0xFFFF then acc + 1 else acc + 2) (by omega)
      simp only [List.length_append, List.append_assoc] at this
      rw [this, utf16Length_cons, utf16Units]
      split_ifs <;> omega

theorem countUtf16_chars (cs : List Char) (pre post : Bytes) (left col : Nat)
    (hl : (encodeChars cs).length ≤ left) (hn : ∀ c ∈ cs, c.toNat ≠ 10) :
    countUtf16 (pre ++ encodeChars cs ++ post) (pre.length + (encodeChars cs).length) left
        pre.length col
      = col + utf16Length cs := by
  induction cs generalizing pre left col with
  | nil =>
    cases left with
    | zero => simp [countUtf16, utf16Length]
    | succ m => simp [countUtf16, utf16Length, encodeChars]
  | cons c rest ih =>
    rw [encodeChars_cons] at hl ⊢
    have hpos := encodeChar_length_pos c
    rw [List.length_append] at hl
    obtain ⟨m, hm⟩ : ∃ m, left = m + 1 := ⟨left - 1, by omega⟩
    subst hm
    have hget : ∀ k, k < (encodeChar c).length →
        (pre ++ (encodeChar c ++ encodeChars rest) ++ post).getD (pre.length + k) 0
          = (encodeChar c).getD k 0 := by
      intro k hk
      have : pre ++ (encodeChar c ++ encodeChars rest) ++ post
          = pre ++ encodeChar c ++ (encodeChars rest ++ post) := by
        simp only [List.append_assoc]
      rw [this]
      exact getD_append_mid pre (encodeChar c) _ k hk
    have h0 := hget 0 hpos
    rw [Nat.add_zero] at h0
    have hne : (pre ++ (encodeChar c ++ encodeChars rest) ++ post).getD pre.length 0 ≠ 10 := by
      rw [h0]
      exact encodeChar_head_ne_newline c (hn c (List.mem_cons_self _ _))
    have hcond : pre.length < pre.length + (encodeChar c ++ encodeChars rest).length
        ∧ pre.length < (pre ++ (encodeChar c ++ encodeChars rest) ++ post).length
        ∧ (pre ++ (encodeChar c ++ encodeChars rest) ++ post).getD pre.length 0 ≠ 10 := by
      refine ⟨?_, ?_, hne⟩
      · simp only [List.length_append]; omega
      · simp only [List.length_append]; omega
    rw [countUtf16, if_pos hcond]
    have hrest : ∀ c ∈ rest, c.toNat ≠ 10 := fun x hx => hn x (List.mem_cons_of_mem _ hx)
    by_cases hc : c.toNat < 0x80
    · have henc := encodeChar_ascii c hc
      rw [h0, henc, List.getD_cons_zero, if_pos hc]
      have e1 : pre ++ ([c.toNat] ++ encodeChars rest) ++ post
          = pre ++ [c.toNat] ++ encodeChars rest ++ post := by
        simp only [List.append_assoc]
      have e2 : pre.length + ([c.toNat] ++ encodeChars rest).length
          = (pre ++ [c.toNat]).length + (encodeChars rest).length := by
        simp only [List.length_append, List.length_cons, List.length_nil]; omega
      have e3 : pre.length + 1 = (pre ++ [c.toNat]).length := by
        simp only [List.length_append, List.length_cons, List.length_nil]
      rw [e1, e2, e3,
        ih (pre ++ [c.toNat]) m (col + 1) (by rw [henc] at hl; simp at hl; omega) hrest,
        utf16Length_cons, utf16Units_ascii c hc]
      omega
    · have hge := encodeChar_head_ge c (by omega)
      rw [if_neg (by rw [h0]; omega),
        decodeCodePoint_encodeChar _ pre.length c (by omega) hget]
      simp only
      rw [if_neg (by omega)]
      have e1 : pre ++ (encodeChar c ++ encodeChars rest) ++ post
          = pre ++ encodeChar c ++ encodeChars rest ++ post := by
        simp only [List.append_assoc]
      have e2 : pre.length + (encodeChar c ++ encodeChars rest).length
          = (pre ++ encodeChar c).length + (encodeChars rest).length := by
        simp only [List.length_append]; omega
      have e3 : pre.length + (encodeChar c).length = (pre ++ encodeChar c).length := by
        simp only [List.length_append]
      rw [e1, e2, e3,
        ih (pre ++ encodeChar c) m (if c.toNat ≤ 0xFFFF then col + 1 else col + 2)
          (by omega) hrest,
        utf16Length_cons, utf16Units]
      split_ifs <;> omega

theorem utf8ToUtf16LengthLoop_ascii (s : Bytes) (h : ∀ b ∈ s, b < 0x80) (left i acc : Nat)
    (hl : s.length - i ≤ left) :
    utf8ToUtf16LengthLoop s left i acc = acc + (s.length - i) := by
  induction left generalizing i acc with
  | zero =>
    rw [utf8ToUtf16LengthLoop]; omega
  | succ n ih =>
    rw [utf8ToUtf16LengthLoop]
    by_cases hi : i < s.length
    · have hb : s.getD i 0 < 0x80 := by
        have hm : s.getD i 0 ∈ s := by
          rw [List.getD_eq_getElem?_getD, List.getElem?_eq_getElem hi]
          exact List.getElem_mem _
        exact h _ hm
      rw [if_pos hi, if_pos hb, ih (i + 1) (acc + 1) (by omega)]
      omega
    · rw [if_neg hi]; omega

theorem encodeChar_mem_newline (c : Char) (h : 10 ∈ encodeChar c) : c.toNat = 10 := by
  unfold encodeChar at h
  simp only at h
  split_ifs at h <;> simp at h <;> omega

theorem encodeChars_no_newline (cs : List Char) (hn : ∀ c ∈ cs, c.toNat ≠ 10) :
    10 ∉ encodeChars cs := by
  intro h
  simp only [encodeChars, List.mem_flatMap] at h
  obtain ⟨c, hc, hm⟩ := h
  exact hn c hc (encodeChar_mem_newline c hm)

theorem computeLineStartsFrom_no_newline (rest : Bytes) (i : Nat) (h : 10 ∉ rest) :
    computeLineStartsFrom rest i = [] := by
  induction rest generalizing i with
  | nil => rfl
  | cons c t ih =>
    rw [computeLineStartsFrom]
    have hc : c ≠ 10 := fun hc => h (by rw [hc]; exact List.mem_cons_self _ _)
    rw [if_neg hc]
    exact ih (i + 1) (fun hm => h (List.mem_cons_of_mem _ hm))

/-! ## The binary search over the line starts -/

theorem pairwise_getD_lt (ls : List Nat) (hs : ls.Pairwise (· < ·)) (i j : Nat)
    (hij : i < j) (hj : j < ls.length) : ls.getD i 0 < ls.getD j 0 := by
  have := List.pairwise_iff_getElem.mp hs i j (by omega) hj hij
  simpa [List.getD_eq_getElem?_getD, List.getElem?_eq_getElem hj,
    List.getElem?_eq_getElem (show i < ls.length by omega)] using this

/-- The binary search returns the index of the last entry that is at most
`offset`. -/
theorem searchLine_spec (ls : List Nat) (offset : Nat) (hs : ls.Pairwise (· < ·))
    (left lo hi : Nat) (hlo : lo < hi) (hhi : hi ≤ ls.length)
    (h1 : ls.getD lo 0 ≤ offset)
    (h2 : ∀ j, hi ≤ j → j < ls.length → offset < ls.getD j 0)
    (hf : hi - lo ≤ left + 1) :
    lo ≤ searchLine ls offset left lo hi ∧ searchLine ls offset left lo hi < hi
    ∧ ls.getD (searchLine ls offset left lo hi) 0 ≤ offset
    ∧ ∀ j, searchLine ls offset left lo hi < j → j < ls.length → offset < ls.getD j 0 := by
  induction left generalizing lo hi with
  | zero =>
    rw [searchLine]
    exact ⟨Nat.le_refl _, hlo, h1, fun j hj hl => h2 j (by omega) hl⟩
  | succ n ih =>
    rw [searchLine]
    by_cases hc : lo + 1 < hi
    · rw [if_pos hc]
      simp only
      have hmid1 : lo < (lo + hi) / 2 := by omega
      have hmid2 : (lo + hi) / 2 < hi := by omega
      by_cases hm : ls.getD ((lo + hi) / 2) 0 ≤ offset
      · rw [if_pos hm]
        obtain ⟨a, b, c, d⟩ := ih ((lo + hi) / 2) hi hmid2 hhi hm h2 (by omega)
        exact ⟨by omega, b, c, d⟩
      · rw [if_neg hm]
        obtain ⟨a, b, c, d⟩ := ih lo ((lo + hi) / 2) hmid1 (by omega) h1
          (fun j hj hl => by
            by_cases hjm : j = (lo + hi) / 2
            · rw [hjm]; omega
            · have := pairwise_getD_lt ls hs ((lo + hi) / 2) j (by omega) hl
              omega) (by omega)
        exact ⟨a, by omega, c, d⟩
    · rw [if_neg hc]
      exact ⟨Nat.le_refl _, hlo, h1, fun j hj hl => h2 j (by omega) hl⟩

theorem computeLineStartsFrom_gt (rest : Bytes) (i : Nat) :
    ∀ e ∈ computeLineStartsFrom rest i, i < e := by
  induction rest generalizing i with
  | nil => simp [computeLineStartsFrom]
  | cons c t ih =>
    intro e he
    rw [computeLineStartsFrom] at he
    split_ifs at he
    · rcases List.mem_cons.mp he with h | h
      · omega
      · have := ih (i + 1) e h; omega
    · have := ih (i + 1) e he; omega

theorem computeLineStartsFrom_countP (rest : Bytes) (i o : Nat) :
    (computeLineStartsFrom rest i).countP (fun e => decide (e ≤ o))
      = (rest.take (o - i)).count 10 := by
  induction rest generalizing i with
  | nil => simp [computeLineStartsFrom]
  | cons c t ih =>
    by_cases hio : i < o
    · obtain ⟨k, hk⟩ : ∃ k, o - i = k + 1 := ⟨o - i - 1, by omega⟩
      have hk1 : o - (i + 1) = k := by omega
      rw [hk, List.take_succ_cons, computeLineStartsFrom]
      by_cases hc : c = 10
      · have hle : decide (i + 1 ≤ o) = true := by simp only [decide_eq_true_eq]; omega
        rw [if_pos hc, List.countP_cons, hle, if_pos rfl, ih (i + 1), hk1, hc,
          List.count_cons_self]
      · rw [if_neg hc, ih (i + 1), hk1, List.count_cons_of_ne (fun h => hc h.symm)]
    · have h0 : o - i = 0 := by omega
      rw [h0, List.take_zero, List.count_nil, List.countP_eq_zero]
      intro e he
      have := computeLineStartsFrom_gt (c :: t) i e he
      simp only [decide_eq_true_eq]
      omega

theorem computeLineStarts_countP (text : Bytes) (o : Nat) :
    (computeLineStarts text).countP (fun e => decide (e ≤ o)) = (text.take o).count 10 + 1 := by
  unfold computeLineStarts
  have hle : decide (0 ≤ o) = true := by simp only [decide_eq_true_eq]; omega
  rw [List.countP_cons, hle, if_pos rfl, computeLineStartsFrom_countP, Nat.sub_zero]

/-- In a strictly increasing list, if the entry at `r` is at most `o` and
every later entry is above `o`, exactly `r + 1` entries are at most `o`. -/
theorem countP_le_of_search (ls : List Nat) (hs : ls.Pairwise (· < ·)) (o r : Nat)
    (hr : r < ls.length) (h1 : ls.getD r 0 ≤ o)
    (h2 : ∀ j, r < j → j < ls.length → o < ls.getD j 0) :
    ls.countP (fun e => decide (e ≤ o)) = r + 1 := by
  have hsplit : ls = ls.take (r + 1) ++ ls.drop (r + 1) := (List.take_append_drop _ _).symm
  rw [hsplit, List.countP_append]
  have ha : (ls.take (r + 1)).countP (fun e => decide (e ≤ o)) = r + 1 := by
    rw [List.countP_eq_length.mpr]
    · simp only [List.length_take]; omega
    · intro e he
      obtain ⟨j, hj, hje⟩ := List.getElem_of_mem he
      simp only [List.length_take] at hj
      rw [List.getElem_take] at hje
      simp only [decide_eq_true_eq]
      have hjr : j ≤ r := by omega
      have hgj : ls.getD j 0 = e := by
        simp [List.getD_eq_getElem?_getD, List.getElem?_eq_getElem (show j < ls.length by omega),
          hje]
      by_cases hjr2 : j = r
      · rw [← hgj, hjr2]; exact h1
      · have := pairwise_getD_lt ls hs j r (by omega) hr
        omega
  have hb : (ls.drop (r + 1)).countP (fun e => decide (e ≤ o)) = 0 := by
    rw [List.countP_eq_zero]
    intro e he
    obtain ⟨j, hj, hje⟩ := List.getElem_of_mem he
    simp only [List.length_drop] at hj
    rw [List.getElem_drop] at hje
    have hgj : ls.getD (r + 1 + j) 0 = e := by
      simp [List.getD_eq_getElem?_getD,
        List.getElem?_eq_getElem (show r + 1 + j < ls.length by omega), hje]
    have := h2 (r + 1 + j) (by omega) (by omega)
    simp only [decide_eq_true_eq]
    omega
  rw [ha, hb]

theorem computeLineStarts_pairwise (text : Bytes) :
    (computeLineStarts text).Pairwise (· < ·) := by
  obtain ⟨a, b, _⟩ := computeLineStartsFrom_spec text text 0 rfl
  unfold computeLineStarts
  rw [List.pairwise_cons]
  exact ⟨fun e he => (a e he).1, b⟩

/-- The line found by `byteOffsetToPosition` for an offset within the text:
the facts of the search, and the line as the number of newlines before the
offset. -/
theorem searchLine_computeLineStarts (text : Bytes) (o : Nat) :
    searchLine (computeLineStarts text) o (computeLineStarts text).length 0
        (computeLineStarts text).length < (computeLineStarts text).length
    ∧ (computeLineStarts text).getD (searchLine (computeLineStarts text) o
        (computeLineStarts text).length 0 (computeLineStarts text).length) 0 ≤ o
    ∧ (∀ j, searchLine (computeLineStarts text) o (computeLineStarts text).length 0
          (computeLineStarts text).length < j → j < (computeLineStarts text).length →
        o < (computeLineStarts text).getD j 0)
    ∧ searchLine (computeLineStarts text) o (computeLineStarts text).length 0
        (computeLineStarts text).length = (text.take o).count 10 := by
  have hs := computeLineStarts_pairwise text
  have hlen : 0 < (computeLineStarts text).length := by simp [computeLineStarts]
  have h0 : (computeLineStarts text).getD 0 0 ≤ o := by simp [computeLineStarts]
  obtain ⟨_, b, c, d⟩ := searchLine_spec (computeLineStarts text) o hs
    (computeLineStarts text).length 0 (computeLineStarts text).length hlen (Nat.le_refl _) h0
    (fun j hj hl => by omega) (by omega)
  refine ⟨b, c, d, ?_⟩
  have h1 := countP_le_of_search (computeLineStarts text) hs o _ b c d
  have h2 := computeLineStarts_countP text o
  omega

/-! ## byteOffsetToPosition on well-formed UTF-8 -/

theorem computeLineStartsFrom_mem (rest : Bytes) (i k : Nat) (hk : k < rest.length)
    (h10 : rest.getD k 0 = 10) : i + k + 1 ∈ computeLineStartsFrom rest i := by
  induction rest generalizing i k with
  | nil => simp at hk
  | cons c t ih =>
    rw [computeLineStartsFrom]
    cases k with
    | zero =>
      simp only [List.getD_cons_zero] at h10
      rw [if_pos h10]
      exact List.mem_cons_self _ _
    | succ j =>
      simp only [List.getD_cons_succ] at h10
      have := ih (i + 1) j (by simpa using hk) h10
      have he : i + (j + 1) + 1 = i + 1 + j + 1 := by omega
      rw [he]
      split_ifs
      · exact List.mem_cons_of_mem _ this
      · exact this

theorem mem_computeLineStarts_of_newline (text : Bytes) (p : Nat) (hp : p < text.length)
    (h10 : text.getD p 0 = 10) : p + 1 ∈ computeLineStarts text := by
  unfold computeLineStarts
  have := computeLineStartsFrom_mem text 0 p hp h10
  rw [Nat.zero_add] at this
  exact List.mem_cons_of_mem _ this

theorem getD_mem_of_lt (l : Bytes) (k : Nat) (h : k < l.length) : l.getD k 0 ∈ l := by
  rw [List.getD_eq_getElem?_getD, List.getElem?_eq_getElem h]
  exact List.getElem_mem _

/-- The line start that `byteOffsetToPosition` finds for `o`: a line start
`L ≤ o` with no newline in `[L, o)`. -/
theorem searchLine_lineStart (text : Bytes) (o L : Nat) (hL : L ∈ computeLineStarts text)
    (hLo : L ≤ o) (hno : ∀ p, L ≤ p → p < o → text.getD p 0 ≠ 10) :
    (computeLineStarts text).getD (searchLine (computeLineStarts text) o
      (computeLineStarts text).length 0 (computeLineStarts text).length) 0 = L := by
  obtain ⟨hr, h1, h2, _⟩ := searchLine_computeLineStarts text o
  have hs := computeLineStarts_pairwise text
  generalize searchLine (computeLineStarts text) o (computeLineStarts text).length 0
    (computeLineStarts text).length = r at hr h1 h2
  obtain ⟨j, hj, hje⟩ := List.getElem_of_mem hL
  have hgj : (computeLineStarts text).getD j 0 = L := by
    simp [List.getD_eq_getElem?_getD, List.getElem?_eq_getElem hj, hje]
  have hjr : j ≤ r := by
    by_contra hc
    have := h2 j (by omega) hj
    omega
  by_cases hjr2 : j = r
  · rw [← hjr2]; exact hgj
  · exfalso
    have hlt := pairwise_getD_lt _ hs j r (by omega) hr
    obtain ⟨k, hk⟩ : ∃ k, r = k + 1 := ⟨r - 1, by omega⟩
    have hlen : (computeLineStarts text).length = (computeLineStartsFrom text 0).length + 1 :=
      rfl
    have hmem : (computeLineStarts text).getD r 0 ∈ computeLineStartsFrom text 0 := by
      subst hk
      have hk2 : k < (computeLineStartsFrom text 0).length := by omega
      have : (computeLineStarts text).getD (k + 1) 0 = (computeLineStartsFrom text 0).getD k 0 :=
        rfl
      rw [this]
      exact getD_mem_of_lt _ _ hk2
    obtain ⟨a, _, c⟩ := (computeLineStartsFrom_spec text text 0 rfl).1 _ hmem
    exact hno ((computeLineStarts text).getD r 0 - 1) (by omega) (by omega) c

theorem encodeChars_append (a b : List Char) :
    encodeChars (a ++ b) = encodeChars a ++ encodeChars b := by
  simp [encodeChars]

theorem encodeChar_newline : encodeChar (Char.ofNat 10) = [10] := by decide

/-- The start of a line of a well-formed text is an entry of the line-start
table. -/
theorem lineStart_mem (a1 rest : List Char)
    (h1 : a1 = [] ∨ ∃ a0, a1 = a0 ++ [Char.ofNat 10]) :
    (encodeChars a1).length ∈ computeLineStarts (encodeChars (a1 ++ rest)) := by
  rcases h1 with h | ⟨a0, h⟩
  · subst h
    simp [encodeChars, computeLineStarts]
  · subst h
    have hlen : (encodeChars (a0 ++ [Char.ofNat 10])).length = (encodeChars a0).length + 1 := by
      rw [encodeChars_append]
      simp [encodeChars, encodeChar_newline]
    rw [hlen]
    apply mem_computeLineStarts_of_newline
    · rw [encodeChars_append, List.length_append, hlen]; omega
    · have : encodeChars (a0 ++ [Char.ofNat 10] ++ rest)
          = encodeChars a0 ++ [10] ++ encodeChars rest := by
        rw [encodeChars_append, encodeChars_append]
        simp [encodeChars, encodeChar_newline]
      rw [this]
      have := getD_append_mid (encodeChars a0) [10] (encodeChars rest) 0 (by simp)
      simpa using this

theorem byteOffsetToPosition_wellformed (a1 a2 b : List Char)
    (h1 : a1 = [] ∨ ∃ a0, a1 = a0 ++ [Char.ofNat 10]) (h2 : ∀ c ∈ a2, c.toNat ≠ 10) :
    byteOffsetToPosition (encodeChars (a1 ++ a2 ++ b))
        (computeLineStarts (encodeChars (a1 ++ a2 ++ b))) (encodeChars (a1 ++ a2)).length
      = ⟨(encodeChars a1).count 10, utf16Length a2⟩
    ∧ (computeLineStarts (encodeChars (a1 ++ a2 ++ b))).getD ((encodeChars a1).count 10) 0
      = (encodeChars a1).length
    ∧ (encodeChars a1).count 10 < (computeLineStarts (encodeChars (a1 ++ a2 ++ b))).length := by
  have htext : encodeChars (a1 ++ a2 ++ b)
      = encodeChars a1 ++ encodeChars a2 ++ encodeChars b := by
    rw [encodeChars_append, encodeChars_append]
  have ho : (encodeChars (a1 ++ a2)).length
      = (encodeChars a1).length + (encodeChars a2).length := by
    rw [encodeChars_append, List.length_append]
  have hole : (encodeChars (a1 ++ a2)).length ≤ (encodeChars (a1 ++ a2 ++ b)).length := by
    rw [htext, ho]; simp only [List.length_append]; omega
  have hLmem : (encodeChars a1).length ∈ computeLineStarts (encodeChars (a1 ++ a2 ++ b)) := by
    rw [List.append_assoc]
    exact lineStart_mem a1 (a2 ++ b) h1
  have hno : ∀ p, (encodeChars a1).length ≤ p → p < (encodeChars (a1 ++ a2)).length →
      (encodeChars (a1 ++ a2 ++ b)).getD p 0 ≠ 10 := by
    intro p hp1 hp2 h10
    have hk : p - (encodeChars a1).length < (encodeChars a2).length := by omega
    have := getD_append_mid (encodeChars a1) (encodeChars a2) (encodeChars b) _ hk
    rw [← htext, show (encodeChars a1).length + (p - (encodeChars a1).length) = p by omega,
      h10] at this
    exact encodeChars_no_newline a2 h2 (this ▸ getD_mem_of_lt _ _ hk)
  obtain ⟨hbound, _, _, hline⟩ := searchLine_computeLineStarts (encodeChars (a1 ++ a2 ++ b))
    (encodeChars (a1 ++ a2)).length
  have hstart := searchLine_lineStart (encodeChars (a1 ++ a2 ++ b))
    (encodeChars (a1 ++ a2)).length (encodeChars a1).length hLmem (by omega) hno
  have htake : (encodeChars (a1 ++ a2 ++ b)).take (encodeChars (a1 ++ a2)).length
      = encodeChars a1 ++ encodeChars a2 := by
    rw [htext, ho, ← List.length_append, List.take_left']
    rfl
  have hcount : ((encodeChars (a1 ++ a2 ++ b)).take (encodeChars (a1 ++ a2)).length).count 10
      = (encodeChars a1).count 10 := by
    rw [htake, List.count_append, List.count_eq_zero.mpr (encodeChars_no_newline a2 h2)]
    rfl
  rw [hcount] at hline
  rw [hline] at hbound
  have hcol := countUtf16_chars a2 (encodeChars a1) (encodeChars b)
    (encodeChars (a1 ++ a2 ++ b)).length 0 (by rw [htext]; simp only [List.length_append]; omega)
    h2
  rw [← htext, ← ho, Nat.zero_add] at hcol
  have hstart2 := hstart
  rw [hline] at hstart2
  refine ⟨?_, hstart2, hbound⟩
  unfold byteOffsetToPosition
  simp only [if_neg (show ¬ (encodeChars (a1 ++ a2)).length
    > (encodeChars (a1 ++ a2 ++ b)).length by omega), hline, hstart2, hcol]

/-! ## The walk from a column to a byte offset -/

theorem utf16Units_pos (c : Char) : 1 ≤ utf16Units c := by
  unfold utf16Units
  split_ifs <;> omega

theorem utf16Length_append (a b : List Char) :
    utf16Length (a ++ b) = utf16Length a + utf16Length b := by
  simp [utf16Length]

/-- Walking over the code points `p` of one line: the walk ends right after
`p` when the requested column is reached there, or when the line ends there
before the requested column. -/
theorem walkColumns_chars (p : List Char) (pre post : Bytes) (character : Int)
    (left : Nat) (col : Int) (hl : (encodeChars p).length ≤ left)
    (hn : ∀ c ∈ p, c.toNat ≠ 10) (hle : col + utf16Length p ≤ character)
    (hend : col + utf16Length p = character ∨ post = [] ∨ post.getD 0 0 = 10) :
    walkColumns (pre ++ encodeChars p ++ post) character left pre.length col
      = pre.length + (encodeChars p).length := by
  induction p generalizing pre left col with
  | nil =>
    simp only [encodeChars, List.flatMap_nil, List.append_nil, List.length_nil, Nat.add_zero]
    cases left with
    | zero => rfl
    | succ m =>
      rw [walkColumns, if_neg]
      rintro ⟨h1, h2, h3⟩
      simp only [utf16Length, List.map_nil, List.sum_nil, Nat.cast_zero, add_zero] at hend hle
      rcases hend with h | h | h
      · omega
      · subst h
        simp at h1
      · have := getD_append_mid pre post [] 0 (by
          by_contra hc
          have : post = [] := List.eq_nil_of_length_eq_zero (by omega)
          subst this
          simp at h1)
        simp only [List.append_nil, Nat.add_zero] at this
        rw [this] at h2
        exact h2 h
  | cons c rest ih =>
    rw [encodeChars_cons] at hl ⊢
    have hpos := encodeChar_length_pos c
    rw [List.length_append] at hl
    obtain ⟨m, hm⟩ : ∃ m, left = m + 1 := ⟨left - 1, by omega⟩
    subst hm
    have hu := utf16Units_pos c
    rw [utf16Length_cons] at hle hend
    have hget : ∀ k, k < (encodeChar c).length →
        (pre ++ (encodeChar c ++ encodeChars rest) ++ post).getD (pre.length + k) 0
          = (encodeChar c).getD k 0 := by
      intro k hk
      have : pre ++ (encodeChar c ++ encodeChars rest) ++ post
          = pre ++ encodeChar c ++ (encodeChars rest ++ post) := by
        simp only [List.append_assoc]
      rw [this]
      exact getD_append_mid pre (encodeChar c) _ k hk
    have h0 := hget 0 hpos
    rw [Nat.add_zero] at h0
    have hne : (pre ++ (encodeChar c ++ encodeChars rest) ++ post).getD pre.length 0 ≠ 10 := by
      rw [h0]
      exact encodeChar_head_ne_newline c (hn c (List.mem_cons_self _ _))
    have hcond : pre.length < (pre ++ (encodeChar c ++ encodeChars rest) ++ post).length
        ∧ (pre ++ (encodeChar c ++ encodeChars rest) ++ post).getD pre.length 0 ≠ 10
        ∧ col < character := by
      refine ⟨?_, hne, ?_⟩
      · simp only [List.length_append]; omega
      · push_cast at hle; omega
    rw [walkColumns, if_pos hcond]
    have hrest : ∀ c ∈ rest, c.toNat ≠ 10 := fun x hx => hn x (List.mem_cons_of_mem _ hx)
    by_cases hc : c.toNat < 0x80
    · have henc := encodeChar_ascii c hc
      have hu1 := utf16Units_ascii c hc
      rw [h0, henc, List.getD_cons_zero, if_pos hc]
      have e1 : pre ++ ([c.toNat] ++ encodeChars rest) ++ post
          = pre ++ [c.toNat] ++ encodeChars rest ++ post := by
        simp only [List.append_assoc]
      have e3 : pre.length + 1 = (pre ++ [c.toNat]).length := by
        simp only [List.length_append, List.length_cons, List.length_nil]
      rw [e1, e3, ih (pre ++ [c.toNat]) m (col + 1) (by rw [henc] at hl; simp at hl; omega)
        hrest (by rw [hu1] at hle; push_cast at hle ⊢; omega)
        (by rw [hu1] at hend; push_cast at hend ⊢
            rcases hend with h | h | h
            · left; omega
            · right; left; exact h
            · right; right; exact h)]
      simp only [List.length_append, List.length_cons, List.length_nil]
      omega
    · have hge := encodeChar_head_ge c (by omega)
      rw [if_neg (by rw [h0]; omega),
        decodeCodePoint_encodeChar _ pre.length c (by omega) hget]
      simp only
      have e1 : pre ++ (encodeChar c ++ encodeChars rest) ++ post
          = pre ++ encodeChar c ++ encodeChars rest ++ post := by
        simp only [List.append_assoc]
      have e3 : pre.length + (encodeChar c).length = (pre ++ encodeChar c).length := by
        simp only [List.length_append]
      have hunits : (if c.toNat ≤ 0xFFFF then col + 1 else col + 2) = col + utf16Units c := by
        unfold utf16Units
        split_ifs <;> push_cast <;> rfl
      rw [hunits, e1, e3, ih (pre ++ encodeChar c) m (col + utf16Units c) (by omega) hrest
        (by push_cast at hle ⊢; omega)
        (by rcases hend with h | h | h
            · left; push_cast at h ⊢; omega
            · right; left; exact h
            · right; right; exact h)]
      simp only [List.length_append]
      omega

theorem byteOffsetToPosition_clamp (text : Bytes) (lineStarts : List Nat) (offset : Nat) :
    byteOffsetToPosition text lineStarts offset
      = byteOffsetToPosition text lineStarts (min offset text.length) := by
  unfold byteOffsetToPosition
  by_cases h : offset > text.length
  · have hm : min offset text.length = text.length := min_eq_right (by omega)
    simp only [h, if_true, hm, gt_iff_lt, Nat.lt_irrefl, if_false]
  · have hm : min offset text.length = offset := min_eq_left (by omega)
    simp only [h, if_false, hm]

theorem byteOffsetToPosition_line (text : Bytes) (offset : Nat) :
    (byteOffsetToPosition text (computeLineStarts text) offset).line
      = (text.take (min offset text.length)).count 10 := by
  rw [byteOffsetToPosition_clamp]
  have hle : min offset text.length ≤ text.length := min_le_right _ _
  generalize min offset text.length = o at hle
  unfold byteOffsetToPosition
  simp only [if_neg (show ¬ o > text.length by omega)]
  exact (searchLine_computeLineStarts text o).2.2.2

theorem computeByteOffset_wellformed (a1 p q b : List Char) (c : Int)
    (h1 : a1 = [] ∨ ∃ a0, a1 = a0 ++ [Char.ofNat 10])
    (hpq : ∀ x ∈ p ++ q, x.toNat ≠ 10)
    (hb : b = [] ∨ ∃ b0, b = Char.ofNat 10 :: b0)
    (hc : c = utf16Length p ∨ (q = [] ∧ (utf16Length p : Int) ≤ c)) :
    computeByteOffset (encodeChars (a1 ++ (p ++ q) ++ b)) ((encodeChars a1).count 10) c
      = (encodeChars (a1 ++ p)).length := by
  obtain ⟨_, hstart, hbound⟩ := byteOffsetToPosition_wellformed a1 (p ++ q) b h1 hpq
  have hp : ∀ x ∈ p, x.toNat ≠ 10 := fun x hx => hpq x (List.mem_append_left _ hx)
  have htext : encodeChars (a1 ++ (p ++ q) ++ b)
      = encodeChars a1 ++ encodeChars p ++ (encodeChars q ++ encodeChars b) := by
    simp only [encodeChars_append, List.append_assoc]
  have hdef : (computeLineStarts (encodeChars (a1 ++ (p ++ q) ++ b))).getD
      ((encodeChars a1).count 10) (encodeChars (a1 ++ (p ++ q) ++ b)).length
      = (encodeChars a1).length := by
    rw [← hstart]
    simp only [List.getD_eq_getElem?_getD, List.getElem?_eq_getElem hbound, Option.getD_some]
  unfold computeByteOffset
  rw [hdef]
  have hwalk := walkColumns_chars p (encodeChars a1) (encodeChars q ++ encodeChars b) c
    (encodeChars (a1 ++ (p ++ q) ++ b)).length 0
    (by rw [htext]; simp only [List.length_append]; omega) hp
    (by rcases hc with h | h
        · rw [h]; omega
        · rw [Int.zero_add]; exact h.2)
    (by rcases hc with h | ⟨hq, _⟩
        · left; rw [h]; omega
        · right
          subst hq
          rcases hb with h | ⟨b0, h⟩
          · left; subst h; simp [encodeChars]
          · right; subst h
            simp [encodeChars, encodeChar_newline])
  rw [← htext] at hwalk
  rw [hwalk, encodeChars_append, List.length_append]

/-! ## Counting commas -/

theorem utf8_comma : utf8 "、" = [0xE3, 0x80, 0x81] := by decide

theorem findSubAux_some (s pat : Bytes) (left pos f : Nat)
    (h : findSubAux s pat left pos = some f) :
    pos ≤ f ∧ f + pat.length ≤ s.length ∧ substr s f pat.length = pat
      ∧ ∀ i, pos ≤ i → i < f → substr s i pat.length ≠ pat := by
  induction left generalizing pos with
  | zero => simp [findSubAux] at h
  | succ n ih =>
    unfold findSubAux at h
    split_ifs at h with h1 h2
    · cases h
      exact ⟨Nat.le_refl _, h1, h2, fun i hi hlt => by omega⟩
    · obtain ⟨a, b, c, d⟩ := ih (pos + 1) h
      refine ⟨by omega, b, c, fun i hi hlt => ?_⟩
      by_cases hip : i = pos
      · subst hip; exact h2
      · exact d i (by omega) hlt

theorem findSubAux_none (s pat : Bytes) (left pos : Nat)
    (hl : s.length + 1 - pos ≤ left) (h : findSubAux s pat left pos = none) :
    ∀ i, pos ≤ i → ¬ (i + pat.length ≤ s.length ∧ substr s i pat.length = pat) := by
  induction left generalizing pos with
  | zero => intro i hi hc; omega
  | succ n ih =>
    unfold findSubAux at h
    split_ifs at h with h1 h2
    · intro i hi hc
      by_cases hip : i = pos
      · subst hip; exact h2 hc.2
      · exact ih (pos + 1) (by omega) h i (by omega) hc
    · intro i hi hc; omega

theorem take3_eq_comma_length (l : Bytes) (h : l.take 3 = utf8 "、") : 3 ≤ l.length := by
  have := congrArg List.length h
  rw [utf8_comma] at this
  simp only [List.length_take, List.length_cons, List.length_nil] at this
  omega

theorem commaOccurrences_drop (text : Bytes) (pos : Nat) (h : pos < text.length) :
    commaOccurrences (text.drop pos)
      = (if (text.drop pos).take 3 = utf8 "、" then 1 else 0)
        + commaOccurrences (text.drop (pos + 1)) := by
  conv_lhs => rw [drop_eq_getD_cons text pos h]
  rw [commaOccurrences, ← drop_eq_getD_cons text pos h]

theorem commaOccurrences_skip (text : Bytes) (pos f : Nat) (hpf : pos ≤ f)
    (hf : f ≤ text.length)
    (hno : ∀ i, pos ≤ i → i < f → (text.drop i).take 3 ≠ utf8 "、") :
    commaOccurrences (text.drop pos) = commaOccurrences (text.drop f) := by
  induction f with
  | zero =>
    have : pos = 0 := by omega
    rw [this]
  | succ k ih =>
    by_cases hk : pos = k + 1
    · rw [hk]
    · rw [ih (by omega) (by omega) (fun i h1 h2 => hno i h1 (by omega)),
        commaOccurrences_drop text k (by omega),
        if_neg (hno k (by omega) (by omega)), Nat.zero_add]

theorem commaOccurrences_at_match (text : Bytes) (f : Nat)
    (hm : (text.drop f).take 3 = utf8 "、") :
    commaOccurrences (text.drop f) = 1 + commaOccurrences (text.drop (f + 3)) := by
  have hdd : text.drop (f + 3) = (text.drop f).drop 3 := by
    rw [List.drop_drop]
  rw [hdd]
  generalize text.drop f = l at hm
  rw [utf8_comma] at hm
  match l, hm with
  | a :: b :: c :: rest, hm =>
    simp only [List.take_succ_cons, List.take_zero, List.cons.injEq, and_true] at hm
    obtain ⟨ha, hb, hc⟩ := hm
    subst ha hb hc
    simp only [commaOccurrences, utf8_comma, List.drop_succ_cons, List.drop_zero]
    have h1 : ¬ ((0x80 :: 0x81 :: rest).take 3 = [0xE3, 0x80, 0x81]) := by
      simp
    have h2 : ¬ ((0x81 :: rest).take 3 = [0xE3, 0x80, 0x81]) := by
      cases rest with
      | nil => simp
      | cons x t => cases t <;> simp
    have h0 : (0xE3 :: 0x80 :: 0x81 :: rest).take 3 = [0xE3, 0x80, 0x81] := by simp
    rw [if_pos h0, if_neg h1, if_neg h2]
    omega

theorem countCommasLoop_eq (text : Bytes) (left pos count : Nat)
    (hl : text.length - pos ≤ left) :
    countCommasLoop text left pos count = count + commaOccurrences (text.drop pos) := by
  induction left generalizing pos count with
  | zero =>
    have : text.drop pos = [] := List.drop_eq_nil_of_le (by omega)
    simp [countCommasLoop, this, commaOccurrences]
  | succ n ih =>
    unfold countCommasLoop
    by_cases hp : pos < text.length
    · rw [if_pos hp]
      cases hfind : findSub text (utf8 "、") pos with
      | none =>
        have hno := findSubAux_none text (utf8 "、") _ pos (Nat.le_refl _) hfind
        have : commaOccurrences (text.drop pos) = commaOccurrences (text.drop text.length) :=
          commaOccurrences_skip text pos text.length (by omega) (Nat.le_refl _)
            (fun i h1 _ hm => hno i h1 ⟨by
              have := take3_eq_comma_length _ hm
              rw [utf8_comma]
              simp only [List.length_drop, List.length_cons, List.length_nil] at this ⊢
              omega, by rw [utf8_comma] at hm ⊢; exact hm⟩)
        simp [this, commaOccurrences]
      | some f =>
        obtain ⟨h1, h2, h3, h4⟩ := findSubAux_some text (utf8 "、") _ pos f hfind
        have hlen : (utf8 "、").length = 3 := by rw [utf8_comma]; rfl
        rw [hlen] at h2 h3 h4
        simp only [hlen]
        rw [ih (f + 3) (count + 1) (by omega),
          commaOccurrences_skip text pos f h1 (by omega) (fun i a b => h4 i a b),
          commaOccurrences_at_match text f h3]
        omega
    · have : text.drop pos = [] := List.drop_eq_nil_of_le (by omega)
      simp [hp, this, commaOccurrences]

/-- `countCommas` returns the number of occurrences of 、 in the text. -/
theorem countCommas_eq (text : Bytes) : countCommas text = commaOccurrences text := by
  unfold countCommas
  rw [countCommasLoop_eq text text.length 0 0 (by omega)]
  simp

theorem checkCommaLimitLoop_eq (ctx : RuleContext) (limit : Int) (hl : 1 ≤ limit)
    (sentences : List SentenceBoundary) (diags : List Diagnostic) :
    checkCommaLimitLoop ctx limit sentences diags
      = diags ++ (sentences.filter
          (fun s => decide (limit < (commaOccurrences s.text : Int)))).map
          (fun s => sentenceDiagnostic ctx s
            (Message.commaLimit limit (commaOccurrences s.text))) := by
  induction sentences generalizing diags with
  | nil => simp [checkCommaLimitLoop]
  | cons s rest ih =>
    unfold checkCommaLimitLoop
    simp only [countCommas_eq]
    by_cases hc : commaOccurrences s.text ≤ limit.toNat
    · have : ¬ (limit < (commaOccurrences s.text : Int)) := by omega
      rw [if_pos hc, ih, List.filter_cons_of_neg (by simpa using this)]
    · have : limit < (commaOccurrences s.text : Int) := by omega
      rw [if_neg hc, ih, List.filter_cons_of_pos (by simpa using this)]
      simp [sentenceDiagnostic, makeRange]

/-! ## The adversative が rule -/

/-- What `inSentence` tests: the byte position lies in `[start, end)`. -/
theorem inSentence_eq (bytePos : Nat) (sentence : SentenceBoundary) :
    inSentence bytePos sentence
      = decide (sentence.start ≤ bytePos ∧ bytePos < sentence.end_) := rfl

theorem countAdversativeGa_eq (ctx : RuleContext) (sentence : SentenceBoundary)
    (tokens : List TokenData) (i count : Nat) :
    countAdversativeGa ctx sentence tokens i count
      = count + (pairFrom ctx.tokenBytePositions tokens i).countP
          (fun p => isAdversativeGa p.1.feature && inSentence p.2 sentence) := by
  induction tokens generalizing i count with
  | nil => simp [countAdversativeGa, pairFrom]
  | cons token rest ih =>
    unfold countAdversativeGa pairFrom
    rw [List.countP_cons]
    cases hga : isAdversativeGa token.feature
    · simp only [Bool.not_false, if_true, ih, Bool.false_and, Bool.false_eq_true, if_false]
      omega
    · cases hin : inSentence (ctx.tokenBytePositions.getD i 0) sentence
      · simp only [Bool.not_true, Bool.false_eq_true, if_false, ih, Bool.and_false]
        omega
      · simp only [Bool.not_true, Bool.false_eq_true, if_false, if_true, ih, Bool.and_self]
        omega

theorem checkAdversativeGaLoop_eq (ctx : RuleContext) (maxCount : Int) (hl : 1 ≤ maxCount)
    (sentences : List SentenceBoundary) (diags : List Diagnostic) :
    checkAdversativeGaLoop ctx maxCount sentences diags
      = diags ++ (sentences.filter
          (fun s => decide (maxCount < (adversativeGaIn ctx s : Int)))).map
          (fun s => sentenceDiagnostic ctx s
            (Message.adversativeGa maxCount (adversativeGaIn ctx s))) := by
  induction sentences generalizing diags with
  | nil => simp [checkAdversativeGaLoop]
  | cons s rest ih =>
    unfold checkAdversativeGaLoop
    have hcount : countAdversativeGa ctx s ctx.tokens 0 0 = adversativeGaIn ctx s := by
      rw [countAdversativeGa_eq, Nat.zero_add]
      simp only [inSentence_eq]
      rfl
    simp only [hcount]
    by_cases hc : adversativeGaIn ctx s ≤ maxCount.toNat
    · have : ¬ (maxCount < (adversativeGaIn ctx s : Int)) := by omega
      rw [if_pos hc, ih, List.filter_cons_of_neg (by simpa using this)]
    · have : maxCount < (adversativeGaIn ctx s : Int) := by omega
      rw [if_neg hc, ih, List.filter_cons_of_pos (by simpa using this)]
      simp [sentenceDiagnostic, makeRange]

/-! ## The duplicate particle rule -/

theorem duplicateParticleLoop_eq_scan (ctx : RuleContext) (sentence : SentenceBoundary)
    (maxRepeat : Int) (tokens : List TokenData) (i : Nat) (st : DupState)
    (diags : List Diagnostic) :
    duplicateParticleLoop ctx sentence maxRepeat tokens i st diags
      = duplicateParticleScan ctx maxRepeat
          ((pairFrom ctx.tokenBytePositions tokens i).filter
            (fun p => inSentence p.2 sentence && isParticle p.1.feature)) st diags := by
  induction tokens generalizing i st diags with
  | nil => simp [duplicateParticleLoop, pairFrom, duplicateParticleScan]
  | cons token rest ih =>
    unfold duplicateParticleLoop pairFrom
    rw [List.filter_cons]
    cases hin : inSentence (ctx.tokenBytePositions.getD i 0) sentence
    · simp only [hin, Bool.not_false, if_true, ih, Bool.false_and, Bool.false_eq_true,
        if_false]
    · cases hp : isParticle token.feature
      · simp only [hin, hp, Bool.not_true, Bool.not_false, Bool.false_eq_true, if_false,
          if_true, ih, Bool.and_false]
      · simp only [hin, hp, Bool.not_true, Bool.false_eq_true, if_false, if_true, ih,
          Bool.and_self]
        rw [duplicateParticleScan]

theorem splitBy_loop_append {α : Type} (r : α → α → Bool) (l : List α) (a : α)
    (g : List α) (gs : List (List α)) :
    List.splitBy.loop r l a g gs = gs.reverse ++ List.splitBy.loop r l a g [] := by
  induction l generalizing a g gs with
  | nil => simp [List.splitBy.loop]
  | cons b t ih =>
    rw [List.splitBy.loop, List.splitBy.loop]
    cases r a b
    · simp only
      rw [ih b [] ((a :: g).reverse :: gs), ih b [] [(a :: g).reverse]]
      simp
    · simp only
      exact ih b (a :: g) gs

theorem runDiagnostics_concat (ctx : RuleContext) (maxRepeat : Int)
    (first : TokenData × Nat) (rest : List (TokenData × Nat)) (a : TokenData × Nat) :
    runDiagnostics ctx maxRepeat (first :: rest ++ [a])
      = runDiagnostics ctx maxRepeat (first :: rest)
        ++ (if ((rest.length + 1 : Nat) : Int) + 1 > maxRepeat then
            [⟨makeRange ctx first.2 (a.2 + a.1.surface.length), ctx.severity,
              Message.duplicateParticle a.1.surface⟩]
          else []) := by
  have hcons : first :: rest ++ [a] = first :: (rest ++ [a]) := rfl
  rw [hcons, runDiagnostics, runDiagnostics, ← hcons, List.drop_append_eq_append_drop,
    List.map_append]
  congr 1
  by_cases h : ((rest.length + 1 : Nat) : Int) + 1 > maxRepeat
  · have : maxRepeat.toNat - (first :: rest).length = 0 := by
      simp only [List.length_cons]; omega
    rw [this, if_pos h]; rfl
  · obtain ⟨k, hk⟩ : ∃ k, maxRepeat.toNat - (first :: rest).length = k + 1 :=
      ⟨maxRepeat.toNat - (first :: rest).length - 1, by simp only [List.length_cons]; omega⟩
    rw [hk, if_neg h]; simp

theorem runDiagnostics_singleton (ctx : RuleContext) (maxRepeat : Int) (h : 1 ≤ maxRepeat)
    (a : TokenData × Nat) : runDiagnostics ctx maxRepeat [a] = [] := by
  obtain ⟨k, hk⟩ : ∃ k, maxRepeat.toNat = k + 1 := ⟨maxRepeat.toNat - 1, by omega⟩
  simp [runDiagnostics, hk]

/-- The loop invariant of the duplicate particle scan: while the run
`first :: rest` is being assembled, the state holds its last token, its first
start byte and its length, and the diagnostics so far are those of the
finished runs and of the run assembled so far. -/
theorem duplicateParticleScan_run (ctx : RuleContext) (maxRepeat : Int)
    (h : 1 ≤ maxRepeat) (l : List (TokenData × Nat)) (ag : TokenData × Nat)
    (g : List (TokenData × Nat)) (first : TokenData × Nat)
    (rest : List (TokenData × Nat)) (hcur : (ag :: g).reverse = first :: rest)
    (diags : List Diagnostic) :
    duplicateParticleScan ctx maxRepeat l
        { lastSurface := ag.1.surface, lastKey := particleKey ag.1.feature,
          lastStartByte := first.2, streak := ((rest.length + 1 : Nat) : Int),
          hasLast := true }
        (diags ++ runDiagnostics ctx maxRepeat (first :: rest))
      = diags ++ (List.splitBy.loop sameParticle l ag g []).flatMap
          (runDiagnostics ctx maxRepeat) := by
  induction l generalizing ag g first rest diags with
  | nil =>
    simp [duplicateParticleScan, List.splitBy.loop, ← hcur]
  | cons a t ih =>
    rw [duplicateParticleScan, List.splitBy.loop]
    by_cases hs : a.1.surface = ag.1.surface
        ∧ particleKey a.1.feature = particleKey ag.1.feature
    · have hsame : sameParticle ag a = true := by simpa [sameParticle] using hs
      have hcur1 : (a :: ag :: g).reverse = first :: (rest ++ [a]) := by
        rw [List.reverse_cons, hcur]; rfl
      have hlen : (((rest ++ [a]).length + 1 : Nat) : Int)
          = ((rest.length + 1 : Nat) : Int) + 1 := by
        simp
      have := ih a (ag :: g) first (rest ++ [a]) hcur1 diags
      rw [hlen] at this
      rw [hsame, if_pos ⟨rfl, hs.1, hs.2⟩]
      simp only
      rw [← this]
      congr 1
      have hrc := runDiagnostics_concat ctx maxRepeat first rest a
      rw [show first :: (rest ++ [a]) = first :: rest ++ [a] from rfl, hrc]
      split_ifs <;> simp
    · have hsame : sameParticle ag a = false := by simpa [sameParticle] using hs
      rw [hsame, if_neg (fun hc => hs ⟨hc.2.1, hc.2.2⟩)]
      simp only
      rw [splitBy_loop_append sameParticle t a [] [(ag :: g).reverse]]
      simp only [List.reverse_cons, List.reverse_nil, List.nil_append, List.singleton_append,
        List.flatMap_cons]
      have := ih a [] a [] rfl (diags ++ runDiagnostics ctx maxRepeat (first :: rest))
      rw [runDiagnostics_singleton ctx maxRepeat h, List.append_nil] at this
      simp only [List.length_nil, Nat.zero_add, Nat.cast_one] at this
      rw [this, ← List.reverse_cons, hcur, List.append_assoc]

theorem duplicateParticleScan_eq (ctx : RuleContext) (maxRepeat : Int)
    (h : 1 ≤ maxRepeat) (l : List (TokenData × Nat)) (diags : List Diagnostic) :
    duplicateParticleScan ctx maxRepeat l {} diags
      = diags ++ (l.splitBy sameParticle).flatMap (runDiagnostics ctx maxRepeat) := by
  cases l with
  | nil => simp [duplicateParticleScan]
  | cons a t =>
    rw [duplicateParticleScan, List.splitBy]
    have := duplicateParticleScan_run ctx maxRepeat h t a [] a [] rfl diags
    rw [runDiagnostics_singleton ctx maxRepeat h, List.append_nil] at this
    simp only [List.length_nil, Nat.zero_add, Nat.cast_one] at this
    rw [← this]
    simp

theorem checkDuplicateParticleSurfaceLoop_eq (ctx : RuleContext) (maxRepeat : Int)
    (h : 1 ≤ maxRepeat) (sentences : List SentenceBoundary) (diags : List Diagnostic) :
    checkDuplicateParticleSurfaceLoop ctx maxRepeat sentences diags
      = diags ++ sentences.flatMap (fun s =>
          ((sentenceParticles ctx s).splitBy sameParticle).flatMap
            (runDiagnostics ctx maxRepeat)) := by
  induction sentences generalizing diags with
  | nil => simp [checkDuplicateParticleSurfaceLoop]
  | cons s rest ih =>
    rw [checkDuplicateParticleSurfaceLoop, ih, duplicateParticleLoop_eq_scan,
      duplicateParticleScan_eq ctx maxRepeat h]
    simp only [inSentence_eq]
    simp [sentenceParticles, tokensWithPos]

/-! ## The ra-dropping rule and the gate of `checkGrammar` -/

theorem isSpecialRaCase_of_isRaWord (pos : DetailedPOS) (h : isRaWord pos = true) :
    isSpecialRaCase pos = false := by
  have hb : pos.baseForm = utf8 "れる" := by
    simp only [isRaWord, decide_eq_true_eq] at h
    exact h.2.2
  have h1 : utf8 "れる" ≠ utf8 "来れる" := by decide
  have h2 : utf8 "れる" ≠ utf8 "見れる" := by decide
  simp [isSpecialRaCase, hb, h1, h2]

theorem checkRaDropping_pair (ctx : RuleContext) (diags : List Diagnostic)
    (v r : TokenData) (htok : ctx.tokens = [v, r])
    (hv : isTargetVerb (parsePos v.feature) = true)
    (hr : isRaWord (parsePos r.feature) = true) :
    checkRaDropping ctx diags
      = diags
        ++ (if isSpecialRaCase (parsePos v.feature) = true then
            [⟨makeRange ctx (ctx.tokenBytePositions.getD 0 0)
                (ctx.tokenBytePositions.getD 0 0 + v.surface.length),
              ctx.severity, Message.raDropping⟩]
          else [])
        ++ [⟨makeRange ctx (ctx.tokenBytePositions.getD 0 0)
              (ctx.tokenBytePositions.getD 1 0 + r.surface.length),
            ctx.severity, Message.raDropping⟩] := by
  have hns := isSpecialRaCase_of_isRaWord _ hr
  unfold checkRaDropping
  rw [htok]
  simp only [raSpecialLoop, raPairLoop, hns, hv, hr, Bool.not_false, if_true,
    Bool.false_eq_true, false_and, and_self, if_false, Nat.zero_add, Nat.sub_self,
    Nat.add_sub_cancel]
  cases isSpecialRaCase (parsePos v.feature) <;> simp

/-! ## Feature fields: the parser of `isAdversativeGa` against `splitFeature` -/

theorem findByteAux_some (s : Bytes) (c left pos e : Nat)
    (h : findByteAux s c left pos = some e) :
    pos ≤ e ∧ e < s.length ∧ s.getD e 0 = c
      ∧ ∀ i, pos ≤ i → i < e → s.getD i 0 ≠ c := by
  induction left generalizing pos with
  | zero => simp [findByteAux] at h
  | succ n ih =>
    unfold findByteAux at h
    split_ifs at h with h1 h2
    · cases h
      exact ⟨Nat.le_refl _, h1, h2, fun i hi hlt => by omega⟩
    · obtain ⟨a, b, c1, d⟩ := ih (pos + 1) h
      refine ⟨by omega, b, c1, fun i hi hlt => ?_⟩
      by_cases hip : i = pos
      · subst hip; exact h2
      · exact d i (by omega) hlt

theorem findByteAux_none (s : Bytes) (c left pos : Nat) (hl : s.length - pos ≤ left)
    (h : findByteAux s c left pos = none) :
    ∀ i, pos ≤ i → i < s.length → s.getD i 0 ≠ c := by
  induction left generalizing pos with
  | zero => intro i hi hlt; omega
  | succ n ih =>
    unfold findByteAux at h
    split_ifs at h with h1 h2
    · intro i hi hlt
      by_cases hip : i = pos
      · subst hip; exact h2
      · exact ih (pos + 1) (by omega) h i (by omega) hlt
    · intro i hi hlt; omega

theorem findByte_some (s : Bytes) (c pos e : Nat) (h : findByte s c pos = some e) :
    pos ≤ e ∧ e < s.length ∧ s.getD e 0 = c ∧ ∀ i, pos ≤ i → i < e → s.getD i 0 ≠ c :=
  findByteAux_some s c _ pos e h

theorem findByte_none (s : Bytes) (c pos : Nat) (h : findByte s c pos = none) :
    ∀ i, pos ≤ i → i < s.length → s.getD i 0 ≠ c :=
  findByteAux_none s c _ pos (Nat.le_refl _) h

theorem splitFeatureLoop_acc (feature : Bytes) (left pos : Nat) (fields : List Bytes) :
    splitFeatureLoop feature left pos fields
      = fields ++ splitFeatureLoop feature left pos [] := by
  induction left generalizing pos fields with
  | zero => simp [splitFeatureLoop]
  | succ n ih =>
    unfold splitFeatureLoop
    split_ifs with h
    · cases findByte feature 44 pos with
      | none => simp
      | some e =>
        simp only
        rw [ih (e + 1) (fields ++ [substr feature pos (e - pos)]),
          ih (e + 1) ([] ++ [substr feature pos (e - pos)])]
        simp
    · simp

/-- The counter of `splitFeatureLoop` is never used up. -/
theorem splitFeatureLoop_counter (feature : Bytes) (left1 left2 pos : Nat)
    (fields : List Bytes) (h1 : feature.length - pos ≤ left1)
    (h2 : feature.length - pos ≤ left2) :
    splitFeatureLoop feature left1 pos fields
      = splitFeatureLoop feature left2 pos fields := by
  induction left1 generalizing left2 pos fields with
  | zero =>
    have hs : ¬ pos < feature.length := by omega
    cases left2 with
    | zero => rfl
    | succ m => simp [splitFeatureLoop, hs]
  | succ n ih =>
    cases left2 with
    | zero =>
      have hs : ¬ pos < feature.length := by omega
      simp [splitFeatureLoop, hs]
    | succ m =>
      unfold splitFeatureLoop
      split_ifs with h
      · cases hf : findByte feature 44 pos with
        | none => rfl
        | some e =>
          have := (findByte_some feature 44 pos e hf).1
          exact ih m (e + 1) _ (by omega) (by omega)
      · rfl

/-- The fields that `splitFeature` finds from byte `pos` on. -/
theorem splitFeatureLoop_step (feature : Bytes) (pos : Nat) :
    splitFeatureLoop feature (feature.length - pos) pos []
      = if pos < feature.length then
          match findByte feature 44 pos with
          | none => [substrFrom feature pos]
          | some e => substr feature pos (e - pos)
              :: splitFeatureLoop feature (feature.length - (e + 1)) (e + 1) []
        else [] := by
  by_cases h : pos < feature.length
  · obtain ⟨n, hn⟩ : ∃ n, feature.length - pos = n + 1 := ⟨feature.length - pos - 1, by omega⟩
    rw [hn, splitFeatureLoop, if_pos h, if_pos h]
    cases hf : findByte feature 44 pos with
    | none => rfl
    | some e =>
      have := (findByte_some feature 44 pos e hf).1
      simp only
      rw [splitFeatureLoop_acc, splitFeatureLoop_counter feature n (feature.length - (e + 1))
        (e + 1) [] (by omega) (by omega)]
      rfl
  · have : feature.length - pos = 0 := by omega
    rw [this, if_neg h]; rfl

theorem isAdversativeGaLoop_eq (feature : Bytes) (left k start : Nat) (p s1 b : Bytes)
    (hs : start ≤ feature.length) (hl : feature.length + 1 - start ≤ left)
    (h0 : k = 0 → p = []) (h1 : k ≤ 1 → s1 = []) (h6 : k ≤ 6 → b = []) :
    isAdversativeGaLoop feature left k start (p, s1, b)
      = (if k = 0 then
            (splitFeatureLoop feature (feature.length - start) start []).getD 0 []
          else p,
         if k ≤ 1 then
            (splitFeatureLoop feature (feature.length - start) start []).getD (1 - k) []
          else s1,
         if k ≤ 6 then
            (splitFeatureLoop feature (feature.length - start) start []).getD (6 - k) []
          else b) := by
  induction left generalizing k start p s1 b with
  | zero => omega
  | succ n ih =>
    rw [isAdversativeGaLoop, splitFeatureLoop_step]
    cases hf : findByte feature 44 start with
    | none =>
      clear ih
      have hF0 : (if start < feature.length then [substrFrom feature start] else []).getD 0 []
          = substrFrom feature start := by
        by_cases hlt : start < feature.length
        · rw [if_pos hlt]; rfl
        · rw [if_neg hlt]
          simp only [substrFrom]
          rw [List.drop_eq_nil_of_le (by omega)]; rfl
      have hFs : ∀ j, (if start < feature.length then [substrFrom feature start]
          else []).getD (j + 1) [] = [] := by
        intro j
        by_cases hlt : start < feature.length
        · rw [if_pos hlt]; rfl
        · rw [if_neg hlt]; rfl
      generalize (if start < feature.length then [substrFrom feature start] else []) = F
        at hF0 hFs
      by_cases hk : k ≤ 6
      · interval_cases k
        · rw [h1 (by omega), h6 (by omega)]
          simp only [if_true, Nat.zero_le, Nat.sub_zero, hF0]
          rw [hFs 0, hFs 5]
        · rw [h6 (by omega)]
          simp only [if_neg (show ¬ (1 = 0) by omega), if_true, Nat.le_refl, Nat.sub_self, hF0,
            show (1 : Nat) ≤ 6 by omega]
          rw [hFs 4]
        · rw [h6 (by omega)]
          simp only [if_neg (show ¬ (2 = 0) by omega), if_neg (show ¬ (2 = 1) by omega),
            if_neg (show ¬ (2 = 6) by omega), if_neg (show ¬ (2 ≤ 1) by omega),
            show (2 : Nat) ≤ 6 by omega, if_true]
          rw [hFs 3]
        · rw [h6 (by omega)]
          simp only [if_neg (show ¬ (3 = 0) by omega), if_neg (show ¬ (3 = 1) by omega),
            if_neg (show ¬ (3 = 6) by omega), if_neg (show ¬ (3 ≤ 1) by omega),
            show (3 : Nat) ≤ 6 by omega, if_true]
          rw [hFs 2]
        · rw [h6 (by omega)]
          simp only [if_neg (show ¬ (4 = 0) by omega), if_neg (show ¬ (4 = 1) by omega),
            if_neg (show ¬ (4 = 6) by omega), if_neg (show ¬ (4 ≤ 1) by omega),
            show (4 : Nat) ≤ 6 by omega, if_true]
          rw [hFs 1]
        · rw [h6 (by omega)]
          simp only [if_neg (show ¬ (5 = 0) by omega), if_neg (show ¬ (5 = 1) by omega),
            if_neg (show ¬ (5 = 6) by omega), if_neg (show ¬ (5 ≤ 1) by omega),
            show (5 : Nat) ≤ 6 by omega, if_true]
          rw [hFs 0]
        · simp only [if_neg (show ¬ (6 = 0) by omega), if_neg (show ¬ (6 = 1) by omega),
            if_neg (show ¬ (6 ≤ 1) by omega), Nat.le_refl, Nat.sub_self, if_true, hF0]
      · have hk0 : k ≠ 0 := by omega
        have hk1 : ¬ k ≤ 1 := by omega
        have hk6 : k ≠ 6 := by omega
        have hk1' : k ≠ 1 := by omega
        simp only [if_neg hk0, if_neg hk1', if_neg hk6, if_neg hk1, if_neg hk]
    | some e =>
      obtain ⟨he1, he2, _, _⟩ := findByte_some feature 44 start e hf
      have hlt : start < feature.length := by omega
      simp only [if_pos hlt]
      by_cases hk : k ≤ 6
      · interval_cases k
        · simp only [Nat.zero_add, if_true]
          rw [if_neg (by omega), ih 1 (e + 1) _ _ _ (by omega) (by omega) (by omega)
            (fun _ => h1 (by omega)) (fun _ => h6 (by omega))]
          simp
        · have hb := h6 (by omega)
          subst hb
          simp only [if_neg (show ¬ (1 = 0) by omega), if_true]
          rw [if_neg (by omega), ih 2 (e + 1) _ _ _ (by omega) (by omega) (by omega)
            (by omega) (fun _ => rfl)]
          simp
        · have hb := h6 (by omega)
          subst hb
          simp only [if_neg (show ¬ (2 = 0) by omega), if_neg (show ¬ (2 = 1) by omega),
            if_neg (show ¬ (2 = 6) by omega)]
          rw [if_neg (by omega), ih 3 (e + 1) _ _ _ (by omega) (by omega) (by omega)
            (by omega) (fun _ => rfl)]
          simp
        · have hb := h6 (by omega)
          subst hb
          simp only [if_neg (show ¬ (3 = 0) by omega), if_neg (show ¬ (3 = 1) by omega),
            if_neg (show ¬ (3 = 6) by omega)]
          rw [if_neg (by omega), ih 4 (e + 1) _ _ _ (by omega) (by omega) (by omega)
            (by omega) (fun _ => rfl)]
          simp
        · have hb := h6 (by omega)
          subst hb
          simp only [if_neg (show ¬ (4 = 0) by omega), if_neg (show ¬ (4 = 1) by omega),
            if_neg (show ¬ (4 = 6) by omega)]
          rw [if_neg (by omega), ih 5 (e + 1) _ _ _ (by omega) (by omega) (by omega)
            (by omega) (fun _ => rfl)]
          simp
        · have hb := h6 (by omega)
          subst hb
          simp only [if_neg (show ¬ (5 = 0) by omega), if_neg (show ¬ (5 = 1) by omega),
            if_neg (show ¬ (5 = 6) by omega)]
          rw [if_neg (by omega), ih 6 (e + 1) _ _ _ (by omega) (by omega) (by omega)
            (by omega) (fun _ => rfl)]
          simp
        · simp only [if_neg (show ¬ (6 = 0) by omega), if_neg (show ¬ (6 = 1) by omega),
            if_true]
          by_cases hpart : substr feature start (e - start) = []
          · rw [if_neg (by simp [hpart]), ih 7 (e + 1) _ _ _ (by omega) (by omega) (by omega)
              (by omega) (by omega)]
            simp [hpart]
          · rw [if_pos ⟨by omega, hpart⟩]
            simp
      · have hk0 : k ≠ 0 := by omega
        have hk1 : ¬ k ≤ 1 := by omega
        have hk6 : k ≠ 6 := by omega
        have hk1' : k ≠ 1 := by omega
        simp only [if_neg hk0, if_neg hk1', if_neg hk6, if_neg hk1, if_neg hk]
        by_cases hb : b = []
        · rw [if_neg (by simp [hb]), ih (k + 1) (e + 1) _ _ _ (by omega) (by omega) (by omega)
            (by omega) (by omega)]
          simp [hk1, hk]
          omega
        · rw [if_pos ⟨by omega, hb⟩]

/-- The parser of `isAdversativeGa` and `POSAnalyzer::parseDetailedPOS` agree:
a feature is an adversative が exactly when its main category is 助詞, its
first subcategory 接続助詞 and its base form が. -/
theorem isAdversativeGa_iff (feature : Bytes) :
    isAdversativeGa feature = true
      ↔ (parseDetailedPOS feature).mainPOS = utf8 "助詞"
        ∧ (parseDetailedPOS feature).subPOS1 = utf8 "接続助詞"
        ∧ (parseDetailedPOS feature).baseForm = utf8 "が" := by
  have hloop := isAdversativeGaLoop_eq feature (feature.length + 1) 0 0 [] [] []
    (by omega) (by omega) (fun _ => rfl) (fun _ => rfl) (fun _ => rfl)
  simp only [Nat.sub_zero, if_true, Nat.zero_le] at hloop
  have hga : utf8 "が" ≠ [] := by decide
  have hstar : utf8 "が" ≠ utf8 "*" := by decide
  have hpos : utf8 "助詞" ≠ [] := by decide
  have hsub : utf8 "接続助詞" ≠ [] := by decide
  have hget : ∀ (l : List Bytes) (i : Nat), ¬ l.length > i → l.getD i [] = [] := by
    intro l i h
    simp only [List.getD_eq_getElem?_getD]
    rw [List.getElem?_eq_none (by omega)]
    rfl
  simp only [isAdversativeGa, hloop, parseDetailedPOS, splitFeature, decide_eq_true_eq]
  generalize splitFeatureLoop feature feature.length 0 [] = fields
  constructor
  · rintro ⟨a, b, c⟩
    refine ⟨?_, ?_, ?_⟩
    · split_ifs with h
      · exact a
      · exact absurd ((hget fields 0 h).symm.trans a).symm hpos
    · split_ifs with h
      · exact b
      · exact absurd ((hget fields 1 h).symm.trans b).symm hsub
    · rw [if_pos]
      · exact c
      · refine ⟨?_, by rw [c]; exact hstar⟩
        by_contra h
        exact hga ((hget fields 6 h).symm.trans c).symm
  · rintro ⟨a, b, c⟩
    refine ⟨?_, ?_, ?_⟩
    · split_ifs at a with h
      · exact a
      · exact absurd a.symm hpos
    · split_ifs at b with h
      · exact b
      · exact absurd b.symm hsub
    · split_ifs at c with h
      · exact c
      · exact absurd c.symm hga

/-! ## The counters of the loops are never used up -/

theorem scanBoundary_counter (text : Bytes) (maxSearch left1 left2 end_ : Nat)
    (h1 : maxSearch - end_ ≤ left1) (h2 : maxSearch - end_ ≤ left2) :
    scanBoundary text maxSearch left1 end_ = scanBoundary text maxSearch left2 end_ := by
  induction left1 generalizing left2 end_ with
  | zero =>
    have hs : ¬ end_ < maxSearch := by omega
    cases left2 with
    | zero => rfl
    | succ m => simp [scanBoundary, hs]
  | succ n ih =>
    cases left2 with
    | zero =>
      have hs : ¬ end_ < maxSearch := by omega
      simp [scanBoundary, hs]
    | succ m =>
      rw [scanBoundary, scanBoundary]
      split_ifs
      all_goals first | rfl | exact ih m (end_ + 1) (by omega) (by omega)

theorem searchLine_counter (lineStarts : List Nat) (offset left1 left2 lo hi : Nat)
    (h1 : hi - lo ≤ left1 + 1) (h2 : hi - lo ≤ left2 + 1) :
    searchLine lineStarts offset left1 lo hi = searchLine lineStarts offset left2 lo hi := by
  induction left1 generalizing left2 lo hi with
  | zero =>
    have hs : ¬ lo + 1 < hi := by omega
    cases left2 with
    | zero => rfl
    | succ m => simp [searchLine, hs]
  | succ n ih =>
    cases left2 with
    | zero =>
      have hs : ¬ lo + 1 < hi := by omega
      simp [searchLine, hs]
    | succ m =>
      rw [searchLine, searchLine]
      simp only
      split_ifs with hc
      · exact ih m ((lo + hi) / 2) hi (by omega) (by omega)
      · exact ih m lo ((lo + hi) / 2) (by omega) (by omega)
      · rfl

theorem countUtf16_counter (text : Bytes) (offset left1 left2 i col16 : Nat)
    (h1 : text.length - i ≤ left1) (h2 : text.length - i ≤ left2) :
    countUtf16 text offset left1 i col16 = countUtf16 text offset left2 i col16 := by
  induction left1 generalizing left2 i col16 with
  | zero =>
    have hs : ¬ (i < offset ∧ i < text.length ∧ text.getD i 0 ≠ 10) := by
      intro hc; omega
    cases left2 with
    | zero => rfl
    | succ m => rw [countUtf16, countUtf16, if_neg hs]
  | succ n ih =>
    cases left2 with
    | zero =>
      have hs : ¬ (i < offset ∧ i < text.length ∧ text.getD i 0 ≠ 10) := by
        intro hc; omega
      rw [countUtf16, countUtf16, if_neg hs]
    | succ m =>
      have hadv := decodeCodePoint_advances text i
      rw [countUtf16, countUtf16]
      simp only
      split_ifs
      all_goals first | rfl | (apply ih m <;> omega)

theorem utf8ToUtf16LengthLoop_counter (s : Bytes) (left1 left2 i n : Nat)
    (h1 : s.length - i ≤ left1) (h2 : s.length - i ≤ left2) :
    utf8ToUtf16LengthLoop s left1 i n = utf8ToUtf16LengthLoop s left2 i n := by
  induction left1 generalizing left2 i n with
  | zero =>
    have hs : ¬ i < s.length := by omega
    cases left2 with
    | zero => rfl
    | succ m => rw [utf8ToUtf16LengthLoop, utf8ToUtf16LengthLoop, if_neg hs]
  | succ k ih =>
    cases left2 with
    | zero =>
      have hs : ¬ i < s.length := by omega
      rw [utf8ToUtf16LengthLoop, utf8ToUtf16LengthLoop, if_neg hs]
    | succ m =>
      have hadv := decodeCodePoint_advances s i
      rw [utf8ToUtf16LengthLoop, utf8ToUtf16LengthLoop]
      simp only
      split_ifs
      all_goals first | rfl | (apply ih m <;> omega)

theorem toByteOffsetLoop_counter (text : Bytes) (startChar : Int) (left1 left2 bytePos : Nat)
    (utf16Pos : Int) (h1 : text.length - bytePos ≤ left1) (h2 : text.length - bytePos ≤ left2) :
    toByteOffsetLoop text startChar left1 bytePos utf16Pos
      = toByteOffsetLoop text startChar left2 bytePos utf16Pos := by
  induction left1 generalizing left2 bytePos utf16Pos with
  | zero =>
    have hs : ¬ (bytePos < text.length ∧ utf16Pos < startChar ∧ text.getD bytePos 0 ≠ 10) := by
      intro hc; omega
    cases left2 with
    | zero => rfl
    | succ m => rw [toByteOffsetLoop, toByteOffsetLoop, if_neg hs]
  | succ n ih =>
    cases left2 with
    | zero =>
      have hs : ¬ (bytePos < text.length ∧ utf16Pos < startChar
          ∧ text.getD bytePos 0 ≠ 10) := by
        intro hc; omega
      rw [toByteOffsetLoop, toByteOffsetLoop, if_neg hs]
    | succ m =>
      rw [toByteOffsetLoop, toByteOffsetLoop]
      simp only
      split_ifs
      all_goals first | rfl | (apply ih m <;> omega)

theorem skipWhitespaceAux_le (text : Bytes) (left pos : Nat) :
    skipWhitespaceAux text left pos ≤ pos + left := by
  induction left generalizing pos with
  | zero => simp [skipWhitespaceAux]
  | succ n ih =>
    rw [skipWhitespaceAux]
    split_ifs
    · have := ih (pos + 1); omega
    · omega

/-! ## The particle key against the fields of `splitFeature` -/

theorem splitFeature_eq (feature : Bytes) :
    splitFeature feature
      = if 0 < feature.length then
          match findByte feature 44 0 with
          | none => [feature]
          | some e => substr feature 0 e
              :: splitFeatureLoop feature (feature.length - (e + 1)) (e + 1) []
        else [] := by
  have h := splitFeatureLoop_step feature 0
  simp only [Nat.sub_zero] at h
  rw [splitFeature, h]
  rfl

/-- `isParticle` reads the same first field as `POSAnalyzer::parseDetailedPOS`:
a feature is a particle exactly when its main category is 助詞. -/
theorem isParticle_iff (feature : Bytes) :
    isParticle feature = true ↔ (parseDetailedPOS feature).mainPOS = utf8 "助詞" := by
  have hpos : utf8 "助詞" ≠ [] := by decide
  simp only [isParticle, parseDetailedPOS, splitFeature_eq, decide_eq_true_eq]
  by_cases hlen : 0 < feature.length
  · rw [if_pos hlen]
    cases hf : findByte feature 44 0 with
    | none => simp
    | some e => simp
  · have hnil : feature = [] := List.length_eq_zero.mp (by omega)
    subst hnil
    have hf : findByte ([] : Bytes) 44 0 = none := by decide
    rw [hf]
    simp

theorem take_split_at (s : Bytes) (c1 c2 : Nat) (h1 : c1 < c2) (h2 : c2 ≤ s.length) :
    s.take c2 = s.take c1 ++ s.getD c1 0 :: (s.drop (c1 + 1)).take (c2 - (c1 + 1)) := by
  have e1 : s.take c2 = (s.take c2).take c1 ++ (s.take c2).drop c1 :=
    (List.take_append_drop c1 _).symm
  rw [e1, List.take_take, Nat.min_eq_left (by omega), List.drop_take,
    drop_eq_getD_cons s c1 (by omega)]
  obtain ⟨k, hk⟩ : ∃ k, c2 - c1 = k + 1 := ⟨c2 - c1 - 1, by omega⟩
  rw [hk, List.take_succ_cons]
  have : c2 - (c1 + 1) = k := by omega
  rw [this]

/-- For a feature with at least two commas, `particleKey` is the main category
and the first subcategory of `POSAnalyzer::parseDetailedPOS`, joined by a
comma. -/
theorem particleKey_fields (feature : Bytes) (c1 c2 : Nat)
    (h1 : findByte feature 44 0 = some c1) (h2 : findByte feature 44 (c1 + 1) = some c2) :
    particleKey feature
      = (parseDetailedPOS feature).mainPOS ++ utf8 ","
          ++ (parseDetailedPOS feature).subPOS1 := by
  obtain ⟨_, hc1, hg1, _⟩ := findByte_some feature 44 0 c1 h1
  obtain ⟨hle, hc2, _, _⟩ := findByte_some feature 44 (c1 + 1) c2 h2
  have hstep := splitFeatureLoop_step feature (c1 + 1)
  rw [if_pos (by omega), h2] at hstep
  simp only at hstep
  have hcomma : utf8 "," = [44] := by decide
  simp only [particleKey, h1, h2, parseDetailedPOS, splitFeature_eq, if_pos (show 0 < feature.length by omega),
    hstep, hcomma]
  simp only [List.length_cons, List.getD_cons_zero, List.getD_cons_succ, substr, List.drop_zero]
  rw [if_pos (by omega), if_pos (by omega), take_split_at feature c1 c2 (by omega) (by omega), hg1]
  simp

theorem append_comma_inj (a b c d : Bytes) (ha : 44 ∉ a) (hc : 44 ∉ c)
    (h : a ++ 44 :: b = c ++ 44 :: d) : a = c ∧ b = d := by
  induction a generalizing c with
  | nil =>
    cases c with
    | nil => simpa using h
    | cons y ys =>
      simp only [List.nil_append, List.cons_append, List.cons.injEq] at h
      exact absurd (h.1 ▸ List.mem_cons_self _ _) hc
  | cons x xs ih =>
    cases c with
    | nil =>
      simp only [List.nil_append, List.cons_append, List.cons.injEq] at h
      exact absurd (h.1 ▸ List.mem_cons_self _ _) ha
    | cons y ys =>
      simp only [List.cons_append, List.cons.injEq] at h
      obtain ⟨r1, r2⟩ := ih ys (fun hm => ha (List.mem_cons_of_mem _ hm))
        (fun hm => hc (List.mem_cons_of_mem _ hm)) h.2
      exact ⟨by rw [h.1, r1], r2⟩

theorem mainPOS_no_comma (feature : Bytes) (c1 : Nat) (h1 : findByte feature 44 0 = some c1) :
    (parseDetailedPOS feature).mainPOS = feature.take c1
      ∧ 44 ∉ (parseDetailedPOS feature).mainPOS := by
  obtain ⟨_, hc1, hg1, hbefore⟩ := findByte_some feature 44 0 c1 h1
  have hm : (parseDetailedPOS feature).mainPOS = feature.take c1 := by
    simp only [parseDetailedPOS, splitFeature_eq, if_pos (show 0 < feature.length by omega), h1]
    simp [substr]
  refine ⟨hm, ?_⟩
  rw [hm]
  intro hmem
  obtain ⟨i, hi, hget⟩ := List.getElem_of_mem hmem
  rw [List.length_take] at hi
  have hlt : i < c1 := by omega
  have hne := hbefore i (Nat.zero_le _) hlt
  apply hne
  rw [List.getElem_take] at hget
  simp only [List.getD_eq_getElem?_getD]
  rw [List.getElem?_eq_getElem (by omega)]
  exact hget

/-- Two features with at least two commas each have the same `particleKey`
exactly when they have the same main category and the same first
subcategory. -/
theorem particleKey_eq_iff (f g : Bytes) (c1 c2 d1 d2 : Nat)
    (hf1 : findByte f 44 0 = some c1) (hf2 : findByte f 44 (c1 + 1) = some c2)
    (hg1 : findByte g 44 0 = some d1) (hg2 : findByte g 44 (d1 + 1) = some d2) :
    particleKey f = particleKey g
      ↔ (parseDetailedPOS f).mainPOS = (parseDetailedPOS g).mainPOS
        ∧ (parseDetailedPOS f).subPOS1 = (parseDetailedPOS g).subPOS1 := by
  have hcomma : utf8 "," = [44] := by decide
  rw [particleKey_fields f c1 c2 hf1 hf2, particleKey_fields g d1 d2 hg1 hg2, hcomma]
  constructor
  · intro h
    simp only [List.append_assoc, List.singleton_append] at h
    exact append_comma_inj _ _ _ _ (mainPOS_no_comma f c1 hf1).2 (mainPOS_no_comma g d1 hg1).2 h
  · rintro ⟨a, b⟩
    rw [a, b]

/-! ## The masker keeps length, newlines and bytes -/

theorem getD_set (l : Bytes) (i j a : Nat) :
    (l.set i a).getD j 0 = if i = j ∧ i < l.length then a else l.getD j 0 := by
  simp only [List.getD_eq_getElem?_getD, List.getElem?_set]
  by_cases h : i = j
  · subst h
    by_cases hl : i < l.length
    · simp [hl]
    · simp [hl, List.getElem?_eq_none (Nat.le_of_not_lt hl)]
  · simp [h]

theorem Keeps.refl (text : Bytes) : Keeps text text :=
  ⟨rfl, fun _ => Or.inl rfl⟩

theorem Keeps.set_same (text masked : Bytes) (h : Keeps text masked) (i : Nat) :
    Keeps text (masked.set i (text.getD i 0)) := by
  refine ⟨by rw [List.length_set]; exact h.1, fun j => ?_⟩
  rw [getD_set]
  split_ifs with hc
  · rw [hc.1]; exact Or.inl rfl
  · exact h.2 j

theorem Keeps.set_space (text masked : Bytes) (h : Keeps text masked) (i : Nat)
    (hn : text.getD i 0 ≠ 10 ∧ text.getD i 0 ≠ 13) : Keeps text (masked.set i 32) := by
  refine ⟨by rw [List.length_set]; exact h.1, fun j => ?_⟩
  rw [getD_set]
  split_ifs with hc
  · rw [← hc.1]; exact Or.inr ⟨rfl, hn⟩
  · exact h.2 j

theorem Keeps.newline_iff (text masked : Bytes) (h : Keeps text masked) (j : Nat) :
    (masked.getD j 0 = 10 ↔ text.getD j 0 = 10)
    ∧ (masked.getD j 0 = 13 ↔ text.getD j 0 = 13) := by
  rcases h.2 j with h1 | ⟨h1, h2, h3⟩
  · rw [h1]; exact ⟨Iff.rfl, Iff.rfl⟩
  · rw [h1]
    exact ⟨⟨fun hc => by omega, fun hc => absurd hc h2⟩,
      ⟨fun hc => by omega, fun hc => absurd hc h3⟩⟩

theorem Keeps.setSpaceAt (text masked : Bytes) (h : Keeps text masked) (i : Nat) :
    Keeps text (setSpaceAt masked i) := by
  unfold MoZuku.setSpaceAt setSpace
  by_cases hn : isNewline (masked.getD i 0) = true
  · rw [if_pos hn]
    refine ⟨by rw [List.length_set]; exact h.1, fun j => ?_⟩
    rw [getD_set]
    split_ifs with hc
    · rw [hc.1]; exact h.2 j
    · exact h.2 j
  · rw [if_neg hn]
    apply Keeps.set_space text masked h
    have hm : masked.getD i 0 ≠ 10 ∧ masked.getD i 0 ≠ 13 := by
      simpa [isNewline, not_or] using hn
    have := Keeps.newline_iff text masked h i
    exact ⟨fun hc => hm.1 (this.1.mpr hc), fun hc => hm.2 (this.2.mpr hc)⟩

theorem Keeps.spaceWhile (text : Bytes) (p : Nat → Bool) (limit left : Nat)
    (masked : Bytes) (i : Nat) (h : Keeps text masked) :
    Keeps text (spaceWhile p limit left masked i).1 := by
  induction left generalizing masked i with
  | zero => exact h
  | succ n ih =>
    unfold MoZuku.spaceWhile
    split_ifs
    · exact ih _ _ (Keeps.setSpaceAt text masked h i)
    · exact h

theorem Keeps.spaceBackWhile (text : Bytes) (p : Nat → Bool) (left : Nat)
    (masked : Bytes) (idx : Nat) (h : Keeps text masked) :
    Keeps text (spaceBackWhile p left masked idx) := by
  induction left generalizing masked idx with
  | zero => exact h
  | succ n ih =>
    unfold MoZuku.spaceBackWhile
    split_ifs
    · exact Keeps.setSpaceAt text masked h idx
    · exact ih _ _ (Keeps.setSpaceAt text masked h idx)
    · exact h

theorem Keeps.sanitizeLineComment (text masked : Bytes) (h : Keeps text masked) :
    Keeps text (sanitizeLineComment masked) := by
  unfold MoZuku.sanitizeLineComment
  simp only
  split_ifs
  all_goals first
    | exact h
    | (apply Keeps.spaceWhile
       first
        | exact h
        | (apply Keeps.spaceWhile
           first
            | exact h
            | exact Keeps.setSpaceAt _ _ h _
            | exact Keeps.setSpaceAt _ _ (Keeps.setSpaceAt _ _ h _) _)
        | exact Keeps.setSpaceAt _ _ (Keeps.spaceWhile _ _ _ _ _ _ h) _
        | exact Keeps.setSpaceAt _ _ (Keeps.setSpaceAt _ _ h _) _)

theorem Keeps.sanitizeBlockOpening (text masked : Bytes) (h : Keeps text masked) :
    Keeps text (sanitizeBlockOpening masked) := by
  unfold MoZuku.sanitizeBlockOpening
  simp only
  split_ifs
  · exact Keeps.spaceWhile _ _ _ _ _ _ (Keeps.spaceWhile _ _ _ _ _ _
      (Keeps.setSpaceAt _ _ (Keeps.setSpaceAt _ _ (Keeps.setSpaceAt _ _
        (Keeps.setSpaceAt _ _ h _) _) _) _))
  · exact Keeps.spaceWhile _ _ _ _ _ _ (Keeps.spaceWhile _ _ _ _ _ _
      (Keeps.setSpaceAt _ _ (Keeps.setSpaceAt _ _ h _) _))
  · exact h

theorem Keeps.sanitizeBlockClosing (text masked : Bytes) (h : Keeps text masked) :
    Keeps text (sanitizeBlockClosing masked) := by
  unfold MoZuku.sanitizeBlockClosing
  simp only
  split_ifs
  · exact Keeps.spaceBackWhile _ _ _ _ _ (Keeps.setSpaceAt _ _ (Keeps.setSpaceAt _ _
      (Keeps.setSpaceAt _ _ h _) _) _)
  · exact Keeps.setSpaceAt _ _ (Keeps.setSpaceAt _ _ (Keeps.setSpaceAt _ _ h _) _) _
  · exact Keeps.spaceBackWhile _ _ _ _ _ (Keeps.setSpaceAt _ _ (Keeps.setSpaceAt _ _ h _) _)
  · exact Keeps.setSpaceAt _ _ (Keeps.setSpaceAt _ _ h _) _
  · exact h

theorem Keeps.sanitizeBlockLines (text : Bytes) (left : Nat) (masked : Bytes) (pos : Nat)
    (h : Keeps text masked) : Keeps text (sanitizeBlockLines left masked pos) := by
  induction left generalizing masked pos with
  | zero => exact h
  | succ n ih =>
    unfold MoZuku.sanitizeBlockLines
    simp only
    split_ifs
    all_goals first
      | exact h
      | (apply ih
         first
          | exact Keeps.spaceWhile _ _ _ _ _ _ h
          | exact Keeps.setSpaceAt _ _ (Keeps.spaceWhile _ _ _ _ _ _ h) _
          | exact Keeps.setSpaceAt _ _ (Keeps.setSpaceAt _ _
              (Keeps.spaceWhile _ _ _ _ _ _ h) _) _)

theorem Keeps.sanitizeComment (raw : Bytes) (nodeType : Option Bytes) :
    Keeps raw (sanitizeComment raw nodeType) := by
  unfold MoZuku.sanitizeComment
  simp only
  split_ifs
  · unfold sanitizeBlockComment
    split_ifs
    · exact Keeps.refl raw
    · exact Keeps.sanitizeBlockLines _ _ _ _ (Keeps.sanitizeBlockClosing _ _
        (Keeps.sanitizeBlockOpening _ _ (Keeps.refl raw)))
  · exact Keeps.sanitizeLineComment _ _ (Keeps.refl raw)

theorem Keeps.blankWhile (text : Bytes) (p : Nat → Bool)
    (hp : ∀ c, p c = true → c ≠ 10 ∧ c ≠ 13) (left : Nat) (masked : Bytes) (idx : Nat)
    (h : Keeps text masked) : Keeps text (blankWhile p left masked idx).1 := by
  induction left generalizing masked idx with
  | zero => exact h
  | succ n ih =>
    unfold MoZuku.blankWhile
    split_ifs with hc
    · apply ih
      apply Keeps.set_space text masked h
      have hm := hp _ hc.2
      have := Keeps.newline_iff text masked h idx
      exact ⟨fun hx => hm.1 (this.1.mpr hx), fun hx => hm.2 (this.2.mpr hx)⟩
    · exact h

theorem Keeps.sanitizeLatexCommentText (raw : Bytes)
    (h0 : raw.getD 0 0 ≠ 10 ∧ raw.getD 0 0 ≠ 13) :
    Keeps raw (sanitizeLatexCommentText raw) := by
  unfold MoZuku.sanitizeLatexCommentText
  split_ifs
  · exact Keeps.refl raw
  · apply Keeps.blankWhile raw _ (fun c hc => by
      simp only [decide_eq_true_eq] at hc
      omega)
    apply Keeps.blankWhile raw _ (fun c hc => by
      simp only [decide_eq_true_eq] at hc
      omega)
    exact Keeps.set_space raw raw (Keeps.refl raw) 0 h0

theorem copyBytes_length (src : Bytes) (srcOff dstOff left i : Nat) (masked : Bytes) :
    (copyBytes src srcOff dstOff left i masked).length = masked.length := by
  induction left generalizing i masked with
  | zero => rfl
  | succ n ih => rw [copyBytes, ih, List.length_set]

theorem copyBytes_getD (src : Bytes) (srcOff dstOff left i : Nat) (masked : Bytes) (j : Nat) :
    (copyBytes src srcOff dstOff left i masked).getD j 0
      = if dstOff + i ≤ j ∧ j < dstOff + i + left ∧ j < masked.length then
          src.getD (srcOff + (j - dstOff)) 0
        else masked.getD j 0 := by
  induction left generalizing i masked with
  | zero =>
    rw [copyBytes, if_neg (by omega)]
  | succ n ih =>
    rw [copyBytes, ih, List.length_set, getD_set]
    by_cases h1 : dstOff + (i + 1) ≤ j ∧ j < dstOff + (i + 1) + n ∧ j < masked.length
    · rw [if_pos h1, if_pos (by omega)]
    · rw [if_neg h1]
      by_cases h2 : dstOff + i = j ∧ dstOff + i < masked.length
      · rw [if_pos h2, if_pos (by omega)]
        congr 2; omega
      · rw [if_neg h2, if_neg (by omega)]

theorem maskAll_length (text : Bytes) : (maskAll text).length = text.length := by
  simp [maskAll]

theorem Keeps.maskAll (text : Bytes) : Keeps text (maskAll text) := by
  refine ⟨maskAll_length text, fun j => ?_⟩
  simp only [MoZuku.maskAll, List.getD_eq_getElem?_getD, List.getElem?_map]
  cases hj : text[j]? with
  | none => simp
  | some c =>
    simp only [Option.map_some', Option.getD_some]
    split_ifs with hc
    · exact Or.inr ⟨rfl, hc⟩
    · exact Or.inl rfl

theorem restoreRanges_length (text : Bytes) (ranges : List ByteRange) (masked : Bytes) :
    (restoreRanges text ranges masked).length = masked.length := by
  induction ranges generalizing masked with
  | nil => rfl
  | cons r rest ih =>
    rw [restoreRanges]
    split_ifs
    · exact ih masked
    · rw [ih, copyBytes_length]

theorem writeSegments_length (segments : List CommentSegment) (masked : Bytes) :
    (writeSegments segments masked).length = masked.length := by
  induction segments generalizing masked with
  | nil => rfl
  | cons s rest ih =>
    rw [writeSegments]
    split_ifs
    · exact ih masked
    · rw [ih, copyBytes_length]

theorem Keeps.restoreRanges (text : Bytes) (ranges : List ByteRange) (masked : Bytes)
    (h : Keeps text masked) : Keeps text (restoreRanges text ranges masked) := by
  induction ranges generalizing masked with
  | nil => exact h
  | cons r rest ih =>
    rw [MoZuku.restoreRanges]
    split_ifs
    · exact ih masked h
    · apply ih
      refine ⟨by rw [copyBytes_length]; exact h.1, fun j => ?_⟩
      rw [copyBytes_getD]
      split_ifs with hc
      · left; congr 1; omega
      · exact h.2 j

theorem substr_getD (text : Bytes) (start n i : Nat) (h : i < (substr text start n).length) :
    (substr text start n).getD i 0 = text.getD (start + i) 0 := by
  simp only [substr, List.length_take, List.length_drop] at h
  simp only [substr, List.getD_eq_getElem?_getD]
  rw [List.getElem?_take_of_lt (by omega), List.getElem?_drop]

/-- Writing a sanitized comment keeps the text when the sanitized string
keeps the bytes of the text from `startByte` on. -/
theorem Keeps.writeSegments (text : Bytes) (segments : List CommentSegment)
    (masked : Bytes) (h : Keeps text masked)
    (hs : ∀ seg ∈ segments, ∃ raw n, raw = substr text seg.startByte n
      ∧ Keeps raw seg.sanitized) :
    Keeps text (writeSegments segments masked) := by
  induction segments generalizing masked with
  | nil => exact h
  | cons s rest ih =>
    rw [MoZuku.writeSegments]
    have hrest : ∀ seg ∈ rest, ∃ raw n, raw = substr text seg.startByte n
        ∧ Keeps raw seg.sanitized := fun seg hm => hs seg (List.mem_cons_of_mem _ hm)
    split_ifs
    · exact ih masked h hrest
    · apply ih _ _ hrest
      obtain ⟨raw, n, hraw, hk⟩ := hs s (List.mem_cons_self _ _)
      refine ⟨by rw [copyBytes_length]; exact h.1, fun j => ?_⟩
      rw [copyBytes_getD]
      split_ifs with hc
      · have hi : j - s.startByte < raw.length := by
          rw [← hk.1]
          have := hc.2.1
          simp only [Nat.add_zero, lt_min_iff] at this
          omega
        have hget := substr_getD text s.startByte n (j - s.startByte) (by rw [← hraw]; exact hi)
        rw [← hraw] at hget
        have hj : s.startByte + (j - s.startByte) = j := by omega
        rw [hj] at hget
        rw [Nat.zero_add, ← hget]
        exact hk.2 (j - s.startByte)
      · exact h.2 j

theorem findUnescapedPercent_some (text : Bytes) (lineEnd left current e : Nat)
    (h : findUnescapedPercent text lineEnd left current = some e) :
    current ≤ e ∧ e < lineEnd ∧ text.getD e 0 = 37 := by
  induction left generalizing current with
  | zero => simp [findUnescapedPercent] at h
  | succ n ih =>
    unfold findUnescapedPercent at h
    split_ifs at h with h1 h2
    · cases h
      exact ⟨Nat.le_refl _, h1, h2.1⟩
    · obtain ⟨a, b, c⟩ := ih (current + 1) h
      exact ⟨by omega, b, c⟩

theorem collectLatexCommentsLoop_spec (text : Bytes) (left pos : Nat)
    (segments : List CommentSegment)
    (hs : ∀ seg ∈ segments, text.getD seg.startByte 0 = 37
      ∧ seg.startByte < seg.endByte ∧ seg.endByte ≤ text.length
      ∧ seg.sanitized = sanitizeLatexCommentText
          (substr text seg.startByte (seg.endByte - seg.startByte))) :
    ∀ seg ∈ collectLatexCommentsLoop text left pos segments,
      text.getD seg.startByte 0 = 37
      ∧ seg.startByte < seg.endByte ∧ seg.endByte ≤ text.length
      ∧ seg.sanitized = sanitizeLatexCommentText
          (substr text seg.startByte (seg.endByte - seg.startByte)) := by
  induction left generalizing pos segments with
  | zero => exact hs
  | succ n ih =>
    unfold collectLatexCommentsLoop
    split_ifs with hpos
    · have hle : (match findByte text 10 pos with
          | none => text.length
          | some e => e) ≤ text.length := by
        cases hf : findByte text 10 pos with
        | none => exact Nat.le_refl _
        | some e => exact Nat.le_of_lt (findByte_some text 10 pos e hf).2.1
      generalize (match findByte text 10 pos with
          | none => text.length
          | some e => e) = lineEnd at hle
      have hnew : ∀ seg ∈ (match findUnescapedPercent text lineEnd (lineEnd - pos) pos with
          | some current => segments ++ [(⟨current, lineEnd,
              sanitizeLatexCommentText (substr text current (lineEnd - current))⟩ :
                CommentSegment)]
          | none => segments),
          text.getD seg.startByte 0 = 37
          ∧ seg.startByte < seg.endByte ∧ seg.endByte ≤ text.length
          ∧ seg.sanitized = sanitizeLatexCommentText
              (substr text seg.startByte (seg.endByte - seg.startByte)) := by
        cases hf : findUnescapedPercent text lineEnd (lineEnd - pos) pos with
        | none => exact hs
        | some current =>
          obtain ⟨a, b, c⟩ := findUnescapedPercent_some text lineEnd _ pos current hf
          intro seg hm
          rcases List.mem_append.mp hm with hm | hm
          · exact hs seg hm
          · simp only [List.mem_singleton] at hm
            subst hm
            exact ⟨c, b, hle, rfl⟩
      dsimp only
      split_ifs
      · exact hnew
      · exact ih _ _ hnew
    · exact hs

theorem collectLatexComments_keeps (text : Bytes) :
    ∀ seg ∈ collectLatexComments text, ∃ raw n, raw = substr text seg.startByte n
      ∧ Keeps raw seg.sanitized := by
  intro seg hm
  obtain ⟨a, b, c, d⟩ := collectLatexCommentsLoop_spec text text.length 0 []
    (fun _ h => absurd h (List.not_mem_nil _)) seg hm
  refine ⟨_, seg.endByte - seg.startByte, rfl, ?_⟩
  rw [d]
  apply Keeps.sanitizeLatexCommentText
  rw [substr_getD text seg.startByte _ 0 (by
    simp only [substr, List.length_take, List.length_drop]; omega)]
  simp only [Nat.add_zero]
  omega

theorem isLanguageSupported_html : isLanguageSupported (utf8 "html") = true := by decide

theorem isLanguageSupported_latex : isLanguageSupported (utf8 "latex") = true := by decide

theorem prepareAnalysisText_length (ext : Extractors) (maps : DocMaps) (uri text : Bytes) :
    (prepareAnalysisText ext maps uri text).1.length = text.length := by
  unfold prepareAnalysisText
  simp only
  cases maps.docLanguages uri with
  | none => rfl
  | some languageId =>
    simp only
    split_ifs <;>
      simp only [writeSegments_length, restoreRanges_length, maskAll_length]

theorem prepareAnalysisText_keeps (ext : Extractors) (maps : DocMaps) (uri text : Bytes)
    (hext : ∀ languageId, SegmentsSanitized text (ext.extractComments languageId text)) :
    Keeps text (prepareAnalysisText ext maps uri text).1 := by
  have hseg : ∀ languageId, ∀ seg ∈ ext.extractComments languageId text,
      ∃ raw n, raw = substr text seg.startByte n ∧ Keeps raw seg.sanitized := by
    intro languageId seg hm
    obtain ⟨nodeType, hn⟩ := hext languageId seg hm
    exact ⟨_, seg.endByte - seg.startByte, rfl, by rw [hn]; exact Keeps.sanitizeComment _ _⟩
  unfold prepareAnalysisText
  simp only
  cases maps.docLanguages uri with
  | none => exact Keeps.refl text
  | some languageId =>
    simp only
    split_ifs
    · exact Keeps.refl text
    · exact Keeps.writeSegments text _ _
        (Keeps.restoreRanges text _ _ (Keeps.maskAll text)) (hseg languageId)
    · exact Keeps.writeSegments text _ _
        (Keeps.restoreRanges text _ _ (Keeps.maskAll text)) (collectLatexComments_keeps text)
    · exact Keeps.refl text
    · exact Keeps.writeSegments text _ _ (Keeps.maskAll text) (hseg languageId)

/-! ## Every rule only appends to the diagnostics it is given -/

theorem checkCommaLimitLoop_append (ctx : RuleContext) (limit : Int)
    (sentences : List SentenceBoundary) (diags : List Diagnostic) :
    checkCommaLimitLoop ctx limit sentences diags
      = diags ++ checkCommaLimitLoop ctx limit sentences [] := by
  induction sentences generalizing diags with
  | nil => simp [checkCommaLimitLoop]
  | cons s rest ih =>
    simp only [checkCommaLimitLoop]
    split_ifs
    · exact ih diags
    · rw [ih (diags ++ _), ih ([] ++ _)]
      simp

theorem checkCommaLimit_append (ctx : RuleContext) (diags : List Diagnostic) (limit : Int) :
    checkCommaLimit ctx diags limit = diags ++ checkCommaLimit ctx [] limit := by
  unfold checkCommaLimit
  split_ifs
  · simp
  · exact checkCommaLimitLoop_append ctx limit _ diags

theorem checkAdversativeGaLoop_append (ctx : RuleContext) (maxCount : Int)
    (sentences : List SentenceBoundary) (diags : List Diagnostic) :
    checkAdversativeGaLoop ctx maxCount sentences diags
      = diags ++ checkAdversativeGaLoop ctx maxCount sentences [] := by
  induction sentences generalizing diags with
  | nil => simp [checkAdversativeGaLoop]
  | cons s rest ih =>
    simp only [checkAdversativeGaLoop]
    split_ifs
    · exact ih diags
    · rw [ih (diags ++ _), ih ([] ++ _)]
      simp

theorem checkAdversativeGa_append (ctx : RuleContext) (diags : List Diagnostic)
    (maxCount : Int) :
    checkAdversativeGa ctx diags maxCount = diags ++ checkAdversativeGa ctx [] maxCount := by
  unfold checkAdversativeGa
  split_ifs
  · simp
  · exact checkAdversativeGaLoop_append ctx maxCount _ diags

theorem duplicateParticleLoop_append (ctx : RuleContext) (sentence : SentenceBoundary)
    (maxRepeat : Int) (tokens : List TokenData) (i : Nat) (st : DupState)
    (diags : List Diagnostic) :
    duplicateParticleLoop ctx sentence maxRepeat tokens i st diags
      = diags ++ duplicateParticleLoop ctx sentence maxRepeat tokens i st [] := by
  induction tokens generalizing i st diags with
  | nil => simp [duplicateParticleLoop]
  | cons t rest ih =>
    simp only [duplicateParticleLoop]
    split_ifs
    all_goals first
      | exact ih _ _ diags
      | (rw [ih _ _ (diags ++ _), ih _ _ ([] ++ _)]; simp)

theorem checkDuplicateParticleSurfaceLoop_append (ctx : RuleContext) (maxRepeat : Int)
    (sentences : List SentenceBoundary) (diags : List Diagnostic) :
    checkDuplicateParticleSurfaceLoop ctx maxRepeat sentences diags
      = diags ++ checkDuplicateParticleSurfaceLoop ctx maxRepeat sentences [] := by
  induction sentences generalizing diags with
  | nil => simp [checkDuplicateParticleSurfaceLoop]
  | cons s rest ih =>
    simp only [checkDuplicateParticleSurfaceLoop]
    rw [ih (duplicateParticleLoop ctx s maxRepeat ctx.tokens 0 {} diags),
      ih (duplicateParticleLoop ctx s maxRepeat ctx.tokens 0 {} []),
      duplicateParticleLoop_append ctx s maxRepeat ctx.tokens 0 {} diags]
    simp

theorem checkDuplicateParticleSurface_append (ctx : RuleContext) (diags : List Diagnostic)
    (maxRepeat : Int) :
    checkDuplicateParticleSurface ctx diags maxRepeat
      = diags ++ checkDuplicateParticleSurface ctx [] maxRepeat := by
  unfold checkDuplicateParticleSurface
  split_ifs
  · simp
  · exact checkDuplicateParticleSurfaceLoop_append ctx maxRepeat _ diags

theorem adjacentParticlesLoop_append (ctx : RuleContext) (sentence : SentenceBoundary)
    (maxRepeat : Int) (tokens : List TokenData) (i : Nat) (st : AdjState)
    (diags : List Diagnostic) :
    adjacentParticlesLoop ctx sentence maxRepeat tokens i st diags
      = diags ++ adjacentParticlesLoop ctx sentence maxRepeat tokens i st [] := by
  induction tokens generalizing i st diags with
  | nil => simp [adjacentParticlesLoop]
  | cons t rest ih =>
    simp only [adjacentParticlesLoop]
    split_ifs
    all_goals first
      | exact ih _ _ diags
      | (rw [ih _ _ (diags ++ _), ih _ _ ([] ++ _)]; simp)

theorem checkAdjacentParticlesLoop_append (ctx : RuleContext) (maxRepeat : Int)
    (sentences : List SentenceBoundary) (diags : List Diagnostic) :
    checkAdjacentParticlesLoop ctx maxRepeat sentences diags
      = diags ++ checkAdjacentParticlesLoop ctx maxRepeat sentences [] := by
  induction sentences generalizing diags with
  | nil => simp [checkAdjacentParticlesLoop]
  | cons s rest ih =>
    simp only [checkAdjacentParticlesLoop]
    rw [ih (adjacentParticlesLoop ctx s maxRepeat ctx.tokens 0 {} diags),
      ih (adjacentParticlesLoop ctx s maxRepeat ctx.tokens 0 {} []),
      adjacentParticlesLoop_append ctx s maxRepeat ctx.tokens 0 {} diags]
    simp

theorem checkAdjacentParticles_append (ctx : RuleContext) (diags : List Diagnostic)
    (maxRepeat : Int) :
    checkAdjacentParticles ctx diags maxRepeat
      = diags ++ checkAdjacentParticles ctx [] maxRepeat := by
  unfold checkAdjacentParticles
  split_ifs
  · simp
  · exact checkAdjacentParticlesLoop_append ctx maxRepeat _ diags

theorem conjunctionRepeatsLoop_append (ctx : RuleContext) (maxRepeat : Int)
    (tokens : List TokenData) (i : Nat) (st : ConjState) (diags : List Diagnostic) :
    conjunctionRepeatsLoop ctx maxRepeat tokens i st diags
      = diags ++ conjunctionRepeatsLoop ctx maxRepeat tokens i st [] := by
  induction tokens generalizing i st diags with
  | nil => simp [conjunctionRepeatsLoop]
  | cons t rest ih =>
    simp only [conjunctionRepeatsLoop]
    split_ifs
    all_goals first
      | exact ih _ _ diags
      | (rw [ih _ _ (diags ++ _), ih _ _ ([] ++ _)]; simp)

theorem checkConjunctionRepeats_append (ctx : RuleContext) (diags : List Diagnostic)
    (maxRepeat : Int) :
    checkConjunctionRepeats ctx diags maxRepeat
      = diags ++ checkConjunctionRepeats ctx [] maxRepeat := by
  unfold checkConjunctionRepeats
  split_ifs
  · simp
  · exact conjunctionRepeatsLoop_append ctx maxRepeat _ _ _ diags

theorem raSpecialLoop_append (ctx : RuleContext) (tokens : List TokenData) (i : Nat)
    (diags : List Diagnostic) :
    raSpecialLoop ctx tokens i diags = diags ++ raSpecialLoop ctx tokens i [] := by
  induction tokens generalizing i diags with
  | nil => simp [raSpecialLoop]
  | cons t rest ih =>
    simp only [raSpecialLoop]
    split_ifs
    · exact ih _ diags
    · rw [ih _ (diags ++ _), ih _ ([] ++ _)]
      simp

theorem raPairLoop_append (ctx : RuleContext) (tokens : List TokenData) (i : Nat)
    (st : DetailedPOS × TokenData × Bool) (diags : List Diagnostic) :
    raPairLoop ctx tokens i st diags = diags ++ raPairLoop ctx tokens i st [] := by
  induction tokens generalizing i st diags with
  | nil => simp [raPairLoop]
  | cons t rest ih =>
    obtain ⟨prevPos, prevToken, hasPrev⟩ := st
    simp only [raPairLoop]
    split_ifs
    · rw [ih _ _ (diags ++ _), ih _ _ ([] ++ _)]
      simp
    · exact ih _ _ diags

theorem checkRaDropping_append (ctx : RuleContext) (diags : List Diagnostic) :
    checkRaDropping ctx diags = diags ++ checkRaDropping ctx [] := by
  unfold checkRaDropping
  rw [raPairLoop_append ctx ctx.tokens 0 _ (raSpecialLoop ctx ctx.tokens 0 diags),
    raPairLoop_append ctx ctx.tokens 0 _ (raSpecialLoop ctx ctx.tokens 0 []),
    raSpecialLoop_append ctx ctx.tokens 0 diags]
  simp

theorem commaLimit_step (t : Bool) (ctx : RuleContext) (d : List Diagnostic) (m : Int) :
    (if t = true then checkCommaLimit ctx d m else d)
      = d ++ (if t = true then checkCommaLimit ctx [] m else []) := by
  cases t
  · simp
  · simpa using checkCommaLimit_append ctx d m

theorem adversativeGa_step (t : Bool) (ctx : RuleContext) (d : List Diagnostic) (m : Int) :
    (if t = true then checkAdversativeGa ctx d m else d)
      = d ++ (if t = true then checkAdversativeGa ctx [] m else []) := by
  cases t
  · simp
  · simpa using checkAdversativeGa_append ctx d m

theorem duplicateParticleSurface_step (t : Bool) (ctx : RuleContext) (d : List Diagnostic)
    (m : Int) :
    (if t = true then checkDuplicateParticleSurface ctx d m else d)
      = d ++ (if t = true then checkDuplicateParticleSurface ctx [] m else []) := by
  cases t
  · simp
  · simpa using checkDuplicateParticleSurface_append ctx d m

theorem adjacentParticles_step (t : Bool) (ctx : RuleContext) (d : List Diagnostic)
    (m : Int) :
    (if t = true then checkAdjacentParticles ctx d m else d)
      = d ++ (if t = true then checkAdjacentParticles ctx [] m else []) := by
  cases t
  · simp
  · simpa using checkAdjacentParticles_append ctx d m

theorem conjunctionRepeats_step (t : Bool) (ctx : RuleContext) (d : List Diagnostic)
    (m : Int) :
    (if t = true then checkConjunctionRepeats ctx d m else d)
      = d ++ (if t = true then checkConjunctionRepeats ctx [] m else []) := by
  cases t
  · simp
  · simpa using checkConjunctionRepeats_append ctx d m

theorem raDropping_step (t : Bool) (ctx : RuleContext) (d : List Diagnostic) :
    (if t = true then checkRaDropping ctx d else d)
      = d ++ (if t = true then checkRaDropping ctx [] else []) := by
  cases t
  · simp
  · simpa using checkRaDropping_append ctx d

/-- Past the severity gate, `checkGrammar` appends the output of each enabled
rule on the empty list, in the order of the source. -/
theorem checkGrammar_concat (text : Bytes) (tokens : List TokenData)
    (sentences : List SentenceBoundary) (diags : List Diagnostic) (c : MoZukuConfig)
    (hg : c.analysis.grammarCheck = true) (hs : c.analysis.warningMinSeverity ≤ 2) :
    checkGrammar text tokens sentences diags (some c)
      = diags
        ++ (if c.analysis.rules.commaLimit = true then
            checkCommaLimit (grammarContext text tokens sentences) []
              c.analysis.rules.commaLimitMax else [])
        ++ (if c.analysis.rules.adversativeGa = true then
            checkAdversativeGa (grammarContext text tokens sentences) []
              c.analysis.rules.adversativeGaMax else [])
        ++ (if c.analysis.rules.duplicateParticleSurface = true then
            checkDuplicateParticleSurface (grammarContext text tokens sentences) []
              c.analysis.rules.duplicateParticleSurfaceMaxRepeat else [])
        ++ (if c.analysis.rules.adjacentParticles = true then
            checkAdjacentParticles (grammarContext text tokens sentences) []
              c.analysis.rules.adjacentParticlesMaxRepeat else [])
        ++ (if c.analysis.rules.conjunctionRepeat = true then
            checkConjunctionRepeats (grammarContext text tokens sentences) []
              c.analysis.rules.conjunctionRepeatMax else [])
        ++ (if c.analysis.rules.raDropping = true then
            checkRaDropping (grammarContext text tokens sentences) [] else []) := by
  have hs2 : ¬ (2 : Int) < c.analysis.warningMinSeverity := by omega
  simp only [checkGrammar, hg, hs2, Bool.not_true, Bool.false_eq_true, if_false]
  rw [raDropping_step, conjunctionRepeats_step, adjacentParticles_step,
    duplicateParticleSurface_step, adversativeGa_step, commaLimit_step]
  rfl

/-! ## The semantic token stream -/

theorem buildSemanticTokensLoop_append (tokens : List TokenData) (prevLine prevChar : Int)
    (data : List Int) :
    buildSemanticTokensLoop tokens prevLine prevChar data
      = data ++ buildSemanticTokensLoop tokens prevLine prevChar [] := by
  induction tokens generalizing prevLine prevChar data with
  | nil => simp [buildSemanticTokensLoop]
  | cons t rest ih =>
    simp only [buildSemanticTokensLoop]
    rw [ih _ _ (data ++ _), ih _ _ ([] ++ _)]
    simp

theorem buildSemanticTokensLoop_cons (t : TokenData) (rest : List TokenData)
    (prevLine prevChar : Int) :
    buildSemanticTokensLoop (t :: rest) prevLine prevChar []
      = [wrapInt ((t.line : Int) - prevLine),
          if wrapInt ((t.line : Int) - prevLine) = 0 then wrapInt (t.startChar - prevChar)
          else t.startChar,
          wrapInt (t.endChar - t.startChar), typeIndex t.tokenType,
          (t.tokenModifiers : Int)]
        ++ buildSemanticTokensLoop rest t.line t.startChar [] := by
  simp only [buildSemanticTokensLoop]
  rw [buildSemanticTokensLoop_append]
  simp

theorem buildSemanticTokensLoop_length (tokens : List TokenData) (prevLine prevChar : Int) :
    (buildSemanticTokensLoop tokens prevLine prevChar []).length = 5 * tokens.length := by
  induction tokens generalizing prevLine prevChar with
  | nil => simp [buildSemanticTokensLoop]
  | cons t rest ih =>
    rw [buildSemanticTokensLoop_cons, List.length_append, ih, List.length_cons]
    simp only [List.length_cons, List.length_nil]
    omega

theorem wrapInt_of_inRange (x : Int) (h : InIntRange x) : wrapInt x = x := by
  unfold InIntRange at h
  unfold wrapInt
  omega

theorem wrapInt_inRange (x : Int) : InIntRange (wrapInt x) := by
  unfold InIntRange wrapInt
  omega

/-- For tokens whose line and start column are non-negative values of type
`int` no subtraction wraps, and the decoder gets the positions back. -/
theorem decode_buildSemanticTokensLoop (tokens : List TokenData) (prevLine prevChar : Int)
    (hpl : 0 ≤ prevLine ∧ prevLine < 2147483648)
    (hpc : 0 ≤ prevChar ∧ prevChar < 2147483648)
    (ht : ∀ t ∈ tokens, (t.line : Int) < 2147483648 ∧ 0 ≤ t.startChar
      ∧ t.startChar < 2147483648) :
    decodeSemanticTokens (buildSemanticTokensLoop tokens prevLine prevChar []) prevLine prevChar
      = tokens.map (fun t => ((t.line : Int), t.startChar)) := by
  induction tokens generalizing prevLine prevChar with
  | nil => simp [buildSemanticTokensLoop, decodeSemanticTokens]
  | cons t rest ih =>
    obtain ⟨t1, t2, t3⟩ := ht t (List.mem_cons_self _ _)
    have t0 : (0 : Int) ≤ t.line := Int.ofNat_nonneg _
    have w1 : wrapInt ((t.line : Int) - prevLine) = (t.line : Int) - prevLine :=
      wrapInt_of_inRange _ ⟨by omega, by omega⟩
    have w2 : wrapInt (t.startChar - prevChar) = t.startChar - prevChar :=
      wrapInt_of_inRange _ ⟨by omega, by omega⟩
    rw [buildSemanticTokensLoop_cons, w1, w2]
    simp only [List.cons_append, List.nil_append, decodeSemanticTokens, List.map_cons]
    have hl : prevLine + ((t.line : Int) - prevLine) = t.line := by omega
    have hc : (if (t.line : Int) - prevLine = 0 then
        prevChar + (if (t.line : Int) - prevLine = 0 then t.startChar - prevChar
          else t.startChar)
        else (if (t.line : Int) - prevLine = 0 then t.startChar - prevChar
          else t.startChar)) = t.startChar := by
      split_ifs <;> omega
    rw [hl, hc]
    show _ :: decodeSemanticTokens (buildSemanticTokensLoop rest t.line t.startChar []) _ _ = _
    rw [ih t.line t.startChar ⟨t0, t1⟩ ⟨t2, t3⟩ (fun u hu => ht u (List.mem_cons_of_mem _ hu))]

theorem buildSemanticTokensLoop_getD (tokens : List TokenData) (prevLine prevChar : Int)
    (i : Nat) (h : i < tokens.length) :
    (buildSemanticTokensLoop tokens prevLine prevChar []).getD (5 * i + 2) 0
        = wrapInt ((tokens.getD i {}).endChar - (tokens.getD i {}).startChar)
    ∧ (buildSemanticTokensLoop tokens prevLine prevChar []).getD (5 * i + 3) 0
        = typeIndex (tokens.getD i {}).tokenType
    ∧ (buildSemanticTokensLoop tokens prevLine prevChar []).getD (5 * i + 4) 0
        = ((tokens.getD i {}).tokenModifiers : Int) := by
  induction tokens generalizing prevLine prevChar i with
  | nil => simp at h
  | cons t rest ih =>
    rw [buildSemanticTokensLoop_cons]
    cases i with
    | zero => simp
    | succ k =>
      have hk : k < rest.length := by simpa using h
      obtain ⟨a, b, c⟩ := ih t.line t.startChar k hk
      have e2 : 5 * (k + 1) + 2 = (5 * k + 2) + 5 := by omega
      have e3 : 5 * (k + 1) + 3 = (5 * k + 3) + 5 := by omega
      have e4 : 5 * (k + 1) + 4 = (5 * k + 4) + 5 := by omega
      simp only [List.cons_append, List.nil_append, e2, e3, e4, List.getD_cons_succ]
      exact ⟨a, b, c⟩

theorem findTokenType_some (tokenType : Bytes) (names : List Bytes) (i k : Nat)
    (h : findTokenType tokenType names i = some k) :
    i ≤ k ∧ k < i + names.length ∧ names.getD (k - i) [] = tokenType
      ∧ ∀ j, j < k - i → names.getD j [] ≠ tokenType := by
  induction names generalizing i with
  | nil => simp [findTokenType] at h
  | cons name rest ih =>
    unfold findTokenType at h
    split_ifs at h with hn
    · cases h
      refine ⟨Nat.le_refl _, by simp, by simpa using hn, fun j hj => by omega⟩
    · obtain ⟨a, b, c, d⟩ := ih (i + 1) h
      refine ⟨by omega, by simp only [List.length_cons]; omega, ?_, ?_⟩
      · have : k - i = (k - (i + 1)) + 1 := by omega
        rw [this, List.getD_cons_succ]; exact c
      · intro j hj
        cases j with
        | zero => simpa using hn
        | succ m =>
          rw [List.getD_cons_succ]
          exact d m (by omega)

theorem findTokenType_none (tokenType : Bytes) (names : List Bytes) (i : Nat)
    (h : findTokenType tokenType names i = none) : tokenType ∉ names := by
  induction names generalizing i with
  | nil => simp
  | cons name rest ih =>
    unfold findTokenType at h
    split_ifs at h with hn
    intro hm
    rcases List.mem_cons.mp hm with e | e
    · exact hn e.symm
    · exact ih (i + 1) h e

theorem typeIndex_range (tokenType : Bytes) :
    0 ≤ typeIndex tokenType ∧ typeIndex tokenType < 12 := by
  unfold typeIndex
  cases h : findTokenType tokenType tokenTypes 0 with
  | none => simp
  | some k =>
    obtain ⟨_, b, _, _⟩ := findTokenType_some tokenType tokenTypes 0 k h
    have hl : tokenTypes.length = 12 := rfl
    simp only
    omega

theorem typeIndex_of_not_mem (tokenType : Bytes) (h : tokenType ∉ tokenTypes) :
    typeIndex tokenType = 0 := by
  unfold typeIndex
  cases hf : findTokenType tokenType tokenTypes 0 with
  | none => rfl
  | some k =>
    obtain ⟨_, b, c, _⟩ := findTokenType_some tokenType tokenTypes 0 k hf
    exfalso
    apply h
    rw [← c]
    simp only [Nat.sub_zero, List.getD_eq_getElem?_getD]
    have hk : k < tokenTypes.length := by omega
    rw [List.getElem?_eq_getElem hk]
    exact List.getElem_mem hk

theorem typeIndex_legend (k : Nat) (h : k < 12) :
    typeIndex (tokenTypes.getD k []) = k := by
  have : ∀ k, k < 12 → typeIndex (tokenTypes.getD k []) = k := by decide
  exact this k h

/-! ## The diagnostic cache -/

theorem pushDiagnostic_perm (diag : Diagnostic) (line : Nat) (lineCache : LineCache) :
    ((pushDiagnostic diag line lineCache).flatMap (fun entry => entry.2)).Perm
      (lineCache.flatMap (fun entry => entry.2) ++ [diag]) := by
  induction lineCache with
  | nil => simp [pushDiagnostic]
  | cons entry rest ih =>
    unfold pushDiagnostic
    split_ifs with h
    · simp only [List.flatMap_cons, List.append_assoc]
      exact List.Perm.append_left _ List.perm_append_comm
    · simp only [List.flatMap_cons, List.append_assoc]
      exact List.Perm.append_left _ ih

theorem pushDiagnostic_sorted (diag : Diagnostic) (lineCache : LineCache)
    (h : LineCacheSorted lineCache) :
    LineCacheSorted (pushDiagnostic diag diag.range.start.line lineCache) := by
  induction lineCache with
  | nil =>
    intro entry he d hd
    simp only [pushDiagnostic, List.mem_singleton] at he
    subst he
    simp only [List.mem_singleton] at hd
    subst hd; rfl
  | cons entry rest ih =>
    have hrest : LineCacheSorted rest := fun e he => h e (List.mem_cons_of_mem _ he)
    unfold pushDiagnostic
    split_ifs with hk
    · intro e he d hd
      rcases List.mem_cons.mp he with e1 | e1
      · subst e1
        simp only [List.mem_append, List.mem_singleton] at hd
        rcases hd with hd | hd
        · exact h entry (List.mem_cons_self _ _) d hd
        · subst hd; exact hk.symm
      · exact hrest e e1 d hd
    · intro e he d hd
      rcases List.mem_cons.mp he with e1 | e1
      · subst e1; exact h _ (List.mem_cons_self _ _) d hd
      · exact ih hrest e e1 d hd

theorem cacheLoop_perm (diags : List Diagnostic) (lineCache : LineCache) :
    ((cacheLoop diags lineCache).flatMap (fun entry => entry.2)).Perm
      (lineCache.flatMap (fun entry => entry.2) ++ diags) := by
  induction diags generalizing lineCache with
  | nil => simp [cacheLoop]
  | cons d rest ih =>
    unfold cacheLoop
    refine (ih _).trans ?_
    have := (pushDiagnostic_perm d d.range.start.line lineCache).append_right rest
    simpa using this

theorem cacheLoop_sorted (diags : List Diagnostic) (lineCache : LineCache)
    (h : LineCacheSorted lineCache) : LineCacheSorted (cacheLoop diags lineCache) := by
  induction diags generalizing lineCache with
  | nil => exact h
  | cons d rest ih => exact ih _ (pushDiagnostic_sorted d lineCache h)

theorem eraseLines_eq (lines : List Nat) (lineCache : LineCache) :
    eraseLines lines lineCache = lineCache.filter (fun entry => decide (entry.1 ∉ lines)) := by
  induction lines generalizing lineCache with
  | nil => simp [eraseLines]
  | cons line rest ih =>
    unfold eraseLines
    rw [ih, List.filter_filter]
    congr 1
    funext entry
    simp only [List.mem_cons, not_or, Bool.decide_and, Bool.and_comm, ne_eq, decide_not]

theorem filter_flatMap_sorted (lines : List Nat) (lineCache : LineCache)
    (h : LineCacheSorted lineCache) :
    (lineCache.filter (fun entry => decide (entry.1 ∉ lines))).flatMap (fun entry => entry.2)
      = (lineCache.flatMap (fun entry => entry.2)).filter
          (fun d => decide (d.range.start.line ∉ lines)) := by
  induction lineCache with
  | nil => rfl
  | cons entry rest ih =>
    have hrest : LineCacheSorted rest := fun e he => h e (List.mem_cons_of_mem _ he)
    have hent := h entry (List.mem_cons_self _ _)
    rw [List.flatMap_cons, List.filter_append, ← ih hrest]
    by_cases hk : entry.1 ∈ lines
    · have e1 : List.filter (fun d => decide (d.range.start.line ∉ lines)) entry.2 = [] := by
        rw [List.filter_eq_nil_iff]
        intro d hd
        rw [hent d hd]; simpa using hk
      rw [e1, List.filter_cons_of_neg (by simpa using hk)]
      rfl
    · have e1 : List.filter (fun d => decide (d.range.start.line ∉ lines)) entry.2
          = entry.2 := by
        rw [List.filter_eq_self]
        intro d hd
        rw [hent d hd]; simpa using hk
      rw [e1, List.filter_cons_of_pos (by simpa using hk), List.flatMap_cons]

/-- After `cacheDiagnostics` and `removeDiagnosticsForLines` the map of the
uri holds, in some order, the diagnostics that are not on a removed line. -/
theorem cache_then_remove (cache : DiagnosticCache) (uri : Bytes) (diags : List Diagnostic)
    (lines : List Nat) :
    ∃ uriDiags,
      removeDiagnosticsForLines (cacheDiagnostics cache uri diags) uri lines uri
        = some uriDiags
      ∧ (uriDiags.flatMap (fun entry => entry.2)).Perm
          (diags.filter (fun d => decide (d.range.start.line ∉ lines))) := by
  refine ⟨eraseLines lines (cacheLoop diags []), ?_, ?_⟩
  · simp [removeDiagnosticsForLines, cacheDiagnostics, mapSet]
  · rw [eraseLines_eq, filter_flatMap_sorted lines _
      (cacheLoop_sorted diags [] (fun e he => absurd he (List.not_mem_nil _)))]
    have := cacheLoop_perm diags []
    simp only [List.flatMap_nil, List.nil_append] at this
    exact this.filter _

/-! ## The changed lines -/

theorem getline_of_newline (l rest acc : Bytes) (h : 10 ∉ l) :
    getline (l ++ 10 :: rest) acc = (acc ++ l, rest) := by
  induction l generalizing acc with
  | nil => simp [getline]
  | cons c l ih =>
    have hc : c ≠ 10 := fun e => h (e ▸ List.mem_cons_self _ _)
    have hl : 10 ∉ l := fun e => h (List.mem_cons_of_mem _ e)
    simp only [List.cons_append, getline, if_neg hc]
    show getline (l ++ 10 :: rest) (acc ++ [c]) = _
    rw [ih _ hl]
    simp

theorem getline_of_no_newline (l acc : Bytes) (h : 10 ∉ l) :
    getline l acc = (acc ++ l, []) := by
  induction l generalizing acc with
  | nil => simp [getline]
  | cons c l ih =>
    have hc : c ≠ 10 := fun e => h (e ▸ List.mem_cons_self _ _)
    have hl : 10 ∉ l := fun e => h (List.mem_cons_of_mem _ e)
    simp only [getline, if_neg hc]
    rw [ih _ hl]
    simp

theorem getline_rest_lt (stream acc : Bytes) (h : stream ≠ []) :
    (getline stream acc).2.length < stream.length := by
  induction stream generalizing acc with
  | nil => exact absurd rfl h
  | cons c rest ih =>
    simp only [getline]
    split_ifs with hc
    · simp
    · cases rest with
      | nil => simp [getline]
      | cons d rest2 =>
        have := ih (acc ++ [c]) (by simp)
        simp only [List.length_cons] at this ⊢
        omega

theorem getlineLoop_append (left : Nat) (stream : Bytes) (lines : List Bytes) :
    getlineLoop left stream lines = lines ++ getlineLoop left stream [] := by
  induction left generalizing stream lines with
  | zero => simp [getlineLoop]
  | succ n ih =>
    simp only [getlineLoop]
    split_ifs
    · simp
    · rw [ih _ (lines ++ _), ih _ ([] ++ _)]
      simp

/-- The counter of `getlineLoop` is never used up. -/
theorem getlineLoop_counter (left1 left2 : Nat) (stream : Bytes) (lines : List Bytes)
    (h1 : stream.length ≤ left1) (h2 : stream.length ≤ left2) :
    getlineLoop left1 stream lines = getlineLoop left2 stream lines := by
  induction left1 generalizing left2 stream lines with
  | zero =>
    have hs : stream = [] := List.length_eq_zero.mp (by omega)
    subst hs
    cases left2 <;> simp [getlineLoop]
  | succ n ih =>
    cases left2 with
    | zero =>
      have hs : stream = [] := List.length_eq_zero.mp (by omega)
      subst hs
      simp [getlineLoop]
    | succ m =>
      simp only [getlineLoop]
      split_ifs with hs
      · rfl
      · have := getline_rest_lt stream [] hs
        exact ih m _ _ (by omega) (by omega)

theorem readLines_nil : readLines [] = [] := rfl

theorem readLines_of_newline (l rest : Bytes) (h : 10 ∉ l) :
    readLines (l ++ 10 :: rest) = l :: readLines rest := by
  unfold readLines
  have hlen : (l ++ 10 :: rest).length = (l.length + rest.length) + 1 := by
    simp only [List.length_append, List.length_cons]; omega
  rw [hlen, getlineLoop, if_neg (by simp), getline_of_newline l rest [] h]
  simp only [List.nil_append]
  rw [getlineLoop_append, getlineLoop_counter (l.length + rest.length) rest.length rest []
    (by omega) (Nat.le_refl _)]
  rfl

theorem readLines_of_no_newline (l : Bytes) (hne : l ≠ []) (h : 10 ∉ l) :
    readLines l = [l] := by
  unfold readLines
  obtain ⟨n, hn⟩ : ∃ n, l.length = n + 1 :=
    ⟨l.length - 1, by have := List.length_pos.mpr hne; omega⟩
  rw [hn, getlineLoop, if_neg hne, getline_of_no_newline l [] h]
  simp only [List.nil_append]
  cases n <;> simp [getlineLoop]

theorem changedLinesLoop_mem (oldLines newLines : List Bytes) (left i : Nat)
    (changedLines : List Nat) (j : Nat) :
    j ∈ changedLinesLoop oldLines newLines left i changedLines
      ↔ j ∈ changedLines ∨ (i ≤ j ∧ j < i + left
          ∧ (¬ j < oldLines.length ∨ ¬ j < newLines.length
              ∨ oldLines.getD j [] ≠ newLines.getD j [])) := by
  induction left generalizing i changedLines with
  | zero =>
    simp only [changedLinesLoop, Nat.add_zero]
    constructor
    · intro h; exact Or.inl h
    · rintro (h | ⟨a, b, _⟩)
      · exact h
      · omega
  | succ n ih =>
    simp only [changedLinesLoop, Bool.not_eq_true', decide_eq_false_iff_not]
    split_ifs with hc
    · rw [ih]
      simp only [List.mem_append, List.mem_singleton]
      constructor
      · rintro ((h | h) | ⟨a, b, c⟩)
        · exact Or.inl h
        · subst h
          exact Or.inr ⟨Nat.le_refl _, by omega, hc⟩
        · exact Or.inr ⟨by omega, by omega, c⟩
      · rintro (h | ⟨a, b, c⟩)
        · exact Or.inl (Or.inl h)
        · by_cases hji : j = i
          · exact Or.inl (Or.inr hji)
          · exact Or.inr ⟨by omega, by omega, c⟩
    · rw [ih]
      constructor
      · rintro (h | ⟨a, b, c⟩)
        · exact Or.inl h
        · exact Or.inr ⟨by omega, by omega, c⟩
      · rintro (h | ⟨a, b, c⟩)
        · exact Or.inl h
        · by_cases hji : j = i
          · subst hji; exact absurd c hc
          · exact Or.inr ⟨by omega, by omega, c⟩

theorem changedLinesLoop_sorted (oldLines newLines : List Bytes) (left i : Nat)
    (changedLines : List Nat) (hs : changedLines.Pairwise (fun a b => a < b))
    (hi : ∀ a ∈ changedLines, a < i) :
    (changedLinesLoop oldLines newLines left i changedLines).Pairwise (fun a b => a < b) := by
  induction left generalizing i changedLines with
  | zero => exact hs
  | succ n ih =>
    simp only [changedLinesLoop]
    split_ifs
    · apply ih
      · rw [List.pairwise_append]
        refine ⟨hs, List.pairwise_singleton _ _, ?_⟩
        intro a ha b hb
        simp only [List.mem_singleton] at hb
        subst hb; exact hi a ha
      · intro a ha
        simp only [List.mem_append, List.mem_singleton] at ha
        rcases ha with ha | ha
        · have := hi a ha; omega
        · omega
    · exact ih _ _ hs (fun a ha => by have := hi a ha; omega)

/-! ## The bytes outside the content ranges and the comment segments -/

theorem maskAll_getD (text : Bytes) (j : Nat) (h : j < text.length) :
    (maskAll text).getD j 0
      = if text.getD j 0 ≠ 10 ∧ text.getD j 0 ≠ 13 then 32 else text.getD j 0 := by
  simp only [maskAll, List.getD_eq_getElem?_getD, List.getElem?_map,
    List.getElem?_eq_getElem h, Option.map_some', Option.getD_some]

theorem restoreRanges_getD_outside (text : Bytes) (ranges : List ByteRange) (masked : Bytes)
    (j : Nat) (hr : ∀ r ∈ ranges, r.startByte ≤ r.endByte)
    (hj : ∀ r ∈ ranges, ¬ (r.startByte ≤ j ∧ j < r.endByte)) :
    (restoreRanges text ranges masked).getD j 0 = masked.getD j 0 := by
  induction ranges generalizing masked with
  | nil => rfl
  | cons r rest ih =>
    have hr1 := hr r (List.mem_cons_self _ _)
    have hj1 := hj r (List.mem_cons_self _ _)
    have hr2 : ∀ r ∈ rest, r.startByte ≤ r.endByte := fun x hx => hr x (List.mem_cons_of_mem _ hx)
    have hj2 : ∀ r ∈ rest, ¬ (r.startByte ≤ j ∧ j < r.endByte) :=
      fun x hx => hj x (List.mem_cons_of_mem _ hx)
    rw [restoreRanges]
    split_ifs with h
    · exact ih masked hr2 hj2
    · simp only
      rw [ih _ hr2 hj2, copyBytes_getD, if_neg]
      simp only [subSizeT, if_pos hr1]
      intro hc
      apply hj1
      have := Nat.min_le_left (r.endByte - r.startByte) (masked.length - r.startByte)
      omega

theorem writeSegments_getD_outside (segments : List CommentSegment) (masked : Bytes) (j : Nat)
    (hj : ∀ seg ∈ segments,
      ¬ (seg.startByte ≤ j ∧ j < seg.startByte + seg.sanitized.length)) :
    (writeSegments segments masked).getD j 0 = masked.getD j 0 := by
  induction segments generalizing masked with
  | nil => rfl
  | cons s rest ih =>
    have hj1 := hj s (List.mem_cons_self _ _)
    have hj2 : ∀ seg ∈ rest,
        ¬ (seg.startByte ≤ j ∧ j < seg.startByte + seg.sanitized.length) :=
      fun x hx => hj x (List.mem_cons_of_mem _ hx)
    rw [writeSegments]
    split_ifs with h
    · exact ih masked hj2
    · simp only
      rw [ih _ hj2, copyBytes_getD, if_neg]
      intro hc
      apply hj1
      have := Nat.min_le_left s.sanitized.length (masked.length - s.startByte)
      omega

theorem htmlContentRangesOf_ordered (text : Bytes) (textNodes : List (Nat × Nat)) :
    ∀ r ∈ htmlContentRangesOf text textNodes, r.startByte < r.endByte := by
  intro r hr
  simp only [htmlContentRangesOf, List.mem_filterMap] at hr
  obtain ⟨node, _, hn⟩ := hr
  unfold trimTextNode at hn
  simp only at hn
  split_ifs at hn with h1 h2
  cases hn
  exact h2

theorem commentSegmentsOf_length (text : Bytes) (commentNodes : List (Nat × Nat × Bytes)) :
    ∀ seg ∈ commentSegmentsOf text commentNodes,
      seg.startByte < seg.endByte ∧ seg.endByte ≤ text.length
      ∧ seg.sanitized.length = seg.endByte - seg.startByte
      ∧ ∃ nodeType, seg.sanitized
          = sanitizeComment (substr text seg.startByte (seg.endByte - seg.startByte))
              (some nodeType) := by
  intro seg hs
  simp only [commentSegmentsOf, List.mem_filterMap] at hs
  obtain ⟨node, _, hn⟩ := hs
  unfold commentSegmentOf at hn
  split_ifs at hn with h1
  cases hn
  refine ⟨h1.1, h1.2, ?_, node.2.2, rfl⟩
  simp only
  rw [(Keeps.sanitizeComment _ _).1]
  simp only [substr, List.length_take, List.length_drop]
  omega

/-- On an HTML document, a byte outside the content ranges and the comment
segments is masked. -/
theorem prepareAnalysisText_html_outside (maps : DocMaps) (uri text : Bytes)
    (textNodes : List (Nat × Nat)) (commentNodes : List (Nat × Nat × Bytes))
    (hlang : maps.docLanguages uri = some (utf8 "html")) (j : Nat) (hj : j < text.length)
    (hr : ∀ r ∈ htmlContentRangesOf text textNodes, ¬ (r.startByte ≤ j ∧ j < r.endByte))
    (hs : ∀ seg ∈ commentSegmentsOf text commentNodes,
      ¬ (seg.startByte ≤ j ∧ j < seg.endByte)) :
    (prepareAnalysisText (extractorsOfParse textNodes commentNodes) maps uri text).1.getD j 0
      = if text.getD j 0 ≠ 10 ∧ text.getD j 0 ≠ 13 then 32 else text.getD j 0 := by
  have hne : utf8 "html" ≠ utf8 "japanese" := by decide
  simp only [prepareAnalysisText, hlang, if_neg hne, if_true, extractorsOfParse]
  rw [writeSegments_getD_outside, restoreRanges_getD_outside, maskAll_getD text j hj]
  · exact fun r hm => Nat.le_of_lt (htmlContentRangesOf_ordered text textNodes r hm)
  · exact hr
  · intro seg hm hc
    obtain ⟨a, b, c, _⟩ := commentSegmentsOf_length text commentNodes seg hm
    exact hs seg hm ⟨hc.1, by omega⟩

theorem htmlTrimStart_spec (text : Bytes) (end_ left t : Nat) (hl : end_ - t ≤ left)
    (ht : t ≤ end_) :
    t ≤ htmlTrimStart text end_ left t ∧ htmlTrimStart text end_ left t ≤ end_
    ∧ (∀ k, t ≤ k → k < htmlTrimStart text end_ left t → isspaceC (text.getD k 0) = true)
    ∧ (htmlTrimStart text end_ left t < end_ →
        isspaceC (text.getD (htmlTrimStart text end_ left t) 0) = false) := by
  induction left generalizing t with
  | zero =>
    simp only [htmlTrimStart]
    exact ⟨Nat.le_refl _, ht, fun k h1 h2 => by omega, fun h => by omega⟩
  | succ n ih =>
    unfold htmlTrimStart
    split_ifs with hc
    · obtain ⟨a, b, c, d⟩ := ih (t + 1) (by omega) (by omega)
      refine ⟨by omega, b, fun k h1 h2 => ?_, d⟩
      by_cases hk : k = t
      · subst hk; exact hc.2
      · exact c k (by omega) h2
    · refine ⟨Nat.le_refl _, ht, fun k h1 h2 => by omega, fun h => ?_⟩
      cases hb : isspaceC (text.getD t 0) with
      | false => rfl
      | true => exact absurd ⟨h, hb⟩ hc

theorem htmlTrimEnd_spec (text : Bytes) (trimmedStart left t : Nat)
    (hl : t - trimmedStart ≤ left) (ht : trimmedStart ≤ t) :
    trimmedStart ≤ htmlTrimEnd text trimmedStart left t
    ∧ htmlTrimEnd text trimmedStart left t ≤ t
    ∧ (∀ k, htmlTrimEnd text trimmedStart left t ≤ k → k < t →
        isspaceC (text.getD k 0) = true)
    ∧ (htmlTrimEnd text trimmedStart left t > trimmedStart →
        isspaceC (text.getD (htmlTrimEnd text trimmedStart left t - 1) 0) = false) := by
  induction left generalizing t with
  | zero =>
    simp only [htmlTrimEnd]
    exact ⟨ht, Nat.le_refl _, fun k h1 h2 => by omega, fun h => by omega⟩
  | succ n ih =>
    unfold htmlTrimEnd
    split_ifs with hc
    · obtain ⟨a, b, c, d⟩ := ih (t - 1) (by omega) (by omega)
      refine ⟨a, by omega, fun k h1 h2 => ?_, d⟩
      by_cases hk : k = t - 1
      · subst hk; exact hc.2
      · exact c k h1 (by omega)
    · refine ⟨ht, Nat.le_refl _, fun k h1 h2 => by omega, fun h => ?_⟩
      cases hb : isspaceC (text.getD (t - 1) 0) with
      | false => rfl
      | true => exact absurd ⟨h, hb⟩ hc

/-- The range that `collectHtmlContentRanges` keeps of a text node is the span
of the node without the white space at its two ends. -/
theorem trimTextNode_spec (text : Bytes) (start end_ : Nat) (r : ByteRange)
    (h : trimTextNode text start end_ = some r) :
    start ≤ r.startByte ∧ r.startByte < r.endByte ∧ r.endByte ≤ end_
    ∧ end_ ≤ text.length
    ∧ (∀ k, start ≤ k → k < r.startByte → isspaceC (text.getD k 0) = true)
    ∧ (∀ k, r.endByte ≤ k → k < end_ → isspaceC (text.getD k 0) = true)
    ∧ isspaceC (text.getD r.startByte 0) = false
    ∧ isspaceC (text.getD (r.endByte - 1) 0) = false := by
  unfold trimTextNode at h
  simp only at h
  split_ifs at h with h1 h2
  cases h
  obtain ⟨a1, a2, a3, a4⟩ := htmlTrimStart_spec text end_ (end_ - start) start
    (Nat.le_refl _) (by omega)
  obtain ⟨b1, b2, b3, b4⟩ := htmlTrimEnd_spec text
    (htmlTrimStart text end_ (end_ - start) start)
    (end_ - htmlTrimStart text end_ (end_ - start) start) end_ (Nat.le_refl _) a2
  exact ⟨a1, h2, b2, by omega, a3, b3, a4 (by omega), b4 h2⟩

/-! ## The LaTeX content ranges: one round of the loop -/

theorem collectLatexContentLoop_step (text : Bytes) (left i : Nat) (ranges : List ByteRange) :
    collectLatexContentLoop text (left + 1) i ranges
      = if i < text.length then
          match latexStep text i with
          | none => ranges
          | some (i1, r) => collectLatexContentLoop text left i1 (ranges ++ r.toList)
        else ranges := by
  rw [collectLatexContentLoop]
  by_cases hi : i < text.length
  · simp only [if_pos hi, latexStep]
    split_ifs
    all_goals first
      | rfl
      | (cases findByte text 10 i <;> simp [Option.toList] <;> done)
      | (cases findClosingDoubleDollar text (i + 2) <;> simp [Option.toList] <;> done)
      | (cases findClosingDollar text (i + 1) <;> simp [Option.toList])
  · simp only [if_neg hi]

theorem skipCommandName_spec (text : Bytes) (left i : Nat) (hl : text.length - i ≤ left) :
    i ≤ skipCommandName text left i
    ∧ (∀ k, i ≤ k → k < skipCommandName text left i → isNameByte (text.getD k 0) = true)
    ∧ isNameByte (text.getD (skipCommandName text left i) 0) = false := by
  have hdef : ∀ k, text.length ≤ k → isNameByte (text.getD k 0) = false := by
    intro k hk
    simp only [List.getD_eq_getElem?_getD, List.getElem?_eq_none hk, Option.getD_none]
    decide
  induction left generalizing i with
  | zero =>
    simp only [skipCommandName]
    exact ⟨Nat.le_refl _, fun k h1 h2 => by omega, hdef i (by omega)⟩
  | succ n ih =>
    unfold skipCommandName
    split_ifs with h1 h2
    · refine ⟨Nat.le_refl _, fun k h1 h2 => by omega, ?_⟩
      simp only [isNameByte, Bool.or_eq_false_iff, decide_eq_false_iff_not]
      exact ⟨by simpa using h2.1, h2.2⟩
    · obtain ⟨a, b, c⟩ := ih (i + 1) (by omega)
      refine ⟨by omega, fun k hk1 hk2 => ?_, c⟩
      by_cases hki : k = i
      · subst hki
        simp only [isNameByte, Bool.or_eq_true, decide_eq_true_eq]
        by_cases ha : isalphaC (text.getD k 0) = true
        · exact Or.inl ha
        · right
          by_contra h64
          exact h2 ⟨ha, h64⟩
      · exact b k (by omega) hk2
    · exact ⟨Nat.le_refl _, fun k h1 h2 => by omega, hdef i (by omega)⟩

theorem utf8CharLen_pos (c : Nat) : 1 ≤ utf8CharLen c := by
  unfold utf8CharLen
  split_ifs <;> omega

theorem utf8CharLen_ascii (c : Nat) (h : c < 0x80) : utf8CharLen c = 1 := by
  unfold utf8CharLen
  rw [if_pos h]

theorem isContentByte_of_ge (c : Nat) (h : c ≥ 0x80) : isContentByte c = true := by
  simp [isContentByte, h]

/-- What a content run holds: from `i` to the new `i` every byte is a content
byte, and `advanced` is set exactly when the run is not empty. -/
theorem scanContent_spec (text : Bytes) (hW : LeadsComplete text) (left i : Nat)
    (advanced : Bool) (hi : i ≤ text.length) :
    i ≤ (scanContent text left i advanced).1
    ∧ (scanContent text left i advanced).1 ≤ text.length
    ∧ (∀ k, i ≤ k → k < (scanContent text left i advanced).1 →
        isContentByte (text.getD k 0) = true)
    ∧ ((scanContent text left i advanced).2 = true
        ↔ advanced = true ∨ i < (scanContent text left i advanced).1) := by
  induction left generalizing i advanced with
  | zero =>
    simp only [scanContent]
    exact ⟨Nat.le_refl _, hi, fun k h1 h2 => by omega, by simp⟩
  | succ n ih =>
    unfold scanContent
    simp only
    split_ifs with h1 h2 h3
    · exact ⟨Nat.le_refl _, hi, fun k h1 h2 => by omega, by simp⟩
    · exact ⟨Nat.le_refl _, hi, fun k h1 h2 => by omega, by simp⟩
    · have hlen := utf8CharLen_pos (text.getD i 0)
      have hnext : i + utf8CharLen (text.getD i 0) ≤ text.length := by
        by_cases hone : utf8CharLen (text.getD i 0) = 1
        · omega
        · have := (hW i h1 (utf8CharLen (text.getD i 0) - 1) (by omega) (by omega)).1
          omega
      obtain ⟨a, b, c, d⟩ := ih (i + utf8CharLen (text.getD i 0)) true hnext
      simp only at a b c d ⊢
      refine ⟨by omega, b, fun k hk1 hk2 => ?_, ?_⟩
      · by_cases hk : k < i + utf8CharLen (text.getD i 0)
        · by_cases hki : k = i
          · subst hki
            by_cases hasc : text.getD k 0 < 0x80
            · simp only [isContentByte, Bool.or_eq_true, decide_eq_true_eq, Bool.and_eq_true,
                Bool.not_eq_true']
              right
              constructor
              · cases hs : isspaceC (text.getD k 0) with
                | false => rfl
                | true => exact absurd ⟨hasc, Or.inl hs⟩ h3
              · cases hp : ispunctC (text.getD k 0) with
                | false => rfl
                | true => exact absurd ⟨hasc, Or.inr hp⟩ h3
            · exact isContentByte_of_ge _ (by omega)
          · have := (hW i h1 (k - i) (by omega) (by omega)).2
            rw [show i + (k - i) = k by omega] at this
            exact isContentByte_of_ge _ this
        · exact c k (by omega) hk2
      · rw [d]
        constructor
        · intro _; right; omega
        · intro _; left; trivial
    · exact ⟨Nat.le_refl _, hi, fun k h1 h2 => by omega, by simp⟩

theorem scanContent_ge (text : Bytes) (left i : Nat) (advanced : Bool) :
    i ≤ (scanContent text left i advanced).1
    ∧ ((scanContent text left i advanced).2 = true
        ↔ advanced = true ∨ i < (scanContent text left i advanced).1) := by
  induction left generalizing i advanced with
  | zero => simp [scanContent]
  | succ n ih =>
    unfold scanContent
    simp only
    split_ifs with h1 h2 h3
    · simp
    · simp
    · have hlen := utf8CharLen_pos (text.getD i 0)
      obtain ⟨a, d⟩ := ih (i + utf8CharLen (text.getD i 0)) true
      refine ⟨by omega, ?_⟩
      rw [d]
      constructor
      · intro _; right; omega
      · intro _; left; trivial
    · simp

theorem findClosingDollarAux_some (text : Bytes) (left i c : Nat)
    (h : findClosingDollarAux text left i = some c) :
    i ≤ c ∧ c < text.length ∧ text.getD c 0 = 36 ∧ isEscaped text c = false := by
  induction left generalizing i with
  | zero => simp [findClosingDollarAux] at h
  | succ n ih =>
    unfold findClosingDollarAux at h
    split_ifs at h with h1 h2
    · cases h
      exact ⟨Nat.le_refl _, h1, h2.1, h2.2⟩
    · obtain ⟨a, b⟩ := ih (i + 1) h
      exact ⟨by omega, b⟩

theorem findClosingDoubleDollarAux_some (text : Bytes) (left i c : Nat)
    (h : findClosingDoubleDollarAux text left i = some c) :
    i ≤ c ∧ c + 1 < text.length ∧ text.getD c 0 = 36 ∧ text.getD (c + 1) 0 = 36
      ∧ isEscaped text c = false := by
  induction left generalizing i with
  | zero => simp [findClosingDoubleDollarAux] at h
  | succ n ih =>
    unfold findClosingDoubleDollarAux at h
    split_ifs at h with h1 h2
    · cases h
      exact ⟨Nat.le_refl _, h1, h2.1, h2.2.1, h2.2.2⟩
    · obtain ⟨a, b⟩ := ih (i + 1) h
      exact ⟨by omega, b⟩

/-- Every round of the outer loop moves `i` forward, and a range it pushes
runs from the old `i` to the new one. -/
theorem latexStep_progress (text : Bytes) (i i1 : Nat) (r : Option ByteRange)
    (h : latexStep text i = some (i1, r)) :
    i < i1 ∧ ∀ x, r = some x → x = ⟨i, i1⟩ := by
  unfold latexStep at h
  simp only at h
  split_ifs at h with h1 h2 h3 h4 h5 h6 h7 h8
  · cases hf : findByte text 10 i with
    | none => rw [hf] at h; cases h
    | some e =>
      rw [hf] at h
      cases h
      have := (findByte_some text 10 i e hf).1
      exact ⟨by omega, fun x hx => by cases hx⟩
  · cases hf : findClosingDoubleDollar text (i + 2) with
    | none => rw [hf] at h; cases h
    | some e =>
      rw [hf] at h
      cases h
      have := (findClosingDoubleDollarAux_some text _ _ e hf).1
      exact ⟨by omega, fun x hx => by cases hx⟩
  · cases hf : findClosingDollar text (i + 1) with
    | none => rw [hf] at h; cases h
    | some e =>
      rw [hf] at h
      cases h
      have := (findClosingDollarAux_some text _ _ e hf).1
      exact ⟨by omega, fun x hx => by cases hx⟩
  · cases h
    have := (skipCommandName_spec text text.length (i + 1) (by omega)).1
    exact ⟨by omega, fun x hx => by cases hx⟩
  · cases h
    have := (skipCommandName_spec text text.length (i + 1) (by omega)).1
    exact ⟨by omega, fun x hx => by cases hx⟩
  · cases h
    exact ⟨by omega, fun x hx => by cases hx⟩
  · cases h
    exact ⟨by omega, fun x hx => by cases hx⟩
  · cases h
    obtain ⟨a, b⟩ := scanContent_ge text text.length i false
    have hlt : i < (scanContent text text.length i false).1 := by
      rcases b.mp h8 with hb | hb
      · cases hb
      · exact hb
    exact ⟨hlt, fun x hx => by cases hx; rfl⟩
  · cases h
    have := (scanContent_ge text text.length i false).1
    exact ⟨by omega, fun x hx => by cases hx⟩

/-- The counter of `collectLatexContentLoop` is never used up. -/
theorem collectLatexContentLoop_counter (text : Bytes) (left1 left2 i : Nat)
    (ranges : List ByteRange) (h1 : text.length - i ≤ left1) (h2 : text.length - i ≤ left2) :
    collectLatexContentLoop text left1 i ranges
      = collectLatexContentLoop text left2 i ranges := by
  induction left1 generalizing left2 i ranges with
  | zero =>
    have hs : ¬ i < text.length := by omega
    cases left2 with
    | zero => rfl
    | succ m => rw [collectLatexContentLoop_step, if_neg hs]; rfl
  | succ n ih =>
    cases left2 with
    | zero =>
      have hs : ¬ i < text.length := by omega
      rw [collectLatexContentLoop_step, if_neg hs]; rfl
    | succ m =>
      rw [collectLatexContentLoop_step, collectLatexContentLoop_step]
      split_ifs with hi
      · cases hs : latexStep text i with
        | none => rfl
        | some p =>
          obtain ⟨i1, r⟩ := p
          have := (latexStep_progress text i i1 r hs).1
          exact ih m i1 _ (by omega) (by omega)
      · rfl

/-- An invariant of the position that every round keeps, and a property of
the range pushed in a round, hold throughout the loop. -/
theorem collectLatexContentLoop_induction (text : Bytes) (Inv : Nat → Prop)
    (Q : ByteRange → Prop)
    (hstep : ∀ i i1 r, i < text.length → Inv i → latexStep text i = some (i1, r) →
      Inv i1 ∧ ∀ x, r = some x → Q x)
    (left i : Nat) (ranges : List ByteRange) (hi : Inv i) (hr : ∀ x ∈ ranges, Q x) :
    ∀ x ∈ collectLatexContentLoop text left i ranges, Q x := by
  induction left generalizing i ranges with
  | zero => exact hr
  | succ n ih =>
    rw [collectLatexContentLoop_step]
    split_ifs with hlt
    · cases hs : latexStep text i with
      | none => exact hr
      | some p =>
        obtain ⟨i1, r⟩ := p
        obtain ⟨a, b⟩ := hstep i i1 r hlt hi hs
        apply ih i1 _ a
        intro x hx
        rcases List.mem_append.mp hx with hx | hx
        · exact hr x hx
        · cases r with
          | none => simp [Option.toList] at hx
          | some y =>
            simp only [Option.toList, List.mem_singleton] at hx
            exact b x (by rw [hx])
    · exact hr

/-! ## The LaTeX content ranges hold no byte of a control sequence -/

theorem isContentByte_special :
    isContentByte 92 = false ∧ isContentByte 42 = false ∧ isContentByte 123 = false
      ∧ isContentByte 125 = false ∧ isContentByte 36 = false ∧ isContentByte 37 = false := by
  decide

theorem isContentByte_not_space (c : Nat) (h : isContentByte c = true) :
    isspaceC c = false := by
  cases hs : isspaceC c with
  | false => rfl
  | true =>
    simp only [isContentByte, hs, Bool.not_true, Bool.false_and, Bool.or_false,
      decide_eq_true_eq] at h
    simp only [isspaceC, Bool.decide_or, Bool.decide_and, Bool.or_eq_true, decide_eq_true_eq,
      Bool.and_eq_true] at hs
    omega

/-- The position after a byte that is neither a backslash nor a name byte is
not inside the name of a control sequence. -/
theorem not_inCommandName_after (text : Bytes) (p : Nat)
    (h92 : text.getD p 0 ≠ 92) (hname : isNameByte (text.getD p 0) = false) :
    ¬ InCommandName text (p + 1) := by
  rintro ⟨_, b, hb, hb92, hrun⟩
  by_cases hbp : b = p
  · subst hbp; exact h92 hb92
  · have := hrun p (by omega) (by omega)
    rw [hname] at this
    cases this

/-- Walking forward over bytes that are not a backslash does not lead into
the name of a control sequence. -/
theorem not_inCommandName_of_between (text : Bytes) (i i1 : Nat)
    (hi : ¬ InCommandName text i) (hle : i ≤ i1)
    (hno : ∀ k, i ≤ k → k < i1 → text.getD k 0 ≠ 92) : ¬ InCommandName text i1 := by
  rintro ⟨hn, b, hb, hb92, hrun⟩
  by_cases hbi : i ≤ b
  · exact hno b hbi hb hb92
  · apply hi
    by_cases hii : i = i1
    · subst hii
      exact ⟨hn, b, hb, hb92, hrun⟩
    · exact ⟨hrun i (by omega) (by omega), b, by omega, hb92,
        fun m h1 h2 => hrun m h1 (by omega)⟩

/-- One round of the loop keeps the position outside the names of control
sequences, and a range it pushes holds content bytes only, none of them in
such a name. -/
theorem latexStep_content (text : Bytes) (hW : LeadsComplete text) (i i1 : Nat)
    (r : Option ByteRange) (hlt : i < text.length) (hi : ¬ InCommandName text i)
    (h : latexStep text i = some (i1, r)) :
    ¬ InCommandName text i1
    ∧ ∀ x, r = some x → ∀ k, x.startByte ≤ k → k < x.endByte →
        isContentByte (text.getD k 0) = true ∧ ¬ InCommandName text k := by
  have hnone : ∀ x, (none : Option ByteRange) = some x → ∀ k, x.startByte ≤ k →
      k < x.endByte → isContentByte (text.getD k 0) = true ∧ ¬ InCommandName text k :=
    fun x hx => by cases hx
  unfold latexStep at h
  simp only at h
  split_ifs at h with h1 h2 h3 h4 h5 h6 h7 h8
  · cases hf : findByte text 10 i with
    | none => rw [hf] at h; cases h
    | some e =>
      rw [hf] at h
      cases h
      have h10 := (findByte_some text 10 i e hf).2.2.1
      exact ⟨not_inCommandName_after text e (by rw [h10]; decide) (by rw [h10]; decide),
        hnone⟩
  · cases hf : findClosingDoubleDollar text (i + 2) with
    | none => rw [hf] at h; cases h
    | some e =>
      rw [hf] at h
      cases h
      have h36 := (findClosingDoubleDollarAux_some text _ _ e hf).2.2.2.1
      exact ⟨not_inCommandName_after text (e + 1) (by rw [h36]; decide)
        (by rw [h36]; decide), hnone⟩
  · cases hf : findClosingDollar text (i + 1) with
    | none => rw [hf] at h; cases h
    | some e =>
      rw [hf] at h
      cases h
      have h36 := (findClosingDollarAux_some text _ _ e hf).2.2.1
      exact ⟨not_inCommandName_after text e (by rw [h36]; decide) (by rw [h36]; decide),
        hnone⟩
  · cases h
    exact ⟨not_inCommandName_after text _ (by rw [h5.2]; decide) (by rw [h5.2]; decide),
      hnone⟩
  · cases h
    have hs := (skipCommandName_spec text text.length (i + 1) (by omega)).2.2
    refine ⟨?_, hnone⟩
    rintro ⟨hn, _⟩
    rw [hs] at hn
    cases hn
  · cases h
    refine ⟨not_inCommandName_after text i (by omega) ?_, hnone⟩
    rcases h6 with h6 | h6 <;> rw [h6] <;> decide
  · cases h
    refine ⟨not_inCommandName_of_between text i (i + 1) hi (by omega) ?_, hnone⟩
    intro k hk1 hk2
    have : k = i := by omega
    subst this
    exact h4
  · cases h
    obtain ⟨a, b, c, d⟩ := scanContent_spec text hW text.length i false (by omega)
    have hno : ∀ k, i ≤ k → k < (scanContent text text.length i false).1 →
        text.getD k 0 ≠ 92 := by
      intro k hk1 hk2 h92
      have := c k hk1 hk2
      rw [h92] at this
      exact absurd this (by decide)
    refine ⟨not_inCommandName_of_between text i _ hi a hno, ?_⟩
    intro x hx k hk1 hk2
    cases hx
    simp only at hk1 hk2
    exact ⟨c k hk1 hk2, not_inCommandName_of_between text i k hi hk1
      (fun m hm1 hm2 => hno m hm1 (by omega))⟩
  · cases h
    have hge := (scanContent_ge text text.length i false)
    have heq : (scanContent text text.length i false).1 = i := by
      by_contra hne
      have hlt2 : i < (scanContent text text.length i false).1 := by
        have := hge.1
        omega
      exact h8 (hge.2.mpr (Or.inr hlt2))
    rw [heq]
    refine ⟨not_inCommandName_of_between text i (i + 1) hi (by omega) ?_, hnone⟩
    intro k hk1 hk2
    have : k = i := by omega
    subst this
    exact h4

/-- No content range of a text with complete characters holds a byte that is
not a content byte or that lies in the name of a control sequence. -/
theorem collectLatexContentRanges_content (text : Bytes) (hW : LeadsComplete text) :
    ∀ x ∈ collectLatexContentRanges text, ∀ k, x.startByte ≤ k → k < x.endByte →
      isContentByte (text.getD k 0) = true ∧ ¬ InCommandName text k := by
  apply collectLatexContentLoop_induction text (fun i => ¬ InCommandName text i)
    (fun x => ∀ k, x.startByte ≤ k → k < x.endByte →
      isContentByte (text.getD k 0) = true ∧ ¬ InCommandName text k)
  · intro i i1 r hlt hi h
    exact latexStep_content text hW i i1 r hlt hi h
  · rintro ⟨_, b, hb, _⟩
    omega
  · intro x hx
    cases hx

theorem not_inControlSequence (text : Bytes) (k : Nat)
    (hc : isContentByte (text.getD k 0) = true) (hn : ¬ InCommandName text k) :
    ¬ InControlSequence text k := by
  rintro ⟨b, hb, hb92, hrun, hk | hk | hk⟩
  · subst hk
    rw [hb92] at hc
    exact absurd hc (by decide)
  · by_cases hbk : b = k
    · subst hbk
      rw [hb92] at hc
      exact absurd hc (by decide)
    · exact hn ⟨hk, b, by omega, hb92, hrun⟩
  · rw [hk] at hc
    exact absurd hc (by decide)

theorem latexStep_range_bound (text : Bytes) (hW : LeadsComplete text) (i i1 : Nat)
    (x : ByteRange) (hlt : i < text.length) (h : latexStep text i = some (i1, some x)) :
    x.startByte < x.endByte ∧ x.endByte ≤ text.length := by
  have hp := latexStep_progress text i i1 (some x) h
  have hx := hp.2 x rfl
  subst hx
  refine ⟨hp.1, ?_⟩
  unfold latexStep at h
  simp only at h
  split_ifs at h with h1 h2 h3 h4 h5 h6 h7 h8
  · cases hf : findByte text 10 i <;> rw [hf] at h <;> cases h
  · cases hf : findClosingDoubleDollar text (i + 2) <;> rw [hf] at h <;> cases h
  · cases hf : findClosingDollar text (i + 1) <;> rw [hf] at h <;> cases h
  · cases h
  · cases h
  · cases h
  · cases h
  · simp only [Option.some.injEq, Prod.mk.injEq] at h
    rw [← h.1]
    exact (scanContent_spec text hW text.length i false (by omega)).2.1
  · cases h

theorem collectLatexContentRanges_bounds (text : Bytes) (hW : LeadsComplete text) :
    ∀ x ∈ collectLatexContentRanges text, x.startByte < x.endByte ∧ x.endByte ≤ text.length := by
  apply collectLatexContentLoop_induction text (fun _ => True)
    (fun x => x.startByte < x.endByte ∧ x.endByte ≤ text.length)
  · intro i i1 r hlt _ h
    refine ⟨trivial, fun x hx => ?_⟩
    subst hx
    exact latexStep_range_bound text hW i i1 x hlt h
  · trivial
  · intro x hx
    cases hx

/-! ## Well-formed UTF-8 has complete characters -/

/-- The encoding of a code point: `utf8CharLen` of its first byte is its
length, and every other byte is a continuation byte, for which `utf8CharLen`
is 1. -/
theorem encodeChar_shape (c : Char) :
    utf8CharLen ((encodeChar c).getD 0 0) = (encodeChar c).length
    ∧ ∀ j, 0 < j → j < (encodeChar c).length →
        0x80 ≤ (encodeChar c).getD j 0 ∧ utf8CharLen ((encodeChar c).getD j 0) = 1 := by
  have hlt := char_toNat_lt c
  have hcont : ∀ x, x < 64 → utf8CharLen (0x80 + x) = 1 := by
    intro x hx
    unfold utf8CharLen
    simp only [Nat.shiftRight_eq_div_pow]
    rw [if_neg (by omega), if_neg (by omega), if_neg (by omega), if_neg (by omega)]
  unfold encodeChar
  simp only
  split_ifs with h1 h2 h3
  · refine ⟨by simp [utf8CharLen, h1], fun j h0 hj => ?_⟩
    simp only [List.length_cons, List.length_nil] at hj
    omega
  · refine ⟨?_, fun j h0 hj => ?_⟩
    · simp only [List.getD_cons_zero, List.length_cons, List.length_nil, utf8CharLen,
        Nat.shiftRight_eq_div_pow]
      rw [if_neg (by omega), if_pos (by omega)]
    · simp only [List.length_cons, List.length_nil] at hj
      have : j = 1 := by omega
      subst this
      simp only [List.getD_cons_succ, List.getD_cons_zero]
      exact ⟨by omega, hcont _ (Nat.mod_lt _ (by decide))⟩
  · refine ⟨?_, fun j h0 hj => ?_⟩
    · simp only [List.getD_cons_zero, List.length_cons, List.length_nil, utf8CharLen,
        Nat.shiftRight_eq_div_pow]
      rw [if_neg (by omega), if_neg (by omega), if_pos (by omega)]
    · simp only [List.length_cons, List.length_nil] at hj
      have : j = 1 ∨ j = 2 := by omega
      rcases this with e | e <;> subst e <;>
        simp only [List.getD_cons_succ, List.getD_cons_zero] <;>
        exact ⟨by omega, hcont _ (Nat.mod_lt _ (by decide))⟩
  · refine ⟨?_, fun j h0 hj => ?_⟩
    · simp only [List.getD_cons_zero, List.length_cons, List.length_nil, utf8CharLen,
        Nat.shiftRight_eq_div_pow]
      rw [if_neg (by omega), if_neg (by omega), if_neg (by omega), if_pos (by omega)]
    · simp only [List.length_cons, List.length_nil] at hj
      have : j = 1 ∨ j = 2 ∨ j = 3 := by omega
      rcases this with e | e | e <;> subst e <;>
        simp only [List.getD_cons_succ, List.getD_cons_zero] <;>
        exact ⟨by omega, hcont _ (Nat.mod_lt _ (by decide))⟩

theorem getD_append_left_lt (a b : Bytes) (k : Nat) (h : k < a.length) :
    (a ++ b).getD k 0 = a.getD k 0 := by
  simp only [List.getD_eq_getElem?_getD]
  rw [List.getElem?_append_left h]

theorem getD_append_right_ge (a b : Bytes) (k : Nat) (h : a.length ≤ k) :
    (a ++ b).getD k 0 = b.getD (k - a.length) 0 := by
  simp only [List.getD_eq_getElem?_getD]
  rw [List.getElem?_append_right h]

/-- Well-formed UTF-8 has complete characters. -/
theorem leadsComplete_encodeChars (cs : List Char) : LeadsComplete (encodeChars cs) := by
  induction cs with
  | nil =>
    intro i hi
    simp [encodeChars] at hi
  | cons c cs ih =>
    rw [encodeChars_cons]
    intro i hi j hj0 hj
    obtain ⟨hlead, hcont⟩ := encodeChar_shape c
    have hpos := encodeChar_length_pos c
    by_cases hin : i < (encodeChar c).length
    · rw [getD_append_left_lt _ _ _ hin] at hj
      by_cases hi0 : i = 0
      · subst hi0
        rw [hlead] at hj
        rw [Nat.zero_add, getD_append_left_lt _ _ _ hj]
        exact ⟨by rw [List.length_append]; omega, (hcont j hj0 hj).1⟩
      · rw [(hcont i (by omega) hin).2] at hj
        omega
    · have hge : (encodeChar c).length ≤ i := by omega
      rw [getD_append_right_ge _ _ _ hge] at hj
      rw [List.length_append] at hi ⊢
      obtain ⟨a, b⟩ := ih (i - (encodeChar c).length) (by omega) j hj0 hj
      rw [getD_append_right_ge _ _ _ (by omega)]
      refine ⟨by omega, ?_⟩
      rw [show i + j - (encodeChar c).length = i - (encodeChar c).length + j by omega]
      exact b

/-! ## The LaTeX content ranges stay out of a math region -/

theorem isEscaped_false_of (text : Bytes) (pos : Nat)
    (h : pos = 0 ∨ text.getD (pos - 1) 0 ≠ 92) : isEscaped text pos = false := by
  unfold isEscaped
  cases pos with
  | zero => simp [countBackslashes]
  | succ n =>
    rcases h with h | h
    · cases h
    · have h2 : ¬ (n + 1 > 0 ∧ text.getD (n + 1 - 0 - 1) 0 = 92) := by
        intro hc
        exact h (by simpa using hc.2)
      rw [countBackslashes, if_neg h2]
      decide

/-- Before the first `$`, `%` or backslash of the text, a round of the loop
does not move past it, and a range it pushes ends before it. -/
theorem latexStep_before_dollar (text : Bytes) (hW : LeadsComplete text) (n : Nat)
    (hpre : ∀ k, k < n → text.getD k 0 ≠ 36 ∧ text.getD k 0 ≠ 37 ∧ text.getD k 0 ≠ 92)
    (hn : text.getD n 0 = 36) (i i1 : Nat) (r : Option ByteRange) (hi : i < n)
    (hlt : i < text.length) (h : latexStep text i = some (i1, r)) :
    i1 ≤ n ∧ ∀ x, r = some x → x.endByte ≤ n := by
  have hp := hpre i hi
  unfold latexStep at h
  simp only at h
  split_ifs at h with h1 h2 h3 h4 h5 h6 h7 h8
  · exact absurd h1.1 hp.2.1
  · exact absurd h2.1 hp.1
  · exact absurd h2.1 hp.1
  · exact absurd h4 hp.2.2
  · exact absurd h4 hp.2.2
  · cases h
    exact ⟨by omega, fun x hx => by cases hx⟩
  · cases h
    exact ⟨by omega, fun x hx => by cases hx⟩
  · cases h
    obtain ⟨a, b, c, d⟩ := scanContent_spec text hW text.length i false (by omega)
    have hle : (scanContent text text.length i false).1 ≤ n := by
      by_contra hgt
      have := c n (by omega) (by omega)
      rw [hn] at this
      exact absurd this (by decide)
    exact ⟨hle, fun x hx => by cases hx; exact hle⟩
  · cases h
    have hge := scanContent_ge text text.length i false
    have heq : (scanContent text text.length i false).1 = i := by
      by_contra hne
      have hlt2 : i < (scanContent text text.length i false).1 := by
        have := hge.1
        omega
      exact h8 (hge.2.mpr (Or.inr hlt2))
    rw [heq]
    exact ⟨by omega, fun x hx => by cases hx⟩

/-- At an unescaped `$` a round of the loop looks for the closing delimiter
and pushes no range: it stops when there is none, and else goes on after the
`$` found. -/
theorem latexStep_dollar (text : Bytes) (n : Nat) (hn : text.getD n 0 = 36)
    (hesc : isEscaped text n = false) :
    latexStep text n
      = if n + 1 < text.length ∧ text.getD (n + 1) 0 = 36 then
          (findClosingDoubleDollar text (n + 2)).map (fun closing => (closing + 2, none))
        else (findClosingDollar text (n + 1)).map (fun closing => (closing + 1, none)) := by
  unfold latexStep
  simp only [hn, hesc, and_self, if_true, show ¬ ((36 : Nat) = 37) by decide, false_and,
    if_false]
  split_ifs
  · cases findClosingDoubleDollar text (n + 2) <;> rfl
  · cases findClosingDollar text (n + 1) <;> rfl

/-- A text whose prefix of `n` bytes has no `$`, `%` or backslash, followed by
`$`, the `len` bytes of a math region without `$`, and more: no content range
meets the bytes from `n` up to `n + len + 1`, and none meets the byte after
them when the math region starts with a second `$`. -/
theorem collectLatexContentRanges_math (text : Bytes) (hW : LeadsComplete text) (n len : Nat)
    (hpre : ∀ k, k < n → text.getD k 0 ≠ 36 ∧ text.getD k 0 ≠ 37 ∧ text.getD k 0 ≠ 92)
    (hn : text.getD n 0 = 36)
    (hmath : ∀ k, n + 1 ≤ k → k < n + 1 + len → text.getD k 0 ≠ 36) :
    ∀ x ∈ collectLatexContentRanges text, x.endByte ≤ n ∨ n + len + 2 ≤ x.startByte := by
  have hesc : isEscaped text n = false := by
    apply isEscaped_false_of
    by_cases h0 : n = 0
    · exact Or.inl h0
    · exact Or.inr (hpre (n - 1) (by omega)).2.2
  apply collectLatexContentLoop_induction text (fun i => i ≤ n ∨ n + len + 2 ≤ i)
    (fun x => x.endByte ≤ n ∨ n + len + 2 ≤ x.startByte)
  · intro i i1 r hlt hi h
    by_cases hin : i < n
    · obtain ⟨a, b⟩ := latexStep_before_dollar text hW n hpre hn i i1 r hin hlt h
      exact ⟨Or.inl a, fun x hx => Or.inl (b x hx)⟩
    · by_cases hen : i = n
      · subst hen
        rw [latexStep_dollar text i hn hesc] at h
        have hclose : ∀ c, i + 1 ≤ c → text.getD c 0 = 36 → i + 1 + len ≤ c := by
          intro c hc1 hc2
          by_contra hlt2
          exact hmath c hc1 (by omega) hc2
        split_ifs at h with hd
        · cases hf : findClosingDoubleDollar text (i + 2) with
          | none => rw [hf] at h; cases h
          | some c =>
            rw [hf] at h
            cases h
            obtain ⟨c1, _, c3, _⟩ := findClosingDoubleDollarAux_some text _ _ c hf
            have := hclose c (by omega) c3
            exact ⟨Or.inr (by omega), fun x hx => by cases hx⟩
        · cases hf : findClosingDollar text (i + 1) with
          | none => rw [hf] at h; cases h
          | some c =>
            rw [hf] at h
            cases h
            obtain ⟨c1, _, c3, _⟩ := findClosingDollarAux_some text _ _ c hf
            have := hclose c c1 c3
            exact ⟨Or.inr (by omega), fun x hx => by cases hx⟩
      · obtain ⟨a, b⟩ := latexStep_progress text i i1 r h
        have hge : n + len + 2 ≤ i := by
          rcases hi with hi | hi
          · omega
          · exact hi
        refine ⟨Or.inr (by omega), fun x hx => ?_⟩
        rw [b x hx]
        exact Or.inr hge
  · exact Or.inl (Nat.zero_le _)
  · intro x hx
    cases hx

/-- The same for a math region that opens with `$$`: no content range meets
the bytes from `n` up to the second `$` that follows the `len` bytes of the
region. -/
theorem collectLatexContentRanges_display_math (text : Bytes) (hW : LeadsComplete text)
    (n len : Nat)
    (hpre : ∀ k, k < n → text.getD k 0 ≠ 36 ∧ text.getD k 0 ≠ 37 ∧ text.getD k 0 ≠ 92)
    (hn : text.getD n 0 = 36) (hn1 : text.getD (n + 1) 0 = 36) (hlen : n + 1 < text.length)
    (hmath : ∀ k, n + 2 ≤ k → k < n + 2 + len → text.getD k 0 ≠ 36) :
    ∀ x ∈ collectLatexContentRanges text, x.endByte ≤ n ∨ n + len + 4 ≤ x.startByte := by
  have hesc : isEscaped text n = false := by
    apply isEscaped_false_of
    by_cases h0 : n = 0
    · exact Or.inl h0
    · exact Or.inr (hpre (n - 1) (by omega)).2.2
  apply collectLatexContentLoop_induction text (fun i => i ≤ n ∨ n + len + 4 ≤ i)
    (fun x => x.endByte ≤ n ∨ n + len + 4 ≤ x.startByte)
  · intro i i1 r hlt hi h
    by_cases hin : i < n
    · obtain ⟨a, b⟩ := latexStep_before_dollar text hW n hpre hn i i1 r hin hlt h
      exact ⟨Or.inl a, fun x hx => Or.inl (b x hx)⟩
    · by_cases hen : i = n
      · subst hen
        rw [latexStep_dollar text i hn hesc, if_pos ⟨hlen, hn1⟩] at h
        cases hf : findClosingDoubleDollar text (i + 2) with
        | none => rw [hf] at h; cases h
        | some c =>
          rw [hf] at h
          cases h
          obtain ⟨c1, _, c3, _⟩ := findClosingDoubleDollarAux_some text _ _ c hf
          have : i + 2 + len ≤ c := by
            by_contra hlt2
            exact hmath c c1 (by omega) c3
          exact ⟨Or.inr (by omega), fun x hx => by cases hx⟩
      · obtain ⟨a, b⟩ := latexStep_progress text i i1 r h
        have hge : n + len + 4 ≤ i := by
          rcases hi with hi | hi
          · omega
          · exact hi
        refine ⟨Or.inr (by omega), fun x hx => ?_⟩
        rw [b x hx]
        exact Or.inr hge
  · exact Or.inl (Nat.zero_le _)
  · intro x hx
    cases hx

/-- An unescaped `$` after a prefix without `$`, `%` or backslash, for which
the loop finds no closing delimiter: every content range ends before it. -/
theorem collectLatexContentRanges_unclosed (text : Bytes) (hW : LeadsComplete text) (n : Nat)
    (hpre : ∀ k, k < n → text.getD k 0 ≠ 36 ∧ text.getD k 0 ≠ 37 ∧ text.getD k 0 ≠ 92)
    (hn : text.getD n 0 = 36)
    (hnone : if n + 1 < text.length ∧ text.getD (n + 1) 0 = 36 then
        findClosingDoubleDollar text (n + 2) = none
      else findClosingDollar text (n + 1) = none) :
    ∀ x ∈ collectLatexContentRanges text, x.endByte ≤ n := by
  have hesc : isEscaped text n = false := by
    apply isEscaped_false_of
    by_cases h0 : n = 0
    · exact Or.inl h0
    · exact Or.inr (hpre (n - 1) (by omega)).2.2
  apply collectLatexContentLoop_induction text (fun i => i ≤ n) (fun x => x.endByte ≤ n)
  · intro i i1 r hlt hi h
    by_cases hin : i < n
    · exact latexStep_before_dollar text hW n hpre hn i i1 r hin hlt h
    · have hen : i = n := by omega
      subst hen
      rw [latexStep_dollar text i hn hesc] at h
      split_ifs at h hnone with hd
      · rw [hnone] at h; cases h
      · rw [hnone] at h; cases h
  · exact Nat.zero_le _
  · intro x hx
    cases hx

theorem findClosingDollarAux_first (text : Bytes) (left i c : Nat) (hic : i ≤ c)
    (hc : c < text.length) (h36 : text.getD c 0 = 36) (hesc : isEscaped text c = false)
    (hbefore : ∀ k, i ≤ k → k < c → text.getD k 0 ≠ 36) (hl : c - i < left) :
    findClosingDollarAux text left i = some c := by
  induction left generalizing i with
  | zero => omega
  | succ n ih =>
    unfold findClosingDollarAux
    rw [if_pos (by omega)]
    by_cases hi : i = c
    · subst hi
      rw [if_pos ⟨h36, hesc⟩]
    · rw [if_neg (fun h => hbefore i (Nat.le_refl _) (by omega) h.1)]
      exact ih (i + 1) (by omega) (fun k h1 h2 => hbefore k (by omega) h2) (by omega)

theorem findClosingDoubleDollarAux_first (text : Bytes) (left i c : Nat) (hic : i ≤ c)
    (hc : c + 1 < text.length) (h36 : text.getD c 0 = 36) (h36b : text.getD (c + 1) 0 = 36)
    (hesc : isEscaped text c = false)
    (hbefore : ∀ k, i ≤ k → k < c → text.getD k 0 ≠ 36) (hl : c - i < left) :
    findClosingDoubleDollarAux text left i = some c := by
  induction left generalizing i with
  | zero => omega
  | succ n ih =>
    unfold findClosingDoubleDollarAux
    rw [if_pos (by omega)]
    by_cases hi : i = c
    · subst hi
      rw [if_pos ⟨h36, h36b, hesc⟩]
    · rw [if_neg (fun h => hbefore i (Nat.le_refl _) (by omega) h.1)]
      exact ih (i + 1) (by omega) (fun k h1 h2 => hbefore k (by omega) h2) (by omega)

theorem encodeChar_dollar : encodeChar (Char.ofNat 36) = [36] := by decide

theorem getD_of_mem_ne (l : Bytes) (k : Nat) (h : k < l.length) (P : Nat → Prop)
    (hP : ∀ c ∈ l, P c) : P (l.getD k 0) := by
  apply hP
  simp only [List.getD_eq_getElem?_getD, List.getElem?_eq_getElem h, Option.getD_some]
  exact List.getElem_mem h

/-- The bytes of `pre ++ mid ++ post` at the places of `mid`. -/
theorem getD_mid (pre mid post : Bytes) (k : Nat) (h1 : pre.length ≤ k)
    (h2 : k < pre.length + mid.length) :
    (pre ++ mid ++ post).getD k 0 = mid.getD (k - pre.length) 0 := by
  have := getD_append_mid pre mid post (k - pre.length) (by omega)
  rw [show pre.length + (k - pre.length) = k by omega] at this
  exact this

theorem leadsComplete_math (ca cm cb : List Char) :
    LeadsComplete (encodeChars ca ++ [36] ++ encodeChars cm ++ [36] ++ encodeChars cb) := by
  have h := leadsComplete_encodeChars (ca ++ [Char.ofNat 36] ++ cm ++ [Char.ofNat 36] ++ cb)
  have e : encodeChars [Char.ofNat 36] = [36] := by decide
  simp only [encodeChars_append, e] at h
  exact h

theorem leadsComplete_display_math (ca cm cb : List Char) :
    LeadsComplete
      (encodeChars ca ++ [36, 36] ++ encodeChars cm ++ [36, 36] ++ encodeChars cb) := by
  have h := leadsComplete_encodeChars
    (ca ++ [Char.ofNat 36, Char.ofNat 36] ++ cm ++ [Char.ofNat 36, Char.ofNat 36] ++ cb)
  have e : encodeChars [Char.ofNat 36, Char.ofNat 36] = [36, 36] := by decide
  simp only [encodeChars_append, e] at h
  exact h

theorem leadsComplete_unclosed (ca crest : List Char) :
    LeadsComplete (encodeChars ca ++ [36] ++ encodeChars crest) := by
  have h := leadsComplete_encodeChars (ca ++ [Char.ofNat 36] ++ crest)
  have e : encodeChars [Char.ofNat 36] = [36] := by decide
  simp only [encodeChars_append, e] at h
  exact h

/-- The bytes of `a ++ "$" ++ m ++ "$" ++ b`. -/
theorem math_text_bytes (a m b : Bytes) :
    (a ++ [36] ++ m ++ [36] ++ b).length = a.length + m.length + 2 + b.length
    ∧ (∀ k, k < a.length → (a ++ [36] ++ m ++ [36] ++ b).getD k 0 = a.getD k 0)
    ∧ (a ++ [36] ++ m ++ [36] ++ b).getD a.length 0 = 36
    ∧ (∀ k, a.length + 1 ≤ k → k < a.length + 1 + m.length →
        (a ++ [36] ++ m ++ [36] ++ b).getD k 0 = m.getD (k - (a.length + 1)) 0)
    ∧ (a ++ [36] ++ m ++ [36] ++ b).getD (a.length + 1 + m.length) 0 = 36 := by
  refine ⟨by simp only [List.length_append, List.length_cons, List.length_nil]; omega,
    ?_, ?_, ?_, ?_⟩
  · intro k hk
    have e : a ++ [36] ++ m ++ [36] ++ b = a ++ ([36] ++ m ++ [36] ++ b) := by
      simp only [List.append_assoc]
    rw [e, getD_append_left_lt _ _ _ hk]
  · have e : a ++ [36] ++ m ++ [36] ++ b = a ++ [36] ++ (m ++ [36] ++ b) := by
      simp only [List.append_assoc]
    rw [e, getD_mid a [36] _ a.length (Nat.le_refl _) (by simp), Nat.sub_self]
    rfl
  · intro k h1 h2
    have e : a ++ [36] ++ m ++ [36] ++ b = (a ++ [36]) ++ m ++ ([36] ++ b) := by
      simp only [List.append_assoc]
    have hl : (a ++ [36]).length = a.length + 1 := by simp
    rw [e, getD_mid (a ++ [36]) m _ k (by omega) (by omega), hl]
  · have e : a ++ [36] ++ m ++ [36] ++ b = (a ++ [36] ++ m) ++ [36] ++ b := by
      simp only [List.append_assoc]
    have hl : (a ++ [36] ++ m).length = a.length + 1 + m.length := by
      simp only [List.length_append, List.length_cons, List.length_nil]
    rw [e, getD_mid (a ++ [36] ++ m) [36] b _ (by omega) (by simp; omega), hl, Nat.sub_self]
    rfl

/-- The bytes of `a ++ "$$" ++ m ++ "$$" ++ b`. -/
theorem display_math_text_bytes (a m b : Bytes) :
    (a ++ [36, 36] ++ m ++ [36, 36] ++ b).length = a.length + m.length + 4 + b.length
    ∧ (∀ k, k < a.length → (a ++ [36, 36] ++ m ++ [36, 36] ++ b).getD k 0 = a.getD k 0)
    ∧ (a ++ [36, 36] ++ m ++ [36, 36] ++ b).getD a.length 0 = 36
    ∧ (a ++ [36, 36] ++ m ++ [36, 36] ++ b).getD (a.length + 1) 0 = 36
    ∧ (∀ k, a.length + 2 ≤ k → k < a.length + 2 + m.length →
        (a ++ [36, 36] ++ m ++ [36, 36] ++ b).getD k 0 = m.getD (k - (a.length + 2)) 0)
    ∧ (a ++ [36, 36] ++ m ++ [36, 36] ++ b).getD (a.length + 2 + m.length) 0 = 36
    ∧ (a ++ [36, 36] ++ m ++ [36, 36] ++ b).getD (a.length + 2 + m.length + 1) 0 = 36 := by
  have e1 : a ++ [36, 36] ++ m ++ [36, 36] ++ b = a ++ [36, 36] ++ (m ++ [36, 36] ++ b) := by
    simp only [List.append_assoc]
  have e3 : a ++ [36, 36] ++ m ++ [36, 36] ++ b = (a ++ [36, 36] ++ m) ++ [36, 36] ++ b := by
    simp only [List.append_assoc]
  have hl3 : (a ++ [36, 36] ++ m).length = a.length + 2 + m.length := by
    simp only [List.length_append, List.length_cons, List.length_nil]
  refine ⟨by simp only [List.length_append, List.length_cons, List.length_nil]; omega,
    ?_, ?_, ?_, ?_, ?_, ?_⟩
  · intro k hk
    have e : a ++ [36, 36] ++ m ++ [36, 36] ++ b = a ++ ([36, 36] ++ m ++ [36, 36] ++ b) := by
      simp only [List.append_assoc]
    rw [e, getD_append_left_lt _ _ _ hk]
  · rw [e1, getD_mid a [36, 36] _ a.length (Nat.le_refl _) (by simp), Nat.sub_self]
    rfl
  · rw [e1, getD_mid a [36, 36] _ (a.length + 1) (by omega) (by simp),
      Nat.add_sub_cancel_left]
    rfl
  · intro k h1 h2
    have e : a ++ [36, 36] ++ m ++ [36, 36] ++ b = (a ++ [36, 36]) ++ m ++ ([36, 36] ++ b) := by
      simp only [List.append_assoc]
    have hl : (a ++ [36, 36]).length = a.length + 2 := by simp
    rw [e, getD_mid (a ++ [36, 36]) m _ k (by omega) (by omega), hl]
  · rw [e3, getD_mid (a ++ [36, 36] ++ m) [36, 36] b _ (by omega) (by simp; omega), hl3,
      Nat.sub_self]
    rfl
  · rw [e3, getD_mid (a ++ [36, 36] ++ m) [36, 36] b _ (by omega) (by simp; omega), hl3,
      Nat.add_sub_cancel_left]
    rfl

theorem findClosingDollarAux_none (text : Bytes) (left i : Nat)
    (h : ∀ k, i ≤ k → text.getD k 0 ≠ 36) : findClosingDollarAux text left i = none := by
  induction left generalizing i with
  | zero => rfl
  | succ n ih =>
    unfold findClosingDollarAux
    split_ifs with h1 h2
    · exact absurd h2.1 (h i (Nat.le_refl _))
    · exact ih (i + 1) (fun k hk => h k (by omega))
    · rfl

/-! ## Lines read by `std::getline` and the final newline -/

theorem terminate_newline (l rest : Bytes) :
    terminate (l ++ 10 :: rest) = l ++ 10 :: terminate rest := by
  induction l with
  | nil =>
    cases rest with
    | nil => rfl
    | cons a r => simp [terminate]
  | cons c l ih =>
    have hne : l ++ 10 :: rest ≠ [] := by simp
    show terminate (c :: (l ++ 10 :: rest)) = c :: (l ++ 10 :: terminate rest)
    rw [terminate, if_neg hne, ih]

theorem terminate_no_newline (l : Bytes) (hne : l ≠ []) (h : 10 ∉ l) :
    terminate l = l ++ [10] := by
  induction l with
  | nil => exact absurd rfl hne
  | cons c l ih =>
    have hc : c ≠ 10 := fun e => h (e ▸ List.mem_cons_self _ _)
    by_cases hl : l = []
    · subst hl
      simp [terminate, hc]
    · rw [terminate, if_neg hl, ih hl (fun m => h (List.mem_cons_of_mem _ m))]
      rfl

/-- Every text is empty, or a non-empty line without a newline, or a line
followed by a newline and a rest. -/
theorem line_cases (t : Bytes) :
    t = [] ∨ (t ≠ [] ∧ 10 ∉ t) ∨ ∃ l rest, t = l ++ 10 :: rest ∧ 10 ∉ l := by
  induction t with
  | nil => exact Or.inl rfl
  | cons c t ih =>
    right
    by_cases hc : c = 10
    · exact Or.inr ⟨[], t, by rw [hc]; rfl, List.not_mem_nil _⟩
    · rcases ih with h | ⟨_, h⟩ | ⟨l, rest, h, hl⟩
      · subst h
        exact Or.inl ⟨by simp, by simp [Ne.symm hc]⟩
      · exact Or.inl ⟨by simp, by simp [Ne.symm hc, h]⟩
      · exact Or.inr ⟨c :: l, rest, by rw [h]; rfl, by simp [Ne.symm hc, hl]⟩

theorem readLines_terminate (t : Bytes) : readLines (terminate t) = readLines t := by
  suffices hs : ∀ (n : Nat) (t : Bytes), t.length ≤ n →
      readLines (terminate t) = readLines t from hs _ t (Nat.le_refl _)
  intro n
  induction n with
  | zero =>
    intro t ht
    have : t = [] := List.eq_nil_of_length_eq_zero (by omega)
    subst this; rfl
  | succ n ih =>
    intro t ht
    rcases line_cases t with h | ⟨hne, h⟩ | ⟨l, rest, h, hl⟩
    · subst h; rfl
    · rw [terminate_no_newline t hne h, readLines_of_no_newline t hne h]
      have := readLines_of_newline t [] h
      rw [readLines_nil] at this
      exact this
    · subst h
      have hr : rest.length ≤ n := by
        simp only [List.length_append, List.length_cons] at ht; omega
      rw [terminate_newline, readLines_of_newline l _ hl, readLines_of_newline l _ hl,
        ih rest hr]

theorem joinLines_readLines (t : Bytes) :
    (readLines t).flatMap (fun l => l ++ [10]) = terminate t := by
  suffices hs : ∀ (n : Nat) (t : Bytes), t.length ≤ n →
      (readLines t).flatMap (fun l => l ++ [10]) = terminate t from hs _ t (Nat.le_refl _)
  intro n
  induction n with
  | zero =>
    intro t ht
    have : t = [] := List.eq_nil_of_length_eq_zero (by omega)
    subst this; rfl
  | succ n ih =>
    intro t ht
    rcases line_cases t with h | ⟨hne, h⟩ | ⟨l, rest, h, hl⟩
    · subst h; rfl
    · rw [terminate_no_newline t hne h, readLines_of_no_newline t hne h]
      simp
    · subst h
      have hr : rest.length ≤ n := by
        simp only [List.length_append, List.length_cons] at ht; omega
      rw [terminate_newline, readLines_of_newline l _ hl, List.flatMap_cons, ih rest hr]
      simp

theorem readLines_eq_iff (a b : Bytes) :
    readLines a = readLines b ↔ terminate a = terminate b := by
  constructor
  · intro h
    rw [← joinLines_readLines a, ← joinLines_readLines b, h]
  · intro h
    rw [← readLines_terminate a, ← readLines_terminate b, h]

theorem findChangedLines_mem (a b : Bytes) (i : Nat) :
    i ∈ findChangedLines a b
      ↔ i < max (readLines a).length (readLines b).length
        ∧ (¬ i < (readLines a).length ∨ ¬ i < (readLines b).length
            ∨ (readLines a).getD i [] ≠ (readLines b).getD i []) := by
  unfold findChangedLines
  simp only
  rw [changedLinesLoop_mem]
  simp only [List.not_mem_nil, false_or, Nat.zero_le, true_and, Nat.zero_add]

theorem findChangedLines_eq_nil_iff (a b : Bytes) :
    findChangedLines a b = [] ↔ readLines a = readLines b := by
  rw [List.eq_nil_iff_forall_not_mem]
  constructor
  · intro h
    have hlen : (readLines a).length = (readLines b).length := by
      by_contra hne
      rcases Nat.lt_or_gt_of_ne hne with hlt | hlt
      · exact h (readLines a).length ((findChangedLines_mem a b _).mpr
          ⟨by omega, Or.inl (Nat.lt_irrefl _)⟩)
      · exact h (readLines b).length ((findChangedLines_mem a b _).mpr
          ⟨by omega, Or.inr (Or.inl (Nat.lt_irrefl _))⟩)
    apply List.ext_getElem hlen
    intro i h1 h2
    by_contra hne
    apply h i
    rw [findChangedLines_mem]
    refine ⟨by omega, Or.inr (Or.inr ?_)⟩
    simp only [List.getD_eq_getElem?_getD, List.getElem?_eq_getElem h1,
      List.getElem?_eq_getElem h2, Option.getD_some]
    exact hne
  · intro h i hi
    rw [findChangedLines_mem, h] at hi
    obtain ⟨h1, h2 | h2 | h2⟩ := hi
    · rw [Nat.max_self] at h1; exact h2 h1
    · rw [Nat.max_self] at h1; exact h2 h1
    · exact h2 rfl

theorem terminate_of_newline_end (t : Bytes) : terminate (t ++ [10]) = t ++ [10] :=
  terminate_newline t []

theorem terminate_of_other_end (t : Bytes) (hne : t ≠ []) (h : t.getLast? ≠ some 10) :
    terminate t = t ++ [10] := by
  induction t with
  | nil => exact absurd rfl hne
  | cons c l ih =>
    by_cases hl : l = []
    · subst hl
      have hc : c ≠ 10 := fun e => h (by rw [e]; rfl)
      simp [terminate, hc]
    · obtain ⟨a, r, har⟩ := List.exists_cons_of_ne_nil hl
      have hlast : (c :: l).getLast? = l.getLast? := by
        rw [har]; rfl
      rw [terminate, if_neg hl, ih hl (by rw [← hlast]; exact h)]
      rfl

/-! ## The position of a byte offset grows with the offset -/

theorem countUtf16_ge (text : Bytes) (offset left i col16 : Nat) :
    col16 ≤ countUtf16 text offset left i col16 := by
  induction left generalizing i col16 with
  | zero => exact Nat.le_refl _
  | succ n ih =>
    rw [countUtf16]
    simp only
    split_ifs
    · exact Nat.le_trans (Nat.le_succ _) (ih _ _)
    · exact Nat.le_trans (by omega) (ih _ _)
    · exact Nat.le_trans (by omega) (ih _ _)
    · exact Nat.le_trans (by omega) (ih _ _)
    · exact Nat.le_trans (by omega) (ih _ _)
    · exact Nat.le_refl _

theorem countUtf16_mono (text : Bytes) (a b : Nat) (h : a ≤ b) (left i col16 : Nat) :
    countUtf16 text a left i col16 ≤ countUtf16 text b left i col16 := by
  induction left generalizing i col16 with
  | zero => exact Nat.le_refl _
  | succ n ih =>
    by_cases hc : i < a ∧ i < text.length ∧ text.getD i 0 ≠ 10
    · have hb : i < b ∧ i < text.length ∧ text.getD i 0 ≠ 10 :=
        ⟨Nat.lt_of_lt_of_le hc.1 h, hc.2⟩
      rw [countUtf16, countUtf16, if_pos hc, if_pos hb]
      simp only
      split_ifs <;> exact ih _ _
    · rw [countUtf16, if_neg hc]
      exact countUtf16_ge _ _ _ _ _

theorem byteOffsetToPosition_mono (text : Bytes) (a b : Nat) (h : a ≤ b) :
    positionLe (byteOffsetToPosition text (computeLineStarts text) a)
      (byteOffsetToPosition text (computeLineStarts text) b) := by
  rw [byteOffsetToPosition_clamp text _ a, byteOffsetToPosition_clamp text _ b]
  have hab : min a text.length ≤ min b text.length := min_le_min_right _ h
  have ha : min a text.length ≤ text.length := min_le_right _ _
  have hb : min b text.length ≤ text.length := min_le_right _ _
  generalize min a text.length = a1 at hab ha
  generalize min b text.length = b1 at hab hb
  have hla := (searchLine_computeLineStarts text a1).2.2.2
  have hlb := (searchLine_computeLineStarts text b1).2.2.2
  have hcount : (text.take a1).count 10 ≤ (text.take b1).count 10 :=
    (List.take_sublist_take_left text hab).count_le 10
  unfold positionLe byteOffsetToPosition
  simp only [if_neg (show ¬ a1 > text.length by omega),
    if_neg (show ¬ b1 > text.length by omega)]
  rw [hla, hlb]
  rcases Nat.lt_or_ge ((text.take a1).count 10) ((text.take b1).count 10) with hlt | hge
  · exact Or.inl hlt
  · have he : (text.take a1).count 10 = (text.take b1).count 10 := by omega
    refine Or.inr ⟨he, ?_⟩
    rw [he]
    exact countUtf16_mono text a1 b1 hab _ _ _

/-! ## The earliest boundary -/

theorem isJapanesePunctuation_iff (text : Bytes) (k : Nat) :
    isJapanesePunctuation text k = true
      ↔ k + 2 < text.length
        ∧ [text.getD k 0, text.getD (k + 1) 0, text.getD (k + 2) 0]
            ∈ [utf8 "。", utf8 "？", utf8 "！"] := by
  have e1 : utf8 "。" = [0xE3, 0x80, 0x82] := by decide
  have e2 : utf8 "？" = [0xEF, 0xBC, 0x9F] := by decide
  have e3 : utf8 "！" = [0xEF, 0xBC, 0x81] := by decide
  rw [e1, e2, e3]
  unfold isJapanesePunctuation
  simp only [List.mem_cons, List.cons.injEq, and_true, List.mem_singleton, List.not_mem_nil,
    or_false]
  split_ifs with h0 h1 h2 h3
  · simp only [Bool.false_eq_true, false_iff]
    rintro ⟨h, _⟩
    omega
  · simp only [true_iff]
    exact ⟨by omega, Or.inl h1⟩
  · simp only [true_iff]
    exact ⟨by omega, Or.inr (Or.inl h2)⟩
  · simp only [true_iff]
    exact ⟨by omega, Or.inr (Or.inr h3)⟩
  · simp only [Bool.false_eq_true, false_iff]
    rintro ⟨_, h | h | h⟩
    · exact h1 h
    · exact h2 h
    · exact h3 h

theorem isBoundary_iff (text : Bytes) (k : Nat) :
    isBoundary text k = true
      ↔ text.getD k 0 = 10 ∨ text.getD k 0 = 9 ∨ isJapanesePunctuation text k = true := by
  unfold isBoundary
  simp only [decide_eq_true_eq]

theorem isBoundary_false_iff (text : Bytes) (k : Nat) :
    isBoundary text k = false
      ↔ text.getD k 0 ≠ 10 ∧ text.getD k 0 ≠ 9 ∧ isJapanesePunctuation text k = false := by
  rw [← Bool.not_eq_true, isBoundary_iff]
  simp only [not_or, Bool.not_eq_true]

theorem scanBoundary_spec (text : Bytes) (maxSearch left end_ : Nat)
    (hl : maxSearch - end_ ≤ left) (he : end_ ≤ maxSearch) :
    (∃ k, end_ ≤ k ∧ k < maxSearch ∧ isBoundary text k = true
        ∧ (∀ j, end_ ≤ j → j < k → isBoundary text j = false)
        ∧ scanBoundary text maxSearch left end_ = k + boundaryWidth text k)
    ∨ ((∀ j, end_ ≤ j → j < maxSearch → isBoundary text j = false)
        ∧ scanBoundary text maxSearch left end_ = maxSearch) := by
  induction left generalizing end_ with
  | zero =>
    right
    exact ⟨fun j h1 h2 => by omega, by simp only [scanBoundary]; omega⟩
  | succ n ih =>
    rw [scanBoundary]
    by_cases h1 : end_ < maxSearch
    · rw [if_pos h1]
      by_cases h2 : text.getD end_ 0 = 10
      · rw [if_pos h2]
        left
        exact ⟨end_, Nat.le_refl _, h1, (isBoundary_iff _ _).mpr (Or.inl h2),
          fun j a b => by omega, by rw [boundaryWidth, if_pos (Or.inl h2)]⟩
      · rw [if_neg h2]
        by_cases h3 : text.getD end_ 0 = 9
        · rw [if_pos h3]
          left
          exact ⟨end_, Nat.le_refl _, h1, (isBoundary_iff _ _).mpr (Or.inr (Or.inl h3)),
            fun j a b => by omega, by rw [boundaryWidth, if_pos (Or.inr h3)]⟩
        · rw [if_neg h3]
          by_cases h4 : isJapanesePunctuation text end_ = true
          · rw [if_pos h4]
            left
            exact ⟨end_, Nat.le_refl _, h1, (isBoundary_iff _ _).mpr (Or.inr (Or.inr h4)),
              fun j a b => by omega, by rw [boundaryWidth, if_neg (not_or.mpr ⟨h2, h3⟩)]⟩
          · rw [if_neg h4]
            have hnb : isBoundary text end_ = false :=
              (isBoundary_false_iff _ _).mpr ⟨h2, h3, by simpa using h4⟩
            have hstep : ∀ j, end_ ≤ j → (end_ + 1 ≤ j → isBoundary text j = false) →
                isBoundary text j = false := by
              intro j hj hrest
              by_cases hje : j = end_
              · rw [hje]; exact hnb
              · exact hrest (by omega)
            rcases ih (end_ + 1) (by omega) (by omega) with
              ⟨k, a, b, c, d, e⟩ | ⟨a, b⟩
            · left
              exact ⟨k, by omega, b, c, fun j hj hk => hstep j hj (fun h => d j h hk), e⟩
            · right
              exact ⟨fun j hj hk => hstep j hj (fun h => a j h hk), b⟩
    · rw [if_neg h1]
      right
      exact ⟨fun j a b => by omega, by omega⟩

theorem findSentenceEnd_spec (text : Bytes) (start : Nat) (hlen : text.length ≤ 10000)
    (hs : start ≤ text.length) :
    EndsAtFirstBoundary text start (findSentenceEnd text start) := by
  have hm : min text.length (start + 10000) = text.length := min_eq_left (by omega)
  have hf : findSentenceEnd text start
      = scanBoundary text text.length (text.length - start) start := by
    simp only [findSentenceEnd, hm]
    rw [if_neg]
    rintro ⟨a, b⟩
    omega
  rw [hf]
  exact scanBoundary_spec text text.length _ start (Nat.le_refl _) hs

theorem rawSpansLoop_step (text : Bytes) (n start : Nat) (hs : start < text.length) :
    rawSpansLoop text (n + 1) start
      = (start, findSentenceEnd text start)
        :: (if skipWhitespace text (findSentenceEnd text start) ≥ text.length then []
            else rawSpansLoop text n (skipWhitespace text (findSentenceEnd text start))) := by
  have hgt := findSentenceEnd_gt text start hs
  rw [rawSpansLoop]
  simp only [hs, if_true, hgt, gt_iff_lt]
  split_ifs <;> rfl

theorem rawSpansLoop_end (text : Bytes) (left start : Nat) :
    ∀ span ∈ rawSpansLoop text left start, span.2 = findSentenceEnd text span.1 := by
  induction left generalizing start with
  | zero => simp [rawSpansLoop]
  | succ n ih =>
    intro span hmem
    by_cases hs : start < text.length
    · rw [rawSpansLoop_step text n start hs, List.mem_cons] at hmem
      rcases hmem with h | h
      · rw [h]
      · split_ifs at h
        · simp at h
        · exact ih _ span h
    · unfold rawSpansLoop at hmem
      simp [hs] at hmem

theorem rawSpans_end (text : Bytes) :
    ∀ span ∈ rawSpans text, span.2 = findSentenceEnd text span.1 := by
  intro span h
  unfold rawSpans at h
  split_ifs at h
  · simp at h
  · exact rawSpansLoop_end text _ 0 span h

/-- The second and third byte of a punctuation mark start no boundary. -/
theorem isBoundary_inside_mark (text : Bytes) (k : Nat)
    (h : isJapanesePunctuation text k = true) :
    isBoundary text (k + 1) = false ∧ isBoundary text (k + 2) = false := by
  rw [isJapanesePunctuation_iff] at h
  have e1 : utf8 "。" = [0xE3, 0x80, 0x82] := by decide
  have e2 : utf8 "？" = [0xEF, 0xBC, 0x9F] := by decide
  have e3 : utf8 "！" = [0xEF, 0xBC, 0x81] := by decide
  rw [e1, e2, e3] at h
  simp only [List.mem_cons, List.cons.injEq, and_true, List.mem_singleton, List.not_mem_nil,
    or_false] at h
  have hno : ∀ j, text.getD j 0 ≠ 0xE3 → text.getD j 0 ≠ 0xEF →
      isJapanesePunctuation text j = false := by
    intro j a b
    unfold isJapanesePunctuation
    split_ifs with c1 c2 c3 c4
    · rfl
    · exact absurd c2.1 a
    · exact absurd c3.1 b
    · exact absurd c4.1 b
    · rfl
  obtain ⟨_, ⟨a, b, c⟩ | ⟨a, b, c⟩ | ⟨a, b, c⟩⟩ := h
  all_goals
    refine ⟨(isBoundary_false_iff _ _).mpr ⟨by omega, by omega, hno _ (by omega) (by omega)⟩,
      (isBoundary_false_iff _ _).mpr ⟨by omega, by omega, hno _ (by omega) (by omega)⟩⟩

/-- In a span that ends after the earliest boundary, a boundary starts only
where the span's last boundary starts. -/
theorem boundary_only_at_end (text : Bytes) (start end_ : Nat)
    (h : EndsAtFirstBoundary text start end_) (j : Nat) (h1 : start ≤ j) (h2 : j < end_)
    (hb : isBoundary text j = true) : j + boundaryWidth text j = end_ := by
  rcases h with ⟨k, a, b, c, d, e⟩ | ⟨a, b⟩
  · by_cases hjk : j < k
    · rw [d j h1 hjk] at hb
      exact absurd hb (by simp)
    · by_cases hje : j = k
      · rw [hje, e]
      · exfalso
        have hw : boundaryWidth text k = 3 := by
          unfold boundaryWidth at e ⊢
          split_ifs at e ⊢
          · omega
          · rfl
        have hp : isJapanesePunctuation text k = true := by
          rcases (isBoundary_iff _ _).mp c with x | x | x
          · unfold boundaryWidth at hw
            rw [if_pos (Or.inl x)] at hw
            omega
          · unfold boundaryWidth at hw
            rw [if_pos (Or.inr x)] at hw
            omega
          · exact x
        have hin := isBoundary_inside_mark text k hp
        have hj : j = k + 1 ∨ j = k + 2 := by omega
        rcases hj with x | x
        · rw [x, hin.1] at hb
          exact absurd hb (by simp)
        · rw [x, hin.2] at hb
          exact absurd hb (by simp)
  · rw [a j h1 (by omega)] at hb
    exact absurd hb (by simp)

theorem boundaryWidth_of_mark (text : Bytes) (k : Nat)
    (h : isJapanesePunctuation text k = true) : boundaryWidth text k = 3 := by
  rw [isJapanesePunctuation_iff] at h
  have e1 : utf8 "。" = [0xE3, 0x80, 0x82] := by decide
  have e2 : utf8 "？" = [0xEF, 0xBC, 0x9F] := by decide
  have e3 : utf8 "！" = [0xEF, 0xBC, 0x81] := by decide
  rw [e1, e2, e3] at h
  simp only [List.mem_cons, List.cons.injEq, and_true, List.mem_singleton, List.not_mem_nil,
    or_false] at h
  rw [boundaryWidth, if_neg]
  obtain ⟨_, ⟨a, _, _⟩ | ⟨a, _, _⟩ | ⟨a, _, _⟩⟩ := h
  all_goals
    rintro (x | x) <;> omega

theorem rawSpans_endsAtFirstBoundary (text : Bytes) (hlen : text.length ≤ 10000) :
    ∀ span ∈ rawSpans text, EndsAtFirstBoundary text span.1 span.2 := by
  intro span h
  rw [rawSpans_end text span h]
  have hb := rawSpans_bounds text span h
  exact findSentenceEnd_spec text span.1 hlen (by omega)

/-! ## No byte other than white space is dropped -/

theorem skipWhitespaceAux_skipped (text : Bytes) (left pos k : Nat) (h1 : pos ≤ k)
    (h2 : k < skipWhitespaceAux text left pos) :
    text.getD k 0 = 32 ∨ text.getD k 0 = 9 ∨ text.getD k 0 = 13 := by
  induction left generalizing pos with
  | zero =>
    simp only [skipWhitespaceAux] at h2
    omega
  | succ n ih =>
    rw [skipWhitespaceAux] at h2
    split_ifs at h2 with hc
    · by_cases hk : k = pos
      · rw [hk]; exact hc.2
      · exact ih (pos + 1) (by omega) h2
    · omega

theorem rawSpansLoop_cover (text : Bytes) (left start : Nat)
    (hl : text.length - start ≤ left) (k : Nat) (h1 : start ≤ k) (h2 : k < text.length) :
    (∃ span ∈ rawSpansLoop text left start, span.1 ≤ k ∧ k < span.2)
    ∨ (text.getD k 0 = 32 ∨ text.getD k 0 = 9 ∨ text.getD k 0 = 13) := by
  induction left generalizing start with
  | zero => omega
  | succ n ih =>
    have hs : start < text.length := by omega
    have hgt := findSentenceEnd_gt text start hs
    rw [rawSpansLoop_step text n start hs]
    by_cases hke : k < findSentenceEnd text start
    · exact Or.inl ⟨_, List.mem_cons_self _ _, h1, hke⟩
    · by_cases hks : k < skipWhitespace text (findSentenceEnd text start)
      · exact Or.inr (skipWhitespaceAux_skipped text 100 _ k (by omega) hks)
      · have hge := skipWhitespace_ge text (findSentenceEnd text start)
        rw [if_neg (by omega)]
        rcases ih (skipWhitespace text (findSentenceEnd text start)) (by omega) (by omega) with
          ⟨span, a, b⟩ | h
        · exact Or.inl ⟨span, List.mem_cons_of_mem _ a, b⟩
        · exact Or.inr h

theorem rawSpans_cover (text : Bytes) (k : Nat) (h : k < text.length) :
    (∃ span ∈ rawSpans text, span.1 ≤ k ∧ k < span.2)
    ∨ (text.getD k 0 = 32 ∨ text.getD k 0 = 9 ∨ text.getD k 0 = 13) := by
  have hne : text ≠ [] := by
    intro e
    rw [e] at h
    exact Nat.not_lt_zero _ h
  unfold rawSpans
  rw [if_neg hne]
  exact rawSpansLoop_cover text text.length 0 (by omega) k (Nat.zero_le _) h

theorem trimSpec_eq_nil (raw : Bytes) (h : trimSpec raw = []) :
    ∀ b ∈ raw, isTrailingBlank b = true := by
  unfold trimSpec at h
  rw [List.rdropWhile_eq_nil_iff] at h
  intro b hb
  rw [← List.takeWhile_append_dropWhile isLeadingBlank raw, List.mem_append] at hb
  rcases hb with x | x
  · have := List.mem_takeWhile_imp x
    rw [isLeadingBlank_iff] at this
    rw [isTrailingBlank_iff]
    rcases this with y | y | y
    · exact Or.inl y
    · exact Or.inr (Or.inl y)
    · exact Or.inr (Or.inr (Or.inl y))
  · exact h b x

theorem getD_mem_substr (text : Bytes) (start end_ k : Nat) (h1 : start ≤ k) (h2 : k < end_)
    (h3 : end_ ≤ text.length) : text.getD k 0 ∈ substr text start (end_ - start) := by
  have hlen : k - start < (substr text start (end_ - start)).length := by
    simp only [substr, List.length_take, List.length_drop]
    omega
  have := substr_getD text start (end_ - start) (k - start) hlen
  rw [show start + (k - start) = k by omega] at this
  rw [← this]
  exact getD_mem_of_lt _ _ hlen

/-- A byte that is not white space lies in the span of a returned sentence. -/
theorem splitIntoSentences_cover (text : Bytes) (k : Nat) (hk : k < text.length)
    (hb : ¬ (text.getD k 0 = 32 ∨ text.getD k 0 = 9 ∨ text.getD k 0 = 13
      ∨ text.getD k 0 = 10)) :
    ∃ s ∈ splitIntoSentences text, s.start ≤ k ∧ k < s.end_ := by
  rcases rawSpans_cover text k hk with ⟨span, hm, a, b⟩ | h
  · have hbd := rawSpans_bounds text span hm
    have hne : trimSpec (substr text span.1 (span.2 - span.1)) ≠ [] := by
      intro e
      have := trimSpec_eq_nil _ e _ (getD_mem_substr text span.1 span.2 k a b hbd.2)
      rw [isTrailingBlank_iff] at this
      exact hb this
    obtain ⟨s, hs, he⟩ := emitSpans_of_mem text (rawSpans text) 0 span hm hne
    rw [← splitIntoSentences_eq_emitSpans] at hs
    have e1 : s.start = span.1 := congrArg Prod.fst he
    have e2 : s.end_ = span.2 := congrArg Prod.snd he
    exact ⟨s, hs, by omega, by omega⟩
  · exfalso
    apply hb
    rcases h with y | y | y
    · exact Or.inl y
    · exact Or.inr (Or.inl y)
    · exact Or.inr (Or.inr (Or.inl y))

theorem splitIntoSentences_ordered (text : Bytes) :
    (splitIntoSentences text).Pairwise (fun a b => a.end_ ≤ b.start) := by
  rw [splitIntoSentences_eq_emitSpans]
  exact emitSpans_ordered text _ 0 (rawSpans_pairwise text)

/-- Two returned sentences whose spans hold the same byte are the same. -/
theorem splitIntoSentences_span_unique (text : Bytes) (k : Nat) (s t : SentenceBoundary)
    (hs : s ∈ splitIntoSentences text) (ht : t ∈ splitIntoSentences text)
    (h1 : s.start ≤ k ∧ k < s.end_) (h2 : t.start ≤ k ∧ k < t.end_) : s = t := by
  by_contra hne
  have hp : (splitIntoSentences text).Pairwise
      (fun a b => a.end_ ≤ b.start ∨ b.end_ ≤ a.start) :=
    (splitIntoSentences_ordered text).imp (fun h => Or.inl h)
  have := hp.forall (fun a b h => h.symm) hs ht hne
  omega

/-! ## The walk of `toByteOffset` over well-formed text -/

/-- The sequence length that `toByteOffset` reads off the first byte of an
encoded code point is the length of the encoding, and it is 4 exactly for the
code points above U+FFFF. -/
theorem seqLen_encodeChar (c : Char) :
    (if (encodeChar c).getD 0 0 ≥ 0xF0 then 4 else if (encodeChar c).getD 0 0 ≥ 0xE0 then 3
      else if (encodeChar c).getD 0 0 ≥ 0xC0 then 2 else 1) = (encodeChar c).length
    ∧ ((if (encodeChar c).length = 4 then (2 : Int) else 1) = (utf16Units c : Int)) := by
  have hlt := char_toNat_lt c
  unfold encodeChar utf16Units
  simp only
  by_cases h1 : c.toNat < 0x80
  · simp only [if_pos h1, List.getD_cons_zero, List.length_cons, List.length_nil, ge_iff_le]
    constructor
    · split_ifs <;> omega
    · split_ifs <;> first | rfl | omega
  · by_cases h2 : c.toNat < 0x800
    · simp only [if_neg h1, if_pos h2, List.getD_cons_zero, List.length_cons,
        List.length_nil, ge_iff_le]
      constructor
      · split_ifs <;> omega
      · split_ifs <;> first | rfl | omega
    · by_cases h3 : c.toNat < 0x10000
      · simp only [if_neg h1, if_neg h2, if_pos h3, List.getD_cons_zero, List.length_cons,
          List.length_nil, ge_iff_le]
        constructor
        · split_ifs <;> omega
        · split_ifs <;> first | rfl | omega
      · simp only [if_neg h1, if_neg h2, if_neg h3, List.getD_cons_zero, List.length_cons,
          List.length_nil, ge_iff_le, if_true]
        constructor
        · split_ifs <;> omega
        · split_ifs <;> first | rfl | omega

theorem toByteOffsetLoop_chars (p : List Char) (pre post : Bytes) (startChar : Int)
    (left : Nat) (col : Int) (hl : (encodeChars p).length ≤ left)
    (hn : ∀ c ∈ p, c.toNat ≠ 10) (hle : col + utf16Length p ≤ startChar)
    (hend : col + utf16Length p = startChar ∨ post = [] ∨ post.getD 0 0 = 10) :
    toByteOffsetLoop (pre ++ encodeChars p ++ post) startChar left pre.length col
      = pre.length + (encodeChars p).length := by
  induction p generalizing pre left col with
  | nil =>
    simp only [encodeChars, List.flatMap_nil, List.append_nil, List.length_nil, Nat.add_zero]
    cases left with
    | zero => rfl
    | succ m =>
      rw [toByteOffsetLoop, if_neg]
      rintro ⟨h1, h2, h3⟩
      simp only [utf16Length, List.map_nil, List.sum_nil, Nat.cast_zero, add_zero] at hend hle
      rcases hend with h | h | h
      · omega
      · subst h
        simp at h1
      · have := getD_append_mid pre post [] 0 (by
          by_contra hc
          have : post = [] := List.eq_nil_of_length_eq_zero (by omega)
          subst this
          simp at h1)
        simp only [List.append_nil, Nat.add_zero] at this
        rw [this] at h3
        exact h3 h
  | cons c rest ih =>
    rw [encodeChars_cons] at hl ⊢
    have hpos := encodeChar_length_pos c
    rw [List.length_append] at hl
    obtain ⟨m, hm⟩ : ∃ m, left = m + 1 := ⟨left - 1, by omega⟩
    subst hm
    have hu := utf16Units_pos c
    rw [utf16Length_cons] at hle hend
    have h0 : (pre ++ (encodeChar c ++ encodeChars rest) ++ post).getD pre.length 0
        = (encodeChar c).getD 0 0 := by
      have e : pre ++ (encodeChar c ++ encodeChars rest) ++ post
          = pre ++ encodeChar c ++ (encodeChars rest ++ post) := by
        simp only [List.append_assoc]
      rw [e]
      exact getD_append_mid pre (encodeChar c) _ 0 hpos
    have hne : (pre ++ (encodeChar c ++ encodeChars rest) ++ post).getD pre.length 0 ≠ 10 := by
      rw [h0]
      exact encodeChar_head_ne_newline c (hn c (List.mem_cons_self _ _))
    have hcond : pre.length < (pre ++ (encodeChar c ++ encodeChars rest) ++ post).length
        ∧ col < startChar
        ∧ (pre ++ (encodeChar c ++ encodeChars rest) ++ post).getD pre.length 0 ≠ 10 := by
      refine ⟨?_, ?_, hne⟩
      · simp only [List.length_append]; omega
      · push_cast at hle; omega
    rw [toByteOffsetLoop, if_pos hcond]
    simp only
    rw [h0, (seqLen_encodeChar c).1, (seqLen_encodeChar c).2]
    have hrest : ∀ c ∈ rest, c.toNat ≠ 10 := fun x hx => hn x (List.mem_cons_of_mem _ hx)
    have e1 : pre ++ (encodeChar c ++ encodeChars rest) ++ post
        = pre ++ encodeChar c ++ encodeChars rest ++ post := by
      simp only [List.append_assoc]
    have e3 : pre.length + (encodeChar c).length = (pre ++ encodeChar c).length := by
      simp only [List.length_append]
    rw [e1, e3, ih (pre ++ encodeChar c) m (col + utf16Units c) (by omega) hrest
      (by push_cast at hle ⊢; omega)
      (by rcases hend with h | h | h
          · left; push_cast at h ⊢; omega
          · right; left; exact h
          · right; right; exact h)]
    simp only [List.length_append]
    omega

theorem toByteOffset_wellformed (a1 p q b : List Char) (token : TokenData)
    (h1 : a1 = [] ∨ ∃ a0, a1 = a0 ++ [Char.ofNat 10])
    (hpq : ∀ x ∈ p ++ q, x.toNat ≠ 10)
    (hb : b = [] ∨ ∃ b0, b = Char.ofNat 10 :: b0)
    (hline : token.line = (encodeChars a1).count 10)
    (hc : token.startChar = utf16Length p
      ∨ (q = [] ∧ (utf16Length p : Int) ≤ token.startChar)) :
    toByteOffset token (encodeChars (a1 ++ (p ++ q) ++ b))
        (computeLineStarts (encodeChars (a1 ++ (p ++ q) ++ b)))
      = (encodeChars (a1 ++ p)).length
    ∧ token.line < (computeLineStarts (encodeChars (a1 ++ (p ++ q) ++ b))).length := by
  obtain ⟨_, hstart, hbound⟩ := byteOffsetToPosition_wellformed a1 (p ++ q) b h1 hpq
  have hp : ∀ x ∈ p, x.toNat ≠ 10 := fun x hx => hpq x (List.mem_append_left _ hx)
  have htext : encodeChars (a1 ++ (p ++ q) ++ b)
      = encodeChars a1 ++ encodeChars p ++ (encodeChars q ++ encodeChars b) := by
    simp only [encodeChars_append, List.append_assoc]
  refine ⟨?_, by rw [hline]; exact hbound⟩
  unfold toByteOffset
  rw [if_neg (by rw [hline]; exact Nat.not_le.mpr hbound), hline, hstart]
  have hwalk := toByteOffsetLoop_chars p (encodeChars a1) (encodeChars q ++ encodeChars b)
    token.startChar (encodeChars (a1 ++ (p ++ q) ++ b)).length 0
    (by rw [htext]; simp only [List.length_append]; omega) hp
    (by rcases hc with h | h
        · rw [h]; omega
        · rw [Int.zero_add]; exact h.2)
    (by rcases hc with h | ⟨hq, _⟩
        · left; rw [h]; omega
        · right
          subst hq
          rcases hb with h | ⟨b0, h⟩
          · left; subst h; simp [encodeChars]
          · right; subst h
            simp [encodeChars, encodeChar_newline])
  rw [← htext] at hwalk
  rw [hwalk, encodeChars_append, List.length_append]

/-! ## Sentence ids and discarded raw spans -/

/-- The id of the k-th sentence is k plus the number of raw spans discarded
before its own raw span. -/
theorem emitSpans_id_count (text : Bytes) (spans : List (Nat × Nat)) (n k : Nat)
    (h : k < (emitSpans text n spans).length) :
    ((emitSpans text n spans)[k]).sentenceId
      = n + k + (spans.take (((emitSpans text n spans)[k]).sentenceId - n)).countP
          (isDiscarded text) := by
  induction spans generalizing n k with
  | nil => simp [emitSpans] at h
  | cons span rest ih =>
    simp only [emitSpans] at h ⊢
    by_cases hnil : trimSpec (substr text span.1 (span.2 - span.1)) = []
    · simp only [hnil, if_true, List.nil_append] at h ⊢
      have hge := emitSpans_index_le text rest (n + 1) k h
      have hrec := ih (n + 1) k h
      have hd : isDiscarded text span = true := by simp [isDiscarded, hnil]
      obtain ⟨m, hm⟩ : ∃ m, ((emitSpans text (n + 1) rest)[k]).sentenceId - n = m + 1 :=
        ⟨((emitSpans text (n + 1) rest)[k]).sentenceId - n - 1, by omega⟩
      have hm2 : ((emitSpans text (n + 1) rest)[k]).sentenceId - (n + 1) = m := by omega
      rw [hm2] at hrec
      rw [hm, List.take_succ_cons, List.countP_cons_of_pos _ _ hd]
      omega
    · simp only [hnil, if_false, List.singleton_append] at h ⊢
      have hd : ¬ isDiscarded text span = true := by simp [isDiscarded, hnil]
      cases k with
      | zero => simp
      | succ j =>
        simp only [List.getElem_cons_succ]
        have hj : j < (emitSpans text (n + 1) rest).length := by simpa using h
        have hge := emitSpans_index_le text rest (n + 1) j hj
        have hrec := ih (n + 1) j hj
        obtain ⟨m, hm⟩ : ∃ m, ((emitSpans text (n + 1) rest)[j]).sentenceId - n = m + 1 :=
          ⟨((emitSpans text (n + 1) rest)[j]).sentenceId - n - 1, by omega⟩
        have hm2 : ((emitSpans text (n + 1) rest)[j]).sentenceId - (n + 1) = m := by omega
        rw [hm2] at hrec
        rw [hm, List.take_succ_cons, List.countP_cons_of_neg _ _ hd]
        omega

theorem splitIntoSentences_id_count (text : Bytes) (k : Nat)
    (h : k < (splitIntoSentences text).length) :
    ((splitIntoSentences text)[k]).sentenceId
      = k + ((rawSpans text).take ((splitIntoSentences text)[k]).sentenceId).countP
          (isDiscarded text) := by
  have := emitSpans_id_count text (rawSpans text) 0 k
    (by rw [← splitIntoSentences_eq_emitSpans]; exact h)
  simp only [Nat.zero_add, Nat.sub_zero] at this
  simpa only [splitIntoSentences_eq_emitSpans] using this

theorem splitIntoSentences_id_eq_iff (text : Bytes) (k : Nat)
    (h : k < (splitIntoSentences text).length) :
    ((splitIntoSentences text)[k]).sentenceId = k
      ↔ ∀ span ∈ (rawSpans text).take ((splitIntoSentences text)[k]).sentenceId,
          isDiscarded text span = false := by
  have hc := splitIntoSentences_id_count text k h
  have hz : ((rawSpans text).take ((splitIntoSentences text)[k]).sentenceId).countP
      (isDiscarded text) = 0
      ↔ ∀ span ∈ (rawSpans text).take ((splitIntoSentences text)[k]).sentenceId,
          isDiscarded text span = false := by
    rw [List.countP_eq_zero]
    simp only [Bool.not_eq_true]
  rw [← hz]
  omega

/-! ## The lines of `std::getline` and the split at newlines -/

theorem splitLines_ne_nil (t : Bytes) : splitLines t ≠ [] := by
  cases t with
  | nil => simp [splitLines]
  | cons c rest =>
    rw [splitLines]
    split_ifs <;> simp

theorem splitLines_no_newline (l : Bytes) (h : 10 ∉ l) : splitLines l = [l] := by
  induction l with
  | nil => rfl
  | cons c l ih =>
    have hc : c ≠ 10 := fun e => h (e ▸ List.mem_cons_self _ _)
    rw [splitLines, if_neg hc, ih (fun m => h (List.mem_cons_of_mem _ m))]
    rfl

theorem splitLines_newline (l rest : Bytes) (h : 10 ∉ l) :
    splitLines (l ++ 10 :: rest) = l :: splitLines rest := by
  induction l with
  | nil =>
    show splitLines (10 :: rest) = _
    rw [splitLines, if_pos rfl]
  | cons c l ih =>
    have hc : c ≠ 10 := fun e => h (e ▸ List.mem_cons_self _ _)
    show splitLines (c :: (l ++ 10 :: rest)) = _
    rw [splitLines, if_neg hc, ih (fun m => h (List.mem_cons_of_mem _ m))]
    rfl

theorem splitLines_length (t : Bytes) : (splitLines t).length = t.count 10 + 1 := by
  induction t with
  | nil => rfl
  | cons c rest ih =>
    rw [splitLines]
    by_cases hc : c = 10
    · rw [if_pos hc, List.length_cons, ih, hc, List.count_cons_self]
    · rw [if_neg hc, List.length_cons, List.length_tail, ih,
        List.count_cons_of_ne (fun e => hc e.symm)]
      omega

/-- The lines that `std::getline` reads are those of the split at newlines,
without the last one when that is empty. -/
theorem readLines_eq_splitLines (t : Bytes) :
    readLines t = if (splitLines t).getLast? = some [] then (splitLines t).dropLast
      else splitLines t := by
  suffices hs : ∀ (n : Nat) (t : Bytes), t.length ≤ n →
      readLines t = if (splitLines t).getLast? = some [] then (splitLines t).dropLast
        else splitLines t from hs _ t (Nat.le_refl _)
  intro n
  induction n with
  | zero =>
    intro t ht
    have : t = [] := List.eq_nil_of_length_eq_zero (by omega)
    subst this
    rfl
  | succ n ih =>
    intro t ht
    rcases line_cases t with h | ⟨hne, h⟩ | ⟨l, rest, h, hl⟩
    · subst h; rfl
    · rw [splitLines_no_newline t h, readLines_of_no_newline t hne h]
      have : ([t] : List Bytes).getLast? ≠ some [] := by
        simp only [List.getLast?_singleton, ne_eq, Option.some.injEq]
        exact hne
      rw [if_neg this]
    · subst h
      have hr : rest.length ≤ n := by
        simp only [List.length_append, List.length_cons] at ht; omega
      obtain ⟨a, r, har⟩ := List.exists_cons_of_ne_nil (splitLines_ne_nil rest)
      rw [splitLines_newline l rest hl, readLines_of_newline l rest hl, ih rest hr, har]
      have hlast : (l :: a :: r).getLast? = (a :: r).getLast? := rfl
      rw [hlast]
      split_ifs
      · rfl
      · rfl

/-! ## Claims on the analyzable-span masker -/

/-- C1: for every document text, every language id and every list of content
ranges and comment segments the extractors return, also ranges and sanitized
strings that run past the end of the text, the masked text returned by
prepareAnalysisText has exactly the byte length of the input text. -/
theorem C1_mask_preserves_length (ext : Extractors) (maps : DocMaps) (uri text : Bytes) :
    (prepareAnalysisText ext maps uri text).1.length = text.length
    ∧ (∀ (ranges : List ByteRange) (segments : List CommentSegment),
        (writeSegments segments (restoreRanges text ranges (maskAll text))).length
          = text.length) :=
  ⟨prepareAnalysisText_length ext maps uri text,
    fun ranges segments => by
      rw [writeSegments_length, restoreRanges_length, maskAll_length]⟩

/-- C2: for every text and language id, when each comment segment the
extractor returns has as its sanitized string the output of sanitizeComment
applied to text[startByte, endByte) (for LaTeX the segments are those of
collectLatexComments, sanitized by sanitizeLatexCommentText), the masked text
returned by prepareAnalysisText has a '\n' byte at index i if and only if
the input text has a '\n' byte at index i, for every index i, and likewise
for '\r'. -/
theorem C2_mask_preserves_newlines (ext : Extractors) (maps : DocMaps) (uri text : Bytes)
    (hext : ∀ languageId, SegmentsSanitized text (ext.extractComments languageId text)) :
    (prepareAnalysisText ext maps uri text).1.length = text.length
    ∧ ∀ i, ((prepareAnalysisText ext maps uri text).1.getD i 0 = 10 ↔ text.getD i 0 = 10)
        ∧ ((prepareAnalysisText ext maps uri text).1.getD i 0 = 13 ↔ text.getD i 0 = 13) :=
  ⟨prepareAnalysisText_length ext maps uri text,
    fun i => Keeps.newline_iff text _ (prepareAnalysisText_keeps ext maps uri text hext) i⟩

/-- C2, witness: the HTML text <div>こんにちは, newline, <!-- hi -->, carriage
return, newline, </div>: the masked text keeps the newline at index 20 and
the carriage return and newline at 32 and 33. -/
theorem C2_mask_preserves_newlines_witness :
    (prepareAnalysisText oneCommentExtractors (mapsOfLanguage (utf8 "html")) [] htmlText).1
        = utf8 "     こんにちは\n     hi    \r\n      "
    ∧ ((prepareAnalysisText oneCommentExtractors (mapsOfLanguage (utf8 "html")) []
          htmlText).1.getD 20 0 = 10 ↔ htmlText.getD 20 0 = 10) :=
  ⟨by decide,
    ((C2_mask_preserves_newlines oneCommentExtractors (mapsOfLanguage (utf8 "html")) []
      htmlText (fun _ seg hseg => ⟨some (utf8 "comment"), by
        simp only [oneCommentExtractors, List.mem_singleton] at hseg
        rw [hseg]⟩)).2 20).1⟩

/-- C3: for every text and language id, when each comment segment the
extractor returns has as its sanitized string the output of sanitizeComment
applied to text[startByte, endByte) (for LaTeX the segments are those of
collectLatexComments, sanitized by sanitizeLatexCommentText), every byte of
the masked text returned by prepareAnalysisText is either the byte of the
input text at the same index or an ASCII space; sanitizeComment itself
returns a string of the length of its input that differs from it only where
it wrote a space. -/
theorem C3_mask_bytes_are_text_or_space (ext : Extractors) (maps : DocMaps)
    (uri text : Bytes)
    (hext : ∀ languageId, SegmentsSanitized text (ext.extractComments languageId text)) :
    (∀ i, (prepareAnalysisText ext maps uri text).1.getD i 0 = text.getD i 0
        ∨ (prepareAnalysisText ext maps uri text).1.getD i 0 = 32)
    ∧ (∀ (raw : Bytes) (nodeType : Option Bytes),
        (sanitizeComment raw nodeType).length = raw.length
        ∧ ∀ j, (sanitizeComment raw nodeType).getD j 0 = raw.getD j 0
            ∨ (sanitizeComment raw nodeType).getD j 0 = 32) := by
  refine ⟨fun i => ?_, fun raw nodeType => ⟨(Keeps.sanitizeComment raw nodeType).1,
    fun j => ?_⟩⟩
  · rcases (prepareAnalysisText_keeps ext maps uri text hext).2 i with h | h
    · exact Or.inl h
    · exact Or.inr h.1
  · rcases (Keeps.sanitizeComment raw nodeType).2 j with h | h
    · exact Or.inl h
    · exact Or.inr h.1

/-- C3, witness: in the masked HTML text of the witness of C2 the byte at
index 0, '<' in the text, is a space, and the comment <!-- hi --> is sanitized
to five spaces, hi and four spaces. -/
theorem C3_mask_bytes_are_text_or_space_witness :
    sanitizeComment (utf8 "<!-- hi -->") (some (utf8 "comment")) = utf8 "     hi    "
    ∧ ((prepareAnalysisText oneCommentExtractors (mapsOfLanguage (utf8 "html")) []
          htmlText).1.getD 0 0 = htmlText.getD 0 0
      ∨ (prepareAnalysisText oneCommentExtractors (mapsOfLanguage (utf8 "html")) []
          htmlText).1.getD 0 0 = 32) :=
  ⟨by decide,
    (C3_mask_bytes_are_text_or_space oneCommentExtractors (mapsOfLanguage (utf8 "html")) []
      htmlText (fun _ seg hseg => ⟨some (utf8 "comment"), by
        simp only [oneCommentExtractors, List.mem_singleton] at hseg
        rw [hseg]⟩)).1 0⟩

/-- C4: when the recorded language id of the document is "japanese", is
absent, or is not registered with the comment extractor, prepareAnalysisText
returns the input text unchanged and leaves no comment segments and no
content ranges recorded for that document; the records of the other
documents are not touched. -/
theorem C4_unmasked_languages (ext : Extractors) (maps : DocMaps) (uri text : Bytes)
    (h : maps.docLanguages uri = none ∨ maps.docLanguages uri = some (utf8 "japanese")
      ∨ ∃ languageId, maps.docLanguages uri = some languageId
          ∧ isLanguageSupported languageId = false) :
    (prepareAnalysisText ext maps uri text).1 = text
    ∧ (prepareAnalysisText ext maps uri text).2.docCommentSegments uri = none
    ∧ (prepareAnalysisText ext maps uri text).2.docContentHighlightRanges uri = none
    ∧ (∀ other, other ≠ uri →
        (prepareAnalysisText ext maps uri text).2.docCommentSegments other
            = maps.docCommentSegments other
        ∧ (prepareAnalysisText ext maps uri text).2.docContentHighlightRanges other
            = maps.docContentHighlightRanges other) := by
  have hres : prepareAnalysisText ext maps uri text
      = (text, { maps with
          docCommentSegments := mapSet maps.docCommentSegments uri none
          docContentHighlightRanges := mapSet maps.docContentHighlightRanges uri none }) := by
    unfold prepareAnalysisText
    rcases h with h | h | ⟨languageId, h, hsup⟩
    · simp only [h]
    · simp only [h, if_true]
    · have h1 : languageId ≠ utf8 "html" := by
        intro hc; rw [hc, isLanguageSupported_html] at hsup; cases hsup
      have h2 : languageId ≠ utf8 "latex" := by
        intro hc; rw [hc, isLanguageSupported_latex] at hsup; cases hsup
      simp only [h, hsup, if_neg h1, if_neg h2, Bool.not_false, if_true]
      split_ifs <;> rfl
  rw [hres]
  refine ⟨rfl, by simp [mapSet], by simp [mapSet], fun other hne => ?_⟩
  simp [mapSet, hne]

/-- C4, witness: for a document recorded as "plaintext" the text comes back
unchanged and the segments recorded before are gone. -/
theorem C4_unmasked_languages_witness :
    (mapsOfLanguage (utf8 "plaintext")).docCommentSegments [] = some []
    ∧ (prepareAnalysisText oneCommentExtractors (mapsOfLanguage (utf8 "plaintext")) []
        htmlText).1 = htmlText
    ∧ (prepareAnalysisText oneCommentExtractors (mapsOfLanguage (utf8 "plaintext")) []
        htmlText).2.docCommentSegments [] = none :=
  ⟨rfl,
    (C4_unmasked_languages oneCommentExtractors (mapsOfLanguage (utf8 "plaintext")) []
      htmlText (Or.inr (Or.inr ⟨utf8 "plaintext", rfl, by decide⟩))).1,
    (C4_unmasked_languages oneCommentExtractors (mapsOfLanguage (utf8 "plaintext")) []
      htmlText (Or.inr (Or.inr ⟨utf8 "plaintext", rfl, by decide⟩))).2.1⟩

/-! ## Claims on the position codec and the segmenter order -/

/-- C9: for every text, computeLineStarts(text) is not empty, its first entry
is 0, it is strictly increasing, it has exactly one entry more than the
number of '\n' bytes in the text, and every entry after the first is the
index immediately after a '\n' byte, hence every entry is at most |text|. -/
theorem C9_line_starts (text : Bytes) :
    computeLineStarts text ≠ []
    ∧ (computeLineStarts text).head? = some 0
    ∧ (computeLineStarts text).Pairwise (· < ·)
    ∧ (computeLineStarts text).length = text.count 10 + 1
    ∧ (∀ e ∈ (computeLineStarts text).tail,
        0 < e ∧ e ≤ text.length ∧ text.getD (e - 1) 0 = 10)
    ∧ (∀ e ∈ computeLineStarts text, e ≤ text.length) := by
  obtain ⟨a, b, c⟩ := computeLineStartsFrom_spec text text 0 rfl
  unfold computeLineStarts
  refine ⟨by simp, rfl, ?_, by simp [c], ?_, ?_⟩
  · rw [List.pairwise_cons]
    exact ⟨fun e he => (a e he).1, b⟩
  · intro e he
    exact a e he
  · intro e he
    rcases List.mem_cons.mp he with h | h
    · omega
    · exact (a e h).2.1

/-- C10: for every text, every sentence returned by splitIntoSentences
satisfies start < end ≤ |text|, and the spans are ordered and do not overlap:
the end of a sentence is at most the start of every later one, in particular
of the next one. -/
theorem C10_sentences_ordered (text : Bytes) :
    (∀ s ∈ splitIntoSentences text, s.start < s.end_ ∧ s.end_ ≤ text.length)
    ∧ (splitIntoSentences text).Pairwise (fun a b => a.end_ ≤ b.start)
    ∧ (∀ i (h : i + 1 < (splitIntoSentences text).length),
        ((splitIntoSentences text)[i]).end_ ≤ ((splitIntoSentences text)[i + 1]).start) := by
  have hp : (splitIntoSentences text).Pairwise (fun a b => a.end_ ≤ b.start) := by
    rw [splitIntoSentences_eq_emitSpans]
    exact emitSpans_ordered text _ 0 (rawSpans_pairwise text)
  refine ⟨?_, hp, ?_⟩
  · intro s hs
    rw [splitIntoSentences_eq_emitSpans] at hs
    exact rawSpans_bounds text _ (emitSpans_span_mem text _ 0 s hs)
  · intro i h
    exact List.pairwise_iff_getElem.mp hp i (i + 1) (by omega) h (by omega)

/-- C5: for every well-formed UTF-8 text, every line of it (the code points
p ++ q between the line start after a1 and the line end before b) and every
UTF-16 column c that is a code-point boundary of the line (c is the UTF-16
length of p) or lies at or past the end of the line, computeByteOffset gives
the byte offset after p, and byteOffsetToPosition(text, computeLineStarts(text),
computeByteOffset(text, line, c)) = (line, min(c, UTF-16 length of the line)):
the round trip returns the same clamped pair. -/
theorem C5_position_round_trip (a1 p q b : List Char) (c : Int)
    (h1 : a1 = [] ∨ ∃ a0, a1 = a0 ++ [Char.ofNat 10])
    (hpq : ∀ x ∈ p ++ q, x.toNat ≠ 10)
    (hb : b = [] ∨ ∃ b0, b = Char.ofNat 10 :: b0)
    (hc : c = utf16Length p ∨ (q = [] ∧ (utf16Length p : Int) ≤ c)) :
    computeByteOffset (encodeChars (a1 ++ (p ++ q) ++ b)) ((encodeChars a1).count 10) c
      = (encodeChars (a1 ++ p)).length
    ∧ byteOffsetToPosition (encodeChars (a1 ++ (p ++ q) ++ b))
        (computeLineStarts (encodeChars (a1 ++ (p ++ q) ++ b)))
        (computeByteOffset (encodeChars (a1 ++ (p ++ q) ++ b)) ((encodeChars a1).count 10) c)
      = ⟨(encodeChars a1).count 10, (min c (utf16Length (p ++ q))).toNat⟩ := by
  have hoff := computeByteOffset_wellformed a1 p q b c h1 hpq hb hc
  have hp : ∀ x ∈ p, x.toNat ≠ 10 := fun x hx => hpq x (List.mem_append_left _ hx)
  have hpos := (byteOffsetToPosition_wellformed a1 p (q ++ b) h1 hp).1
  have htext : a1 ++ p ++ (q ++ b) = a1 ++ (p ++ q) ++ b := by
    simp only [List.append_assoc]
  rw [htext] at hpos
  have hmin : (min c (utf16Length (p ++ q))).toNat = utf16Length p := by
    rw [utf16Length_append]
    rcases hc with h | ⟨hq, h⟩
    · rw [h, min_eq_left (by push_cast; omega)]
      exact Int.toNat_natCast _
    · subst hq
      simp only [utf16Length, List.map_nil, List.sum_nil, Nat.add_zero] at h ⊢
      rw [min_eq_right h]
      exact Int.toNat_natCast _
  rw [hoff, hpos, hmin]
  exact ⟨rfl, rfl⟩

/-- C5, witness: on the text "ab", newline, "猫😀c", line 1, column 3 (after 猫
and the two units of 😀) is byte 10, and the round trip gives (1, 3); column
9, past the end of the line, gives the end of the line, (1, 4). -/
theorem C5_position_round_trip_witness :
    (computeByteOffset (utf8 "ab\n猫😀c") 1 3 = 10
      ∧ byteOffsetToPosition (utf8 "ab\n猫😀c") (computeLineStarts (utf8 "ab\n猫😀c"))
          (computeByteOffset (utf8 "ab\n猫😀c") 1 3) = ⟨1, 3⟩)
    ∧ byteOffsetToPosition (utf8 "ab\n猫😀c") (computeLineStarts (utf8 "ab\n猫😀c"))
          (computeByteOffset (utf8 "ab\n猫😀c") 1 9) = ⟨1, 4⟩ :=
  ⟨C5_position_round_trip ['a', 'b', Char.ofNat 10] ['猫', '😀'] ['c'] [] 3
      (Or.inr ⟨['a', 'b'], rfl⟩) (by decide) (Or.inl rfl) (Or.inl (by decide)),
    by decide⟩

/-- C6: for every text, with lineStarts = computeLineStarts(text), and every
offset, byteOffsetToPosition gives the same result for offset and for
min(offset, |text|); the line it returns is the number of '\n' bytes among the
first min(offset, |text|) bytes of the text; and when the text is well-formed
UTF-8 and the clamped offset lies on a code-point boundary, the character it
returns is the number of UTF-16 code units, 1 per code point up to U+FFFF and
2 per code point above, of the code points a2 between the start of that line
and the offset. -/
theorem C6_byte_offset_to_position (text : Bytes) (offset : Nat) :
    byteOffsetToPosition text (computeLineStarts text) offset
      = byteOffsetToPosition text (computeLineStarts text) (min offset text.length)
    ∧ (byteOffsetToPosition text (computeLineStarts text) offset).line
      = (text.take (min offset text.length)).count 10
    ∧ (∀ a1 a2 b : List Char, text = encodeChars (a1 ++ a2 ++ b) →
        min offset text.length = (encodeChars (a1 ++ a2)).length →
        (a1 = [] ∨ ∃ a0, a1 = a0 ++ [Char.ofNat 10]) →
        (∀ c ∈ a2, c.toNat ≠ 10) →
        (byteOffsetToPosition text (computeLineStarts text) offset).character
          = (a2.map (fun c => if c.toNat ≤ 0xFFFF then 1 else 2)).sum) := by
  refine ⟨byteOffsetToPosition_clamp _ _ _, byteOffsetToPosition_line _ _, ?_⟩
  intro a1 a2 b htext hoff h1 h2
  rw [byteOffsetToPosition_clamp, hoff, htext,
    (byteOffsetToPosition_wellformed a1 a2 b h1 h2).1]
  rfl

/-- C7, the code at the failing input: a stray continuation byte (0x80..0xBF)
is decoded as the lead byte of a four-byte sequence, so the scan resumes four
bytes further, not at the very next byte, and `decodeCodePoint` always moves
on, so the branch that would skip one byte and count one unit is never taken;
utf8ToUtf16Length of the four bytes 0x80 'a' 'b' 'c' is 2, not 4, and
byteOffsetToPosition of that text at offset 4 is (0, 2), not (0, 4). -/
theorem C7_stray_continuation_byte_takes_four_bytes :
    (∀ (s : Bytes) (i : Nat), 0x80 ≤ s.getD i 0 → s.getD i 0 < 0xC0 →
        (decodeCodePoint s i).2 = i + 4)
    ∧ (∀ (s : Bytes) (i : Nat), (decodeCodePoint s i).2 ≠ i)
    ∧ utf8ToUtf16Length [0x80, 97, 98, 99] = 2
    ∧ byteOffsetToPosition [0x80, 97, 98, 99] (computeLineStarts [0x80, 97, 98, 99]) 4
        = ⟨0, 2⟩ :=
  ⟨decodeCodePoint_continuation,
    fun s i h => absurd (decodeCodePoint_advances s i) (by rw [h]; exact Nat.lt_irrefl _),
    by decide, by decide⟩

/-- C8: for every well-formed UTF-8 string s, the encoding of a list of code
points, utf8ToUtf16Length(s) is the sum over the code points of s of 1 when
the code point is at most U+FFFF and 2 otherwise; it is the byte length of s
when s is ASCII; and it is the column byteOffsetToPosition reports at the end
of a single-line s. -/
theorem C8_utf16_length_of_wellformed (cs : List Char) :
    utf8ToUtf16Length (encodeChars cs)
      = (cs.map (fun c => if c.toNat ≤ 0xFFFF then 1 else 2)).sum
    ∧ (∀ s : Bytes, (∀ b ∈ s, b < 0x80) → utf8ToUtf16Length s = s.length)
    ∧ ((∀ c ∈ cs, c.toNat ≠ 10) →
        byteOffsetToPosition (encodeChars cs) (computeLineStarts (encodeChars cs))
            (encodeChars cs).length
          = ⟨0, utf8ToUtf16Length (encodeChars cs)⟩)
    ∧ utf8ToUtf16Length (utf8 "猫😀a") = 4 := by
  have h1 : utf8ToUtf16Length (encodeChars cs) = utf16Length cs := by
    have := utf8ToUtf16LengthLoop_chars cs [] (encodeChars cs).length 0 (Nat.le_refl _)
    simpa [utf8ToUtf16Length] using this
  refine ⟨h1, ?_, ?_, by decide⟩
  · intro s hs
    have := utf8ToUtf16LengthLoop_ascii s hs s.length 0 0 (by omega)
    simpa [utf8ToUtf16Length] using this
  · intro hn
    have hls : computeLineStarts (encodeChars cs) = [0] := by
      unfold computeLineStarts
      rw [computeLineStartsFrom_no_newline _ 0 (encodeChars_no_newline cs hn)]
    have hcount := countUtf16_chars cs [] [] (encodeChars cs).length 0 (Nat.le_refl _) hn
    simp only [List.nil_append, List.append_nil, List.length_nil, Nat.zero_add] at hcount
    unfold byteOffsetToPosition
    simp only [hls, Nat.lt_irrefl, gt_iff_lt, if_false, List.length_cons, List.length_nil,
      Nat.zero_add, searchLine, List.getD_cons_zero, hcount, h1]

/-! ## Claims on the sentence segmenter -/

/-- C11, counterexample: for the text "\nabc" the only sentence returned, the
one at index 0, has sentenceId 1: the discarded raw span "\n" took id 0. -/
theorem C11_counterexample :
    splitIntoSentences (utf8 "\nabc") = [⟨1, 4, 1, utf8 "abc"⟩]
    ∧ (splitIntoSentences (utf8 "\nabc")).map (fun s => s.sentenceId)
        ≠ List.range (splitIntoSentences (utf8 "\nabc")).length := by
  decide

/-- C11, amended: the sentenceId of every sentence returned by
splitIntoSentences is the index of its raw span among all raw spans the loop
went through, emitted or discarded. Hence the k-th sentence returned has
sentenceId k plus the number of raw spans discarded before its own raw span:
at least k, and equal to k exactly when no raw span before its own was
discarded; the ids strictly increase along the result, and they are the dense
integers 0..N-1 exactly when no raw span that comes before the raw span of a
returned sentence was discarded (in particular when no raw span was
discarded). -/
theorem C11_sentenceId_is_raw_span_index (text : Bytes) :
    (∀ s ∈ splitIntoSentences text,
        (rawSpans text)[s.sentenceId]? = some (s.start, s.end_))
    ∧ (∀ k (h : k < (splitIntoSentences text).length),
        k ≤ ((splitIntoSentences text)[k]).sentenceId)
    ∧ (splitIntoSentences text).Pairwise (fun a b => a.sentenceId < b.sentenceId)
    ∧ ((∀ span ∈ rawSpans text, trimSpec (substr text span.1 (span.2 - span.1)) ≠ []) →
        ∀ k (h : k < (splitIntoSentences text).length),
          ((splitIntoSentences text)[k]).sentenceId = k)
    ∧ (∀ k (h : k < (splitIntoSentences text).length),
        ((splitIntoSentences text)[k]).sentenceId
          = k + ((rawSpans text).take ((splitIntoSentences text)[k]).sentenceId).countP
              (isDiscarded text))
    ∧ (∀ k (h : k < (splitIntoSentences text).length),
        ((splitIntoSentences text)[k]).sentenceId = k
          ↔ ∀ span ∈ (rawSpans text).take ((splitIntoSentences text)[k]).sentenceId,
              isDiscarded text span = false)
    ∧ ((∀ k (h : k < (splitIntoSentences text).length),
          ((splitIntoSentences text)[k]).sentenceId = k)
        ↔ ∀ s ∈ splitIntoSentences text, ∀ span ∈ (rawSpans text).take s.sentenceId,
            isDiscarded text span = false)
    ∧ (∀ span, isDiscarded text span = true
        ↔ trimSpec (substr text span.1 (span.2 - span.1)) = []) := by
  refine ⟨?_, ?_, ?_, ?_, splitIntoSentences_id_count text,
    splitIntoSentences_id_eq_iff text, ?_, fun span => by simp [isDiscarded]⟩
  rotate_left 4
  · constructor
    · intro hall s hs
      obtain ⟨k, hk, he⟩ := List.getElem_of_mem hs
      have := (splitIntoSentences_id_eq_iff text k hk).mp (hall k hk)
      rw [he] at this
      exact this
    · intro hall k hk
      exact (splitIntoSentences_id_eq_iff text k hk).mpr
        (hall _ (List.getElem_mem hk))
  · intro s hs
    rw [splitIntoSentences_eq_emitSpans] at hs
    obtain ⟨i, h1, h2, _⟩ := mem_emitSpans text _ 0 s hs
    rw [h2, Nat.zero_add]; exact h1
  · intro k h
    have := emitSpans_index_le text (rawSpans text) 0 k
      (by rw [← splitIntoSentences_eq_emitSpans]; exact h)
    simp only [Nat.zero_add] at this
    simpa only [splitIntoSentences_eq_emitSpans] using this
  · rw [splitIntoSentences_eq_emitSpans]
    exact emitSpans_pairwise text _ 0
  · intro hall k h
    have := emitSpans_dense text (rawSpans text) 0 k hall
      (by rw [← splitIntoSentences_eq_emitSpans]; exact h)
    simp only [Nat.zero_add] at this
    simpa only [splitIntoSentences_eq_emitSpans] using this

/-- C11, witness: on " 猫が好きだ。\n\nabc" the raw spans are [0,19), [19,20),
[20,21) and [21,24); the second sentence returned, "abc", has sentenceId 3,
its index 1 plus the two raw spans discarded before it. On "abc\n\n" the raw
span discarded comes after the only sentence, whose id is 0. -/
theorem C11_sentenceId_is_raw_span_index_witness :
    rawSpans (utf8 " 猫が好きだ。\n\nabc") = [(0, 19), (19, 20), (20, 21), (21, 24)]
    ∧ (rawSpans (utf8 " 猫が好きだ。\n\nabc")).map (isDiscarded (utf8 " 猫が好きだ。\n\nabc"))
        = [false, true, true, false]
    ∧ (splitIntoSentences (utf8 " 猫が好きだ。\n\nabc")).map (fun s => s.sentenceId) = [0, 3]
    ∧ (rawSpans (utf8 "abc\n\n")).map (isDiscarded (utf8 "abc\n\n")) = [false, true]
    ∧ (splitIntoSentences (utf8 "abc\n\n")).map (fun s => s.sentenceId) = [0]
    ∧ (∀ s ∈ splitIntoSentences (utf8 " 猫が好きだ。\n\nabc"),
        (rawSpans (utf8 " 猫が好きだ。\n\nabc"))[s.sentenceId]? = some (s.start, s.end_)) :=
  ⟨by decide, by decide, by decide, by decide, by decide,
    (C11_sentenceId_is_raw_span_index (utf8 " 猫が好きだ。\n\nabc")).1⟩

/-- C12, counterexample: for a text of 10,001 bytes 'a' the first 10,000
bytes hold no newline, tab or punctuation mark, and the first raw span ends
at 10,001, the end of the text, not at 10,000. -/
theorem C12_counterexample :
    10000 < (List.replicate 10001 97 : Bytes).length
    ∧ (∀ i, i < 10000 → (List.replicate 10001 97 : Bytes).getD i 0 ≠ 10
        ∧ (List.replicate 10001 97 : Bytes).getD i 0 ≠ 9)
    ∧ (∀ i, i + 3 ≤ 10000 → isJapanesePunctuation (List.replicate 10001 97) i = false)
    ∧ findSentenceEnd (List.replicate 10001 97) 0 = 10001
    ∧ findSentenceEnd (List.replicate 10001 97) 0 ≠ 10000 := by
  have hb : ∀ i, i < 10000 → (List.replicate 10001 97 : Bytes).getD i 0 ≠ 10
      ∧ (List.replicate 10001 97 : Bytes).getD i 0 ≠ 9 := by
    intro i hi
    have := getD_replicate_append 10001 97 i [] (by omega)
    rw [List.append_nil] at this
    rw [this]; decide
  have hp : ∀ i, i + 3 ≤ 10000 →
      isJapanesePunctuation (List.replicate 10001 97) i = false := by
    intro i hi
    have := isJapanesePunctuation_replicate_append 10001 i [] (by omega)
    rwa [List.append_nil] at this
  have he : findSentenceEnd (List.replicate 10001 97) 0 = 10001 := by
    rw [findSentenceEnd_of_cap _ (by rw [List.length_replicate]; omega) hb hp]
    exact List.length_replicate _ _
  exact ⟨by rw [List.length_replicate]; omega, hb, hp, he, by rw [he]; omega⟩

/-- C12, amended: for every text longer than 10,000 bytes whose first 10,000
bytes contain no newline, no tab and no full-width terminal punctuation mark,
the first raw span found by splitIntoSentences is [0, |text|): once the scan
has gone 10,000 bytes without a boundary the span is ended at the end of the
text, and it is the only raw span. -/
theorem C12_cap_ends_span_at_text_end (text : Bytes) (hlen : 10000 < text.length)
    (hb : ∀ i, i < 10000 → text.getD i 0 ≠ 10 ∧ text.getD i 0 ≠ 9)
    (hp : ∀ i, i + 3 ≤ 10000 → isJapanesePunctuation text i = false) :
    findSentenceEnd text 0 = text.length ∧ rawSpans text = [(0, text.length)] :=
  ⟨findSentenceEnd_of_cap text hlen hb hp, rawSpans_of_cap text hlen hb hp⟩

/-- C12, witness: 10,000 bytes 'a' followed by "。abc"; the span ends at
byte 10,006, the end of the text. -/
theorem C12_cap_ends_span_at_text_end_witness :
    findSentenceEnd (List.replicate 10000 97 ++ utf8 "。abc") 0
        = (List.replicate 10000 97 ++ utf8 "。abc").length
    ∧ rawSpans (List.replicate 10000 97 ++ utf8 "。abc")
        = [(0, (List.replicate 10000 97 ++ utf8 "。abc").length)] :=
  C12_cap_ends_span_at_text_end (List.replicate 10000 97 ++ utf8 "。abc")
    (by rw [List.length_append, List.length_replicate]
        exact Nat.lt_add_of_pos_right (by decide))
    (fun i hi => by rw [getD_replicate_append 10000 97 i _ hi]; decide)
    (fun i hi => isJapanesePunctuation_replicate_append 10000 i _ hi)

/-- C13: every sentence emitted by splitIntoSentences has text equal to
text[start, end) with its leading space/tab/carriage-return bytes and its
trailing space/tab/carriage-return/newline bytes removed, and that text is
not empty; a raw span that is empty after this trimming produces no sentence
(and every other raw span produces one). -/
theorem C13_sentence_text_is_trimmed_span (text : Bytes) :
    (∀ s ∈ splitIntoSentences text,
        s.text = trimSpec (substr text s.start (s.end_ - s.start)) ∧ s.text ≠ [])
    ∧ (∀ span ∈ rawSpans text,
        trimSpec (substr text span.1 (span.2 - span.1)) = [] →
        ∀ s ∈ splitIntoSentences text, (s.start, s.end_) ≠ span)
    ∧ (∀ span ∈ rawSpans text,
        trimSpec (substr text span.1 (span.2 - span.1)) ≠ [] →
        ∃ s ∈ splitIntoSentences text, (s.start, s.end_) = span) := by
  refine ⟨?_, ?_, ?_⟩
  · intro s hs
    rw [splitIntoSentences_eq_emitSpans] at hs
    obtain ⟨i, _, _, h3, h4⟩ := mem_emitSpans text _ 0 s hs
    exact ⟨h3, h4⟩
  · intro span _ hnil s hs heq
    rw [splitIntoSentences_eq_emitSpans] at hs
    obtain ⟨i, _, _, h3, h4⟩ := mem_emitSpans text _ 0 s hs
    rw [← heq] at hnil
    exact h4 (h3.trans hnil)
  · intro span hm hne
    rw [splitIntoSentences_eq_emitSpans]
    exact emitSpans_of_mem text _ 0 span hm hne

/-- C13, witness: on " 猫が好きだ。 \t\n \nabc " the sentences are "猫が好きだ。"
from the raw span [0,19) and "abc" from [24,28); the blank raw spans
[21,22) and [23,24) give none. -/
theorem C13_sentence_text_is_trimmed_span_witness :
    rawSpans (utf8 " 猫が好きだ。 \t\n \nabc ") = [(0, 19), (21, 22), (23, 24), (24, 28)]
    ∧ (splitIntoSentences (utf8 " 猫が好きだ。 \t\n \nabc ")).map (fun s => s.text)
        = [utf8 "猫が好きだ。", utf8 "abc"]
    ∧ (∀ s ∈ splitIntoSentences (utf8 " 猫が好きだ。 \t\n \nabc "),
        s.text = trimSpec (substr (utf8 " 猫が好きだ。 \t\n \nabc ") s.start (s.end_ - s.start))
          ∧ s.text ≠ []) :=
  ⟨by decide, by decide, (C13_sentence_text_is_trimmed_span (utf8 " 猫が好きだ。 \t\n \nabc ")).1⟩

/-! ## Claims on the grammar rules -/

/-- C14: for every threshold max ≥ 1 and every list of sentences,
checkCommaLimit appends exactly one diagnostic for each sentence whose text
contains more than max occurrences of the ideographic comma 、, in sentence
order, and none for a sentence with max or fewer; the range of that
diagnostic is (byteOffsetToPosition(sentence.start),
byteOffsetToPosition(sentence.end)), the whole sentence. -/
theorem C14_comma_limit (ctx : RuleContext) (diags : List Diagnostic) (max : Int)
    (hmax : 1 ≤ max) :
    checkCommaLimit ctx diags max
      = diags ++ (ctx.sentences.filter
          (fun s => decide (max < (commaOccurrences s.text : Int)))).map
          (fun s => ⟨⟨byteOffsetToPosition ctx.text ctx.lineStarts s.start,
              byteOffsetToPosition ctx.text ctx.lineStarts s.end_⟩, ctx.severity,
            Message.commaLimit max (commaOccurrences s.text)⟩) := by
  unfold checkCommaLimit
  rw [if_neg (by omega), checkCommaLimitLoop_eq ctx max hmax]
  rfl

/-- C14, witness: with max = 3, of the two sentences of
あ、い、う、え、お。か、き、く、け。 only the first, which has four commas, gets a
diagnostic, from column 0 to column 10. -/
theorem C14_comma_limit_witness :
    (splitIntoSentences commaText).map (fun s => commaOccurrences s.text) = [4, 3]
    ∧ checkCommaLimit (contextOf commaText []) [] 3
        = [⟨⟨⟨0, 0⟩, ⟨0, 10⟩⟩, 2, Message.commaLimit 3 4⟩] :=
  ⟨by decide, (C14_comma_limit (contextOf commaText []) [] 3 (by decide)).trans (by decide)⟩

/-- C15: for every threshold max ≥ 1, checkAdversativeGa appends exactly one
whole-sentence diagnostic for each sentence that contains, by token start
byte in [sentence.start, sentence.end), more than max tokens that
isAdversativeGa accepts, and none for the other sentences; isAdversativeGa
accepts exactly the features with main category 助詞, first subcategory
接続助詞 and base form が; for the text
猫が好きだが犬も好きだ。 with one sentence [0,36), two such tokens at columns 1
and 5 and adversativeGaMax = 1, it appends exactly one diagnostic, with range
(0,0)-(0,12). For the text 雨だが寒いが行く。晴れだが行く。 with the sentences [0,27)
and [27,48), two such tokens in the first and one in the second, it appends
with adversativeGaMax = 1 one diagnostic, for the first sentence, and with
adversativeGaMax = 2 none: the three tokens are not counted together. -/
theorem C15_adversative_ga (ctx : RuleContext) (diags : List Diagnostic) (max : Int)
    (hmax : 1 ≤ max) :
    checkAdversativeGa ctx diags max
      = diags ++ (ctx.sentences.filter
          (fun s => decide (max < (adversativeGaIn ctx s : Int)))).map
          (fun s => ⟨⟨byteOffsetToPosition ctx.text ctx.lineStarts s.start,
              byteOffsetToPosition ctx.text ctx.lineStarts s.end_⟩, ctx.severity,
            Message.adversativeGa max (adversativeGaIn ctx s)⟩)
    ∧ (∀ feature, isAdversativeGa feature = true
        ↔ (parseDetailedPOS feature).mainPOS = utf8 "助詞"
          ∧ (parseDetailedPOS feature).subPOS1 = utf8 "接続助詞"
          ∧ (parseDetailedPOS feature).baseForm = utf8 "が")
    ∧ (nekoContext.sentences.map (fun s => (s.start, s.end_)) = [(0, 36)]
      ∧ (tokensWithPos nekoContext).filter (fun p => isAdversativeGa p.1.feature)
          = [(tokenAt 1 2 "が" "助詞,接続助詞,*,*,*,*,が,ガ,ガ", 3),
             (tokenAt 5 6 "が" "助詞,接続助詞,*,*,*,*,が,ガ,ガ", 15)]
      ∧ checkAdversativeGa nekoContext [] 1
          = [⟨⟨⟨0, 0⟩, ⟨0, 12⟩⟩, 2, Message.adversativeGa 1 2⟩])
    ∧ (∀ s, adversativeGaIn ctx s
        = (tokensWithPos ctx).countP (fun p => isAdversativeGa p.1.feature
            && decide (s.start ≤ p.2 ∧ p.2 < s.end_)))
    ∧ (ameContext.sentences.map (fun s => (s.start, s.end_)) = [(0, 27), (27, 48)]
      ∧ (tokensWithPos ameContext).filter (fun p => isAdversativeGa p.1.feature)
          = [(tokenAt 2 3 "が" "助詞,接続助詞,*,*,*,*,が,ガ,ガ", 6),
             (tokenAt 5 6 "が" "助詞,接続助詞,*,*,*,*,が,ガ,ガ", 15),
             (tokenAt 12 13 "が" "助詞,接続助詞,*,*,*,*,が,ガ,ガ", 36)]
      ∧ checkAdversativeGa ameContext [] 1
          = [⟨⟨⟨0, 0⟩, ⟨0, 9⟩⟩, 2, Message.adversativeGa 1 2⟩]
      ∧ checkAdversativeGa ameContext [] 2 = []) := by
  refine ⟨?_, isAdversativeGa_iff, ⟨by decide, by decide, by decide⟩, fun s => rfl,
    by decide, by decide, by decide, by decide⟩
  unfold checkAdversativeGa
  rw [if_neg (by omega), checkAdversativeGaLoop_eq ctx max hmax]
  rfl

/-- C15, witness: with max = 2 the two adversative が of 猫が好きだが犬も好きだ。
are within the limit and nothing is appended; in 雨だが寒いが行く。晴れだが行く。 the
first sentence holds two adversative が and the second one, and with max = 1
only the first sentence gets a diagnostic. -/
theorem C15_adversative_ga_witness :
    checkAdversativeGa nekoContext [] 2 = []
    ∧ ameContext.sentences.map (adversativeGaIn ameContext) = [2, 1]
    ∧ checkAdversativeGa ameContext [] 1
        = [⟨⟨⟨0, 0⟩, ⟨0, 9⟩⟩, 2, Message.adversativeGa 1 2⟩] :=
  ⟨((C15_adversative_ga nekoContext [] 2 (by decide)).1).trans (by decide),
    by decide,
    ((C15_adversative_ga ameContext [] 1 (by decide)).1).trans (by decide)⟩

/-- C16, counterexample: for 見れ + れる, where the verb is the imperfective
form of the ichidan verb 見れる, checkRaDropping appends two diagnostics: one
for the verb alone (columns 0-2) and one for both tokens (columns 0-4). -/
theorem C16_counterexample :
    isTargetVerb (parsePos (mireTokens.getD 0 {}).feature) = true
    ∧ isRaWord (parsePos (mireTokens.getD 1 {}).feature) = true
    ∧ checkRaDropping (contextOf (utf8 "見れれる") mireTokens) []
        = [⟨⟨⟨0, 0⟩, ⟨0, 2⟩⟩, 2, Message.raDropping⟩,
           ⟨⟨⟨0, 0⟩, ⟨0, 4⟩⟩, 2, Message.raDropping⟩] := by
  decide

/-- C16, amended: for every two-token list [v, r] in which v is a verb token
with first subcategory 自立, inflection type 一段 and conjugation form 未然形,
and r is a verb token with first subcategory 接尾 and base form れる,
checkRaDropping appends one diagnostic whose range runs from the start byte
of v to the start byte of r plus the byte length of the surface of r; it is
the only one when the base form of v is neither 来れる nor 見れる, and otherwise
it comes after one more diagnostic, for v alone. -/
theorem C16_ra_dropping_pair (ctx : RuleContext) (diags : List Diagnostic)
    (v r : TokenData) (htok : ctx.tokens = [v, r])
    (hv : isTargetVerb (parsePos v.feature) = true)
    (hr : isRaWord (parsePos r.feature) = true) :
    (isSpecialRaCase (parsePos v.feature) = false →
      checkRaDropping ctx diags
        = diags ++ [⟨makeRange ctx (ctx.tokenBytePositions.getD 0 0)
              (ctx.tokenBytePositions.getD 1 0 + r.surface.length),
            ctx.severity, Message.raDropping⟩])
    ∧ (isSpecialRaCase (parsePos v.feature) = true →
      checkRaDropping ctx diags
        = diags ++ [⟨makeRange ctx (ctx.tokenBytePositions.getD 0 0)
              (ctx.tokenBytePositions.getD 0 0 + v.surface.length),
            ctx.severity, Message.raDropping⟩,
          ⟨makeRange ctx (ctx.tokenBytePositions.getD 0 0)
              (ctx.tokenBytePositions.getD 1 0 + r.surface.length),
            ctx.severity, Message.raDropping⟩]) := by
  have h := checkRaDropping_pair ctx diags v r htok hv hr
  constructor
  · intro hs
    rw [h, hs]; simp
  · intro hs
    rw [h, hs]; simp

/-- C16, witness: for 食べ + れる exactly one diagnostic is appended, over
columns 0-4, both tokens. -/
theorem C16_ra_dropping_pair_witness :
    checkRaDropping (contextOf (utf8 "食べれる") tabeTokens) []
      = [⟨⟨⟨0, 0⟩, ⟨0, 4⟩⟩, 2, Message.raDropping⟩] :=
  ((C16_ra_dropping_pair (contextOf (utf8 "食べれる") tabeTokens) []
      (tokenAt 0 2 "食べ" "動詞,自立,*,*,一段,未然形,食べる,タベ,タベ")
      (tokenAt 2 4 "れる" "動詞,接尾,*,*,一段,基本形,れる,レル,レル")
      rfl (by decide) (by decide)).1 (by decide)).trans (by decide)

/-- C17: for every maxRepeat ≥ 1, checkDuplicateParticleSurface appends, for
every sentence in turn, the diagnostics of the maximal runs of its particles:
the particle tokens that start inside the sentence, in token order and
without the non-particle tokens in between, are split into the maximal runs
of consecutive particles with identical surface and identical (main
category, first subcategory) key, and a run of n particles gives exactly
max(0, n − maxRepeat) diagnostics, one at each token of the run beyond the
maxRepeat-th, each from the start byte of the first token of the run to the
end byte of the token at which it is raised. A token is a particle exactly
when the main category of its feature is 助詞, and two features with at least
two commas each have the same key exactly when they have the same main
category and the same first subcategory. In 私もも。も行く。, with the sentences
[0,12) and [12,24), the particles も at the bytes 3 and 6 start in the first
sentence and the も at byte 12 in the second: with maxRepeat = 1 one
diagnostic is appended, over the columns 1-3, and with maxRepeat = 2 none,
since the three も are not one run. -/
theorem C17_duplicate_particle_runs (ctx : RuleContext) (diags : List Diagnostic)
    (maxRepeat : Int) (hmax : 1 ≤ maxRepeat) :
    checkDuplicateParticleSurface ctx diags maxRepeat
      = diags ++ ctx.sentences.flatMap (fun s =>
          ((sentenceParticles ctx s).splitBy sameParticle).flatMap
            (runDiagnostics ctx maxRepeat))
    ∧ (∀ s, ((sentenceParticles ctx s).splitBy sameParticle).flatten
          = sentenceParticles ctx s)
    ∧ (∀ s, ∀ run ∈ (sentenceParticles ctx s).splitBy sameParticle,
          run ≠ [] ∧ run.Chain' (fun p q => sameParticle p q = true))
    ∧ (∀ s, ((sentenceParticles ctx s).splitBy sameParticle).Chain'
          (fun a b => ∃ ha hb, sameParticle (a.getLast ha) (b.head hb) = false))
    ∧ (∀ first rest,
          runDiagnostics ctx maxRepeat (first :: rest)
            = ((first :: rest).drop maxRepeat.toNat).map
                (fun p => ⟨⟨byteOffsetToPosition ctx.text ctx.lineStarts first.2,
                    byteOffsetToPosition ctx.text ctx.lineStarts
                      (p.2 + p.1.surface.length)⟩, ctx.severity,
                  Message.duplicateParticle p.1.surface⟩))
    ∧ (∀ run, (runDiagnostics ctx maxRepeat run).length
          = run.length - maxRepeat.toNat)
    ∧ (∀ f, isParticle f = true ↔ (parseDetailedPOS f).mainPOS = utf8 "助詞")
    ∧ (∀ f g c1 c2 d1 d2, findByte f 44 0 = some c1 → findByte f 44 (c1 + 1) = some c2 →
          findByte g 44 0 = some d1 → findByte g 44 (d1 + 1) = some d2 →
          (particleKey f = particleKey g
            ↔ (parseDetailedPOS f).mainPOS = (parseDetailedPOS g).mainPOS
              ∧ (parseDetailedPOS f).subPOS1 = (parseDetailedPOS g).subPOS1))
    ∧ (∀ s, sentenceParticles ctx s
        = (tokensWithPos ctx).filter
            (fun p => decide (s.start ≤ p.2 ∧ p.2 < s.end_) && isParticle p.1.feature))
    ∧ (momoTwoContext.sentences.map (fun s => (s.start, s.end_)) = [(0, 12), (12, 24)]
      ∧ momoTwoContext.sentences.map
          (fun s => (sentenceParticles momoTwoContext s).map (fun p => p.2)) = [[3, 6], [12]]
      ∧ (checkDuplicateParticleSurface momoTwoContext [] 1).map (fun d => d.range)
          = [⟨⟨0, 1⟩, ⟨0, 3⟩⟩]
      ∧ checkDuplicateParticleSurface momoTwoContext [] 2 = []) := by
  refine ⟨?_, ?_, ?_, ?_, ?_, ?_, isParticle_iff, ?_, fun s => rfl,
    by decide, by decide, by decide, by decide⟩
  · unfold checkDuplicateParticleSurface
    rw [if_neg (by omega), checkDuplicateParticleSurfaceLoop_eq ctx maxRepeat hmax]
  · intro s
    exact List.flatten_splitBy _ _
  · intro s run hrun
    exact ⟨List.ne_nil_of_mem_splitBy _ hrun, List.chain'_of_mem_splitBy hrun⟩
  · intro s
    exact List.chain'_getLast_head_splitBy _ _
  · intro first rest
    rfl
  · intro run
    cases run with
    | nil => simp [runDiagnostics]
    | cons first rest => simp [runDiagnostics]
  · intro f g c1 c2 d1 d2 hf1 hf2 hg1 hg2
    exact particleKey_eq_iff f g c1 c2 d1 d2 hf1 hf2 hg1 hg2

/-- C17, witness: in 私もももも the four も form one run; with maxRepeat = 1 three
diagnostics are appended, at the second, third and fourth も, each from
column 1, and with maxRepeat = 2 two, at the third and fourth. In
私もも。も行く。 the run of the first sentence has two も and that of the second
one: with maxRepeat = 1 one diagnostic, with maxRepeat = 2 none. -/
theorem C17_duplicate_particle_runs_witness :
    ((sentenceParticles (contextOf (utf8 "私もももも") momoTokens)
        ⟨0, 15, 0, utf8 "私もももも"⟩).splitBy sameParticle).map
          (fun run => run.map (fun p => p.2)) = [[3, 6, 9, 12]]
    ∧ (checkDuplicateParticleSurface (contextOf (utf8 "私もももも") momoTokens) [] 1).map
        (fun d => d.range) = [⟨⟨0, 1⟩, ⟨0, 3⟩⟩, ⟨⟨0, 1⟩, ⟨0, 4⟩⟩, ⟨⟨0, 1⟩, ⟨0, 5⟩⟩]
    ∧ (checkDuplicateParticleSurface (contextOf (utf8 "私もももも") momoTokens) [] 2).map
        (fun d => d.range) = [⟨⟨0, 1⟩, ⟨0, 4⟩⟩, ⟨⟨0, 1⟩, ⟨0, 5⟩⟩]
    ∧ (checkDuplicateParticleSurface momoTwoContext [] 1).map (fun d => d.range)
        = [⟨⟨0, 1⟩, ⟨0, 3⟩⟩]
    ∧ checkDuplicateParticleSurface momoTwoContext [] 2 = [] :=
  ⟨by decide,
    (congrArg (List.map (fun d => d.range))
      (C17_duplicate_particle_runs (contextOf (utf8 "私もももも") momoTokens) [] 1
        (by decide)).1).trans (by decide),
    (congrArg (List.map (fun d => d.range))
      (C17_duplicate_particle_runs (contextOf (utf8 "私もももも") momoTokens) [] 2
        (by decide)).1).trans (by decide),
    (congrArg (List.map (fun d => d.range))
      (C17_duplicate_particle_runs momoTwoContext [] 1 (by decide)).1).trans (by decide),
    ((C17_duplicate_particle_runs momoTwoContext [] 2 (by decide)).1).trans (by decide)⟩

/-- C18, the code at the failing input: for にでを, three byte-contiguous case
particles of one sentence, and maxRepeat = 1, checkAdjacentParticles appends
a diagnostic at で over columns 0-2 and one at を over columns 1-3: the second
starts at で, the token before the current one, not at に, the first token of
the streak (which would give columns 0-3). -/
theorem C18_adjacent_particles_at_streak_of_three :
    (tokensWithPos (contextOf (utf8 "にでを") nideoTokens)).map
        (fun p => (isParticle p.1.feature, particleKey p.1.feature, p.2, p.1.surface.length))
      = [(true, utf8 "助詞,格助詞", 0, 3), (true, utf8 "助詞,格助詞", 3, 3),
         (true, utf8 "助詞,格助詞", 6, 3)]
    ∧ checkAdjacentParticles (contextOf (utf8 "にでを") nideoTokens) [] 1
      = [⟨⟨⟨0, 0⟩, ⟨0, 2⟩⟩, 2, Message.adjacentParticles⟩,
         ⟨⟨⟨0, 1⟩, ⟨0, 3⟩⟩, 2, Message.adjacentParticles⟩] := by
  decide

/-- C19, the code at the failing input: for しかししかししかし, the conjunction
しかし three times with no newline, and maxRepeat = 1, checkConjunctionRepeats
appends a diagnostic at the second しかし over columns 0-6 and one at the third
over columns 3-9: the second starts at the occurrence before the current one,
not at the first occurrence of the streak (which would give columns 0-9). -/
theorem C19_conjunction_repeats_at_streak_of_three :
    (tokensWithPos (contextOf (utf8 "しかししかししかし") shikashiTokens)).map
        (fun p => (isConjunction p.1.feature, p.1.surface, p.2))
      = [(true, utf8 "しかし", 0), (true, utf8 "しかし", 9), (true, utf8 "しかし", 18)]
    ∧ checkConjunctionRepeats (contextOf (utf8 "しかししかししかし") shikashiTokens) [] 1
      = [⟨⟨⟨0, 0⟩, ⟨0, 6⟩⟩, 2, Message.duplicateConjunction (utf8 "しかし")⟩,
         ⟨⟨⟨0, 3⟩, ⟨0, 9⟩⟩, 2, Message.duplicateConjunction (utf8 "しかし")⟩] := by
  decide

/-- C20: if config.analysis.warningMinSeverity is greater than 2, the fixed
severity of the engine, checkGrammar appends no diagnostic for any text,
tokens and sentences, whatever the six rule toggles and thresholds are; it
also appends none when config is null or analysis.grammarCheck is false. -/
theorem C20_severity_gate (text : Bytes) (tokens : List TokenData)
    (sentences : List SentenceBoundary) (diags : List Diagnostic)
    (config : Option MoZukuConfig)
    (h : config = none ∨ ∃ c, config = some c
      ∧ (c.analysis.grammarCheck = false ∨ 2 < c.analysis.warningMinSeverity)) :
    checkGrammar text tokens sentences diags config = diags := by
  rcases h with h | ⟨c, hc, h | h⟩
  · subst h; rfl
  · subst hc; simp [checkGrammar, h]
  · subst hc
    unfold checkGrammar
    simp only [h, if_true]
    split_ifs <;> rfl

/-- C20, witness: on 猫が好きだが犬も好きだ。 the default configuration gives two
diagnostics; with warningMinSeverity = 3 and everything else unchanged
nothing is appended. -/
theorem C20_severity_gate_witness :
    (checkGrammar (utf8 "猫が好きだが犬も好きだ。") nekoTokens
        (splitIntoSentences (utf8 "猫が好きだが犬も好きだ。")) [] (some {})).length = 2
    ∧ checkGrammar (utf8 "猫が好きだが犬も好きだ。") nekoTokens
        (splitIntoSentences (utf8 "猫が好きだが犬も好きだ。")) []
        (some { analysis := { warningMinSeverity := 3 } }) = [] :=
  ⟨by decide,
    C20_severity_gate _ _ _ _ _ (Or.inr ⟨_, rfl, Or.inr (by decide)⟩)⟩

/-! ## Claims on the rule engine and the server -/

/-- C21: for every input and every configuration that passes the severity
gate, the diagnostics checkGrammar appends are the concatenation, in the
fixed order comma limit, adversative が, duplicate particle surface, adjacent
particles, conjunction repetition, ra-dropping, of the diagnostics each
enabled rule appends when it is the only rule enabled; and the run with only
one rule enabled is that rule applied to the empty list, so that no output
of a rule depends on whether another rule ran. -/
theorem C21_rules_do_not_interact (text : Bytes) (tokens : List TokenData)
    (sentences : List SentenceBoundary) (diags : List Diagnostic) (c : MoZukuConfig)
    (hgate : c.analysis.grammarCheck = true ∧ c.analysis.warningMinSeverity ≤ 2) :
    checkGrammar text tokens sentences diags (some c)
      = diags
        ++ checkGrammar text tokens sentences [] (some (onlyRule c 0))
        ++ checkGrammar text tokens sentences [] (some (onlyRule c 1))
        ++ checkGrammar text tokens sentences [] (some (onlyRule c 2))
        ++ checkGrammar text tokens sentences [] (some (onlyRule c 3))
        ++ checkGrammar text tokens sentences [] (some (onlyRule c 4))
        ++ checkGrammar text tokens sentences [] (some (onlyRule c 5))
    ∧ checkGrammar text tokens sentences [] (some (onlyRule c 0))
      = (if c.analysis.rules.commaLimit = true then
          checkCommaLimit (grammarContext text tokens sentences) []
            c.analysis.rules.commaLimitMax
        else [])
    ∧ checkGrammar text tokens sentences [] (some (onlyRule c 1))
      = (if c.analysis.rules.adversativeGa = true then
          checkAdversativeGa (grammarContext text tokens sentences) []
            c.analysis.rules.adversativeGaMax
        else [])
    ∧ checkGrammar text tokens sentences [] (some (onlyRule c 2))
      = (if c.analysis.rules.duplicateParticleSurface = true then
          checkDuplicateParticleSurface (grammarContext text tokens sentences) []
            c.analysis.rules.duplicateParticleSurfaceMaxRepeat
        else [])
    ∧ checkGrammar text tokens sentences [] (some (onlyRule c 3))
      = (if c.analysis.rules.adjacentParticles = true then
          checkAdjacentParticles (grammarContext text tokens sentences) []
            c.analysis.rules.adjacentParticlesMaxRepeat
        else [])
    ∧ checkGrammar text tokens sentences [] (some (onlyRule c 4))
      = (if c.analysis.rules.conjunctionRepeat = true then
          checkConjunctionRepeats (grammarContext text tokens sentences) []
            c.analysis.rules.conjunctionRepeatMax
        else [])
    ∧ checkGrammar text tokens sentences [] (some (onlyRule c 5))
      = (if c.analysis.rules.raDropping = true then
          checkRaDropping (grammarContext text tokens sentences) []
        else []) := by
  obtain ⟨hg, hs⟩ := hgate
  have hs2 : ¬ (2 : Int) < c.analysis.warningMinSeverity := by omega
  have h0 : checkGrammar text tokens sentences [] (some (onlyRule c 0))
      = (if c.analysis.rules.commaLimit = true then
          checkCommaLimit (grammarContext text tokens sentences) []
            c.analysis.rules.commaLimitMax
        else []) := by
    simp only [checkGrammar, onlyRule, grammarContext, hg, hs2]
    cases c.analysis.rules.commaLimit <;> simp
  have h1 : checkGrammar text tokens sentences [] (some (onlyRule c 1))
      = (if c.analysis.rules.adversativeGa = true then
          checkAdversativeGa (grammarContext text tokens sentences) []
            c.analysis.rules.adversativeGaMax
        else []) := by
    simp only [checkGrammar, onlyRule, grammarContext, hg, hs2]
    cases c.analysis.rules.adversativeGa <;> simp
  have h2 : checkGrammar text tokens sentences [] (some (onlyRule c 2))
      = (if c.analysis.rules.duplicateParticleSurface = true then
          checkDuplicateParticleSurface (grammarContext text tokens sentences) []
            c.analysis.rules.duplicateParticleSurfaceMaxRepeat
        else []) := by
    simp only [checkGrammar, onlyRule, grammarContext, hg, hs2]
    cases c.analysis.rules.duplicateParticleSurface <;> simp
  have h3 : checkGrammar text tokens sentences [] (some (onlyRule c 3))
      = (if c.analysis.rules.adjacentParticles = true then
          checkAdjacentParticles (grammarContext text tokens sentences) []
            c.analysis.rules.adjacentParticlesMaxRepeat
        else []) := by
    simp only [checkGrammar, onlyRule, grammarContext, hg, hs2]
    cases c.analysis.rules.adjacentParticles <;> simp
  have h4 : checkGrammar text tokens sentences [] (some (onlyRule c 4))
      = (if c.analysis.rules.conjunctionRepeat = true then
          checkConjunctionRepeats (grammarContext text tokens sentences) []
            c.analysis.rules.conjunctionRepeatMax
        else []) := by
    simp only [checkGrammar, onlyRule, grammarContext, hg, hs2]
    cases c.analysis.rules.conjunctionRepeat <;> simp
  have h5 : checkGrammar text tokens sentences [] (some (onlyRule c 5))
      = (if c.analysis.rules.raDropping = true then
          checkRaDropping (grammarContext text tokens sentences) []
        else []) := by
    simp only [checkGrammar, onlyRule, grammarContext, hg, hs2]
    cases c.analysis.rules.raDropping <;> simp
  refine ⟨?_, h0, h1, h2, h3, h4, h5⟩
  rw [h0, h1, h2, h3, h4, h5]
  exact checkGrammar_concat text tokens sentences diags c hg hs

/-- C21, witness: on 私もももも the default configuration gives six diagnostics:
the three of the duplicate-particle rule run alone, then the three of the
adjacent-particle rule run alone. -/
theorem C21_rules_do_not_interact_witness :
    (checkGrammar (utf8 "私もももも") momoTokens (splitIntoSentences (utf8 "私もももも")) []
        (some {})).map (fun d => d.range)
      = [⟨⟨0, 1⟩, ⟨0, 3⟩⟩, ⟨⟨0, 1⟩, ⟨0, 4⟩⟩, ⟨⟨0, 1⟩, ⟨0, 5⟩⟩,
         ⟨⟨0, 1⟩, ⟨0, 3⟩⟩, ⟨⟨0, 2⟩, ⟨0, 4⟩⟩, ⟨⟨0, 3⟩, ⟨0, 5⟩⟩]
    ∧ (checkGrammar (utf8 "私もももも") momoTokens (splitIntoSentences (utf8 "私もももも")) []
        (some (onlyRule {} 2))).map (fun d => d.range)
      = [⟨⟨0, 1⟩, ⟨0, 3⟩⟩, ⟨⟨0, 1⟩, ⟨0, 4⟩⟩, ⟨⟨0, 1⟩, ⟨0, 5⟩⟩]
    ∧ (checkGrammar (utf8 "私もももも") momoTokens (splitIntoSentences (utf8 "私もももも")) []
        (some (onlyRule {} 3))).map (fun d => d.range)
      = [⟨⟨0, 1⟩, ⟨0, 3⟩⟩, ⟨⟨0, 2⟩, ⟨0, 4⟩⟩, ⟨⟨0, 3⟩, ⟨0, 5⟩⟩] :=
  ⟨(congrArg (List.map (fun d => d.range))
      (C21_rules_do_not_interact (utf8 "私もももも") momoTokens
        (splitIntoSentences (utf8 "私もももも")) [] {} ⟨rfl, by decide⟩).1).trans (by decide),
    by decide, by decide⟩

/-- C22, counterexample: for two tokens of line 0 at the columns 2147483647
and −2 the subtraction −2 − 2147483647 of `int` values leaves the range of
`int` and the stream holds 2147483647 as the second deltaStart; the decoder
gets the column 4294967294 for the second token, not −2. -/
theorem C22_counterexample :
    buildSemanticTokensFromTokens
        [{ startChar := 2147483647, endChar := 2147483647 }, { startChar := -2, endChar := -1 }]
      = [0, 2147483647, 0, 0, 0, 0, 2147483647, 1, 0, 0]
    ∧ decodeSemanticTokens (buildSemanticTokensFromTokens
        [{ startChar := 2147483647, endChar := 2147483647 }, { startChar := -2, endChar := -1 }])
        0 0 = [(0, 2147483647), (0, 4294967294)]
    ∧ decodeSemanticTokens (buildSemanticTokensFromTokens
        [{ startChar := 2147483647, endChar := 2147483647 }, { startChar := -2, endChar := -1 }])
        0 0
      ≠ ([{ startChar := 2147483647, endChar := 2147483647 },
          { startChar := -2, endChar := -1 }] : List TokenData).map
          (fun t => ((t.line : Int), t.startChar)) := by
  decide

/-- C22, as amended: for every token list whose lines and start columns are
non-negative values of type `int` (0 ≤ v < 2^31), decoding the stream of
buildSemanticTokensFromTokens from line 0, column 0 (line += deltaLine; the
column is the previous column plus deltaStart when deltaLine = 0, else
deltaStart) reproduces the absolute (line, startChar) of each token, in
order. -/
theorem C22_semantic_tokens_round_trip (tokens : List TokenData)
    (h : ∀ t ∈ tokens, (t.line : Int) < 2147483648 ∧ 0 ≤ t.startChar
      ∧ t.startChar < 2147483648) :
    decodeSemanticTokens (buildSemanticTokensFromTokens tokens) 0 0
      = tokens.map (fun t => ((t.line : Int), t.startChar)) :=
  decode_buildSemanticTokensLoop tokens 0 0 ⟨Int.le_refl _, by decide⟩
    ⟨Int.le_refl _, by decide⟩ h

/-- C22, witness: three tokens, two on line 0 at the columns 0 and 1 and one
on line 2 at column 3, give the stream 0 0 1 0 0, 0 1 2 4 0, 2 3 1 1 0, and
the decoder gets (0, 0), (0, 1), (2, 3). -/
theorem C22_semantic_tokens_round_trip_witness :
    buildSemanticTokensFromTokens
        [{ line := 0, startChar := 0, endChar := 1, tokenType := utf8 "noun" },
         { line := 0, startChar := 1, endChar := 3, tokenType := utf8 "particle" },
         { line := 2, startChar := 3, endChar := 4, tokenType := utf8 "verb" }]
      = [0, 0, 1, 0, 0, 0, 1, 2, 4, 0, 2, 3, 1, 1, 0]
    ∧ decodeSemanticTokens (buildSemanticTokensFromTokens
        [{ line := 0, startChar := 0, endChar := 1, tokenType := utf8 "noun" },
         { line := 0, startChar := 1, endChar := 3, tokenType := utf8 "particle" },
         { line := 2, startChar := 3, endChar := 4, tokenType := utf8 "verb" }]) 0 0
      = [(0, 0), (0, 1), (2, 3)] :=
  ⟨by decide,
    (C22_semantic_tokens_round_trip
      [{ line := 0, startChar := 0, endChar := 1, tokenType := utf8 "noun" },
       { line := 0, startChar := 1, endChar := 3, tokenType := utf8 "particle" },
       { line := 2, startChar := 3, endChar := 4, tokenType := utf8 "verb" }]
      (by decide)).trans (by decide)⟩

/-- C23, counterexample: for one token with startChar 2147483647 and endChar
−2 the third value of the stream is 2147483647, the difference of the two
`int` values reduced to the range of `int`, and not endChar − startChar =
−2147483649. -/
theorem C23_counterexample :
    buildSemanticTokensFromTokens [{ startChar := 2147483647, endChar := -2 }]
      = [0, 2147483647, 2147483647, 0, 0]
    ∧ (buildSemanticTokensFromTokens [{ startChar := 2147483647, endChar := -2 }]).getD 2 0
      ≠ (-2 : Int) - 2147483647 := by
  decide

/-- C23, as amended: for every list of n tokens, buildSemanticTokensFromTokens
returns exactly 5n integers, and for the i-th token the third value is
endChar − startChar as a value of type `int`, that is, reduced modulo 2^32
into [−2^31, 2^31): it is endChar − startChar whenever that difference lies in
the range of `int`, as it does when both columns are non-negative; the fourth
value is the index of the tokenType of the token in the 12-name legend (noun,
verb, adjective, adverb, particle, aux, conjunction, symbol, interj, prefix,
suffix, unknown), or 0 when the type is not in the legend, and the fifth is
the tokenModifiers of the token; the fourth value is always in [0, 12). -/
theorem C23_semantic_tokens_layout (tokens : List TokenData) :
    (buildSemanticTokensFromTokens tokens).length = 5 * tokens.length
    ∧ (∀ i, i < tokens.length →
        (buildSemanticTokensFromTokens tokens).getD (5 * i + 2) 0
            = wrapInt ((tokens.getD i {}).endChar - (tokens.getD i {}).startChar)
        ∧ (InIntRange ((tokens.getD i {}).endChar - (tokens.getD i {}).startChar) →
            (buildSemanticTokensFromTokens tokens).getD (5 * i + 2) 0
              = (tokens.getD i {}).endChar - (tokens.getD i {}).startChar)
        ∧ (0 ≤ (tokens.getD i {}).startChar → (tokens.getD i {}).startChar < 2147483648 →
            0 ≤ (tokens.getD i {}).endChar → (tokens.getD i {}).endChar < 2147483648 →
            (buildSemanticTokensFromTokens tokens).getD (5 * i + 2) 0
              = (tokens.getD i {}).endChar - (tokens.getD i {}).startChar)
        ∧ (buildSemanticTokensFromTokens tokens).getD (5 * i + 3) 0
            = typeIndex (tokens.getD i {}).tokenType
        ∧ (buildSemanticTokensFromTokens tokens).getD (5 * i + 4) 0
            = ((tokens.getD i {}).tokenModifiers : Int)
        ∧ 0 ≤ (buildSemanticTokensFromTokens tokens).getD (5 * i + 3) 0
        ∧ (buildSemanticTokensFromTokens tokens).getD (5 * i + 3) 0 < 12)
    ∧ (∀ x : Int, InIntRange (wrapInt x) ∧ (∃ k : Int, wrapInt x = x + k * 4294967296)
        ∧ (InIntRange x → wrapInt x = x))
    ∧ tokenTypes = [utf8 "noun", utf8 "verb", utf8 "adjective", utf8 "adverb",
        utf8 "particle", utf8 "aux", utf8 "conjunction", utf8 "symbol", utf8 "interj",
        utf8 "prefix", utf8 "suffix", utf8 "unknown"]
    ∧ (∀ k, k < 12 → typeIndex (tokenTypes.getD k []) = k)
    ∧ (∀ tokenType, tokenType ∉ tokenTypes → typeIndex tokenType = 0) := by
  refine ⟨buildSemanticTokensLoop_length tokens 0 0, ?_, ?_, rfl, typeIndex_legend,
    typeIndex_of_not_mem⟩
  · intro i hi
    obtain ⟨a, b, c⟩ := buildSemanticTokensLoop_getD tokens 0 0 i hi
    have a1 : (buildSemanticTokensFromTokens tokens).getD (5 * i + 2) 0
        = wrapInt ((tokens.getD i {}).endChar - (tokens.getD i {}).startChar) := a
    have b1 : (buildSemanticTokensFromTokens tokens).getD (5 * i + 3) 0
        = typeIndex (tokens.getD i {}).tokenType := b
    refine ⟨a1, fun hr => ?_, fun h1 h2 h3 h4 => ?_, b1, c, ?_, ?_⟩
    · rw [a1, wrapInt_of_inRange _ hr]
    · rw [a1, wrapInt_of_inRange _ ⟨by omega, by omega⟩]
    · rw [b1]
      exact (typeIndex_range _).1
    · rw [b1]
      exact (typeIndex_range _).2
  · intro x
    refine ⟨wrapInt_inRange x, ⟨-((x + 2147483648) / 4294967296), ?_⟩, wrapInt_of_inRange x⟩
    unfold wrapInt
    omega

/-- C24: for every uri, diagnostic list D and set of lines L, after
cacheDiagnostics(uri, D) followed by removeDiagnosticsForLines(uri, L),
getAllDiagnostics(uri) is a permutation of exactly those diagnostics of D
whose range.start.line is not in L, in whatever order the map of the uri is
iterated (with L empty: a permutation of D, whatever was cached before), and
the cached diagnostics of every other uri are unchanged; caching diagnostics
on the lines 2, 5 and 9 and invalidating line 5 leaves exactly those on the
lines 2 and 9. -/
theorem C24_cache_then_remove (cache : DiagnosticCache) (uri : Bytes)
    (diags : List Diagnostic) (lines : List Nat) :
    (getAllDiagnostics
        (removeDiagnosticsForLines (cacheDiagnostics cache uri diags) uri lines) uri).Perm
      (diags.filter (fun d => decide (d.range.start.line ∉ lines)))
    ∧ (∃ uriDiags,
        removeDiagnosticsForLines (cacheDiagnostics cache uri diags) uri lines uri
          = some uriDiags
        ∧ ∀ order : LineCache, order.Perm uriDiags →
            (order.flatMap (fun entry => entry.2)).Perm
              (diags.filter (fun d => decide (d.range.start.line ∉ lines))))
    ∧ (getAllDiagnostics
        (removeDiagnosticsForLines (cacheDiagnostics cache uri diags) uri []) uri).Perm diags
    ∧ (∀ other, other ≠ uri →
        removeDiagnosticsForLines (cacheDiagnostics cache uri diags) uri lines other
            = cache other
        ∧ getAllDiagnostics
            (removeDiagnosticsForLines (cacheDiagnostics cache uri diags) uri lines) other
            = getAllDiagnostics cache other)
    ∧ getAllDiagnostics
        (removeDiagnosticsForLines
          (cacheDiagnostics (fun _ => some [(5, [diagnosticOnLine 5 Message.raDropping])])
            (utf8 "file:///a.txt")
            [diagnosticOnLine 2 Message.raDropping, diagnosticOnLine 5 Message.raDropping,
             diagnosticOnLine 9 Message.raDropping,
             diagnosticOnLine 5 Message.adjacentParticles,
             diagnosticOnLine 2 Message.adjacentParticles])
          (utf8 "file:///a.txt") [5]) (utf8 "file:///a.txt")
      = [diagnosticOnLine 2 Message.raDropping, diagnosticOnLine 2 Message.adjacentParticles,
         diagnosticOnLine 9 Message.raDropping] := by
  refine ⟨?_, ?_, ?_, ?_, by decide⟩
  · obtain ⟨uriDiags, h1, h2⟩ := cache_then_remove cache uri diags lines
    simp only [getAllDiagnostics, h1]
    exact h2
  · obtain ⟨uriDiags, h1, h2⟩ := cache_then_remove cache uri diags lines
    exact ⟨uriDiags, h1, fun order ho => (ho.flatMap_right _).trans h2⟩
  · obtain ⟨uriDiags, h1, h2⟩ := cache_then_remove cache uri diags []
    simp only [getAllDiagnostics, h1]
    simpa using h2
  · intro other ho
    have h : removeDiagnosticsForLines (cacheDiagnostics cache uri diags) uri lines other
        = cache other := by
      simp [removeDiagnosticsForLines, cacheDiagnostics, mapSet, ho]
    exact ⟨h, by simp only [getAllDiagnostics, h]⟩

/-- C25, counterexample: with the texts split into lines at '\n', "a\n" has
the two lines "a" and "" and "a" has the one line "a": index 1 is below the
larger line count and the new text has no line 1, yet findChangedLines("a\n",
"a") is empty. In the same way the empty text has the one line "" and "\n" the
lines "" and "": line 0 is in both and the same, and findChangedLines("", "\n")
holds 0 and does not hold 1. -/
theorem C25_counterexample :
    splitLines (utf8 "a\n") = [utf8 "a", []]
    ∧ splitLines (utf8 "a") = [utf8 "a"]
    ∧ findChangedLines (utf8 "a\n") (utf8 "a") = []
    ∧ ¬ (1 ∈ findChangedLines (utf8 "a\n") (utf8 "a")
        ↔ 1 < max (splitLines (utf8 "a\n")).length (splitLines (utf8 "a")).length
          ∧ (¬ 1 < (splitLines (utf8 "a\n")).length ∨ ¬ 1 < (splitLines (utf8 "a")).length
            ∨ (splitLines (utf8 "a\n")).getD 1 [] ≠ (splitLines (utf8 "a")).getD 1 []))
    ∧ splitLines [] = [[]]
    ∧ splitLines (utf8 "\n") = [[], []]
    ∧ findChangedLines [] (utf8 "\n") = [0]
    ∧ ¬ (0 ∈ findChangedLines [] (utf8 "\n")
        ↔ 0 < max (splitLines []).length (splitLines (utf8 "\n")).length
          ∧ (¬ 0 < (splitLines []).length ∨ ¬ 0 < (splitLines (utf8 "\n")).length
            ∨ (splitLines []).getD 0 [] ≠ (splitLines (utf8 "\n")).getD 0 [])) := by
  decide

/-- C25, as amended: for all texts old and new, with each text read into
lines the way std::getline reads them (a line ends at its newline or at the
end of the text; the empty text has no line, and no empty line follows a final
newline: the lines are those of the split at '\n' without the last one when
that is empty): an index i is in findChangedLines(old, new) if and only if i
is below the larger of the two line counts and either one of the texts has no
line i or the two lines i differ; the indices are returned in increasing
order; findChangedLines("ABCDEF", "ABXYEF") = {0}, and findChangedLines(t, t)
is empty for every t. -/
theorem C25_changed_lines (oldText newText : Bytes) :
    (∀ i, i ∈ findChangedLines oldText newText
      ↔ i < max (readLines oldText).length (readLines newText).length
        ∧ (¬ i < (readLines oldText).length ∨ ¬ i < (readLines newText).length
            ∨ (readLines oldText).getD i [] ≠ (readLines newText).getD i []))
    ∧ (findChangedLines oldText newText).Pairwise (fun a b => a < b)
    ∧ findChangedLines (utf8 "ABCDEF") (utf8 "ABXYEF") = [0]
    ∧ findChangedLines oldText oldText = []
    ∧ readLines [] = []
    ∧ (∀ l rest : Bytes, 10 ∉ l → readLines (l ++ 10 :: rest) = l :: readLines rest)
    ∧ (∀ l : Bytes, l ≠ [] → 10 ∉ l → readLines l = [l])
    ∧ (∀ t : Bytes, readLines t
        = if (splitLines t).getLast? = some [] then (splitLines t).dropLast
          else splitLines t)
    ∧ (∀ t : Bytes, (splitLines t).length = t.count 10 + 1)
    ∧ (∀ l rest : Bytes, 10 ∉ l → splitLines (l ++ 10 :: rest) = l :: splitLines rest)
    ∧ (∀ l : Bytes, 10 ∉ l → splitLines l = [l]) := by
  have hmem : ∀ (a b : Bytes) (i : Nat), i ∈ findChangedLines a b
      ↔ i < max (readLines a).length (readLines b).length
        ∧ (¬ i < (readLines a).length ∨ ¬ i < (readLines b).length
            ∨ (readLines a).getD i [] ≠ (readLines b).getD i []) := by
    intro a b i
    unfold findChangedLines
    simp only
    rw [changedLinesLoop_mem]
    simp only [List.not_mem_nil, false_or, Nat.zero_le, true_and, Nat.zero_add]
  refine ⟨hmem oldText newText, ?_, by decide, ?_, readLines_nil, readLines_of_newline,
    readLines_of_no_newline, readLines_eq_splitLines, splitLines_length, splitLines_newline,
    splitLines_no_newline⟩
  · exact changedLinesLoop_sorted _ _ _ 0 [] List.Pairwise.nil
      (fun a ha => absurd ha (List.not_mem_nil _))
  · rw [List.eq_nil_iff_forall_not_mem]
    intro i hi
    rw [hmem] at hi
    obtain ⟨h1, h2 | h2 | h2⟩ := hi
    · rw [Nat.max_self] at h1; exact h2 h1
    · rw [Nat.max_self] at h1; exact h2 h1
    · exact h2 rfl

/-- C26: onDidChange applies the content changes of one notification in
reverse array order, the last element first: the changes before the last
one are applied to the text that the last one leaves. Each ranged change
replaces the bytes between computeByteOffset(start) and
computeByteOffset(end), both taken on the text as it stands when that change
is applied, by the text of the change, and a change without a range replaces
the whole text; for a single ranged change with start offset s ≤ end offset
e, s within the text, the new text is text[0,s) ++ newText ++ text[e,|text|);
replacing (line 0, char 2)-(line 0, char 4) of "ABCDEF" by "XY" gives
"ABXYEF". -/
theorem C26_on_did_change (docs : Bytes → Option Bytes) (uri text : Bytes)
    (hdoc : docs uri = some text) :
    (∀ changes last,
        onDidChange docs uri (changes ++ [last])
          = (applyChange text last).bind
              (fun text1 => onDidChange (mapSet docs uri (some text1)) uri changes))
    ∧ onDidChange docs uri [] = some (mapSet docs uri (some text))
    ∧ (∀ range newText,
        computeByteOffset text range.start.line range.start.character ≤ text.length →
        applyChange text ⟨some range, newText⟩
          = some (text.take (computeByteOffset text range.start.line range.start.character)
              ++ newText
              ++ text.drop (computeByteOffset text range.start.line range.start.character
                  + min (subSizeT
                      (computeByteOffset text range.end_.line range.end_.character)
                      (computeByteOffset text range.start.line range.start.character))
                    (text.length
                      - computeByteOffset text range.start.line range.start.character))))
    ∧ (∀ newText, applyChange text ⟨none, newText⟩ = some newText)
    ∧ (∀ range newText,
        computeByteOffset text range.start.line range.start.character
          ≤ computeByteOffset text range.end_.line range.end_.character →
        computeByteOffset text range.start.line range.start.character ≤ text.length →
        onDidChange docs uri [⟨some range, newText⟩]
          = some (mapSet docs uri (some
              (text.take (computeByteOffset text range.start.line range.start.character)
                ++ newText
                ++ text.drop
                    (computeByteOffset text range.end_.line range.end_.character)))))
    ∧ applyChange (utf8 "ABCDEF") ⟨some ⟨⟨0, 2⟩, ⟨0, 4⟩⟩, utf8 "XY"⟩ = some (utf8 "ABXYEF") := by
  have hsingle : ∀ range newText,
      computeByteOffset text range.start.line range.start.character ≤ text.length →
      applyChange text ⟨some range, newText⟩
        = some (text.take (computeByteOffset text range.start.line range.start.character)
            ++ newText
            ++ text.drop (computeByteOffset text range.start.line range.start.character
                + min (subSizeT
                    (computeByteOffset text range.end_.line range.end_.character)
                    (computeByteOffset text range.start.line range.start.character))
                  (text.length
                    - computeByteOffset text range.start.line range.start.character))) := by
    intro range newText hs
    simp only [applyChange, stringReplace, if_neg (Nat.not_lt.mpr hs)]
  refine ⟨?_, ?_, hsingle, fun _ => rfl, ?_, by decide⟩
  · intro changes last
    simp only [onDidChange, hdoc, Option.getD_some, List.reverse_append, List.reverse_cons,
      List.reverse_nil, List.nil_append, List.cons_append, applyChangesLoop]
    cases h1 : applyChange text last with
    | none => simp
    | some text1 =>
      have hget : mapSet docs uri (some text1) uri = some text1 := by simp [mapSet]
      simp only [Option.bind, hget, Option.getD_some]
      cases h2 : applyChangesLoop changes.reverse text1 with
      | none => rfl
      | some text2 =>
        simp only [Option.some.injEq]
        funext k
        by_cases hk : k = uri <;> simp [mapSet, hk]
  · simp [onDidChange, hdoc, applyChangesLoop]
  · intro range newText hse hs
    simp only [onDidChange, hdoc, Option.getD_some, List.reverse_cons, List.reverse_nil,
      List.nil_append, applyChangesLoop, hsingle range newText hs]
    have hsub : subSizeT (computeByteOffset text range.end_.line range.end_.character)
        (computeByteOffset text range.start.line range.start.character)
        = computeByteOffset text range.end_.line range.end_.character
          - computeByteOffset text range.start.line range.start.character := by
      simp only [subSizeT, if_pos hse]
    rw [hsub]
    generalize computeByteOffset text range.start.line range.start.character = s at hse hs
    generalize computeByteOffset text range.end_.line range.end_.character = e at hse
    by_cases he : e ≤ text.length
    · rw [Nat.min_eq_left (by omega), show s + (e - s) = e by omega]
    · rw [Nat.min_eq_right (by omega), show s + (text.length - s) = text.length by omega,
        List.drop_eq_nil_of_le (Nat.le_refl _), List.drop_eq_nil_of_le (by omega)]

/-- C26, witness: replacing (line 0, char 2)-(line 0, char 4) of "ABCDEF" by
"XY" gives "ABXYEF"; and for the two changes "insert __ at (0,0)" and "replace
(0,2)-(0,4) by XY", in this array order, the second is applied first, which
gives "__ABXYEF" (the array order would give "__XYCDEF"). -/
theorem C26_on_did_change_witness :
    (onDidChange (fun _ => some (utf8 "ABCDEF")) (utf8 "file:///a.txt")
        [⟨some ⟨⟨0, 2⟩, ⟨0, 4⟩⟩, utf8 "XY"⟩]).map (fun docs => docs (utf8 "file:///a.txt"))
      = some (some (utf8 "ABXYEF"))
    ∧ (onDidChange (fun _ => some (utf8 "ABCDEF")) (utf8 "file:///a.txt")
        [⟨some ⟨⟨0, 0⟩, ⟨0, 0⟩⟩, utf8 "__"⟩, ⟨some ⟨⟨0, 2⟩, ⟨0, 4⟩⟩, utf8 "XY"⟩]).map
          (fun docs => docs (utf8 "file:///a.txt"))
      = some (some (utf8 "__ABXYEF")) :=
  ⟨(congrArg (Option.map (fun docs => docs (utf8 "file:///a.txt")))
      ((C26_on_did_change (fun _ => some (utf8 "ABCDEF")) (utf8 "file:///a.txt")
        (utf8 "ABCDEF") rfl).2.2.2.2.1 ⟨⟨0, 2⟩, ⟨0, 4⟩⟩ (utf8 "XY")
          (by decide) (by decide))).trans (by decide),
    by decide⟩

/-- C27: for every server state and uri, onSemanticTokensFull and
onSemanticTokensRange both answer with result null, which is not an empty
data array, whenever the document is not open or its recorded language id is
not exactly "japanese", and with an object holding a data array otherwise;
the range request gives the same result as the full request, whatever range
is requested. -/
theorem C27_semantic_tokens_requests (ext : Extractors)
    (analyzeText : Bytes → List TokenData) (s : ServerState) (uri : Bytes) (range : Range) :
    ((s.docs uri = none ∨ s.maps.docLanguages uri ≠ some (utf8 "japanese")) →
        (onSemanticTokensFull ext analyzeText s uri).1 = TokensResult.null
        ∧ (onSemanticTokensRange ext analyzeText s uri range).1 = TokensResult.null)
    ∧ ((s.docs uri ≠ none ∧ s.maps.docLanguages uri = some (utf8 "japanese")) →
        (onSemanticTokensFull ext analyzeText s uri).1
            = TokensResult.data (buildSemanticTokens ext analyzeText s uri).1
        ∧ (onSemanticTokensRange ext analyzeText s uri range).1
            = TokensResult.data (buildSemanticTokens ext analyzeText s uri).1)
    ∧ onSemanticTokensRange ext analyzeText s uri range
        = onSemanticTokensFull ext analyzeText s uri
    ∧ TokensResult.null ≠ TokensResult.data [] := by
  refine ⟨?_, ?_, rfl, by decide⟩
  · intro h
    unfold onSemanticTokensFull onSemanticTokensRange
    cases hd : s.docs uri with
    | none => exact ⟨rfl, rfl⟩
    | some text =>
      cases hl : s.maps.docLanguages uri with
      | none => exact ⟨rfl, rfl⟩
      | some languageId =>
        have hne : languageId ≠ utf8 "japanese" := by
          rcases h with h | h
          · rw [hd] at h; cases h
          · intro e; apply h; rw [hl, e]
        simp only [hne, ne_eq, not_false_eq_true, if_true, and_self]
  · rintro ⟨hd, hl⟩
    unfold onSemanticTokensFull onSemanticTokensRange
    cases hd2 : s.docs uri with
    | none => exact absurd hd2 hd
    | some text =>
      simp only [hl, ne_eq, not_true_eq_false, if_false, and_self]

/-- C28: for the HTML text <div>こんにちは<!-- hi --></div> (37 bytes), with
the parser reporting the text node [5,20) and the comment node [20,31),
sanitizeComment turns "<!-- hi -->" into 5 spaces, "hi", 4 spaces, and
prepareAnalysisText returns 5 spaces, こんにちは, 5 spaces, "hi", 4 spaces,
6 spaces; and for every HTML document and every parse, every byte outside the
trimmed text-node spans and the comment segments is a space, '\n' or '\r'
(the byte of the text when that is '\n' or '\r', a space otherwise), where a
trimmed span is the span of a text node without the white space at its two
ends. -/
theorem C28_html_masking (maps : DocMaps) (uri text : Bytes)
    (textNodes : List (Nat × Nat)) (commentNodes : List (Nat × Nat × Bytes))
    (hlang : maps.docLanguages uri = some (utf8 "html")) :
    (∀ j, j < text.length →
        (∀ r ∈ htmlContentRangesOf text textNodes, ¬ (r.startByte ≤ j ∧ j < r.endByte)) →
        (∀ seg ∈ commentSegmentsOf text commentNodes,
          ¬ (seg.startByte ≤ j ∧ j < seg.endByte)) →
        (prepareAnalysisText (extractorsOfParse textNodes commentNodes) maps uri text).1.getD
            j 0
          = (if text.getD j 0 ≠ 10 ∧ text.getD j 0 ≠ 13 then 32 else text.getD j 0)
        ∧ ((prepareAnalysisText (extractorsOfParse textNodes commentNodes)
              maps uri text).1.getD j 0 = 32
          ∨ (prepareAnalysisText (extractorsOfParse textNodes commentNodes)
              maps uri text).1.getD j 0 = 10
          ∨ (prepareAnalysisText (extractorsOfParse textNodes commentNodes)
              maps uri text).1.getD j 0 = 13))
    ∧ (∀ start end_ r, trimTextNode text start end_ = some r →
        start ≤ r.startByte ∧ r.startByte < r.endByte ∧ r.endByte ≤ end_
        ∧ (∀ k, start ≤ k → k < r.startByte → isspaceC (text.getD k 0) = true)
        ∧ (∀ k, r.endByte ≤ k → k < end_ → isspaceC (text.getD k 0) = true)
        ∧ isspaceC (text.getD r.startByte 0) = false
        ∧ isspaceC (text.getD (r.endByte - 1) 0) = false)
    ∧ divText.length = 37
    ∧ htmlContentRangesOf divText [(5, 20)] = [⟨5, 20⟩]
    ∧ commentSegmentsOf divText [(20, 31, utf8 "comment")]
        = [⟨20, 31, utf8 "     hi    "⟩]
    ∧ sanitizeComment (utf8 "<!-- hi -->") (some (utf8 "comment")) = utf8 "     hi    "
    ∧ sanitizeBlockComment (utf8 "<!-- hi -->") = utf8 "     hi    "
    ∧ (prepareAnalysisText (extractorsOfParse [(5, 20)] [(20, 31, utf8 "comment")])
          (mapsWithLanguage (utf8 "html")) uri divText).1
        = utf8 "     こんにちは     hi          " := by
  have hdiv : (prepareAnalysisText (extractorsOfParse [(5, 20)] [(20, 31, utf8 "comment")])
        (mapsWithLanguage (utf8 "html")) uri divText).1
      = writeSegments (commentSegmentsOf divText [(20, 31, utf8 "comment")])
          (restoreRanges divText (htmlContentRangesOf divText [(5, 20)]) (maskAll divText)) := by
    have hne : utf8 "html" ≠ utf8 "japanese" := by decide
    simp only [prepareAnalysisText, mapsWithLanguage, if_neg hne, if_true, extractorsOfParse]
  refine ⟨?_, ?_, by decide, by decide, by decide, by decide, by decide,
    hdiv.trans (by decide)⟩
  · intro j hj hr hs
    have h := prepareAnalysisText_html_outside maps uri text textNodes commentNodes hlang
      j hj hr hs
    refine ⟨h, ?_⟩
    rw [h]
    split_ifs with hc
    · exact Or.inl rfl
    · by_cases h10 : text.getD j 0 = 10
      · exact Or.inr (Or.inl h10)
      · by_cases h13 : text.getD j 0 = 13
        · exact Or.inr (Or.inr h13)
        · exact absurd ⟨h10, h13⟩ hc
  · intro start end_ r h
    obtain ⟨a, b, c, _, d, e, f, g⟩ := trimTextNode_spec text start end_ r h
    exact ⟨a, b, c, d, e, f, g⟩

/-- C28, witness: in <p> a </p>, newline, <!--x-->, with the text node [3,6)
and the comment node [11,19), the trimmed span is [4,5); byte 3, the blank
before "a", and byte 1, the "p" of the tag, are masked to a space, and byte
10, the newline, is kept. -/
theorem C28_html_masking_witness :
    htmlContentRangesOf (utf8 "<p> a </p>\n<!--x-->") [(3, 6)] = [⟨4, 5⟩]
    ∧ (prepareAnalysisText (extractorsOfParse [(3, 6)] [(11, 19, utf8 "comment")])
        (mapsWithLanguage (utf8 "html")) (utf8 "file:///a.html")
        (utf8 "<p> a </p>\n<!--x-->")).1 = utf8 "    a     \n    x   "
    ∧ ((prepareAnalysisText (extractorsOfParse [(3, 6)] [(11, 19, utf8 "comment")])
        (mapsWithLanguage (utf8 "html")) (utf8 "file:///a.html")
        (utf8 "<p> a </p>\n<!--x-->")).1.getD 10 0
        = (if (utf8 "<p> a </p>\n<!--x-->").getD 10 0 ≠ 10
            ∧ (utf8 "<p> a </p>\n<!--x-->").getD 10 0 ≠ 13 then 32
          else (utf8 "<p> a </p>\n<!--x-->").getD 10 0)) :=
  ⟨by decide, by decide,
    ((C28_html_masking (mapsWithLanguage (utf8 "html")) (utf8 "file:///a.html")
      (utf8 "<p> a </p>\n<!--x-->") [(3, 6)] [(11, 19, utf8 "comment")] rfl).1 10
        (by decide) (by decide) (by decide)).1⟩

/-- C29: for every well-formed UTF-8 LaTeX text, no content range returned by
collectLatexContentRanges contains a byte of a control sequence (a backslash,
the letters or '@' that follow it, and one optional trailing '*'), a brace
'{' or '}', or an ASCII white-space byte; every range is a non-empty span of
the text; for \section*{序論} the result is exactly the one range [10,16),
which covers 序論. -/
theorem C29_latex_content_ranges (cs : List Char) :
    (∀ x ∈ collectLatexContentRanges (encodeChars cs),
        x.startByte < x.endByte ∧ x.endByte ≤ (encodeChars cs).length
        ∧ ∀ k, x.startByte ≤ k → k < x.endByte →
            ¬ InControlSequence (encodeChars cs) k
            ∧ (encodeChars cs).getD k 0 ≠ 123 ∧ (encodeChars cs).getD k 0 ≠ 125
            ∧ isspaceC ((encodeChars cs).getD k 0) = false)
    ∧ collectLatexContentRanges (utf8 "\\section*\x7b序論\x7d") = [⟨10, 16⟩]
    ∧ substr (utf8 "\\section*\x7b序論\x7d") 10 (16 - 10) = utf8 "序論" := by
  refine ⟨?_, by decide, by decide⟩
  intro x hx
  have hW := leadsComplete_encodeChars cs
  obtain ⟨b1, b2⟩ := collectLatexContentRanges_bounds _ hW x hx
  refine ⟨b1, b2, fun k hk1 hk2 => ?_⟩
  obtain ⟨hc, hn⟩ := collectLatexContentRanges_content _ hW x hx k hk1 hk2
  refine ⟨not_inControlSequence _ k hc hn, ?_, ?_, isContentByte_not_space _ hc⟩
  · intro h
    rw [h] at hc
    exact absurd hc (by decide)
  · intro h
    rw [h] at hc
    exact absurd hc (by decide)

/-- C30: for all well-formed UTF-8 strings a, m, b such that a contains no
'$', '%' or backslash and m contains no '$' and no backslash, no content
range returned by collectLatexContentRanges(a ++ "$" ++ m ++ "$" ++ b)
intersects the math region [|a|, |a| + |m| + 2), and likewise none for
a ++ "$$" ++ m ++ "$$" ++ b intersects [|a|, |a| + |m| + 4); the round of the
loop at the opening '$' goes on right after the closing delimiter (for the
"$" form when m is not empty); and when the '$' after a has no closing
delimiter, every content range ends at or before it. -/
theorem C30_latex_math_regions (ca cm cb : List Char)
    (ha : ∀ c ∈ encodeChars ca, c ≠ 36 ∧ c ≠ 37 ∧ c ≠ 92)
    (hm : ∀ c ∈ encodeChars cm, c ≠ 36 ∧ c ≠ 92) :
    (∀ x ∈ collectLatexContentRanges
          (encodeChars ca ++ [36] ++ encodeChars cm ++ [36] ++ encodeChars cb),
        x.endByte ≤ (encodeChars ca).length
          ∨ (encodeChars ca).length + (encodeChars cm).length + 2 ≤ x.startByte)
    ∧ (∀ x ∈ collectLatexContentRanges
          (encodeChars ca ++ [36, 36] ++ encodeChars cm ++ [36, 36] ++ encodeChars cb),
        x.endByte ≤ (encodeChars ca).length
          ∨ (encodeChars ca).length + (encodeChars cm).length + 4 ≤ x.startByte)
    ∧ (cm ≠ [] →
        latexStep (encodeChars ca ++ [36] ++ encodeChars cm ++ [36] ++ encodeChars cb)
            (encodeChars ca).length
          = some ((encodeChars ca).length + (encodeChars cm).length + 2, none))
    ∧ latexStep (encodeChars ca ++ [36, 36] ++ encodeChars cm ++ [36, 36] ++ encodeChars cb)
          (encodeChars ca).length
        = some ((encodeChars ca).length + (encodeChars cm).length + 4, none)
    ∧ (∀ crest : List Char,
        (if (encodeChars ca).length + 1 < (encodeChars ca ++ [36] ++ encodeChars crest).length
            ∧ (encodeChars ca ++ [36] ++ encodeChars crest).getD
                ((encodeChars ca).length + 1) 0 = 36 then
          findClosingDoubleDollar (encodeChars ca ++ [36] ++ encodeChars crest)
            ((encodeChars ca).length + 2) = none
        else
          findClosingDollar (encodeChars ca ++ [36] ++ encodeChars crest)
            ((encodeChars ca).length + 1) = none) →
        ∀ x ∈ collectLatexContentRanges (encodeChars ca ++ [36] ++ encodeChars crest),
          x.endByte ≤ (encodeChars ca).length)
    ∧ (∀ crest : List Char, (∀ c ∈ encodeChars crest, c ≠ 36) →
        ∀ x ∈ collectLatexContentRanges (encodeChars ca ++ [36] ++ encodeChars crest),
          x.endByte ≤ (encodeChars ca).length) := by
  have hpre : ∀ (rest : Bytes) (k : Nat), k < (encodeChars ca).length →
      (encodeChars ca ++ rest).getD k 0 ≠ 36 ∧ (encodeChars ca ++ rest).getD k 0 ≠ 37
        ∧ (encodeChars ca ++ rest).getD k 0 ≠ 92 := by
    intro rest k hk
    rw [getD_append_left_lt _ _ _ hk]
    exact ha _ (getD_mem_of_lt _ k hk)
  obtain ⟨s0, s1, s2, s3, s4⟩ := math_text_bytes (encodeChars ca) (encodeChars cm) (encodeChars cb)
  obtain ⟨d0, d1, d2, d3, d4, d5, d6⟩ :=
    display_math_text_bytes (encodeChars ca) (encodeChars cm) (encodeChars cb)
  have hpre1 : ∀ k, k < (encodeChars ca).length →
      (encodeChars ca ++ [36] ++ encodeChars cm ++ [36] ++ encodeChars cb).getD k 0 ≠ 36
      ∧ (encodeChars ca ++ [36] ++ encodeChars cm ++ [36] ++ encodeChars cb).getD k 0 ≠ 37
      ∧ (encodeChars ca ++ [36] ++ encodeChars cm ++ [36] ++ encodeChars cb).getD k 0 ≠ 92 := by
    intro k hk
    rw [s1 k hk]
    exact ha _ (getD_mem_of_lt _ k hk)
  have hpre2 : ∀ k, k < (encodeChars ca).length →
      (encodeChars ca ++ [36, 36] ++ encodeChars cm ++ [36, 36] ++ encodeChars cb).getD k 0 ≠ 36
      ∧ (encodeChars ca ++ [36, 36] ++ encodeChars cm ++ [36, 36] ++ encodeChars cb).getD k 0
          ≠ 37
      ∧ (encodeChars ca ++ [36, 36] ++ encodeChars cm ++ [36, 36] ++ encodeChars cb).getD k 0
          ≠ 92 := by
    intro k hk
    rw [d1 k hk]
    exact ha _ (getD_mem_of_lt _ k hk)
  have hmath1 : ∀ k, (encodeChars ca).length + 1 ≤ k →
      k < (encodeChars ca).length + 1 + (encodeChars cm).length →
      (encodeChars ca ++ [36] ++ encodeChars cm ++ [36] ++ encodeChars cb).getD k 0 ≠ 36
      ∧ (encodeChars ca ++ [36] ++ encodeChars cm ++ [36] ++ encodeChars cb).getD k 0 ≠ 92 := by
    intro k h1 h2
    rw [s3 k h1 h2]
    exact hm _ (getD_mem_of_lt _ _ (by omega))
  have hmath2 : ∀ k, (encodeChars ca).length + 2 ≤ k →
      k < (encodeChars ca).length + 2 + (encodeChars cm).length →
      (encodeChars ca ++ [36, 36] ++ encodeChars cm ++ [36, 36] ++ encodeChars cb).getD k 0 ≠ 36
      ∧ (encodeChars ca ++ [36, 36] ++ encodeChars cm ++ [36, 36] ++ encodeChars cb).getD k 0
          ≠ 92 := by
    intro k h1 h2
    rw [d4 k h1 h2]
    exact hm _ (getD_mem_of_lt _ _ (by omega))
  have hesc1 : isEscaped (encodeChars ca ++ [36] ++ encodeChars cm ++ [36] ++ encodeChars cb)
      (encodeChars ca).length = false := by
    apply isEscaped_false_of
    by_cases h0 : (encodeChars ca).length = 0
    · exact Or.inl h0
    · exact Or.inr (hpre1 _ (by omega)).2.2
  have hesc2 : isEscaped
      (encodeChars ca ++ [36, 36] ++ encodeChars cm ++ [36, 36] ++ encodeChars cb)
      (encodeChars ca).length = false := by
    apply isEscaped_false_of
    by_cases h0 : (encodeChars ca).length = 0
    · exact Or.inl h0
    · exact Or.inr (hpre2 _ (by omega)).2.2
  have hunclosed : ∀ crest : List Char,
      (if (encodeChars ca).length + 1 < (encodeChars ca ++ [36] ++ encodeChars crest).length
          ∧ (encodeChars ca ++ [36] ++ encodeChars crest).getD
              ((encodeChars ca).length + 1) 0 = 36 then
        findClosingDoubleDollar (encodeChars ca ++ [36] ++ encodeChars crest)
          ((encodeChars ca).length + 2) = none
      else
        findClosingDollar (encodeChars ca ++ [36] ++ encodeChars crest)
          ((encodeChars ca).length + 1) = none) →
      ∀ x ∈ collectLatexContentRanges (encodeChars ca ++ [36] ++ encodeChars crest),
        x.endByte ≤ (encodeChars ca).length := by
    intro crest hnone
    have e : encodeChars ca ++ [36] ++ encodeChars crest
        = encodeChars ca ++ ([36] ++ encodeChars crest) := by
      simp only [List.append_assoc]
    have h36 : (encodeChars ca ++ [36] ++ encodeChars crest).getD (encodeChars ca).length 0
        = 36 := by
      rw [getD_mid (encodeChars ca) [36] _ _ (Nat.le_refl _) (by simp), Nat.sub_self]
      rfl
    exact collectLatexContentRanges_unclosed _ (leadsComplete_unclosed ca crest) _
      (fun k hk => by rw [e]; exact hpre _ k hk) h36 hnone
  refine ⟨?_, ?_, ?_, ?_, hunclosed, ?_⟩
  · exact collectLatexContentRanges_math _ (leadsComplete_math ca cm cb) _ _ hpre1 s2
      (fun k h1 h2 => (hmath1 k h1 h2).1)
  · exact collectLatexContentRanges_display_math _ (leadsComplete_display_math ca cm cb) _ _
      hpre2 d2 d3 (by rw [d0]; omega) (fun k h1 h2 => (hmath2 k h1 h2).1)
  · intro hne
    have hmpos : 0 < (encodeChars cm).length := by
      cases cm with
      | nil => exact absurd rfl hne
      | cons c cs =>
        rw [encodeChars_cons, List.length_append]
        have := encodeChar_length_pos c
        omega
    rw [latexStep_dollar _ _ s2 hesc1,
      if_neg (fun h => (hmath1 _ (Nat.le_refl _) (by omega)).1 h.2)]
    have hclose : isEscaped
        (encodeChars ca ++ [36] ++ encodeChars cm ++ [36] ++ encodeChars cb)
        ((encodeChars ca).length + 1 + (encodeChars cm).length) = false := by
      apply isEscaped_false_of
      right
      exact (hmath1 _ (by omega) (by omega)).2
    have hfind := findClosingDollarAux_first
      (encodeChars ca ++ [36] ++ encodeChars cm ++ [36] ++ encodeChars cb)
      ((encodeChars ca ++ [36] ++ encodeChars cm ++ [36] ++ encodeChars cb).length
        - ((encodeChars ca).length + 1))
      ((encodeChars ca).length + 1) ((encodeChars ca).length + 1 + (encodeChars cm).length)
      (by omega) (by rw [s0]; omega) s4 hclose
      (fun k h1 h2 => (hmath1 k h1 h2).1) (by rw [s0]; omega)
    rw [findClosingDollar, hfind]
    simp only [Option.map_some', Option.some.injEq, Prod.mk.injEq, and_true]
    omega
  · rw [latexStep_dollar _ _ d2 hesc2, if_pos ⟨by rw [d0]; omega, d3⟩]
    have hclose : isEscaped
        (encodeChars ca ++ [36, 36] ++ encodeChars cm ++ [36, 36] ++ encodeChars cb)
        ((encodeChars ca).length + 2 + (encodeChars cm).length) = false := by
      apply isEscaped_false_of
      right
      by_cases hm0 : (encodeChars cm).length = 0
      · rw [hm0, Nat.add_zero, show (encodeChars ca).length + 2 - 1
          = (encodeChars ca).length + 1 by omega, d3]
        decide
      · exact (hmath2 _ (by omega) (by omega)).2
    have hfind := findClosingDoubleDollarAux_first
      (encodeChars ca ++ [36, 36] ++ encodeChars cm ++ [36, 36] ++ encodeChars cb)
      ((encodeChars ca ++ [36, 36] ++ encodeChars cm ++ [36, 36] ++ encodeChars cb).length
        - ((encodeChars ca).length + 2))
      ((encodeChars ca).length + 2) ((encodeChars ca).length + 2 + (encodeChars cm).length)
      (by omega) (by rw [d0]; omega) d5 d6 hclose
      (fun k h1 h2 => (hmath2 k h1 h2).1) (by rw [d0]; omega)
    rw [findClosingDoubleDollar, hfind]
    simp only [Option.map_some', Option.some.injEq, Prod.mk.injEq, and_true]
    omega
  · intro crest hno
    apply hunclosed crest
    have hrest : ∀ k, (encodeChars ca).length + 1 ≤ k →
        (encodeChars ca ++ [36] ++ encodeChars crest).getD k 0 ≠ 36 := by
      intro k hk
      have hl : (encodeChars ca ++ [36]).length = (encodeChars ca).length + 1 := by
        simp only [List.length_append, List.length_cons, List.length_nil]
      rw [getD_append_right_ge _ _ k (by omega)]
      by_cases hin : k - (encodeChars ca ++ [36]).length < (encodeChars crest).length
      · exact hno _ (getD_mem_of_lt _ _ hin)
      · simp only [List.getD_eq_getElem?_getD, List.getElem?_eq_none (Nat.le_of_not_lt hin),
          Option.getD_none]
        decide
    split_ifs with hc
    · exact absurd hc.2 (hrest _ (Nat.le_refl _))
    · exact findClosingDollarAux_none _ _ _ hrest

/-- C30, witness: in "ab $x+y$ cd" the ranges are "ab" and "cd", in
"ab $$x+y$$ cd" too, and neither meets the math region; in "ab $x+y cd" the
'$' has no closing delimiter and "ab" is the only range. -/
theorem C30_latex_math_regions_witness :
    (∀ x ∈ collectLatexContentRanges (utf8 "ab $x+y$ cd"), x.endByte ≤ 3 ∨ 8 ≤ x.startByte)
    ∧ collectLatexContentRanges (utf8 "ab $x+y$ cd") = [⟨0, 2⟩, ⟨9, 11⟩]
    ∧ collectLatexContentRanges (utf8 "ab $$x+y$$ cd") = [⟨0, 2⟩, ⟨11, 13⟩]
    ∧ collectLatexContentRanges (utf8 "ab $x+y cd") = [⟨0, 2⟩] :=
  ⟨(C30_latex_math_regions ['a', 'b', ' '] ['x', '+', 'y'] [' ', 'c', 'd']
      (by decide) (by decide)).1,
    by decide, by decide, by decide⟩

/-! ## Claims on the sanitizers, the categories and the thresholds -/

/-- C31, the code at the failing input: for the comment "/**/", of length 4,
which begins with "/*" and ends with "*/", sanitizeBlockComment returns three
spaces and "/": the loop that blanks the stars after the opening delimiter
takes the star of the closing delimiter, and the test for "*/" that follows
no longer finds it, so the last byte of the closing delimiter is left. In
the same way "<!---->", of length 7, gives six spaces and ">". For "/* a */"
both delimiters become spaces. -/
theorem C31_block_comment_of_stars :
    sanitizeBlockComment (utf8 "/**/") = utf8 "   /"
    ∧ (sanitizeBlockComment (utf8 "/**/")).getD 3 0 ≠ 32
    ∧ sanitizeBlockOpening (utf8 "/**/") = utf8 "   /"
    ∧ sanitizeBlockClosing (utf8 "   /") = utf8 "   /"
    ∧ sanitizeBlockComment (utf8 "<!---->") = utf8 "      >"
    ∧ (sanitizeBlockComment (utf8 "<!---->")).getD 6 0 ≠ 32
    ∧ sanitizeBlockComment (utf8 "/* a */") = utf8 "   a   " := by
  decide

/-- C32, the code at the failing input: for the two bytes E3 "a", a lead byte
of a three-byte sequence followed by one ASCII byte, sanitizeUTF8 returns the
empty string: the scan stops at the lead byte (`break`) and the "a" is lost.
With one more byte, E3 "a" "b", the lead byte is skipped and the scan goes
on: the result is "ab". -/
theorem C32_truncated_lead_byte_stops_the_scan :
    sanitizeUTF8 [0xE3, 0x61] = []
    ∧ sanitizeUTF8 [0xE3, 0x61, 0x62] = [0x61, 0x62]
    ∧ sanitizeUTF8 [0x61, 0xE3, 0x62] = [0x61] := by
  decide

/-- C34, the code at the failing input: for the hiragana token あ with a
particle feature computeModifiers returns 0x01, which is bit 0, "proper" in
the legend and in MoZukuModifiers, and not 1<<2; for the digits 12 it returns
0x04, bit 2 ("kana"), and not 1<<1; for 東京 with a proper-noun feature it
returns 0x0A, and for 食べ with the feature of an independent verb 0x13, which
has bit 4 set, outside the four bits of the legend. -/
theorem C34_modifier_bits_differ_from_legend :
    computeModifiers (utf8 "あ") 0 3 (some (utf8 "助詞,係助詞,*,*,*,*,も,モ,モ")) = 0x01
    ∧ computeModifiers (utf8 "12") 0 2 (some (utf8 "名詞,数,*,*,*,*,*")) = 0x04
    ∧ computeModifiers (utf8 "東京") 0 6
        (some (utf8 "名詞,固有名詞,地域,一般,*,*,東京,トウキョウ,トーキョー")) = 0x0A
    ∧ computeModifiers (utf8 "食べ") 0 6
        (some (utf8 "動詞,自立,*,*,一段,未然形,食べる,タベ,タベ")) = 0x13
    ∧ modifierProper = 0x01 ∧ modifierNumeric = 0x02 ∧ modifierKana = 0x04
    ∧ modifierKanji = 0x08
    ∧ tokenModifiers = [utf8 "proper", utf8 "numeric", utf8 "kana", utf8 "kanji"] := by
  decide

/-- C35, the code at the failing input: for a feature whose first field is
助動詞 mapPosToType returns "verb", not "aux", and for one whose first field is
感動詞 it returns "verb", not "interj": the search for 動詞 comes before the
searches for 助動詞 and 感動詞 and finds 動詞 inside both, so the two later
branches are never taken for these fields. The other eight categories named
are mapped as stated. -/
theorem C35_aux_and_interj_map_to_verb :
    mapPosToType (some (utf8 "助動詞,*,*,*,特殊・ダ,基本形,だ,ダ,ダ")) = utf8 "verb"
    ∧ mapPosToType (some (utf8 "感動詞,*,*,*,*,*,ああ,アア,アー")) = utf8 "verb"
    ∧ mapPosToType (some (utf8 "助動詞")) = utf8 "verb"
    ∧ mapPosToType (some (utf8 "名詞,一般")) = utf8 "noun"
    ∧ mapPosToType (some (utf8 "動詞,自立")) = utf8 "verb"
    ∧ mapPosToType (some (utf8 "形容詞,自立")) = utf8 "adjective"
    ∧ mapPosToType (some (utf8 "副詞,一般")) = utf8 "adverb"
    ∧ mapPosToType (some (utf8 "助詞,格助詞")) = utf8 "particle"
    ∧ mapPosToType (some (utf8 "接続詞,*")) = utf8 "conjunction"
    ∧ mapPosToType (some (utf8 "記号,句点")) = utf8 "symbol"
    ∧ mapPosToType (some (utf8 "接頭詞,名詞接続")) = utf8 "prefix" := by
  decide

/-- C36: for each of the five threshold rules (checkCommaLimit,
checkAdversativeGa, checkDuplicateParticleSurface, checkAdjacentParticles,
checkConjunctionRepeats) a threshold ≤ 0 disables the rule: for every text,
tokens and sentences the diagnostics list is returned unchanged. -/
theorem C36_threshold_disables_rule (ctx : RuleContext) (diags : List Diagnostic)
    (threshold : Int) (h : threshold ≤ 0) :
    checkCommaLimit ctx diags threshold = diags
    ∧ checkAdversativeGa ctx diags threshold = diags
    ∧ checkDuplicateParticleSurface ctx diags threshold = diags
    ∧ checkAdjacentParticles ctx diags threshold = diags
    ∧ checkConjunctionRepeats ctx diags threshold = diags := by
  refine ⟨?_, ?_, ?_, ?_, ?_⟩
  · rw [checkCommaLimit, if_pos h]
  · rw [checkAdversativeGa, if_pos h]
  · rw [checkDuplicateParticleSurface, if_pos h]
  · rw [checkAdjacentParticles, if_pos h]
  · rw [checkConjunctionRepeats, if_pos h]

/-- C36, witness: on 私もももも the duplicate-particle rule with threshold 1
appends three diagnostics and with threshold 0 none, and so for the other
four rules with threshold 0 and −1. -/
theorem C36_threshold_disables_rule_witness :
    (checkDuplicateParticleSurface (contextOf (utf8 "私もももも") momoTokens) [] 1).length = 3
    ∧ (checkCommaLimit (contextOf (utf8 "私もももも") momoTokens) [] 0 = []
      ∧ checkAdversativeGa (contextOf (utf8 "私もももも") momoTokens) [] 0 = []
      ∧ checkDuplicateParticleSurface (contextOf (utf8 "私もももも") momoTokens) [] 0 = []
      ∧ checkAdjacentParticles (contextOf (utf8 "私もももも") momoTokens) [] 0 = []
      ∧ checkConjunctionRepeats (contextOf (utf8 "私もももも") momoTokens) [] 0 = [])
    ∧ checkAdjacentParticles (contextOf (utf8 "私もももも") momoTokens) [] (-1) = [] :=
  ⟨by decide,
    C36_threshold_disables_rule (contextOf (utf8 "私もももも") momoTokens) [] 0 (by decide),
    by decide⟩

/-- C37, counterexample: the texts "a\n" and "a" differ, and findChangedLines
reports no changed line for them in either direction: removing or adding the
final newline of a text is not seen. -/
theorem C37_counterexample :
    utf8 "a\n" ≠ utf8 "a"
    ∧ findChangedLines (utf8 "a\n") (utf8 "a") = []
    ∧ findChangedLines (utf8 "a") (utf8 "a\n") = []
    ∧ readLines (utf8 "a\n") = [utf8 "a"]
    ∧ readLines (utf8 "a") = [utf8 "a"] := by decide

/-- C37, as amended: for all texts old and new, findChangedLines(old, new) is
empty if and only if the two texts give the same lines to std::getline, which
is the case if and only if they are equal once a final newline is added to
each text that is not empty and does not end in one. Equal texts give the
empty set, and two texts that both end in a newline give the empty set only
when they are equal. -/
theorem C37_changed_lines_empty_iff (oldText newText : Bytes) :
    (findChangedLines oldText newText = [] ↔ readLines oldText = readLines newText)
    ∧ (findChangedLines oldText newText = [] ↔ terminate oldText = terminate newText)
    ∧ (oldText = newText → findChangedLines oldText newText = [])
    ∧ terminate [] = []
    ∧ (∀ t : Bytes, terminate (t ++ [10]) = t ++ [10])
    ∧ (∀ t : Bytes, t ≠ [] → t.getLast? ≠ some 10 → terminate t = t ++ [10])
    ∧ (∀ a b : Bytes, findChangedLines (a ++ [10]) (b ++ [10]) = [] ↔ a = b) := by
  refine ⟨findChangedLines_eq_nil_iff _ _,
    (findChangedLines_eq_nil_iff _ _).trans (readLines_eq_iff _ _), ?_, rfl,
    terminate_of_newline_end, terminate_of_other_end, ?_⟩
  · intro h
    rw [findChangedLines_eq_nil_iff, h]
  · intro a b
    rw [findChangedLines_eq_nil_iff, readLines_eq_iff, terminate_of_newline_end,
      terminate_of_newline_end]
    exact List.append_left_inj [10]

/-- C38: for every text, well-formed or not, with lineStarts =
computeLineStarts(text), and all offsets a ≤ b, the position that
byteOffsetToPosition gives for a is lexicographically at most the position it
gives for b: the line of a is smaller, or the lines are equal and the character
of a is at most that of b. Hence the range that makeRange builds from a start
byte a and an end byte b ≥ a, in a context whose line starts are those of its
text, never has its end before its start. -/
theorem C38_position_is_monotone (text : Bytes) (a b : Nat) (h : a ≤ b) :
    positionLe (byteOffsetToPosition text (computeLineStarts text) a)
      (byteOffsetToPosition text (computeLineStarts text) b)
    ∧ (∀ ctx : RuleContext, ctx.lineStarts = computeLineStarts ctx.text →
        positionLe (makeRange ctx a b).start (makeRange ctx a b).end_) := by
  refine ⟨byteOffsetToPosition_mono text a b h, fun ctx hls => ?_⟩
  unfold makeRange
  simp only
  rw [hls]
  exact byteOffsetToPosition_mono ctx.text a b h

/-- C38, witness: on the malformed text E3 'a' newline 80 'b' the offsets 1
and 4 give the positions (0, 1) and (1, 2), and the offset 3 gives (1, 0). -/
theorem C38_position_is_monotone_witness :
    positionLe (byteOffsetToPosition [0xE3, 0x61, 10, 0x80, 0x62]
        (computeLineStarts [0xE3, 0x61, 10, 0x80, 0x62]) 1)
      (byteOffsetToPosition [0xE3, 0x61, 10, 0x80, 0x62]
        (computeLineStarts [0xE3, 0x61, 10, 0x80, 0x62]) 4)
    ∧ byteOffsetToPosition [0xE3, 0x61, 10, 0x80, 0x62]
        (computeLineStarts [0xE3, 0x61, 10, 0x80, 0x62]) 1 = ⟨0, 1⟩
    ∧ byteOffsetToPosition [0xE3, 0x61, 10, 0x80, 0x62]
        (computeLineStarts [0xE3, 0x61, 10, 0x80, 0x62]) 3 = ⟨1, 0⟩
    ∧ byteOffsetToPosition [0xE3, 0x61, 10, 0x80, 0x62]
        (computeLineStarts [0xE3, 0x61, 10, 0x80, 0x62]) 4 = ⟨1, 2⟩ :=
  ⟨(C38_position_is_monotone [0xE3, 0x61, 10, 0x80, 0x62] 1 4 (by decide)).1,
    by decide, by decide, by decide⟩

/-- C33: for every text of at most 10,000 bytes, every raw sentence span
[start, end) that splitIntoSentences goes through, and so the span of every
sentence it returns, ends right after the earliest boundary (a newline, a tab,
or one of the marks 。 ？ ！ lying in the text) that starts at or after start,
one byte after a newline or a tab and three bytes after a mark, or at the end
of the text when no boundary starts at or after start. Hence in the span of a
returned sentence a newline or a tab is the last byte, and a mark is the last
three bytes. -/
theorem C33_span_ends_after_first_boundary (text : Bytes) (hlen : text.length ≤ 10000) :
    (∀ span ∈ rawSpans text, EndsAtFirstBoundary text span.1 span.2)
    ∧ (∀ s ∈ splitIntoSentences text, EndsAtFirstBoundary text s.start s.end_)
    ∧ (∀ s ∈ splitIntoSentences text, ∀ j, s.start ≤ j → j < s.end_ →
        ((text.getD j 0 = 10 ∨ text.getD j 0 = 9) → j + 1 = s.end_)
        ∧ (isJapanesePunctuation text j = true → j + 3 = s.end_))
    ∧ (∀ k, isJapanesePunctuation text k = true
        ↔ k + 2 < text.length
          ∧ [text.getD k 0, text.getD (k + 1) 0, text.getD (k + 2) 0]
              ∈ [utf8 "。", utf8 "？", utf8 "！"]) := by
  have hraw := rawSpans_endsAtFirstBoundary text hlen
  have hsent : ∀ s ∈ splitIntoSentences text, EndsAtFirstBoundary text s.start s.end_ := by
    intro s hs
    rw [splitIntoSentences_eq_emitSpans] at hs
    exact hraw _ (emitSpans_span_mem text _ 0 s hs)
  refine ⟨hraw, hsent, fun s hs j h1 h2 => ⟨fun hb => ?_, fun hb => ?_⟩,
    isJapanesePunctuation_iff text⟩
  · have hw : boundaryWidth text j = 1 := by rw [boundaryWidth, if_pos hb]
    have := boundary_only_at_end text s.start s.end_ (hsent s hs) j h1 h2
      ((isBoundary_iff _ _).mpr (by rcases hb with x | x
                                    · exact Or.inl x
                                    · exact Or.inr (Or.inl x)))
    omega
  · have hw := boundaryWidth_of_mark text j hb
    have := boundary_only_at_end text s.start s.end_ (hsent s hs) j h1 h2
      ((isBoundary_iff _ _).mpr (Or.inr (Or.inr hb)))
    omega

/-- C33, witness: the text あ。い, tab, う has the raw spans [0, 6), [6, 10)
and [10, 13): the first ends after the mark 。, the second after the tab, the
third at the end of the text. -/
theorem C33_span_ends_after_first_boundary_witness :
    rawSpans (utf8 "あ。い\tう") = [(0, 6), (6, 10), (10, 13)]
    ∧ (splitIntoSentences (utf8 "あ。い\tう")).map (fun s => (s.start, s.end_))
        = [(0, 6), (6, 10), (10, 13)]
    ∧ ∀ span ∈ rawSpans (utf8 "あ。い\tう"),
        EndsAtFirstBoundary (utf8 "あ。い\tう") span.1 span.2 :=
  ⟨by decide, by decide,
    (C33_span_ends_after_first_boundary (utf8 "あ。い\tう") (by decide)).1⟩

/-- C40: for every text and every byte index k of it, if k lies in no span
[start, end) of a sentence returned by splitIntoSentences then the byte at k
is a space, a tab, a carriage return or a newline; and a byte that is none of
these lies in the span of exactly one returned sentence. The spans of the
returned sentences follow one another without overlap. -/
theorem C40_dropped_bytes_are_whitespace (text : Bytes) (k : Nat) (hk : k < text.length) :
    ((∀ s ∈ splitIntoSentences text, ¬ (s.start ≤ k ∧ k < s.end_)) →
      (text.getD k 0 = 32 ∨ text.getD k 0 = 9 ∨ text.getD k 0 = 13 ∨ text.getD k 0 = 10))
    ∧ (¬ (text.getD k 0 = 32 ∨ text.getD k 0 = 9 ∨ text.getD k 0 = 13 ∨ text.getD k 0 = 10) →
      ∃! s, s ∈ splitIntoSentences text ∧ s.start ≤ k ∧ k < s.end_)
    ∧ (splitIntoSentences text).Pairwise (fun a b => a.end_ ≤ b.start) := by
  refine ⟨fun hno => ?_, fun hb => ?_, splitIntoSentences_ordered text⟩
  · by_contra hb
    obtain ⟨s, hs, h⟩ := splitIntoSentences_cover text k hk hb
    exact hno s hs h
  · obtain ⟨s, hs, h⟩ := splitIntoSentences_cover text k hk hb
    exact ⟨s, ⟨hs, h⟩, fun t ht =>
      splitIntoSentences_span_unique text k t s ht.1 hs ht.2 h⟩

/-- C40, witness: of the text "a", space, newline, space, newline, "b" the
sentences returned have the spans [0, 3) and [5, 6); byte 3, a space, is
skipped after the first span, and byte 4, a newline, is a raw span of its own
that is discarded. -/
theorem C40_dropped_bytes_are_whitespace_witness :
    (splitIntoSentences (utf8 "a \n \nb")).map (fun s => (s.start, s.end_)) = [(0, 3), (5, 6)]
    ∧ rawSpans (utf8 "a \n \nb") = [(0, 3), (4, 5), (5, 6)]
    ∧ (utf8 "a \n \nb").getD 3 0 = 32
    ∧ (utf8 "a \n \nb").getD 4 0 = 10
    ∧ ((∀ s ∈ splitIntoSentences (utf8 "a \n \nb"), ¬ (s.start ≤ 4 ∧ 4 < s.end_)) →
      ((utf8 "a \n \nb").getD 4 0 = 32 ∨ (utf8 "a \n \nb").getD 4 0 = 9
        ∨ (utf8 "a \n \nb").getD 4 0 = 13 ∨ (utf8 "a \n \nb").getD 4 0 = 10)) :=
  ⟨by decide, by decide, by decide, by decide,
    (C40_dropped_bytes_are_whitespace (utf8 "a \n \nb") 4 (by decide)).1⟩

/-- C39: let the text be well-formed UTF-8, the encoding of the code points
a1 ++ (p ++ q) ++ b, where a1 is empty or ends in a newline, the line p ++ q
holds no newline, and b is empty or starts with a newline; let lineStarts =
computeLineStarts(text). For every token whose line is that of p ++ q, a valid
line index, and whose startChar c is the UTF-16 length of p (a column that
does not split a surrogate pair) or lies at or past the end of the line,
toByteOffset gives the byte offset after p, and byteOffsetToPosition(text,
lineStarts, toByteOffset(token, text, lineStarts)) = (line, min(c, UTF-16
length of the line)). -/
theorem C39_token_offset_round_trip (a1 p q b : List Char) (token : TokenData)
    (h1 : a1 = [] ∨ ∃ a0, a1 = a0 ++ [Char.ofNat 10])
    (hpq : ∀ x ∈ p ++ q, x.toNat ≠ 10)
    (hb : b = [] ∨ ∃ b0, b = Char.ofNat 10 :: b0)
    (hline : token.line = (encodeChars a1).count 10)
    (hc : token.startChar = utf16Length p
      ∨ (q = [] ∧ (utf16Length p : Int) ≤ token.startChar)) :
    token.line < (computeLineStarts (encodeChars (a1 ++ (p ++ q) ++ b))).length
    ∧ toByteOffset token (encodeChars (a1 ++ (p ++ q) ++ b))
        (computeLineStarts (encodeChars (a1 ++ (p ++ q) ++ b)))
      = (encodeChars (a1 ++ p)).length
    ∧ byteOffsetToPosition (encodeChars (a1 ++ (p ++ q) ++ b))
        (computeLineStarts (encodeChars (a1 ++ (p ++ q) ++ b)))
        (toByteOffset token (encodeChars (a1 ++ (p ++ q) ++ b))
          (computeLineStarts (encodeChars (a1 ++ (p ++ q) ++ b))))
      = ⟨token.line, (min token.startChar (utf16Length (p ++ q))).toNat⟩ := by
  obtain ⟨hoff, hvalid⟩ := toByteOffset_wellformed a1 p q b token h1 hpq hb hline hc
  have hp : ∀ x ∈ p, x.toNat ≠ 10 := fun x hx => hpq x (List.mem_append_left _ hx)
  have hpos := (byteOffsetToPosition_wellformed a1 p (q ++ b) h1 hp).1
  have htext : a1 ++ p ++ (q ++ b) = a1 ++ (p ++ q) ++ b := by
    simp only [List.append_assoc]
  rw [htext] at hpos
  have hmin : (min token.startChar (utf16Length (p ++ q))).toNat = utf16Length p := by
    rw [utf16Length_append]
    rcases hc with h | ⟨hq, h⟩
    · rw [h, min_eq_left (by push_cast; omega)]
      exact Int.toNat_natCast _
    · subst hq
      simp only [utf16Length, List.map_nil, List.sum_nil, Nat.add_zero] at h ⊢
      rw [min_eq_right h]
      exact Int.toNat_natCast _
  rw [hoff, hpos, hmin]
  exact ⟨hvalid, rfl, by rw [hline]⟩

/-- C39, witness: on the text "ab", newline, "猫😀c", a token on line 1 at
column 3 (after 猫 and the two units of 😀) has byte offset 10, and the round
trip gives (1, 3); a token at column 9, past the end of the line, gives the end
of the line, (1, 4). -/
theorem C39_token_offset_round_trip_witness :
    (1 < (computeLineStarts (utf8 "ab\n猫😀c")).length
      ∧ toByteOffset { line := 1, startChar := 3 } (utf8 "ab\n猫😀c")
          (computeLineStarts (utf8 "ab\n猫😀c")) = 10
      ∧ byteOffsetToPosition (utf8 "ab\n猫😀c") (computeLineStarts (utf8 "ab\n猫😀c"))
          (toByteOffset { line := 1, startChar := 3 } (utf8 "ab\n猫😀c")
            (computeLineStarts (utf8 "ab\n猫😀c"))) = ⟨1, 3⟩)
    ∧ byteOffsetToPosition (utf8 "ab\n猫😀c") (computeLineStarts (utf8 "ab\n猫😀c"))
          (toByteOffset { line := 1, startChar := 9 } (utf8 "ab\n猫😀c")
            (computeLineStarts (utf8 "ab\n猫😀c"))) = ⟨1, 4⟩ :=
  ⟨C39_token_offset_round_trip ['a', 'b', Char.ofNat 10] ['猫', '😀'] ['c'] []
      { line := 1, startChar := 3 }
      (Or.inr ⟨['a', 'b'], rfl⟩) (by decide) (Or.inl rfl) (by decide) (Or.inl (by decide)),
    by decide⟩

end MoZuku
